import Mathlib

/-!
# iotex-core: per-account action queue and stand-alone round calculator

A shallow embedding of

* `actpool/actqueue.go` (the per-account action queue `actQueue` and its nonce index), together with
  the parts of Go's `container/heap` it calls (`up`, `down`, `Init`, `Push`, `Pop`), and
* `consensus/scheme/rolldpos/roundstandalonecalculator.go` (`MiniEpochManager.Proposer`,
  `getRoundNum`),

followed by theorems about them.

Conventions.
* A Go slice is a `List`; `h[i]` is `List.getD h i default` (all accesses made by the code are in range).
* `uint64` values are `Nat`; where the code adds to one, the sum is taken `% 2 ^ 64`.
* `*big.Int` is `Int`.
* A `time.Time` is an `Int` (nanoseconds since the Unix epoch) and a `time.Duration` is an `Int`
  (nanoseconds); `Time.Sub` saturates to the `int64` range as the library does.
* A clock reading (`q.clock.Now()`) and the account-state lookup are inputs of the operation that
  makes them.
* A Go method that mutates its receiver returns the new receiver.
* A loop is a function by recursion on a step bound that the loop cannot exceed; each bound is stated
  next to the loop.
* The field `idx` of `nonceWithTTL` is written by `Swap` and `Push` and read by no function; it is
  left out.
-/

set_option autoImplicit false

/-! ## Data model -/

/-- Modulus of `uint64` arithmetic. -/
abbrev uint64Mod : Nat := 2 ^ 64

/-- Modulus of `uint32` arithmetic. -/
abbrev uint32Mod : Nat := 2 ^ 32

namespace Time

/-- Largest `time.Duration`. -/
abbrev maxDuration : Int := 2 ^ 63 - 1

/-- Smallest `time.Duration`. -/
abbrev minDuration : Int := -(2 ^ 63)

/-- The instant `t.Add(d)`. -/
def Add (t : Int) (d : Int) : Int := t + d

/-- The duration `t.Sub(u)`, saturated to the range of `int64`. -/
def Sub (t u : Int) : Int :=
  if t - u > maxDuration then maxDuration
  else if t - u < minDuration then minDuration
  else t - u

/-- The test `t.After(u)`. -/
def After (t u : Int) : Bool := decide (u < t)

/-- The test `t.Before(u)`. -/
def Before (t u : Int) : Bool := decide (t < u)

/-- The instant `time.Unix(sec, 0)`. -/
def Unix (sec : Int) : Int := sec * 1000000000

end Time

namespace ActPool

/-- A sealed envelope (`action.SealedEnvelope`): the nonce, the gas price, and `payload` standing for
the rest of its content. -/
structure SealedEnvelope where
  nonce : Nat
  gasPrice : Int
  payload : Nat
deriving DecidableEq, Repr

instance : Inhabited SealedEnvelope := ⟨⟨0, 0, 0⟩⟩

/-- The result of `x.Cmp(y)` on big integers: `-1`, `0` or `1`. -/
def bigCmp (x y : Int) : Int :=
  if x < y then -1 else if x = y then 0 else 1

/-- The errors of package `action` that the queue returns. -/
inductive ActionError where
  | ErrReplaceUnderpriced
deriving DecidableEq, Repr

/-- One entry of the nonce index (`nonceWithTTL`). -/
structure nonceWithTTL where
  nonce : Nat
  deadline : Int
deriving DecidableEq, Repr

instance : Inhabited nonceWithTTL := ⟨⟨0, 0⟩⟩

/-- The nonce index (`noncePriorityQueue`), a slice of entries. -/
abbrev noncePriorityQueue := List nonceWithTTL

/-- A Go `map[uint64]action.SealedEnvelope`, as an association list: the value of a key is that of
its first pair. -/
abbrev ItemMap := List (Nat × SealedEnvelope)

namespace ItemMap

/-- The two-valued lookup `v, exist := m[k]`. -/
def find? (m : ItemMap) (k : Nat) : Option SealedEnvelope :=
  match m with
  | [] => none
  | (k1, v) :: rest => if k1 = k then some v else find? rest k

/-- The test `_, exist := m[k]`. -/
def contains (m : ItemMap) (k : Nat) : Bool := (m.find? k).isSome

/-- The one-valued lookup `m[k]`, the zero value when `k` is absent. -/
def get (m : ItemMap) (k : Nat) : SealedEnvelope := (m.find? k).getD default

/-- The statement `delete(m, k)`. -/
def delete (m : ItemMap) (k : Nat) : ItemMap := m.filter (fun p => decide (p.1 ≠ k))

/-- The assignment `m[k] = v`. -/
def insert (m : ItemMap) (k : Nat) (v : SealedEnvelope) : ItemMap := (k, v) :: m.delete k

/-- The keys of the map, each once. -/
def keys (m : ItemMap) : List Nat := (m.map Prod.fst).dedup

/-- The number of keys, `len(m)`. -/
def len (m : ItemMap) : Nat := m.keys.length

end ItemMap

/-! ## The nonce index as a `container/heap` -/

namespace noncePriorityQueue

/-- The method `Len`. -/
def Len (h : noncePriorityQueue) : Nat := h.length

/-- The method `Less`. -/
def Less (h : noncePriorityQueue) (i j : Nat) : Bool :=
  decide ((h.getD i default).nonce < (h.getD j default).nonce)

/-- The method `Swap`. -/
def Swap (h : noncePriorityQueue) (i j : Nat) : noncePriorityQueue :=
  (h.set i (h.getD j default)).set j (h.getD i default)

/-- The method `Push`: append. -/
def Push (h : noncePriorityQueue) (x : nonceWithTTL) : noncePriorityQueue := h ++ [x]

/-- The method `Pop`: `nil` on an empty slice, otherwise the last entry, which is cut off. -/
def Pop (h : noncePriorityQueue) : noncePriorityQueue × Option nonceWithTTL :=
  if h.length = 0 then (h, none) else (h.take (h.length - 1), some (h.getD (h.length - 1) default))

end noncePriorityQueue

namespace Heap

open noncePriorityQueue

/-- The loop of `heap.up(h, j)`; `j` strictly decreases, so `j` steps are enough. -/
def upLoop : Nat → noncePriorityQueue → Nat → noncePriorityQueue
  | 0, h, _ => h
  | fuel + 1, h, j =>
    let i := (j - 1) / 2
    if i = j ∨ Less h j i = false then h
    else upLoop fuel (Swap h i j) i

/-- The function `heap.up(h, j)`. -/
def up (h : noncePriorityQueue) (j : Nat) : noncePriorityQueue := upLoop j h j

/-- The loop of `heap.down(h, i, n)`; `i` strictly increases below `n`, so `n - i` steps are
enough. -/
def downLoop : Nat → noncePriorityQueue → Nat → Nat → noncePriorityQueue
  | 0, h, _, _ => h
  | fuel + 1, h, i, n =>
    let j1 := 2 * i + 1
    if j1 ≥ n then h
    else
      let j := if j1 + 1 < n ∧ Less h (j1 + 1) j1 = true then j1 + 1 else j1
      if Less h j i = false then h
      else downLoop fuel (Swap h i j) j n

/-- The function `heap.down(h, i, n)`; its boolean result is used by no caller here. -/
def down (h : noncePriorityQueue) (i n : Nat) : noncePriorityQueue := downLoop (n - i) h i n

/-- The loop of `heap.Init`: `down(h, i, n)` for `i = k - 1, ..., 0`. -/
def initLoop (n : Nat) : Nat → noncePriorityQueue → noncePriorityQueue
  | 0, h => h
  | k + 1, h => initLoop n k (down h k n)

/-- The function `heap.Init(h)`. -/
def Init (h : noncePriorityQueue) : noncePriorityQueue := initLoop h.Len (h.Len / 2) h

/-- The function `heap.Push(h, x)`. -/
def Push (h : noncePriorityQueue) (x : nonceWithTTL) : noncePriorityQueue :=
  let h1 := noncePriorityQueue.Push h x
  up h1 (h1.Len - 1)

/-- The function `heap.Pop(h)` on a non-empty heap. -/
def Pop (h : noncePriorityQueue) : noncePriorityQueue × Option nonceWithTTL :=
  let n := h.Len - 1
  let h1 := Swap h 0 n
  let h2 := down h1 0 n
  noncePriorityQueue.Pop h2

end Heap

/-- The function `sort.Sort` on the nonce index: the entries in ascending order of `Less`. The
library promises a sorted rearrangement and no stability; insertion sort is one such. -/
def sortSort (h : noncePriorityQueue) : noncePriorityQueue :=
  List.insertionSort (fun a b => a.nonce ≤ b.nonce) h

/-! ## The queue -/

/-- The state of an `actQueue`. The clock and the pool (`ap`) are read through the inputs `now` and
`AccountOracle` of the operations that use them. -/
structure actQueue where
  address : String
  items : ItemMap
  index : noncePriorityQueue
  pendingNonce : Nat
  confirmedNonce : Nat
  accountBalance : Int
  ttl : Int
deriving DecidableEq, Repr

/-- What `PendingActs` asks of the outside: `address.FromString` and
`accountutil.AccountState(ap.sf, addr)`, of whose answer only the nonce is used. `none` is an
error. -/
structure AccountOracle where
  FromString : String → Option String
  AccountStateNonce : String → Option Nat

/-- The constructor `NewActQueue`; of the options, the one setting `ttl` is modelled. -/
def NewActQueue (address : String) (ttl : Int) : actQueue :=
  { address := address, items := [], index := [], pendingNonce := 1, confirmedNonce := 0,
    accountBalance := 0, ttl := ttl }

/-- The loop of `Put` that refreshes the deadline of the first index entry of the nonce. -/
def refreshDeadline (nonce : Nat) (deadline : Int) : noncePriorityQueue → noncePriorityQueue
  | [] => []
  | x :: rest =>
    if x.nonce = nonce then { x with deadline := deadline } :: rest
    else x :: refreshDeadline nonce deadline rest

/-- The method `Put`; `now` is the reading of the clock. -/
def Put (q : actQueue) (now : Int) (act : SealedEnvelope) : actQueue × Option ActionError :=
  let nonce := act.nonce
  match q.items.find? nonce with
  | some actInPool =>
    if bigCmp act.gasPrice actInPool.gasPrice ≠ 1 then
      (q, some ActionError.ErrReplaceUnderpriced)
    else
      ({ q with items := q.items.insert nonce act,
                index := refreshDeadline nonce (Time.Add now q.ttl) q.index }, none)
  | none =>
    ({ q with index := Heap.Push q.index { nonce := nonce, deadline := Time.Add now q.ttl },
              items := q.items.insert nonce act }, none)

/-- The loop of `FilterNonce`; every turn pops one entry, so `len(index)` turns are enough. -/
def filterLoop (threshold : Nat) :
    Nat → actQueue → List SealedEnvelope → actQueue × List SealedEnvelope
  | 0, q, removed => (q, removed)
  | fuel + 1, q, removed =>
    if q.index.Len > 0 ∧ (q.index.getD 0 default).nonce < threshold then
      let r := Heap.Pop q.index
      let nonce := (r.2.getD default).nonce
      filterLoop threshold fuel
        { q with index := r.1, items := q.items.delete nonce } (removed ++ [q.items.get nonce])
    else (q, removed)

/-- The method `FilterNonce`. -/
def FilterNonce (q : actQueue) (threshold : Nat) : actQueue × List SealedEnvelope :=
  filterLoop threshold q.index.Len q []

/-- The state of the loop of `cleanTimeout`. -/
structure CleanState where
  i : Nat
  size : Nat
  q : actQueue
  removedFromQueue : List SealedEnvelope
deriving DecidableEq, Repr

/-- The loop of `cleanTimeout`; every turn increases `i` or decreases `size`, so `size - i` turns
are enough. -/
def cleanLoop (timeNow : Int) : Nat → CleanState → CleanState
  | 0, s => s
  | fuel + 1, s =>
    if s.i < s.size then
      if Time.After timeNow (s.q.index.getD s.i default).deadline then
        let nonce := (s.q.index.getD s.i default).nonce
        let q1 := if nonce < s.q.pendingNonce then { s.q with pendingNonce := nonce } else s.q
        let removed := s.removedFromQueue ++ [q1.items.get nonce]
        let q2 := { q1 with items := q1.items.delete nonce }
        let q3 := { q2 with index := q2.index.set s.i (q2.index.getD (s.size - 1) default) }
        cleanLoop timeNow fuel { i := s.i, size := s.size - 1, q := q3, removedFromQueue := removed }
      else cleanLoop timeNow fuel { s with i := s.i + 1 }
    else s

/-- The method `cleanTimeout`. -/
def cleanTimeout (q : actQueue) (now : Int) : actQueue × List SealedEnvelope :=
  if q.ttl = 0 then (q, [])
  else
    let s := cleanLoop now q.index.length
      { i := 0, size := q.index.length, q := q, removedFromQueue := [] }
    ({ s.q with index := Heap.Init (s.q.index.take s.size) }, s.removedFromQueue)

/-- The loop of `UpdateQueue` that advances the pending nonce while it is a key of `items`. It passes
over a key at most once before it has gone through all `2 ^ 64` nonces, so `len(items) + 1` turns
are enough for a map that does not hold every nonce. -/
def advanceLoop (items : ItemMap) : Nat → Nat → Nat
  | 0, pendingNonce => pendingNonce
  | fuel + 1, pendingNonce =>
    if items.contains pendingNonce then advanceLoop items fuel ((pendingNonce + 1) % uint64Mod)
    else pendingNonce

/-- The method `UpdateQueue`; `now` is the reading of the clock made by `cleanTimeout`. -/
def UpdateQueue (q : actQueue) (now : Int) : actQueue × List SealedEnvelope :=
  let r := cleanTimeout q now
  ({ r.1 with pendingNonce := advanceLoop r.1.items (r.1.items.len + 1) r.1.pendingNonce }, r.2)

/-- The method `SetConfirmedNonce`. -/
def SetConfirmedNonce (q : actQueue) (nonce : Nat) : actQueue :=
  { q with confirmedNonce := nonce, pendingNonce := (nonce + 1) % uint64Mod }

/-- The method `PendingNonce`. -/
def PendingNonce (q : actQueue) : Nat := q.pendingNonce

/-- The method `ConfirmedNonce`. -/
def ConfirmedNonce (q : actQueue) : Nat := q.confirmedNonce

/-- The method `SetAccountBalance`. -/
def SetAccountBalance (q : actQueue) (balance : Int) : actQueue :=
  { q with accountBalance := balance }

/-- The method `AccountBalance`. -/
def AccountBalance (q : actQueue) : Int := q.accountBalance

/-- The method `Len`. -/
def Len (q : actQueue) : Nat := q.items.len

/-- The method `Empty`. -/
def Empty (q : actQueue) : Bool := decide (Len q = 0)

/-- The loop of `PendingActs`; as for `advanceLoop`, `len(items) + 1` turns are enough. -/
def pendingLoop (items : ItemMap) : Nat → Nat → List SealedEnvelope → List SealedEnvelope
  | 0, _, acts => acts
  | fuel + 1, nonce, acts =>
    if items.contains nonce then
      pendingLoop items fuel ((nonce + 1) % uint64Mod) (acts ++ [items.get nonce])
    else acts

/-- The method `PendingActs`; the empty list stands for both `nil` and an empty slice. The queue is
returned with the result to show what the method does to it. -/
def PendingActs (q : actQueue) (oracle : AccountOracle) : actQueue × List SealedEnvelope :=
  if Len q = 0 then (q, [])
  else
    match oracle.FromString q.address with
    | none => (q, [])
    | some addr =>
      match oracle.AccountStateNonce addr with
      | none => (q, [])
      | some confirmedNonce =>
        (q, pendingLoop q.items (q.items.len + 1) ((confirmedNonce + 1) % uint64Mod) [])

/-- The method `AllActs`; it sorts the index in place. -/
def AllActs (q : actQueue) : actQueue × List SealedEnvelope :=
  if Len q = 0 then (q, [])
  else
    let index := sortSort q.index
    ({ q with index := index }, index.map (fun e => q.items.get e.nonce))

end ActPool

/-! ## The stand-alone round calculator -/

namespace RollDPoS

/-- The ways `getRoundNum` and `Proposer` fail. `chain` is an error of `BlockHeaderByHeight`, passed
on as it is; `divideByZero` is the run-time panic of an integer division by zero. -/
inductive RoundError where
  | chain (msg : String)
  | beforeBering
  | errInvalidCurrentTime
  | divideByZero
deriving DecidableEq, Repr

instance {ε α : Type} [DecidableEq ε] [DecidableEq α] : DecidableEq (Except ε α) :=
  fun a b =>
    match a, b with
    | Except.ok x, Except.ok y =>
      if h : x = y then isTrue (by rw [h]) else isFalse (fun e => h (Except.ok.inj e))
    | Except.error x, Except.error y =>
      if h : x = y then isTrue (by rw [h]) else isFalse (fun e => h (Except.error.inj e))
    | Except.ok _, Except.error _ => isFalse (fun e => Except.noConfusion e)
    | Except.error _, Except.ok _ => isFalse (fun e => Except.noConfusion e)

/-- The part of `rolldpos.Protocol` the manager uses. -/
structure Protocol where
  GetEpochNum : Nat → Nat
  GetEpochLastBlockHeight : Nat → Nat

/-- The part of `ChainManager` the manager uses: the genesis timestamp (seconds), the Bering height
of the genesis configuration, and the timestamp of the header at a height (or an error). -/
structure ChainManager where
  GenesisTimestamp : Int
  BeringBlockHeight : Nat
  BlockHeaderByHeight : Nat → Except String Int

/-- Modelled from the spec: the predicate `bc.IsBering(height)` of the genesis configuration, whose
source is not part of the files at hand; a height is past the Bering hard fork when it is at least
the Bering height. -/
def ChainManager.IsBering (c : ChainManager) (height : Nat) : Bool :=
  decide (c.BeringBlockHeight ≤ height)

/-- The state of a `MiniEpochManager`; of `cfg`, the function `BlockInterval` is used. -/
structure MiniEpochManager where
  BlockInterval : Nat → Int
  delegates : List String
  isTimeBasedRotation : Bool
  rp : Protocol
  chain : ChainManager

/-- The conversion `uint32(x)` of an `int64`. -/
def toUint32 (x : Int) : Nat := (x % (uint32Mod : Int)).toNat

/-- The first part of `getRoundNum` (up to the test of the current time): the last block time. -/
def lastBlockTime (rc : MiniEpochManager) (height : Nat) (blockInterval : Int) :
    Except RoundError Int :=
  let lastBlockTime := Time.Unix rc.chain.GenesisTimestamp
  if height > 1 then
    if rc.chain.IsBering height then
      match rc.chain.BlockHeaderByHeight (height - 1) with
      | Except.error e => Except.error (RoundError.chain e)
      | Except.ok lastBlock =>
        if blockInterval = 0 then Except.error RoundError.divideByZero
        else
          Except.ok (Time.Add lastBlockTime
            ((Time.Sub lastBlock lastBlockTime).tdiv blockInterval * blockInterval))
    else Except.error RoundError.beforeBering
  else Except.ok lastBlockTime

/-- The second part of `getRoundNum`: the round number from the last block time. -/
def roundNumFrom (lastBlockTime : Int) (blockInterval : Int) (now : Int)
    (toleratedOvertime : Int) : Except RoundError Nat :=
  if Time.Before lastBlockTime now = false then Except.error RoundError.errInvalidCurrentTime
  else
    let duration := Time.Sub now lastBlockTime
    if duration > blockInterval then
      if blockInterval = 0 then Except.error RoundError.divideByZero
      else
        let roundNum := toUint32 (duration.tdiv blockInterval)
        if toleratedOvertime = 0 ∨ duration.tmod blockInterval < toleratedOvertime then
          Except.ok ((roundNum + uint32Mod - 1) % uint32Mod)
        else Except.ok roundNum
    else Except.ok 0

/-- The method `getRoundNum`. -/
def getRoundNum (rc : MiniEpochManager) (height : Nat) (blockInterval : Int) (now : Int)
    (toleratedOvertime : Int) : Except RoundError Nat :=
  match lastBlockTime rc height blockInterval with
  | Except.error e => Except.error e
  | Except.ok l => roundNumFrom l blockInterval now toleratedOvertime

/-- The method `IsDelegate`. -/
def IsDelegate (manager : MiniEpochManager) (addr : String) : Bool :=
  manager.delegates.any (fun v => decide (addr = v))

/-- The last statement of `Proposer`: the delegate at `idx % len(delegates)`; the division panics on
an empty list. -/
def delegateAt (manager : MiniEpochManager) (idx : Nat) : Except RoundError String :=
  if manager.delegates.length = 0 then Except.error RoundError.divideByZero
  else Except.ok (manager.delegates.getD (idx % manager.delegates.length) "")

/-- The method `Proposer`. -/
def Proposer (manager : MiniEpochManager) (height : Nat) (roundStartTime : Int) :
    Except RoundError String :=
  if manager.isTimeBasedRotation then
    match getRoundNum manager height (manager.BlockInterval height) roundStartTime 0 with
    | Except.error e => Except.error e
    | Except.ok roundNum => delegateAt manager ((height + roundNum) % uint64Mod)
  else delegateAt manager height

end RollDPoS

/-! ## Predicates used in the statements -/

namespace ActPool

/-- The nonces of the entries of an index, in slice order. -/
def nonces (h : noncePriorityQueue) : List Nat := h.map (fun e => e.nonce)

/-- The index holds every key of `items` in exactly one entry, and no other nonce. -/
def SameNonceSet (q : actQueue) : Prop :=
  (nonces q.index).Nodup ∧ (∀ n ∈ nonces q.index, q.items.contains n = true) ∧
    (∀ k ∈ q.items.keys, k ∈ nonces q.index)

instance (q : actQueue) : Decidable (SameNonceSet q) := by
  unfold SameNonceSet; exact inferInstance

end ActPool


/-! ## Statements of the round calculator in the words of the specification, and sample values -/

namespace RollDPoS

/-- The round number as the specification words it, for a duration `d`, a block interval `I` and a
tolerated overtime `T`: `0` when `d ≤ I`; otherwise `floor(d / I)`, less one when `T = 0` or
`d mod I < T`. -/
def roundNumSpec (I T d : Int) : Int :=
  if d ≤ I then 0
  else if T = 0 ∨ d % I < T then d / I - 1
  else d / I

/-- One second, in nanoseconds. -/
abbrev second : Int := 1000000000

/-- A chain whose genesis time is `0`, whose Bering height is `0`, and in which every header has
the timestamp `90s`. -/
def sampleChain : ChainManager :=
  { GenesisTimestamp := 0, BeringBlockHeight := 0,
    BlockHeaderByHeight := fun _ => Except.ok (90 * second) }

/-- A manager over `sampleChain` with the given delegates and rotation mode, a block interval of
`interval` at every height, and epochs of one block. -/
def sampleManager (delegates : List String) (rotation : Bool) (interval : Int) :
    MiniEpochManager :=
  { BlockInterval := fun _ => interval, delegates := delegates, isTimeBasedRotation := rotation,
    rp := { GetEpochNum := fun h => h, GetEpochLastBlockHeight := fun e => e },
    chain := sampleChain }

end RollDPoS

/-! ## Call sequences, and sample values for the queue -/

namespace ActPool

/-- An account oracle that parses every address and reports the confirmed nonce `c` for it. -/
def constOracle (c : Nat) : AccountOracle :=
  { FromString := fun s => some s, AccountStateNonce := fun _ => some c }

/-- A call of one of the mutating methods of the queue, with the clock reading it makes. -/
inductive Call where
  | put (now : Int) (act : SealedEnvelope)
  | filterNonce (threshold : Nat)
  | setConfirmedNonce (nonce : Nat)
  | updateQueue (now : Int)
deriving DecidableEq, Repr

/-- The queue after one call. -/
def Call.apply (q : actQueue) : Call → actQueue
  | Call.put now act => (Put q now act).1
  | Call.filterNonce threshold => (FilterNonce q threshold).1
  | Call.setConfirmedNonce nonce => SetConfirmedNonce q nonce
  | Call.updateQueue now => (UpdateQueue q now).1

/-- The queue after a sequence of calls. -/
def runCalls (q : actQueue) (calls : List Call) : actQueue := calls.foldl Call.apply q

/-- A new queue (confirmed nonce `0`, no expiry) after `Put` of the nonces 1, 2 and 4. -/
def queue124 : actQueue :=
  runCalls (NewActQueue "a" 0) [Call.put 0 ⟨1, 1, 1⟩, Call.put 0 ⟨2, 1, 2⟩, Call.put 0 ⟨4, 1, 4⟩]

/-- The nonce `p` is the least nonce `≥ c + 1` that is not a key of the map. -/
def IsLeastFreeNonce (items : ItemMap) (c p : Nat) : Prop :=
  c + 1 ≤ p ∧ items.contains p = false ∧ ∀ n, n < p → c + 1 ≤ n → items.contains n = true

instance (items : ItemMap) (c p : Nat) : Decidable (IsLeastFreeNonce items c p) := by
  unfold IsLeastFreeNonce; exact inferInstance

end ActPool

/-! ## The timeout sweep, entry by entry -/

namespace ActPool

/-- The index entry has timed out at the clock reading `now`: its deadline is strictly earlier. -/
def expired (now : Int) (e : nonceWithTTL) : Bool := Time.After now e.deadline

/-- The map after `delete` of the nonces of the entries, in order. -/
def sweepItems (items : ItemMap) : List nonceWithTTL → ItemMap
  | [] => items
  | e :: rest => sweepItems (items.delete e.nonce) rest

/-- The actions read for the entries, in order, each read before its nonce is deleted. -/
def sweepActs (items : ItemMap) : List nonceWithTTL → List SealedEnvelope
  | [] => []
  | e :: rest => items.get e.nonce :: sweepActs (items.delete e.nonce) rest

/-- The pending nonce after it is rewound to every smaller nonce among the entries, in order. -/
def sweepPending (pendingNonce : Nat) : List nonceWithTTL → Nat
  | [] => pendingNonce
  | e :: rest => sweepPending (if e.nonce < pendingNonce then e.nonce else pendingNonce) rest

end ActPool

namespace ActPool

/-- A queue with `ttl = 1s` after `Put` of the nonces 1 and 2 at time `0`, `UpdateQueue` at time
`0` (which brings the pending nonce to 3), and `Put` of the nonce 3 at time `2s`. -/
def queueTTL : actQueue :=
  runCalls (NewActQueue "a" 1000000000)
    [Call.put 0 ⟨1, 1, 1⟩, Call.put 0 ⟨2, 1, 2⟩, Call.updateQueue 0,
      Call.put 2000000000 ⟨3, 1, 3⟩]

end ActPool

/-! ## The heap order of the index -/

namespace ActPool

/-- The nonce of the entry at position `j` of an index. -/
def nonceAt (h : noncePriorityQueue) (j : Nat) : Nat := (h.getD j default).nonce

/-- Among the first `n` entries, every entry whose parent is at position `lo` or later has a nonce
at least that of its parent (the parent of position `j` is position `(j - 1) / 2`). -/
def HeapFrom (h : noncePriorityQueue) (n lo : Nat) : Prop :=
  ∀ j, j < n → 0 < j → lo ≤ (j - 1) / 2 → nonceAt h ((j - 1) / 2) ≤ nonceAt h j

instance (h : noncePriorityQueue) (n lo : Nat) : Decidable (HeapFrom h n lo) := by
  unfold HeapFrom; exact inferInstance

/-- The heap order with a hole at position `i`: every entry among the first `n` whose parent is at
`lo` or later and is not `i` is in order with its parent, and the children of `i` are in order with
the parent of `i`. -/
def DownInv (h : noncePriorityQueue) (n lo i : Nat) : Prop :=
  (∀ j, j < n → 0 < j → lo ≤ (j - 1) / 2 → (j - 1) / 2 ≠ i →
    nonceAt h ((j - 1) / 2) ≤ nonceAt h j) ∧
  (∀ j, j < n → 0 < j → (j - 1) / 2 = i → 0 < i → lo ≤ (i - 1) / 2 →
    nonceAt h ((i - 1) / 2) ≤ nonceAt h j)

/-- The index is a min-heap by nonce: every entry's nonce is at least its parent's. -/
def IsMinHeap (h : noncePriorityQueue) : Prop := HeapFrom h h.length 0

instance (h : noncePriorityQueue) : Decidable (IsMinHeap h) := by
  unfold IsMinHeap; exact inferInstance

end ActPool

/-! ## Go maps, generally -/

/-- A Go `map[κ]ν` as an association list: the value of a key is that of its first pair. -/
abbrev GoMap (κ ν : Type) := List (κ × ν)

namespace GoMap

variable {κ ν : Type} [DecidableEq κ]

/-- The two-valued lookup `v, ok := m[k]`. -/
def find? (m : GoMap κ ν) (k : κ) : Option ν :=
  match m with
  | [] => none
  | (k1, v) :: rest => if k1 = k then some v else find? rest k

/-- The assignment `m[k] = v`: the value of `k` is replaced where `k` is a key, and the pair is added
where it is not. -/
def set (m : GoMap κ ν) (k : κ) (v : ν) : GoMap κ ν :=
  if (m.find? k).isSome then m.map (fun p => if p.1 = k then (k, v) else p) else m ++ [(k, v)]

/-- The values of the map, in the order of the association list (a `range` over the map may visit
them in any order). -/
def values (m : GoMap κ ν) : List ν := m.map Prod.snd

end GoMap

/-! ## The footer validator -/

namespace RollDPoS

/-- Modelled from the spec: the topics of a consensus vote, a small enumeration with `COMMIT` in it
(the declaration of `ConsensusVoteTopic` is not part of the files at hand). -/
inductive ConsensusVoteTopic where
  | PROPOSAL
  | LOCK
  | COMMIT
deriving DecidableEq, Repr

/-- Modelled from the spec: an endorsement (`endorsement.Endorsement`), the signed vote of an
endorser; `signature` stands for its signed content. -/
structure Endorsement where
  endorser : String
  timestamp : Int
  signature : Nat
deriving DecidableEq, Repr

/-- A consensus vote (`ConsensusVote`): a block hash and a topic. -/
structure ConsensusVote where
  blockHash : String
  topic : ConsensusVoteTopic
deriving DecidableEq, Repr

/-- The constructor `NewConsensusVote`. -/
def NewConsensusVote (blkHash : String) (topic : ConsensusVoteTopic) : ConsensusVote :=
  { blockHash := blkHash, topic := topic }

/-- The part of `block.Block` the validator reads: `HashBlock()` (in its hexadecimal form),
`Height()`, `Timestamp()`, `ProducerAddress()`, `Endorsements()` and `Header.DelegatesAddr()`. -/
structure Block where
  hash : String
  height : Nat
  timestamp : Int
  producer : String
  endorsements : List Endorsement
  delegatesAddr : List String
deriving DecidableEq, Repr

/-- The message of the error of `AddEndorsement`. -/
def errReplacedOrExpired : String := "the endorsement has been replaced or expired"

/-- Modelled from the spec: the endorsements of one endorser (`endorserEndorsementCollection`, whose
source is not part of the files at hand), one for each topic. -/
structure endorserEndorsementCollection where
  endorsements : GoMap ConsensusVoteTopic Endorsement
deriving DecidableEq, Repr

/-- Modelled from the spec: the constructor `newEndorserEndorsementCollection`, without
endorsements. -/
def newEndorserEndorsementCollection : endorserEndorsementCollection := { endorsements := [] }

/-- Modelled from the spec: the method `AddEndorsement` of an endorser: the endorsement takes the
place of the one kept for the topic, unless that one has a later timestamp, in which case the
endorsement is refused. -/
def endorserEndorsementCollection.AddEndorsement (ee : endorserEndorsementCollection)
    (topic : ConsensusVoteTopic) (en : Endorsement) :
    Except String endorserEndorsementCollection :=
  match ee.endorsements.find? topic with
  | some e =>
    if Time.After e.timestamp en.timestamp then Except.error errReplacedOrExpired
    else Except.ok { endorsements := ee.endorsements.set topic en }
  | none => Except.ok { endorsements := ee.endorsements.set topic en }

/-- Modelled from the spec: the method `Endorsement` of an endorser, the endorsement kept for the
topic, if any. -/
def endorserEndorsementCollection.Endorsement (ee : endorserEndorsementCollection)
    (topic : ConsensusVoteTopic) : Option RollDPoS.Endorsement :=
  ee.endorsements.find? topic

/-- Modelled from the spec: the endorsement collection of a block (`blockEndorsementCollection`,
whose source is not part of the files at hand): the block, and for each endorser the endorsements
of that endorser, one for each topic. -/
structure blockEndorsementCollection where
  blk : Block
  endorsers : GoMap String endorserEndorsementCollection
deriving DecidableEq, Repr

/-- Modelled from the spec: the constructor `newBlockEndorsementCollection`, a collection without
endorsers. -/
def newBlockEndorsementCollection (blk : Block) : blockEndorsementCollection :=
  { blk := blk, endorsers := [] }

namespace blockEndorsementCollection

/-- Modelled from the spec: the method `SetBlock`. -/
def SetBlock (c : blockEndorsementCollection) (blk : Block) : blockEndorsementCollection :=
  { c with blk := blk }

/-- Modelled from the spec: the method `AddEndorsement`, which adds the endorsement to those of
its endorser (a new endorser starts without endorsements) and returns the error of that, if
any. -/
def AddEndorsement (c : blockEndorsementCollection) (topic : ConsensusVoteTopic)
    (en : Endorsement) : Except String blockEndorsementCollection :=
  let ee :=
    match c.endorsers.find? en.endorser with
    | some ee => ee
    | none => newEndorserEndorsementCollection
  match ee.AddEndorsement topic en with
  | Except.error e => Except.error e
  | Except.ok ee1 => Except.ok { c with endorsers := c.endorsers.set en.endorser ee1 }

/-- Modelled from the spec: the method `Endorsements`: for each endorser, the endorsement kept for
the first of the topics that has one; so one endorsement for each endorser at most. The endorsers
are visited in the order of the association list (a `range` over the map may visit them in any
order; `countTopicEndorsement` reads the length only). -/
def Endorsements (c : blockEndorsementCollection) (topics : List ConsensusVoteTopic) :
    List Endorsement :=
  c.endorsers.values.filterMap (fun ee => topics.findSome? (fun topic => ee.Endorsement topic))

end blockEndorsementCollection

/-- The errors of the footer validator: the three of `addVoteEndorsement`, `AddEndorsement`'s own
passed on, `ErrInsufficientEndorsements`, the two of `ValidateBlockProducer`, and an error of
`Proposer` passed on. -/
inductive FooterError where
  | invalidEndorsement
  | blockNotReceived
  | collection (msg : String)
  | ErrInsufficientEndorsements
  | notDelegate (producer : String)
  | invalidProposer (producer : String)
  | proposer (e : RoundError)
deriving DecidableEq, Repr

/-- The state of a `miniRoundCalculator`. -/
structure miniRoundCalculator where
  collections : GoMap String blockEndorsementCollection
deriving DecidableEq, Repr

/-- The constructor `newMiniRoundCalculator`. -/
def newMiniRoundCalculator : miniRoundCalculator := { collections := [] }

/-- The method `addBlock`. -/
def miniRoundCalculator.addBlock (rc : miniRoundCalculator) (blk : Block) : miniRoundCalculator :=
  match rc.collections.find? blk.hash with
  | some c => { collections := rc.collections.set blk.hash (c.SetBlock blk) }
  | none => { collections := rc.collections.set blk.hash (newBlockEndorsementCollection blk) }

/-- The method `addVoteEndorsement`; `VerifyEndorsement` is `endorsement.VerifyEndorsement`, the check
of the signature, given from outside. -/
def miniRoundCalculator.addVoteEndorsement (VerifyEndorsement : ConsensusVote → Endorsement → Bool)
    (rc : miniRoundCalculator) (vote : ConsensusVote) (en : Endorsement) :
    Except FooterError miniRoundCalculator :=
  if VerifyEndorsement vote en = false then Except.error FooterError.invalidEndorsement
  else
    match rc.collections.find? vote.blockHash with
    | none => Except.error FooterError.blockNotReceived
    | some c =>
      match c.AddEndorsement vote.topic en with
      | Except.error e => Except.error (FooterError.collection e)
      | Except.ok c1 => Except.ok { collections := rc.collections.set vote.blockHash c1 }

/-- The method `countTopicEndorsement`. -/
def miniRoundCalculator.countTopicEndorsement (rc : miniRoundCalculator) (blkHash : String)
    (topics : List ConsensusVoteTopic) : Nat :=
  match rc.collections.find? blkHash with
  | none => 0
  | some c => (c.Endorsements topics).length

/-- The state of a `FooterValidator`. -/
structure FooterValidator where
  manager : MiniEpochManager

/-- The loop of `ValidateBlockVote` over the endorsements of the block. -/
def addCommitVotes (VerifyEndorsement : ConsensusVote → Endorsement → Bool) (blkHash : String) :
    miniRoundCalculator → List Endorsement → Except FooterError miniRoundCalculator
  | round, [] => Except.ok round
  | round, en :: rest =>
    match round.addVoteEndorsement VerifyEndorsement
        (NewConsensusVote blkHash ConsensusVoteTopic.COMMIT) en with
    | Except.error e => Except.error e
    | Except.ok round1 => addCommitVotes VerifyEndorsement blkHash round1 rest

/-- The method `ValidateBlockVote`; `none` is the `nil` error. -/
def ValidateBlockVote (VerifyEndorsement : ConsensusVote → Endorsement → Bool)
    (fv : FooterValidator) (blk : Block) : Option FooterError :=
  let round := newMiniRoundCalculator.addBlock blk
  match addCommitVotes VerifyEndorsement blk.hash round blk.endorsements with
  | Except.error e => some e
  | Except.ok round1 =>
    if 3 * round1.countTopicEndorsement blk.hash [ConsensusVoteTopic.COMMIT] ≤
        2 * fv.manager.delegates.length then
      some FooterError.ErrInsufficientEndorsements
    else none

/-- The method `ValidateBlockProducer`; `none` is the `nil` error. -/
def ValidateBlockProducer (fv : FooterValidator) (blk : Block) : Option FooterError :=
  let blkProducer := blk.producer
  if IsDelegate fv.manager blkProducer = false then some (FooterError.notDelegate blk.producer)
  else
    match Proposer fv.manager blk.height blk.timestamp with
    | Except.error e => some (FooterError.proposer e)
    | Except.ok proposer =>
      if proposer ≠ blkProducer then some (FooterError.invalidProposer blk.producer)
      else none

/-- A chain whose genesis time is `0`, whose Bering height is `bering`, and in which every header
has the timestamp `90s`. -/
def beringChain (bering : Nat) : ChainManager :=
  { GenesisTimestamp := 0, BeringBlockHeight := bering,
    BlockHeaderByHeight := fun _ => Except.ok (90 * second) }

/-- A manager over `beringChain` with time-based rotation, the delegates `A, B, C, D` and a block
interval of `10s`. -/
def beringManager (bering : Nat) : MiniEpochManager :=
  { BlockInterval := fun _ => 10 * second, delegates := ["A", "B", "C", "D"],
    isTimeBasedRotation := true,
    rp := { GetEpochNum := fun h => h, GetEpochLastBlockHeight := fun e => e },
    chain := beringChain bering }

/-- A check of endorsements that accepts the signature `1` and nothing else. -/
def sampleVerify : ConsensusVote → Endorsement → Bool := fun _ en => decide (en.signature = 1)

/-- A block of hash `h` and height `10` with the given endorsements. -/
def sampleBlock (endorsements : List Endorsement) : Block :=
  { hash := "h", height := 10, timestamp := 125 * second, producer := "A",
    endorsements := endorsements, delegatesAddr := [] }

/-- A validator over seven delegates, without time-based rotation. -/
def sevenDelegates : FooterValidator :=
  { manager := sampleManager ["A", "B", "C", "D", "E", "F", "G"] false (10 * second) }

end RollDPoS

namespace ActPool

/-- An account oracle that parses every address and fails to find the state of the account. -/
def failingOracle : AccountOracle :=
  { FromString := fun s => some s, AccountStateNonce := fun _ => none }

end ActPool

namespace RollDPoS

/-- An endorsement of the endorser with the signature `1`. -/
def goodEndorsement (endorser : String) : Endorsement :=
  { endorser := endorser, timestamp := 0, signature := 1 }

/-- An endorsement of the endorser with the timestamp and the signature `1`. -/
def stampedEndorsement (endorser : String) (timestamp : Int) : Endorsement :=
  { endorser := endorser, timestamp := timestamp, signature := 1 }

/-- The endorsements of an endorser who has the one endorsement, under `COMMIT`. -/
def commitEntry (en : Endorsement) : endorserEndorsementCollection :=
  { endorsements := [(ConsensusVoteTopic.COMMIT, en)] }

/-- The collection in which the endorsement is the one its endorser has. -/
def withCommit (c : blockEndorsementCollection) (en : Endorsement) : blockEndorsementCollection :=
  { c with endorsers := c.endorsers.set en.endorser (commitEntry en) }

/-- Every endorser of the map holds one endorsement, under `COMMIT`. -/
def CommitOnly (m : GoMap String endorserEndorsementCollection) : Prop :=
  ∀ p ∈ m, ∃ e, p.2.endorsements = [(ConsensusVoteTopic.COMMIT, e)]

/-- The `COMMIT` endorsement kept for the endorser, if any. -/
def commitOf (m : GoMap String endorserEndorsementCollection) (endorser : String) :
    Option Endorsement :=
  match m.find? endorser with
  | some ee => ee.Endorsement ConsensusVoteTopic.COMMIT
  | none => none

/-- No endorsement of the list is older than an endorsement of the same endorser before it in the
list, or than the `COMMIT` endorsement the map keeps for its endorser. -/
def FreshFor (m : GoMap String endorserEndorsementCollection) (ens : List Endorsement) : Prop :=
  ens.Pairwise (fun a b => a.endorser = b.endorser → a.timestamp ≤ b.timestamp) ∧
    ∀ x ∈ ens, ∀ e, commitOf m x.endorser = some e → e.timestamp ≤ x.timestamp

/-- An endorsement of the endorser with the signature `0`. -/
def badEndorsement (endorser : String) : Endorsement :=
  { endorser := endorser, timestamp := 0, signature := 0 }

end RollDPoS

/-! ## The vote reviser -/

namespace Staking

/-- Modelled from the spec: a candidate (`Candidate`, whose declaration is not part of the files at
hand): owner address, operator address, votes, self-stake, and the index of the self-stake
bucket. -/
structure Candidate where
  Owner : String
  Operator : String
  Votes : Int
  SelfStakeBucketIdx : Nat
  SelfStake : Int
deriving DecidableEq, Repr

/-- A list of candidates (`CandidateList`). -/
abbrev CandidateList := List Candidate

namespace Candidate

/-- Modelled from the spec: the method `Clone`, a copy of the candidate. -/
def Clone (d : Candidate) : Candidate := d

/-- Modelled from the spec: the method `AddVote`, which adds the amount to the votes. -/
def AddVote (d : Candidate) (amount : Int) : Candidate := { d with Votes := d.Votes + amount }

end Candidate

/-- Modelled from the spec: a staking bucket (`VoteBucket`, whose declaration is not part of the
files at hand): index, candidate address, staked amount, whether it is unstaked (`isUnstaked()`),
and `attributes` standing for the duration and auto-stake attributes the weight function reads. -/
structure VoteBucket where
  Index : Nat
  Candidate : String
  StakedAmount : Int
  unstaked : Bool
  attributes : Nat
deriving DecidableEq, Repr

/-- The method `isUnstaked`. -/
def VoteBucket.isUnstaked (b : VoteBucket) : Bool := b.unstaked

/-- The errors of the state manager: `state.ErrStateNotExist` and any other. -/
inductive StateError where
  | ErrStateNotExist
  | other (msg : String)
deriving DecidableEq, Repr

/-- Modelled from the spec: the candidate order of `sort.Sort` on a `CandidateList` (the methods
`Len`, `Swap`, `Less` are not part of the files at hand), the native comparator the specification
binds the order to: votes descending, and on equal votes the owner address that compares greater
first. `candidateLE a b` says that `a` does not come after `b`. -/
def candidateLE (a b : Candidate) : Prop :=
  b.Votes < a.Votes ∨ (a.Votes = b.Votes ∧ b.Owner ≤ a.Owner)

instance : DecidableRel candidateLE := fun a b => by
  unfold candidateLE; exact inferInstance

/-- The call `sort.Sort(cands)`: the candidates in the candidate order. The library promises a
sorted rearrangement; insertion sort is one such. -/
def sortCandidates (cands : CandidateList) : CandidateList :=
  List.insertionSort candidateLE cands

/-- Modelled from the spec: the candidate table after `upsert` of a candidate, keyed by owner
address: the candidate replaces the one of its owner, or is added. -/
def upsertTable (table : CandidateList) (cand : Candidate) : CandidateList :=
  if table.any (fun x => decide (x.Owner = cand.Owner)) then
    table.map (fun x => if x.Owner = cand.Owner then cand else x)
  else table ++ [cand]

/-- Modelled from the spec: the state manager (`CandidateStateManager`, `protocol.StateManager`),
as far as the reviser uses it: the candidate table with the error of reading it, if any; the
buckets with the error of reading them, if any; the error `Upsert` returns for a candidate, if
any; and the candidates upserted so far, in order. -/
structure CandidateStateManager where
  candidates : CandidateList
  candidatesError : Option StateError
  buckets : List VoteBucket
  bucketsError : Option StateError
  upsertError : Candidate → Option StateError
  upserted : CandidateList

/-- Modelled from the spec: the function `getAllCandidates` (`list_candidates`): the candidate
table, or no candidate and the error. -/
def getAllCandidates (sm : CandidateStateManager) : CandidateList × Option StateError :=
  match sm.candidatesError with
  | none => (sm.candidates, none)
  | some e => ([], some e)

/-- Modelled from the spec: the function `getAllBuckets` (`list_buckets`): the buckets, or no
bucket and the error. -/
def getAllBuckets (sm : CandidateStateManager) : List VoteBucket × Option StateError :=
  match sm.bucketsError with
  | none => (sm.buckets, none)
  | some e => ([], some e)

/-- Modelled from the spec: the method `Upsert`, which writes the candidate to the table, keyed by
owner address, unless it fails. -/
def CandidateStateManager.Upsert (csm : CandidateStateManager) (cand : Candidate) :
    CandidateStateManager × Option StateError :=
  match csm.upsertError cand with
  | some e => (csm, some e)
  | none =>
    ({ csm with candidates := upsertTable csm.candidates cand,
                upserted := csm.upserted ++ [cand] }, none)

/-- The state of a `VoteReviser`; the constants `c` are given by the function
`calculateVoteWeight(c, bucket, selfStake)` they determine. -/
structure VoteReviser where
  reviseHeights : List Nat
  cache : GoMap Nat CandidateList
  c : VoteBucket → Bool → Int

/-- The constructor `NewVoteReviser`. -/
def NewVoteReviser (c : VoteBucket → Bool → Int) (reviseHeights : List Nat) : VoteReviser :=
  { reviseHeights := reviseHeights, cache := [], c := c }

namespace VoteReviser

/-- The method `storeToCache`. -/
def storeToCache (vr : VoteReviser) (height : Nat) (cands : CandidateList) : VoteReviser :=
  { vr with cache := vr.cache.set height cands }

/-- The method `isCacheExist`. -/
def isCacheExist (vr : VoteReviser) (height : Nat) : Bool := (vr.cache.find? height).isSome

/-- The method `NeedRevise`. -/
def NeedRevise (vr : VoteReviser) (height : Nat) : Bool :=
  vr.reviseHeights.any (fun h => decide (height = h))

/-- The first loop of `calculateVoteWeight`: every candidate is cloned into the map under its
owner, with votes and self-stake zero. -/
def cloneLoop : GoMap String Candidate → CandidateList → GoMap String Candidate
  | candm, [] => candm
  | candm, cand :: rest =>
    cloneLoop (candm.set cand.Owner { cand.Clone with Votes := 0, SelfStake := 0 }) rest

/-- One turn of the second loop of `calculateVoteWeight`. -/
def bucketStep (c : VoteBucket → Bool → Int) (candm : GoMap String Candidate)
    (bucket : VoteBucket) : GoMap String Candidate :=
  if bucket.isUnstaked then candm
  else
    match candm.find? bucket.Candidate with
    | none => candm
    | some cand =>
      if cand.SelfStakeBucketIdx = bucket.Index then
        candm.set bucket.Candidate
          { cand.AddVote (c bucket true) with SelfStake := bucket.StakedAmount }
      else candm.set bucket.Candidate (cand.AddVote (c bucket false))

/-- The method `calculateVoteWeight`; `order` is the order in which the `range` over the map
visits its values. -/
def calculateVoteWeight (vr : VoteReviser) (order : CandidateList → CandidateList)
    (sm : CandidateStateManager) : Except StateError CandidateList :=
  match getAllCandidates sm with
  | (_, some (StateError.other msg)) => Except.error (StateError.other msg)
  | (cands, _) =>
    let candm := cloneLoop [] cands
    match getAllBuckets sm with
    | (_, some (StateError.other msg)) => Except.error (StateError.other msg)
    | (buckets, _) =>
      let candm1 := buckets.foldl (bucketStep vr.c) candm
      Except.ok (order candm1.values)

/-- The loop of `flush`. -/
def upsertLoop :
    CandidateStateManager → CandidateList → CandidateStateManager × Option StateError
  | csm, [] => (csm, none)
  | csm, cand :: rest =>
    match csm.Upsert cand with
    | (csm1, some e) => (csm1, some e)
    | (csm1, none) => upsertLoop csm1 rest

/-- The method `flush`; the sort is made in place, so the cached list is sorted afterwards. -/
def flush (vr : VoteReviser) (height : Nat) (csm : CandidateStateManager) :
    VoteReviser × CandidateStateManager × Option StateError :=
  match vr.cache.find? height with
  | none => (vr, csm, none)
  | some cands =>
    let sorted := sortCandidates cands
    let r := upsertLoop csm sorted
    ({ vr with cache := vr.cache.set height sorted }, r.1, r.2)

/-- The method `Revise`. -/
def Revise (vr : VoteReviser) (order : CandidateList → CandidateList)
    (csm : CandidateStateManager) (height : Nat) :
    VoteReviser × CandidateStateManager × Option StateError :=
  if vr.isCacheExist height = false then
    match vr.calculateVoteWeight order csm with
    | Except.error err => (vr, csm, some err)
    | Except.ok cands => (vr.storeToCache height cands).flush height csm
  else vr.flush height csm

end VoteReviser

/-- The buckets that count for a candidate: not unstaked, and naming its owner. -/
def countsFor (cand : Candidate) (bucket : VoteBucket) : Bool :=
  !bucket.isUnstaked && decide (bucket.Candidate = cand.Owner)

/-- The votes of a candidate in the words of the specification: the sum, over the buckets that are
not unstaked and name its owner, of the vote weight, the self-stake weight for its self-stake
bucket. -/
def votesSpec (c : VoteBucket → Bool → Int) (cand : Candidate) (buckets : List VoteBucket) : Int :=
  ((buckets.filter (countsFor cand)).map
    (fun b => c b (decide (b.Index = cand.SelfStakeBucketIdx)))).sum

/-- A state manager without errors holding the candidates and the buckets. -/
def sampleState (cands : CandidateList) (buckets : List VoteBucket) : CandidateStateManager :=
  { candidates := cands, candidatesError := none, buckets := buckets, bucketsError := none,
    upsertError := fun _ => none, upserted := [] }

/-- A weight function: the staked amount, doubled for the self-stake bucket. -/
def sampleWeight : VoteBucket → Bool → Int :=
  fun b selfStake => if selfStake then 2 * b.StakedAmount else b.StakedAmount

end Staking

namespace Staking

/-- The clone of a candidate with votes and self-stake zero, as the first loop stores it. -/
def zeroed (cand : Candidate) : Candidate := { cand.Clone with Votes := 0, SelfStake := 0 }

/-- What one bucket does to one candidate of the map. -/
def bucketUpdate (c : VoteBucket → Bool → Int) (cand : Candidate) (bucket : VoteBucket) :
    Candidate :=
  if countsFor cand bucket then
    if cand.SelfStakeBucketIdx = bucket.Index then
      { cand.AddVote (c bucket true) with SelfStake := bucket.StakedAmount }
    else cand.AddVote (c bucket false)
  else cand

/-- What the buckets, in order, do to one candidate of the map. -/
def applyBuckets (c : VoteBucket → Bool → Int) (cand : Candidate) (buckets : List VoteBucket) :
    Candidate :=
  buckets.foldl (bucketUpdate c) cand

end Staking

namespace Staking

/-- The state manager with another list of buckets. -/
def CandidateStateManager.withBuckets (sm : CandidateStateManager) (buckets : List VoteBucket) :
    CandidateStateManager :=
  { sm with buckets := buckets }

/-- The state manager with another candidate table. -/
def CandidateStateManager.withCandidates (sm : CandidateStateManager) (cands : CandidateList) :
    CandidateStateManager :=
  { sm with candidates := cands }

end Staking

namespace Staking

/-- What an upsert of `cand` does to the entry `x` of a table that holds the owner of `cand`. -/
def overwrite (x cand : Candidate) : Candidate := if x.Owner = cand.Owner then cand else x

end Staking

namespace Staking

/-- A state manager whose reads fail, holding a table of its own; its upserts succeed. -/
def unreadableState (cands : CandidateList) : CandidateStateManager :=
  { candidates := cands, candidatesError := some (StateError.other "read failed"),
    buckets := [], bucketsError := some (StateError.other "read failed"),
    upsertError := fun _ => none, upserted := [] }

end Staking

/-! ## The heap order while an entry moves up, and disciplined call sequences -/

namespace ActPool

/-- The heap order with the entry at position `j` possibly smaller than its parent: every other
entry among the first `n` is in order with its parent, and the children of `j` are in order with
the parent of `j`. -/
def UpInv (h : noncePriorityQueue) (n j : Nat) : Prop :=
  (∀ c, c < n → 0 < c → c ≠ j → nonceAt h ((c - 1) / 2) ≤ nonceAt h c) ∧
  (∀ c, c < n → 0 < c → (c - 1) / 2 = j → 0 < j → nonceAt h ((j - 1) / 2) ≤ nonceAt h c)

end ActPool

namespace ActPool

/-- A step of a caller that keeps the discipline of the pool: a `Put`, a `FilterNonce`, an
`UpdateQueue`, or a `SetConfirmedNonce(n)` followed at once by `FilterNonce(n + 1)`. -/
inductive Step where
  | put (now : Int) (act : SealedEnvelope)
  | filterNonce (threshold : Nat)
  | updateQueue (now : Int)
  | confirm (nonce : Nat)
deriving DecidableEq, Repr

/-- The calls of a step. -/
def Step.calls : Step → List Call
  | Step.put now act => [Call.put now act]
  | Step.filterNonce threshold => [Call.filterNonce threshold]
  | Step.updateQueue now => [Call.updateQueue now]
  | Step.confirm nonce => [Call.setConfirmedNonce nonce, Call.filterNonce (nonce + 1)]

/-- The calls of a sequence of steps. -/
def stepCalls : List Step → List Call
  | [] => []
  | s :: rest => s.calls ++ stepCalls rest

/-- The step is admissible in the queue: a `Put` has a nonce above the confirmed nonce, and a
confirmed nonce `n` is below `2 ^ 64 − 1`, so that `n + 1` is a nonce. -/
def Step.admissible (q : actQueue) : Step → Bool
  | Step.put _ act => decide (q.confirmedNonce < act.nonce)
  | Step.confirm nonce => decide (nonce + 1 < uint64Mod)
  | _ => true

/-- Every step of the sequence is admissible in the queue it is made on. -/
def admissibleFrom : actQueue → List Step → Bool
  | _, [] => true
  | q, s :: rest => s.admissible q && admissibleFrom (runCalls q s.calls) rest

/-- The step puts no action of nonce `2 ^ 64 − 1`. -/
def Step.bounded : Step → Bool
  | Step.put _ act => decide (act.nonce + 1 < uint64Mod)
  | _ => true

/-- Every key of `items` is above the confirmed nonce. -/
def KeysAbove (q : actQueue) : Prop := ∀ k ∈ q.items.keys, q.confirmedNonce < k

instance (q : actQueue) : Decidable (KeysAbove q) := by
  unfold KeysAbove; exact inferInstance

end ActPool

namespace ActPool

/-- The timeout sweep of `UpdateQueue` at the clock reading `now` removes the index entry: the
queue has a `ttl` and the deadline of the entry is before `now`. -/
def swept (q : actQueue) (now : Int) (e : nonceWithTTL) : Bool :=
  decide (q.ttl ≠ 0) && expired now e

end ActPool

/-! ## Sample state managers of the vote reviser -/

namespace Staking

/-- The state manager with no candidate and no error of reading the candidates. -/
def CandidateStateManager.emptyCandidates (sm : CandidateStateManager) : CandidateStateManager :=
  { sm with candidates := [], candidatesError := none }

/-- The state manager with no bucket and no error of reading the buckets. -/
def CandidateStateManager.emptyBuckets (sm : CandidateStateManager) : CandidateStateManager :=
  { sm with buckets := [], bucketsError := none }

/-- A state manager without read errors whose `Upsert` fails for the candidates of owner `bad`. -/
def failingUpsertState (cands : CandidateList) (buckets : List VoteBucket) (bad : String) :
    CandidateStateManager :=
  { candidates := cands, candidatesError := none, buckets := buckets, bucketsError := none,
    upsertError := fun c => if c.Owner = bad then some (StateError.other "upsert failed") else none,
    upserted := [] }

end Staking

/-! ## The update of the delegates, and sample chains -/

namespace RollDPoS

/-- The method `isLastBlockInEpoch`. -/
def isLastBlockInEpoch (manager : MiniEpochManager) (height : Nat) : Bool :=
  decide (height = manager.rp.GetEpochLastBlockHeight (manager.rp.GetEpochNum height))

/-- The method `UpdateWith`: the manager after the call, and the error returned. The test of the
length of the delegate list is commented out in the source, and so absent here. -/
def UpdateWith (manager : MiniEpochManager) (blk : Block) :
    MiniEpochManager × Option FooterError :=
  if isLastBlockInEpoch manager blk.height = false then (manager, none)
  else
    let delegates := blk.delegatesAddr
    ({ manager with delegates := delegates }, none)

/-- A chain whose genesis time is `0`, whose Bering height is `0`, and in which every header has
the timestamp `t`. -/
def headerChain (t : Int) : ChainManager :=
  { GenesisTimestamp := 0, BeringBlockHeight := 0, BlockHeaderByHeight := fun _ => Except.ok t }

/-- A manager over `headerChain t` with the given delegates, time-based rotation, a block interval
of `interval` at every height, and epochs of one block. -/
def headerManager (delegates : List String) (interval : Int) (t : Int) : MiniEpochManager :=
  { BlockInterval := fun _ => interval, delegates := delegates, isTimeBasedRotation := true,
    rp := { GetEpochNum := fun h => h, GetEpochLastBlockHeight := fun e => e },
    chain := headerChain t }

/-- A manager with the given delegates and epochs of `n` blocks (the epoch of a height is
`height / n`, its last block is `n × epoch + n − 1`). -/
def epochManager (delegates : List String) (n : Nat) : MiniEpochManager :=
  { BlockInterval := fun _ => 10 * second, delegates := delegates, isTimeBasedRotation := false,
    rp := { GetEpochNum := fun h => h / n, GetEpochLastBlockHeight := fun e => n * e + n - 1 },
    chain := sampleChain }

/-- The manager over the same chain data but with the given headers. -/
def withHeaders (rc : MiniEpochManager) (headers : Nat → Except String Int) : MiniEpochManager :=
  { rc with chain := { rc.chain with BlockHeaderByHeight := headers } }

/-- The manager with epochs of `n` blocks instead of its own. -/
def withEpochs (rc : MiniEpochManager) (n : Nat) : MiniEpochManager :=
  { rc with
    rp := { GetEpochNum := fun h => h / n, GetEpochLastBlockHeight := fun e => n * e + n - 1 } }

/-- A block of the given height whose header carries the delegate list. -/
def delegatesBlock (height : Nat) (delegates : List String) : Block :=
  { hash := "h", height := height, timestamp := 0, producer := "A", endorsements := [],
    delegatesAddr := delegates }

end RollDPoS

/-! ## Call sequences with `AllActs` -/

namespace ActPool

/-- A call of one of the methods of the queue that write to it: the mutating methods, and
`AllActs`, which sorts the index in place. -/
inductive Op where
  | call (c : Call)
  | allActs
deriving DecidableEq, Repr

/-- The queue after one call. -/
def Op.apply (q : actQueue) : Op → actQueue
  | Op.call c => Call.apply q c
  | Op.allActs => (AllActs q).1

/-- The queue after a sequence of calls. -/
def runOps (q : actQueue) (ops : List Op) : actQueue := ops.foldl Op.apply q

end ActPool

/-! ## A state manager with a tie of votes -/

namespace Staking

/-- A state manager without errors holding the candidates `C`, `D` and `E`, read in that order,
and one bucket for each, of 100, 100 and 300. -/
def tiedState : CandidateStateManager :=
  sampleState [⟨"C", "op", 0, 9, 0⟩, ⟨"D", "op", 0, 9, 0⟩, ⟨"E", "op", 0, 9, 0⟩]
    [⟨1, "C", 100, false, 0⟩, ⟨2, "D", 100, false, 0⟩, ⟨3, "E", 300, false, 0⟩]

end Staking
/-! ## Lemmas on the map -/

namespace ActPool

namespace ItemMap

theorem find?_delete (m : ItemMap) (k j : Nat) :
    (m.delete k).find? j = if j = k then none else m.find? j := by
  induction m with
  | nil => simp [delete, find?]
  | cons p rest ih =>
    obtain ⟨k1, v⟩ := p
    unfold delete at ih ⊢
    by_cases h1 : k1 = k
    · subst h1
      simp only [List.filter, ne_eq, not_true_eq_false, decide_False]
      rw [ih]
      by_cases h2 : j = k1
      · simp [h2]
      · have : ¬ k1 = j := fun h => h2 h.symm
        simp [h2, find?, this]
    · simp only [List.filter, ne_eq, h1, not_false_eq_true, decide_True, find?]
      rw [ih]
      by_cases h2 : k1 = j
      · have : ¬ j = k := fun h => h1 (h2.trans h)
        simp [h2, this]
      · simp [h2]

theorem find?_insert (m : ItemMap) (k j : Nat) (v : SealedEnvelope) :
    (m.insert k v).find? j = if j = k then some v else m.find? j := by
  unfold insert
  simp only [find?]
  by_cases h : k = j
  · simp [h]
  · have : ¬ j = k := fun h1 => h h1.symm
    simp [h, this, find?_delete]

theorem contains_iff_mem_keys (m : ItemMap) (k : Nat) :
    m.contains k = true ↔ k ∈ m.keys := by
  unfold contains keys
  induction m with
  | nil => simp [find?]
  | cons p rest ih =>
    obtain ⟨k1, v⟩ := p
    simp only [find?, List.map_cons, List.mem_dedup, List.mem_cons]
    by_cases h : k1 = k
    · simp [h]
    · have : ¬ k = k1 := fun h1 => h h1.symm
      simp only [h, if_false, this, false_or]
      rw [ih, List.mem_dedup]

theorem find?_eq_none_iff (m : ItemMap) (k : Nat) :
    m.find? k = none ↔ m.contains k = false := by
  unfold contains
  cases m.find? k <;> simp

theorem len_eq_card (m : ItemMap) : m.len = (m.map Prod.fst).toFinset.card := by
  unfold len keys
  rw [List.card_toFinset]

theorem keys_toFinset_insert (m : ItemMap) (k : Nat) (v : SealedEnvelope) :
    ((m.insert k v).map Prod.fst).toFinset = Insert.insert k (m.map Prod.fst).toFinset := by
  ext a
  simp only [insert, delete, List.map_cons, List.toFinset_cons, Finset.mem_insert,
    List.mem_toFinset, List.mem_map, List.mem_filter, Prod.exists, exists_and_right,
    exists_eq_right]
  constructor
  · rintro (h | ⟨b, hb, _⟩)
    · exact Or.inl h
    · exact Or.inr ⟨b, hb⟩
  · rintro (h | ⟨b, hb⟩)
    · exact Or.inl h
    · by_cases ha : a = k
      · exact Or.inl ha
      · exact Or.inr ⟨b, hb, by simpa using ha⟩

theorem len_insert (m : ItemMap) (k : Nat) (v : SealedEnvelope) :
    (m.insert k v).len = if m.contains k = true then m.len else m.len + 1 := by
  rw [len_eq_card, len_eq_card, keys_toFinset_insert]
  by_cases h : m.contains k = true
  · have hk : k ∈ (m.map Prod.fst).toFinset := by
      rw [contains_iff_mem_keys] at h
      simpa [keys] using h
    simp [h, Finset.insert_eq_of_mem hk]
  · have hk : k ∉ (m.map Prod.fst).toFinset := by
      rw [contains_iff_mem_keys] at h
      simpa [keys] using h
    simp [h, Finset.card_insert_of_not_mem hk]

end ItemMap

end ActPool

/-! ## Lemmas on the heap functions: length and rearrangement -/

namespace ActPool

namespace ItemMap

theorem get_insert (m : ItemMap) (k j : Nat) (v : SealedEnvelope) :
    (m.insert k v).get j = if j = k then v else m.get j := by
  unfold get
  rw [find?_insert]
  split_ifs <;> rfl

theorem get_delete (m : ItemMap) (k j : Nat) :
    (m.delete k).get j = if j = k then default else m.get j := by
  unfold get
  rw [find?_delete]
  split_ifs <;> rfl

theorem contains_insert (m : ItemMap) (k j : Nat) (v : SealedEnvelope) :
    (m.insert k v).contains j = (decide (j = k) || m.contains j) := by
  unfold contains
  rw [find?_insert]
  by_cases h : j = k <;> simp [h]

theorem contains_delete (m : ItemMap) (k j : Nat) :
    (m.delete k).contains j = (!decide (j = k) && m.contains j) := by
  unfold contains
  rw [find?_delete]
  by_cases h : j = k <;> simp [h]

theorem len_pos_of_contains (m : ItemMap) (k : Nat) (h : m.contains k = true) : 0 < m.len := by
  rw [contains_iff_mem_keys] at h
  exact List.length_pos_of_mem h

end ItemMap

namespace noncePriorityQueue

theorem length_Swap (h : noncePriorityQueue) (i j : Nat) : (Swap h i j).length = h.length := by
  simp [Swap]

theorem Swap_perm (h : noncePriorityQueue) (i j : Nat) (hi : i < h.length) (hj : j < h.length) :
    (Swap h i j).Perm h := by
  unfold Swap
  rw [List.perm_iff_count]
  intro a
  rw [List.getD_eq_getElem _ _ hi, List.getD_eq_getElem _ _ hj]
  rw [List.count_set _ _ _ _ (by simpa using hj), List.count_set _ _ _ _ hi]
  rw [List.getElem_set]
  have h1 : h[i] = a → 0 < List.count a h :=
    fun e => e ▸ List.count_pos_iff.mpr (List.getElem_mem _)
  have h2 : h[j] = a → 0 < List.count a h :=
    fun e => e ▸ List.count_pos_iff.mpr (List.getElem_mem _)
  simp only [beq_iff_eq]
  by_cases hij : i = j
  · subst hij
    simp only [if_true]
    by_cases ha : h[i] = a
    · have := h1 ha
      simp only [ha, if_true]; omega
    · simp [ha]
  · simp only [hij, if_false]
    by_cases ha : h[i] = a <;> by_cases hb : h[j] = a
    · have := h1 ha
      simp only [ha, hb, if_true]; omega
    · have := h1 ha
      simp only [ha, hb, if_true, if_false]; omega
    · have := h2 hb
      simp only [ha, hb, if_true, if_false]; omega
    · simp [ha, hb]

end noncePriorityQueue

namespace Heap

open noncePriorityQueue

theorem upLoop_perm (fuel : Nat) (h : noncePriorityQueue) (j : Nat) (hj : j < h.length) :
    (upLoop fuel h j).Perm h := by
  induction fuel generalizing h j with
  | zero => exact List.Perm.refl _
  | succ fuel ih =>
    unfold upLoop
    simp only
    split_ifs with hc
    · exact List.Perm.refl _
    · have hi : (j - 1) / 2 < h.length := by omega
      have hp := Swap_perm h ((j - 1) / 2) j hi hj
      exact (ih (Swap h ((j - 1) / 2) j) ((j - 1) / 2) (by rw [length_Swap]; exact hi)).trans hp

theorem Push_perm (h : noncePriorityQueue) (x : nonceWithTTL) : (Heap.Push h x).Perm (x :: h) := by
  unfold Heap.Push up
  simp only [noncePriorityQueue.Push, noncePriorityQueue.Len]
  refine (upLoop_perm _ _ _ (by simp)).trans ?_
  exact List.perm_append_comm

end Heap

theorem nonces_refreshDeadline (n : Nat) (d : Int) (h : noncePriorityQueue) :
    nonces (refreshDeadline n d h) = nonces h := by
  induction h with
  | nil => rfl
  | cons x rest ih =>
    unfold refreshDeadline
    split_ifs with hx
    · simp [nonces]
    · simp only [nonces, List.map_cons] at ih ⊢
      rw [ih]

theorem refreshDeadline_of_not_mem (n : Nat) (d : Int) (h : noncePriorityQueue)
    (hn : n ∉ nonces h) : refreshDeadline n d h = h := by
  induction h with
  | nil => rfl
  | cons x rest ih =>
    simp only [nonces, List.map_cons, List.mem_cons, not_or] at hn
    unfold refreshDeadline
    have hx : ¬ x.nonce = n := fun e => hn.1 e.symm
    simp only [hx, if_false]
    rw [ih (by simpa [nonces] using hn.2)]

theorem refreshDeadline_split (n : Nat) (d : Int) (pre post : noncePriorityQueue)
    (e : nonceWithTTL) (he : e.nonce = n) (hpre : ∀ x ∈ pre, x.nonce ≠ n) :
    refreshDeadline n d (pre ++ e :: post) = pre ++ { nonce := n, deadline := d } :: post := by
  induction pre with
  | nil =>
    simp only [List.nil_append]
    unfold refreshDeadline
    simp [he]
  | cons x rest ih =>
    simp only [List.cons_append]
    unfold refreshDeadline
    have hx : ¬ x.nonce = n := hpre x (List.mem_cons_self _ _)
    simp only [hx, if_false]
    rw [ih (fun y hy => hpre y (List.mem_cons_of_mem _ hy))]

end ActPool

/-! ## Put -/

namespace ActPool

/-- C1. When the nonce of the action is already a key of `items` and its gas price is not strictly
greater than that of the stored action (equal prices included), `Put` returns
`ErrReplaceUnderpriced` and the queue it leaves is the queue it was given: `items`, `index`,
`pendingNonce`, `confirmedNonce` and every other field are unchanged. -/
theorem Put_replace_underpriced (q : actQueue) (now : Int) (act actInPool : SealedEnvelope)
    (hexist : q.items.find? act.nonce = some actInPool)
    (hprice : ¬ actInPool.gasPrice < act.gasPrice) :
    Put q now act = (q, some ActionError.ErrReplaceUnderpriced) := by
  unfold Put
  simp only [hexist]
  have hc : bigCmp act.gasPrice actInPool.gasPrice ≠ 1 := by
    unfold bigCmp
    split_ifs with h1 h2
    · decide
    · decide
    · exact absurd (lt_of_le_of_ne (not_lt.mp h1) (fun e => h2 e.symm)) hprice
  simp [hc]

/-- Witness of C1: `Put(nonce=5, gp=10)` twice on a new queue; the second is refused and changes
nothing. -/
theorem Put_replace_underpriced_witness :
    Put (Put (NewActQueue "a" 0) 0 ⟨5, 10, 1⟩).1 7 ⟨5, 10, 2⟩ =
      ((Put (NewActQueue "a" 0) 0 ⟨5, 10, 1⟩).1, some ActionError.ErrReplaceUnderpriced) :=
  Put_replace_underpriced (Put (NewActQueue "a" 0) 0 ⟨5, 10, 1⟩).1 7 ⟨5, 10, 2⟩ ⟨5, 10, 1⟩
    (by decide) (by decide)

end ActPool

namespace ActPool

theorem Put_replace_eq (q : actQueue) (now : Int) (act old : SealedEnvelope)
    (hexist : q.items.find? act.nonce = some old) (hprice : old.gasPrice < act.gasPrice) :
    Put q now act =
      ({ q with items := q.items.insert act.nonce act,
                index := refreshDeadline act.nonce (Time.Add now q.ttl) q.index }, none) := by
  unfold Put
  simp only [hexist]
  have hc : bigCmp act.gasPrice old.gasPrice = 1 := by
    unfold bigCmp
    have h1 : ¬ act.gasPrice < old.gasPrice := not_lt.mpr (le_of_lt hprice)
    have h2 : ¬ act.gasPrice = old.gasPrice := fun e => absurd hprice (by rw [e]; exact lt_irrefl _)
    simp [h1, h2]
  simp [hc]

/-- C2. When the nonce `n` of the action is a key of `items` and its gas price is strictly greater
than that of the stored action `old`, `Put` returns no error and a queue in which: `items[n]` is the
new action and every other key has the value it had; the keys of `items`, `Len` and the nonces of
`index` (entry by entry) are unchanged; the first index entry of nonce `n` has deadline `now + ttl`
and every other entry is unchanged (an index without an entry for `n` is unchanged);
`pendingNonce`, `confirmedNonce`, the balance and `ttl` are unchanged. `AllActs` of that queue lists,
for every index entry in sorted order, the new action where the nonce is `n` and the stored action
elsewhere; the new action differs from `old`, it is listed when the index has an entry for `n`, and
`old` is not listed when the index holds exactly the keys of `items` and every action is stored
under its own nonce. -/
theorem Put_replace_higher_price (q : actQueue) (now : Int) (act old : SealedEnvelope)
    (hexist : q.items.find? act.nonce = some old) (hprice : old.gasPrice < act.gasPrice) :
    ∃ q1, Put q now act = (q1, none) ∧
      q1.items.find? act.nonce = some act ∧
      (∀ k, k ≠ act.nonce → q1.items.find? k = q.items.find? k) ∧
      (∀ k, q1.items.contains k = q.items.contains k) ∧
      Len q1 = Len q ∧
      nonces q1.index = nonces q.index ∧
      (act.nonce ∉ nonces q.index → q1.index = q.index) ∧
      (∀ pre e post, q.index = pre ++ e :: post → e.nonce = act.nonce →
        (∀ x ∈ pre, x.nonce ≠ act.nonce) →
        q1.index = pre ++ { nonce := act.nonce, deadline := now + q.ttl } :: post) ∧
      q1.pendingNonce = q.pendingNonce ∧ q1.confirmedNonce = q.confirmedNonce ∧
      q1.accountBalance = q.accountBalance ∧ q1.ttl = q.ttl ∧
      (AllActs q1).2 =
        (sortSort q1.index).map (fun e => if e.nonce = act.nonce then act else q.items.get e.nonce) ∧
      act ≠ old ∧
      (act.nonce ∈ nonces q.index → act ∈ (AllActs q1).2) ∧
      (SameNonceSet q → (∀ k v, q.items.find? k = some v → v.nonce = k) →
        old ∉ (AllActs q1).2) := by
  have hcont : q.items.contains act.nonce = true := by simp [ItemMap.contains, hexist]
  have hne : act ≠ old := fun e => absurd hprice (by rw [e]; exact lt_irrefl _)
  have hlen : (q.items.insert act.nonce act).len = q.items.len := by
    rw [ItemMap.len_insert]; simp [hcont]
  have hall : (AllActs ({ q with items := q.items.insert act.nonce act,
                                 index := refreshDeadline act.nonce (Time.Add now q.ttl) q.index } :
        actQueue)).2 =
      (sortSort (refreshDeadline act.nonce (Time.Add now q.ttl) q.index)).map
        (fun e => if e.nonce = act.nonce then act else q.items.get e.nonce) := by
    have hpos := ItemMap.len_pos_of_contains _ _ hcont
    unfold AllActs Len
    simp only [hlen]
    rw [if_neg (by omega)]
    simp only [ItemMap.get_insert]
  have hmemsort : ∀ x, x ∈ sortSort (refreshDeadline act.nonce (Time.Add now q.ttl) q.index) →
      x.nonce ∈ nonces q.index := by
    intro x hx
    have hx1 : x ∈ refreshDeadline act.nonce (Time.Add now q.ttl) q.index :=
      (List.perm_insertionSort _ _).mem_iff.mp hx
    rw [← nonces_refreshDeadline act.nonce (Time.Add now q.ttl) q.index]
    exact List.mem_map_of_mem _ hx1
  refine ⟨_, Put_replace_eq q now act old hexist hprice, ?_, ?_, ?_, ?_, ?_, ?_, ?_,
    rfl, rfl, rfl, rfl, hall, hne, ?_, ?_⟩
  · simp [ItemMap.find?_insert]
  · intro k hk
    simp [ItemMap.find?_insert, hk]
  · intro k
    simp only [ItemMap.contains_insert]
    by_cases hk : k = act.nonce
    · simp [hk, hcont]
    · simp [hk]
  · exact hlen
  · exact nonces_refreshDeadline _ _ _
  · intro hn
    exact refreshDeadline_of_not_mem _ _ _ hn
  · intro pre e post hsplit he hpre
    simp only [hsplit]
    exact refreshDeadline_split _ _ pre post e he hpre
  · intro hn
    rw [hall]
    rw [← nonces_refreshDeadline act.nonce (Time.Add now q.ttl) q.index] at hn
    obtain ⟨e, he, hen⟩ := List.mem_map.mp hn
    have he1 : e ∈ sortSort (refreshDeadline act.nonce (Time.Add now q.ttl) q.index) :=
      (List.perm_insertionSort _ _).mem_iff.mpr he
    exact List.mem_map.mpr ⟨e, he1, by simp [hen]⟩
  · intro hsame hkey hold
    rw [hall] at hold
    obtain ⟨e, he, heq⟩ := List.mem_map.mp hold
    by_cases hen : e.nonce = act.nonce
    · rw [if_pos hen] at heq
      exact hne heq
    · rw [if_neg hen] at heq
      have hin := hsame.2.1 _ (hmemsort e he)
      unfold ItemMap.contains at hin
      cases hf : q.items.find? e.nonce with
      | none => simp [hf] at hin
      | some v =>
        have hv : v = old := by simpa [ItemMap.get, hf] using heq
        have h1 := hkey _ _ hf
        have h2 := hkey _ _ hexist
        rw [hv] at h1
        exact hen (h1.symm.trans h2)

/-- Witness of C2: `Put(nonce=5, gp=10)` then `Put(nonce=5, gp=11)` on a new queue. -/
theorem Put_replace_higher_price_witness :
    ∃ q1, Put (Put (NewActQueue "a" 0) 0 ⟨5, 10, 1⟩).1 7 ⟨5, 11, 2⟩ = (q1, none) ∧
      (AllActs q1).2 = [⟨5, 11, 2⟩] := by
  obtain ⟨q1, h1, _, _, _, _, _, _, _, _, _, _, _, _, _, _, _⟩ :=
    Put_replace_higher_price (Put (NewActQueue "a" 0) 0 ⟨5, 10, 1⟩).1 7 ⟨5, 11, 2⟩ ⟨5, 10, 1⟩
      (by decide) (by decide)
  refine ⟨q1, h1, ?_⟩
  have h2 : q1 = (Put (Put (NewActQueue "a" 0) 0 ⟨5, 10, 1⟩).1 7 ⟨5, 11, 2⟩).1 := by rw [h1]
  rw [h2]
  decide

end ActPool

namespace ActPool

/-- C3. When the nonce `n` of the action is not a key of `items`, `Put` returns no error and a queue
in which: `items[n]` is the action and every other key has the value it had (so exactly the
mapping `n → action` is added and `Len` grows by one); the index is a rearrangement of the old
entries and the one new entry `{n, now + ttl}` (one entry more, the others unchanged);
`pendingNonce`, `confirmedNonce`, the balance, `ttl` and the address are unchanged, whatever `n`
is, `n = pendingNonce` included. -/
theorem Put_new_nonce (q : actQueue) (now : Int) (act : SealedEnvelope)
    (hnew : q.items.contains act.nonce = false) :
    ∃ q1, Put q now act = (q1, none) ∧
      q1.items.find? act.nonce = some act ∧
      (∀ k, k ≠ act.nonce → q1.items.find? k = q.items.find? k) ∧
      Len q1 = Len q + 1 ∧
      q1.index.Perm ({ nonce := act.nonce, deadline := now + q.ttl } :: q.index) ∧
      q1.index.length = q.index.length + 1 ∧
      q1.pendingNonce = q.pendingNonce ∧ q1.confirmedNonce = q.confirmedNonce ∧
      q1.accountBalance = q.accountBalance ∧ q1.ttl = q.ttl ∧ q1.address = q.address := by
  have hnone : q.items.find? act.nonce = none := (ItemMap.find?_eq_none_iff _ _).mpr hnew
  have heq : Put q now act =
      ({ q with index := Heap.Push q.index { nonce := act.nonce, deadline := Time.Add now q.ttl },
                items := q.items.insert act.nonce act }, none) := by
    unfold Put
    simp only [hnone]
  have hperm := Heap.Push_perm q.index { nonce := act.nonce, deadline := Time.Add now q.ttl }
  refine ⟨_, heq, ?_, ?_, ?_, hperm, ?_, rfl, rfl, rfl, rfl, rfl⟩
  · simp [ItemMap.find?_insert]
  · intro k hk
    simp [ItemMap.find?_insert, hk]
  · unfold Len
    simp only
    rw [ItemMap.len_insert]
    simp [hnew]
  · simpa using hperm.length_eq

/-- Witness of C3: on a new queue (`pendingNonce = 1`), `Put` of nonce 1 leaves `pendingNonce` at
1. -/
theorem Put_new_nonce_witness :
    ∃ q1, Put (NewActQueue "a" 0) 0 ⟨1, 10, 1⟩ = (q1, none) ∧ q1.pendingNonce = 1 ∧
      Len q1 = Len (NewActQueue "a" 0) + 1 := by
  obtain ⟨q1, h1, _, _, h4, _, _, h7, _⟩ :=
    Put_new_nonce (NewActQueue "a" 0) 0 ⟨1, 10, 1⟩ (by decide)
  exact ⟨q1, h1, h7, h4⟩

end ActPool

/-! ## The round number and the proposer -/

namespace RollDPoS

theorem Sub_pos (now l : Int) (h : l < now) : 0 < Time.Sub now l := by
  unfold Time.Sub Time.maxDuration Time.minDuration
  split_ifs <;> omega

theorem toUint32_of_lt (x : Int) (h0 : 0 ≤ x) (h1 : x < 2 ^ 32) : toUint32 x = x.toNat := by
  unfold toUint32 uint32Mod
  rw [Int.emod_eq_of_lt h0 (by simpa using h1)]

/-- For a positive interval and a duration above it whose quotient fits 32 bits, the code's round
number is the specification's. -/
theorem roundNumFrom_eq_spec (l : Int) (I now T : Int) (hI : 0 < I) (hnow : l < now)
    (hbound : Time.Sub now l / I < 2 ^ 32) :
    roundNumFrom l I now T = Except.ok (roundNumSpec I T (Time.Sub now l)).toNat := by
  have hd := Sub_pos now l hnow
  unfold roundNumFrom roundNumSpec
  have hb : Time.Before l now = true := by simp [Time.Before, hnow]
  simp only [hb, Bool.true_eq_false, if_false]
  by_cases hle : Time.Sub now l ≤ I
  · have : ¬ Time.Sub now l > I := by omega
    simp [hle, this]
  · have hgt : Time.Sub now l > I := by omega
    have hI0 : ¬ I = 0 := by omega
    simp only [hgt, if_true, hI0, if_false, hle]
    have hq : (Time.Sub now l).tdiv I = Time.Sub now l / I :=
      Int.tdiv_eq_ediv (le_of_lt hd) (le_of_lt hI)
    have hm : (Time.Sub now l).tmod I = Time.Sub now l % I :=
      Int.tmod_eq_emod (le_of_lt hd) (le_of_lt hI)
    have hq1 : 1 ≤ Time.Sub now l / I := by
      have := Int.ediv_le_ediv hI (le_of_lt hgt)
      rwa [Int.ediv_self hI0] at this
    rw [hq, hm, toUint32_of_lt _ (by omega) hbound]
    have hpow : uint32Mod = 4294967296 := by norm_num [uint32Mod]
    have hlt : (Time.Sub now l / I).toNat < 4294967296 := by omega
    have h1 : 1 ≤ (Time.Sub now l / I).toNat := by omega
    split_ifs with hc
    · refine congrArg Except.ok ?_
      rw [hpow]
      omega
    · rfl

/-- C10, amended. For every block interval `I > 0`, tolerated overtime `T` (`T ≥ 0` included),
last-block time `L` (as `getRoundNum` obtains it) and time `now > L`, with `d = now.Sub(L)` and
`d div I < 2 ^ 32`:
`getRoundNum` returns `0` when `d ≤ I`; otherwise `floor(d / I) − 1` when `T = 0` or
`d mod I < T`, and `floor(d / I)` when `T > 0` and `d mod I ≥ T`. -/
theorem getRoundNum_eq_spec (rc : MiniEpochManager) (height : Nat) (I T : Int)
    (L now : Int) (hL : lastBlockTime rc height I = Except.ok L) (hI : 0 < I) (hnow : L < now) (hbound : Time.Sub now L / I < 2 ^ 32) :
    ∃ r : Nat, getRoundNum rc height I now T = Except.ok r ∧
      (r : Int) = roundNumSpec I T (Time.Sub now L) ∧
      (Time.Sub now L ≤ I → r = 0) ∧
      (I < Time.Sub now L → (T = 0 ∨ Time.Sub now L % I < T) → (r : Int) = Time.Sub now L / I - 1) ∧
      (I < Time.Sub now L → 0 < T → T ≤ Time.Sub now L % I → (r : Int) = Time.Sub now L / I) := by
  have hd := Sub_pos now L hnow
  have hq0 : 0 ≤ Time.Sub now L / I := Int.ediv_nonneg (le_of_lt hd) (le_of_lt hI)
  have hspec : 0 ≤ roundNumSpec I T (Time.Sub now L) := by
    unfold roundNumSpec
    split_ifs with h1 h2
    · exact le_refl _
    · have hgt : I ≤ Time.Sub now L := by omega
      have := Int.ediv_le_ediv hI hgt
      rw [Int.ediv_self (by omega)] at this
      omega
    · exact hq0
  have hr : (((roundNumSpec I T (Time.Sub now L)).toNat : Nat) : Int) =
      roundNumSpec I T (Time.Sub now L) := Int.toNat_of_nonneg hspec
  refine ⟨(roundNumSpec I T (Time.Sub now L)).toNat, ?_, hr, ?_, ?_, ?_⟩
  · unfold getRoundNum
    simp only [hL]
    exact roundNumFrom_eq_spec L I now T hI hnow hbound
  · intro hle
    simp [roundNumSpec, hle]
  · intro hgt hc
    rw [hr]
    have : ¬ Time.Sub now L ≤ I := by omega
    simp [roundNumSpec, this, hc]
  · intro hgt hT0 hm
    rw [hr]
    have h1 : ¬ Time.Sub now L ≤ I := by omega
    have h2 : ¬ (T = 0 ∨ Time.Sub now L % I < T) := by
      intro h
      rcases h with h | h <;> omega
    simp [roundNumSpec, h1, h2]

/-- Witness of C10 (amended): interval `10s`, last block time `90s`, `now = 125s`, no tolerated
overtime: the duration is `35s` and the round number is `2`. -/
theorem getRoundNum_eq_spec_witness :
    ∃ r : Nat, getRoundNum (sampleManager ["A", "B", "C", "D"] true (10 * second)) 10
        (10 * second) (125 * second) 0 = Except.ok r ∧ (r : Int) = 2 := by
  obtain ⟨r, h1, h2, _⟩ :=
    getRoundNum_eq_spec (sampleManager ["A", "B", "C", "D"] true (10 * second)) 10
      (10 * second) 0 (90 * second) (125 * second) (by decide) (by decide) (by decide)
      (by decide)
  exact ⟨r, h1, by rw [h2]; decide⟩

/-- C10 fails as stated. With interval `I = 1s`, no tolerated overtime, height `1` (last block
time `L` = genesis time = `0`) and `now = (2 ^ 32 + 1) s`, the duration is `d = (2 ^ 32 + 1) s > I`
and the claim gives `floor(d / I) − 1 = 2 ^ 32`; `getRoundNum` returns `0`, because `uint32(d / I)`
keeps the low 32 bits, `1`, before the decrement. -/
theorem getRoundNum_uint32_counterexample :
    lastBlockTime (sampleManager ["A"] true second) 1 second = Except.ok 0 ∧
      (0 : Int) < second ∧ (0 : Int) < 4294967297 * second ∧
      Time.Sub (4294967297 * second) 0 = 4294967297 * second ∧
      roundNumSpec second 0 (Time.Sub (4294967297 * second) 0) = 4294967296 ∧
      getRoundNum (sampleManager ["A"] true second) 1 second (4294967297 * second) 0 =
        Except.ok 0 := by
  decide

end RollDPoS

namespace RollDPoS

theorem delegateAt_of_ne_nil (m : MiniEpochManager) (idx : Nat) (hne : m.delegates ≠ []) :
    delegateAt m idx = Except.ok (m.delegates.getD (idx % m.delegates.length) "") := by
  unfold delegateAt
  have : ¬ m.delegates.length = 0 := fun h => hne (List.length_eq_zero.mp h)
  simp [this]

/-- C9, amended. For every non-empty delegate list, height and round start time: with time-based
rotation disabled, `Proposer` returns `delegates[height mod len(delegates)]` whatever the time is,
and no error; with it enabled, when `getRoundNum(height, BlockInterval(height), roundStartTime, 0)`
returns the round number `r` and `height + r < 2 ^ 64`, `Proposer` returns
`delegates[(height + r) mod len(delegates)]`, and when `getRoundNum` fails `Proposer` fails with
the same error. The index is in range in each case. -/
theorem Proposer_index (m : MiniEpochManager) (height : Nat) (roundStartTime : Int)
    (hne : m.delegates ≠ []) :
    (m.isTimeBasedRotation = false →
      Proposer m height roundStartTime =
        Except.ok (m.delegates.getD (height % m.delegates.length) "")) ∧
    (m.isTimeBasedRotation = true → ∀ r,
      getRoundNum m height (m.BlockInterval height) roundStartTime 0 = Except.ok r →
      height + r < 2 ^ 64 →
      Proposer m height roundStartTime =
        Except.ok (m.delegates.getD ((height + r) % m.delegates.length) "")) ∧
    (m.isTimeBasedRotation = true → ∀ e,
      getRoundNum m height (m.BlockInterval height) roundStartTime 0 = Except.error e →
      Proposer m height roundStartTime = Except.error e) ∧
    (∀ idx, idx % m.delegates.length < m.delegates.length) := by
  refine ⟨?_, ?_, ?_, ?_⟩
  · intro hrot
    unfold Proposer
    simp only [hrot, Bool.false_eq_true, if_false]
    exact delegateAt_of_ne_nil m height hne
  · intro hrot r hr hlt
    unfold Proposer
    simp only [hrot, if_true, hr]
    have hm : (height + r) % uint64Mod = height + r :=
      Nat.mod_eq_of_lt (by simpa [uint64Mod] using hlt)
    rw [delegateAt_of_ne_nil m _ hne, hm]
  · intro hrot e he
    unfold Proposer
    simp only [hrot, if_true, he]
  · intro idx
    exact Nat.mod_lt _ (List.length_pos.mpr hne)

/-- Witness of C9 (amended), the scenario of the specification: delegates `[A, B, C, D]`, height
`10`, interval `10s`, genesis `0`, last block time `90s`, `now = 125s`, tolerated overtime `0`: the
round number is `2`, the index `12` and the proposer `A`. -/
theorem Proposer_index_witness :
    getRoundNum (sampleManager ["A", "B", "C", "D"] true (10 * second)) 10 (10 * second)
        (125 * second) 0 = Except.ok 2 ∧
      Proposer (sampleManager ["A", "B", "C", "D"] true (10 * second)) 10 (125 * second) =
        Except.ok "A" :=
  ⟨by decide,
    ((Proposer_index (sampleManager ["A", "B", "C", "D"] true (10 * second)) 10 (125 * second)
      (by decide)).2.1 (by decide) 2 (by decide) (by decide)).trans (by decide)⟩

/-- C9 fails as stated. Delegates `[A, B, C]`, rotation enabled, height `2 ^ 64 − 1`, interval
`10s`, last block time `90s`, `now = 125s`: the round number is `2`, and the claim gives
`delegates[(2 ^ 64 + 1) mod 3] = delegates[2] = C`; `Proposer` returns `B`, because the index
`height + 2` is a `uint64` and wraps to `1`. -/
theorem Proposer_uint64_counterexample :
    getRoundNum (sampleManager ["A", "B", "C"] true (10 * second)) (2 ^ 64 - 1) (10 * second)
        (125 * second) 0 = Except.ok 2 ∧
      (sampleManager ["A", "B", "C"] true (10 * second)).delegates.getD
        ((2 ^ 64 - 1 + 2) % (sampleManager ["A", "B", "C"] true (10 * second)).delegates.length) ""
        = "C" ∧
      Proposer (sampleManager ["A", "B", "C"] true (10 * second)) (2 ^ 64 - 1) (125 * second) =
        Except.ok "B" := by
  decide

end RollDPoS

/-! ## The walks over consecutive nonces: `PendingActs` and the pending advance -/

namespace ActPool

theorem uint64Mod_eq : uint64Mod = 18446744073709551616 := by norm_num [uint64Mod]

/-- Consecutive nonces that are all keys of a map are no more than its keys. -/
theorem walk_keys_le (items : ItemMap) (p f : Nat) (hf : f ≤ uint64Mod)
    (h : ∀ i, i < f → items.contains ((p + i) % uint64Mod) = true) : f ≤ items.len := by
  have hnd : ((List.range f).map (fun i => (p + i) % uint64Mod)).Nodup := by
    refine List.Nodup.map_on ?_ (List.nodup_range f)
    intro x hx y hy hxy
    rw [List.mem_range] at hx hy
    rw [uint64Mod_eq] at hxy hf
    omega
  have hsub : (List.range f).map (fun i => (p + i) % uint64Mod) ⊆ items.keys := by
    intro a ha
    obtain ⟨i, hi, rfl⟩ := List.mem_map.mp ha
    exact (ItemMap.contains_iff_mem_keys _ _).mp (h i (List.mem_range.mp hi))
  have := (List.subperm_of_subset hnd hsub).length_le
  simpa [ItemMap.len] using this

theorem pendingLoop_spec (items : ItemMap) (f p : Nat) (acc : List SealedEnvelope)
    (hp : p < uint64Mod) :
    ∃ k, k ≤ f ∧
      pendingLoop items f p acc =
        acc ++ (List.range k).map (fun i => items.get ((p + i) % uint64Mod)) ∧
      (∀ i, i < k → items.contains ((p + i) % uint64Mod) = true) ∧
      (k < f → items.contains ((p + k) % uint64Mod) = false) := by
  induction f generalizing p acc with
  | zero => exact ⟨0, le_refl _, by simp [pendingLoop], by intro i hi; omega, by intro h; omega⟩
  | succ f ih =>
    by_cases hc : items.contains p = true
    · obtain ⟨k, hk, heq, hall, hstop⟩ :=
        ih ((p + 1) % uint64Mod) (acc ++ [items.get p]) (Nat.mod_lt _ (by norm_num [uint64Mod]))
      have hshift : ∀ i, ((p + 1) % uint64Mod + i) % uint64Mod = (p + (i + 1)) % uint64Mod := by
        intro i
        rw [uint64Mod_eq]
        omega
      have hp0 : (p + 0) % uint64Mod = p := Nat.mod_eq_of_lt hp
      refine ⟨k + 1, by omega, ?_, ?_, ?_⟩
      · unfold pendingLoop
        rw [if_pos hc, heq, List.range_succ_eq_map]
        simp only [List.map_cons, List.map_map, List.append_assoc, List.singleton_append, hp0]
        congr 2
        apply List.map_congr_left
        intro i _
        simp only [Function.comp, Nat.succ_eq_add_one]
        rw [hshift]
      · intro i hi
        cases i with
        | zero => rw [hp0]; exact hc
        | succ i =>
          have := hall i (by omega)
          rwa [hshift] at this
      · intro hlt
        have := hstop (by omega)
        rwa [hshift] at this
    · refine ⟨0, by omega, ?_, by intro i hi; omega, ?_⟩
      · unfold pendingLoop
        rw [if_neg hc]
        simp
      · intro _
        simpa [Nat.mod_eq_of_lt hp] using hc

theorem advanceLoop_spec (items : ItemMap) (f p : Nat) (hp : p < uint64Mod) :
    ∃ k, k ≤ f ∧ advanceLoop items f p = (p + k) % uint64Mod ∧
      (∀ i, i < k → items.contains ((p + i) % uint64Mod) = true) ∧
      (k < f → items.contains ((p + k) % uint64Mod) = false) := by
  induction f generalizing p with
  | zero =>
    exact ⟨0, le_refl _, by simp [advanceLoop, Nat.mod_eq_of_lt hp], by intro i hi; omega,
      by intro h; omega⟩
  | succ f ih =>
    by_cases hc : items.contains p = true
    · obtain ⟨k, hk, heq, hall, hstop⟩ :=
        ih ((p + 1) % uint64Mod) (Nat.mod_lt _ (by norm_num [uint64Mod]))
      have hshift : ∀ i, ((p + 1) % uint64Mod + i) % uint64Mod = (p + (i + 1)) % uint64Mod := by
        intro i
        rw [uint64Mod_eq]
        omega
      have hp0 : (p + 0) % uint64Mod = p := Nat.mod_eq_of_lt hp
      refine ⟨k + 1, by omega, ?_, ?_, ?_⟩
      · unfold advanceLoop
        rw [if_pos hc, heq, hshift]
      · intro i hi
        cases i with
        | zero => rw [hp0]; exact hc
        | succ i =>
          have := hall i (by omega)
          rwa [hshift] at this
      · intro hlt
        have := hstop (by omega)
        rwa [hshift] at this
    · refine ⟨0, by omega, ?_, by intro i hi; omega, ?_⟩
      · unfold advanceLoop
        rw [if_neg hc]
        simp [Nat.mod_eq_of_lt hp]
      · intro _
        simpa [Nat.mod_eq_of_lt hp] using hc

/-- The step bound of the pending advance is enough: on a map of fewer than `2 ^ 64` keys the loop
ends on a nonce that is not a key, after passing over keys only. -/
theorem advanceLoop_exits (items : ItemMap) (p : Nat) (hp : p < uint64Mod)
    (hlen : items.len < uint64Mod) :
    ∃ k, k ≤ items.len ∧ advanceLoop items (items.len + 1) p = (p + k) % uint64Mod ∧
      (∀ i, i < k → items.contains ((p + i) % uint64Mod) = true) ∧
      items.contains ((p + k) % uint64Mod) = false := by
  obtain ⟨k, hk, heq, hall, hstop⟩ := advanceLoop_spec items (items.len + 1) p hp
  have hle : k ≤ items.len := by
    by_contra hcon
    have hk1 : k = items.len + 1 := by omega
    have := walk_keys_le items p k (by omega) hall
    omega
  exact ⟨k, hle, heq, hall, hstop (by omega)⟩

/-- The step bound of the walk of `PendingActs` is enough, likewise. -/
theorem pendingLoop_exits (items : ItemMap) (p : Nat) (hp : p < uint64Mod)
    (hlen : items.len < uint64Mod) :
    ∃ k, k ≤ items.len ∧
      pendingLoop items (items.len + 1) p [] =
        (List.range k).map (fun i => items.get ((p + i) % uint64Mod)) ∧
      (∀ i, i < k → items.contains ((p + i) % uint64Mod) = true) ∧
      items.contains ((p + k) % uint64Mod) = false := by
  obtain ⟨k, hk, heq, hall, hstop⟩ := pendingLoop_spec items (items.len + 1) p [] hp
  have hle : k ≤ items.len := by
    by_contra hcon
    have hk1 : k = items.len + 1 := by omega
    have := walk_keys_le items p k (by omega) hall
    omega
  exact ⟨k, hle, by simpa using heq, hall, hstop (by omega)⟩

end ActPool

namespace ActPool

/-- C7, amended. For every non-empty queue (of fewer than `2 ^ 64` keys) whose account-state oracle
returns the confirmed nonce `c`: `PendingActs` returns the list `[items[n 0], …, items[n (k-1)]]`
with `n i = (c + 1 + i) mod 2 ^ 64`, where `k` is such that every `n i` with `i < k` is a key of
`items` and `n k` is not (the walk stops at the first gap), and it returns the queue unchanged.
When `c + 1 + k < 2 ^ 64` the nonces are `c + 1, …, c + k` themselves. -/
theorem PendingActs_walk (q : actQueue) (oracle : AccountOracle) (addr : String) (c : Nat)
    (hne : Len q ≠ 0) (hlen : Len q < uint64Mod)
    (haddr : oracle.FromString q.address = some addr)
    (hstate : oracle.AccountStateNonce addr = some c) :
    ∃ k, PendingActs q oracle =
        (q, (List.range k).map (fun i => q.items.get ((c + 1 + i) % uint64Mod))) ∧
      (∀ i, i < k → q.items.contains ((c + 1 + i) % uint64Mod) = true) ∧
      q.items.contains ((c + 1 + k) % uint64Mod) = false ∧
      (c + 1 + k < uint64Mod →
        PendingActs q oracle = (q, (List.range k).map (fun i => q.items.get (c + 1 + i))) ∧
        (∀ i, i < k → q.items.contains (c + 1 + i) = true) ∧
        q.items.contains (c + 1 + k) = false) := by
  obtain ⟨k, _, heq, hall, hstop⟩ :=
    pendingLoop_exits q.items ((c + 1) % uint64Mod) (Nat.mod_lt _ (by norm_num [uint64Mod])) hlen
  have hsh : ∀ i, ((c + 1) % uint64Mod + i) % uint64Mod = (c + 1 + i) % uint64Mod := by
    intro i
    rw [uint64Mod_eq]
    omega
  simp only [hsh] at heq hall hstop
  have hres : PendingActs q oracle =
      (q, (List.range k).map (fun i => q.items.get ((c + 1 + i) % uint64Mod))) := by
    unfold PendingActs
    rw [if_neg hne]
    simp only [haddr, hstate]
    unfold Len at hne
    rw [heq]
  refine ⟨k, hres, hall, hstop, ?_⟩
  intro hk
  have hmod : ∀ i, i ≤ k → (c + 1 + i) % uint64Mod = c + 1 + i := by
    intro i hi
    exact Nat.mod_eq_of_lt (by omega)
  refine ⟨?_, ?_, ?_⟩
  · rw [hres]
    congr 1
    apply List.map_congr_left
    intro i hi
    rw [hmod i (le_of_lt (List.mem_range.mp hi))]
  · intro i hi
    have := hall i hi
    rwa [hmod i (le_of_lt hi)] at this
  · rwa [hmod k (le_refl _)] at hstop

/-- Witness of C7 (amended): nonces 1, 2 and 4 in the queue, confirmed nonce 0: the walk takes
the actions of nonces `1, …, k` and stops at the gap `k + 1`. -/
theorem PendingActs_walk_witness :
    ∃ k, PendingActs queue124 (constOracle 0) =
        (queue124, (List.range k).map (fun i => queue124.items.get (0 + 1 + i))) ∧
      (∀ i, i < k → queue124.items.contains (0 + 1 + i) = true) ∧
      queue124.items.contains (0 + 1 + k) = false := by
  obtain ⟨k, _, h2, _, h4⟩ :=
    PendingActs_walk queue124 (constOracle 0) "a" 0 (by decide) (by decide) (by decide)
      (by decide)
  have hk : k < 3 := by
    by_contra hcon
    have := h2 2 (by omega)
    revert this
    decide
  exact ⟨k, h4 (by rw [uint64Mod_eq]; omega)⟩

/-- C7 fails as stated. The queue holds nonce `0` only and the oracle reports the confirmed nonce
`c = 2 ^ 64 − 1`: no nonce from `c + 1 = 2 ^ 64` on is a key, so the claim gives the empty list;
`PendingActs` returns `[items[0]]`, because `c + 1` is a `uint64` and wraps to `0`. -/
theorem PendingActs_uint64_counterexample :
    (runCalls (NewActQueue "a" 0) [Call.put 0 ⟨0, 1, 1⟩]).items.contains (2 ^ 64 - 1 + 1) = false ∧
      Len (runCalls (NewActQueue "a" 0) [Call.put 0 ⟨0, 1, 1⟩]) ≠ 0 ∧
      (PendingActs (runCalls (NewActQueue "a" 0) [Call.put 0 ⟨0, 1, 1⟩])
        (constOracle (2 ^ 64 - 1))).2 = [⟨0, 1, 1⟩] := by
  decide

end ActPool

/-! ## The timeout sweep -/

namespace ActPool

/-- Removing the entry at `i` by moving the last of the first `n` entries into its place leaves the
other `n - 1` entries. -/
theorem swapRemove_perm (l : noncePriorityQueue) (i n : Nat) (hi : i < n) (hn : n ≤ l.length) :
    (l.getD i default :: (l.set i (l.getD (n - 1) default)).take (n - 1)).Perm (l.take n) := by
  have hil : i < l.length := by omega
  have hnl : n - 1 < l.length := by omega
  rw [List.getD_eq_getElem _ _ hil, List.getD_eq_getElem _ _ hnl]
  have htake : l.take n = l.take (n - 1) ++ [l[n - 1]] := by
    have : n = n - 1 + 1 := by omega
    conv_lhs => rw [this, List.take_succ, List.getElem?_eq_getElem hnl]
    rfl
  rw [htake, List.set_take]
  by_cases hlast : i = n - 1
  · have he : l[i] = l[n - 1] := by simp [hlast]
    rw [List.set_eq_of_length_le (by simp; omega), he]
    exact @List.perm_append_comm _ [l[n - 1]] _
  · have hi1 : i < n - 1 := by omega
    rw [List.perm_iff_count]
    intro a
    have hlen : i < (l.take (n - 1)).length := by simp; omega
    rw [List.count_cons, List.count_set _ _ _ _ hlen, List.count_append, List.count_singleton,
      List.getElem_take]
    have h1 : l[i] = a → 0 < List.count a (l.take (n - 1)) := by
      intro e
      rw [← e, ← @List.getElem_take _ l (n - 1) i hlen]
      exact List.count_pos_iff.mpr (List.getElem_mem _)
    simp only [beq_iff_eq]
    by_cases ha : l[i] = a
    · have := h1 ha
      simp only [ha, if_true]
      omega
    · simp [ha]

/-- What the loop of `cleanTimeout` does, from any of its states: it removes a list `rem` of
timed-out entries, deletes their nonces from `items`, reads their actions, rewinds the pending
nonce, and keeps the other entries, none of which has timed out. -/
theorem cleanLoop_spec (now : Int) (fuel : Nat) (s : CleanState)
    (hfuel : s.size - s.i ≤ fuel) (hi : s.i ≤ s.size) (hsize : s.size ≤ s.q.index.length)
    (hkept : ∀ j, j < s.i → expired now (s.q.index.getD j default) = false) :
    ∃ rem : List nonceWithTTL,
      (cleanLoop now fuel s).q.items = sweepItems s.q.items rem ∧
      (cleanLoop now fuel s).q.pendingNonce = sweepPending s.q.pendingNonce rem ∧
      (cleanLoop now fuel s).removedFromQueue = s.removedFromQueue ++ sweepActs s.q.items rem ∧
      (∀ e ∈ rem, expired now e = true) ∧
      (∀ e ∈ (cleanLoop now fuel s).q.index.take (cleanLoop now fuel s).size,
        expired now e = false) ∧
      (rem ++ (cleanLoop now fuel s).q.index.take (cleanLoop now fuel s).size).Perm
        (s.q.index.take s.size) ∧
      (cleanLoop now fuel s).q.address = s.q.address ∧
      (cleanLoop now fuel s).q.confirmedNonce = s.q.confirmedNonce ∧
      (cleanLoop now fuel s).q.accountBalance = s.q.accountBalance ∧
      (cleanLoop now fuel s).q.ttl = s.q.ttl := by
  have hdone : ∀ s : CleanState, s.size ≤ s.i → s.size ≤ s.q.index.length →
      (∀ j, j < s.i → expired now (s.q.index.getD j default) = false) →
      ∀ e ∈ s.q.index.take s.size, expired now e = false := by
    intro s h1 h2 h3 e he
    obtain ⟨j, hj, rfl⟩ := List.mem_iff_getElem.mp he
    have hj1 : j < s.size := by
      have := hj
      simp only [List.length_take] at this
      omega
    have := h3 j (by omega)
    rw [List.getD_eq_getElem _ _ (by omega)] at this
    rw [List.getElem_take]
    exact this
  induction fuel generalizing s with
  | zero =>
    refine ⟨[], rfl, rfl, by simp [cleanLoop, sweepActs], by simp, ?_, by simp [cleanLoop],
      rfl, rfl, rfl, rfl⟩
    exact hdone s (by omega) hsize hkept
  | succ fuel ih =>
    by_cases hlt : s.i < s.size
    · by_cases hexp : Time.After now (s.q.index.getD s.i default).deadline = true
      · -- the entry at `i` has timed out
        obtain ⟨s1, hstep, ei, esize, eitems, eindex, epend, erem, eaddr, econf, ebal, ettl⟩ :
            ∃ s1 : CleanState, cleanLoop now (fuel + 1) s = cleanLoop now fuel s1 ∧
              s1.i = s.i ∧ s1.size = s.size - 1 ∧
              s1.q.items = s.q.items.delete (s.q.index.getD s.i default).nonce ∧
              s1.q.index = s.q.index.set s.i (s.q.index.getD (s.size - 1) default) ∧
              s1.q.pendingNonce = (if (s.q.index.getD s.i default).nonce < s.q.pendingNonce
                  then (s.q.index.getD s.i default).nonce else s.q.pendingNonce) ∧
              s1.removedFromQueue =
                s.removedFromQueue ++ [s.q.items.get (s.q.index.getD s.i default).nonce] ∧
              s1.q.address = s.q.address ∧ s1.q.confirmedNonce = s.q.confirmedNonce ∧
              s1.q.accountBalance = s.q.accountBalance ∧ s1.q.ttl = s.q.ttl := by
          refine ⟨CleanState.mk s.i (s.size - 1)
              (actQueue.mk s.q.address
                (s.q.items.delete (s.q.index.getD s.i default).nonce)
                (s.q.index.set s.i (s.q.index.getD (s.size - 1) default))
                (if (s.q.index.getD s.i default).nonce < s.q.pendingNonce
                  then (s.q.index.getD s.i default).nonce else s.q.pendingNonce)
                s.q.confirmedNonce s.q.accountBalance s.q.ttl)
              (s.removedFromQueue ++ [s.q.items.get (s.q.index.getD s.i default).nonce]),
            ?_, rfl, rfl, rfl, rfl, rfl, rfl, rfl, rfl, rfl, rfl⟩
          conv_lhs => unfold cleanLoop
          rw [if_pos hlt, if_pos hexp]
          by_cases hp : (s.q.index.getD s.i default).nonce < s.q.pendingNonce
          · simp only [if_pos hp]
          · simp only [if_neg hp]
        obtain ⟨rem, h1, h2, h3, h4, h5, h6, h7, h8, h9, h10⟩ := ih s1
          (by rw [esize, ei]; omega) (by rw [esize, ei]; omega)
          (by rw [esize, eindex, List.length_set]; omega)
          (by
            intro j hj
            rw [ei] at hj
            rw [eindex]
            have := hkept j hj
            rw [List.getD_eq_getElem?_getD] at this ⊢
            rw [List.getElem?_set]
            have hne : ¬ s.i = j := by omega
            simpa [hne] using this)
        rw [hstep]
        rw [eitems] at h1 h3
        rw [epend] at h2
        rw [erem] at h3
        rw [esize, eindex] at h6
        refine ⟨s.q.index.getD s.i default :: rem, h1, h2, ?_, ?_, h5, ?_, h7.trans eaddr,
          h8.trans econf, h9.trans ebal, h10.trans ettl⟩
        · rw [h3]
          simp [sweepActs]
        · intro e he
          rcases List.mem_cons.mp he with he | he
          · rw [he]; exact hexp
          · exact h4 e he
        · simp only [List.cons_append]
          exact (List.Perm.cons _ h6).trans (swapRemove_perm s.q.index s.i s.size hlt hsize)
      · -- the entry at `i` stays
        have hstep : cleanLoop now (fuel + 1) s = cleanLoop now fuel { s with i := s.i + 1 } := by
          conv_lhs => unfold cleanLoop
          rw [if_pos hlt, if_neg hexp]
        obtain ⟨rem, h1, h2, h3, h4, h5, h6, h7, h8, h9, h10⟩ := ih { s with i := s.i + 1 }
          (by show s.size - (s.i + 1) ≤ fuel; omega) (by show s.i + 1 ≤ s.size; omega) hsize
          (by
            intro j hj
            have hj : j < s.i + 1 := hj
            show expired now (s.q.index.getD j default) = false
            by_cases hj1 : j < s.i
            · exact hkept j hj1
            · have : j = s.i := by omega
              rw [this]
              simpa [expired] using hexp)
        rw [hstep]
        exact ⟨rem, h1, h2, h3, h4, h5, h6, h7, h8, h9, h10⟩
    · have hstep : cleanLoop now (fuel + 1) s = s := by
        conv_lhs => unfold cleanLoop
        rw [if_neg hlt]
      rw [hstep]
      refine ⟨[], rfl, rfl, by simp [sweepActs], by simp, ?_, by simp, rfl, rfl, rfl, rfl⟩
      exact hdone s (by omega) hsize hkept

end ActPool

namespace ActPool

namespace Heap

open noncePriorityQueue

theorem downLoop_perm (fuel : Nat) (h : noncePriorityQueue) (i n : Nat) (hn : n ≤ h.length) :
    (downLoop fuel h i n).Perm h := by
  induction fuel generalizing h i with
  | zero => exact List.Perm.refl _
  | succ fuel ih =>
    unfold downLoop
    simp only
    split_ifs with h1 h2 h3 h4
    · exact List.Perm.refl _
    · exact List.Perm.refl _
    · exact (ih _ _ (by rw [length_Swap]; exact hn)).trans
        (Swap_perm h i (2 * i + 1 + 1) (by omega) (by omega))
    · exact List.Perm.refl _
    · exact (ih _ _ (by rw [length_Swap]; exact hn)).trans
        (Swap_perm h i (2 * i + 1) (by omega) (by omega))

theorem down_perm (h : noncePriorityQueue) (i n : Nat) (hn : n ≤ h.length) :
    (down h i n).Perm h :=
  downLoop_perm _ h i n hn

theorem initLoop_perm (n k : Nat) (h : noncePriorityQueue) (hn : n ≤ h.length) :
    (initLoop n k h).Perm h := by
  induction k generalizing h with
  | zero => exact List.Perm.refl _
  | succ k ih =>
    unfold initLoop
    have hp := down_perm h k n hn
    exact (ih _ (by rw [hp.length_eq]; exact hn)).trans hp

/-- The function `heap.Init` rearranges the entries and does nothing else to them. -/
theorem Init_perm (h : noncePriorityQueue) : (Heap.Init h).Perm h :=
  initLoop_perm _ _ h (le_refl _)

end Heap

theorem sweepItems_find? (items : ItemMap) (rem : List nonceWithTTL) (k : Nat) :
    (sweepItems items rem).find? k = if k ∈ nonces rem then none else items.find? k := by
  induction rem generalizing items with
  | nil => simp [sweepItems, nonces]
  | cons e rest ih =>
    unfold sweepItems
    rw [ih, ItemMap.find?_delete]
    simp only [nonces, List.map_cons, List.mem_cons]
    by_cases h1 : k ∈ List.map (fun e => e.nonce) rest
    · simp [nonces, h1]
    · by_cases h2 : k = e.nonce
      · simp [nonces, h1, h2]
      · simp [nonces, h1, h2]

theorem sweepActs_eq_map (items : ItemMap) (rem : List nonceWithTTL) (hnd : (nonces rem).Nodup) :
    sweepActs items rem = rem.map (fun e => items.get e.nonce) := by
  induction rem generalizing items with
  | nil => rfl
  | cons e rest ih =>
    simp only [nonces, List.map_cons, List.nodup_cons] at hnd
    unfold sweepActs
    rw [ih _ (by simpa [nonces] using hnd.2)]
    simp only [List.map_cons, List.cons.injEq, true_and]
    apply List.map_congr_left
    intro x hx
    rw [ItemMap.get_delete]
    have : ¬ x.nonce = e.nonce := by
      intro heq
      exact hnd.1 (heq ▸ List.mem_map_of_mem _ hx)
    simp [this]

theorem sweepPending_le (p : Nat) (rem : List nonceWithTTL) : sweepPending p rem ≤ p := by
  induction rem generalizing p with
  | nil => exact le_refl _
  | cons e rest ih =>
    unfold sweepPending
    split_ifs with h
    · exact (ih _).trans (le_of_lt h)
    · exact ih _

theorem sweepPending_le_mem (p : Nat) (rem : List nonceWithTTL) (e : nonceWithTTL)
    (he : e ∈ rem) : sweepPending p rem ≤ e.nonce := by
  induction rem generalizing p with
  | nil => cases he
  | cons x rest ih =>
    unfold sweepPending
    rcases List.mem_cons.mp he with h | h
    · subst h
      split_ifs with hx
      · exact sweepPending_le _ _
      · exact (sweepPending_le _ _).trans (not_lt.mp hx)
    · exact ih _ h

theorem sweepPending_eq_or_mem (p : Nat) (rem : List nonceWithTTL) :
    sweepPending p rem = p ∨ sweepPending p rem ∈ nonces rem := by
  induction rem generalizing p with
  | nil => exact Or.inl rfl
  | cons x rest ih =>
    unfold sweepPending
    split_ifs with hx
    · rcases ih x.nonce with h | h
      · exact Or.inr (by simp [nonces, h])
      · exact Or.inr (by simp only [nonces, List.map_cons, List.mem_cons]; exact Or.inr h)
    · rcases ih p with h | h
      · exact Or.inl h
      · exact Or.inr (by simp only [nonces, List.map_cons, List.mem_cons]; exact Or.inr h)

/-- What `cleanTimeout` does when `ttl ≠ 0`: it removes a list `rem` of entries, which are the
timed-out entries of the index in some order, and keeps the others. -/
theorem cleanTimeout_spec (q : actQueue) (now : Int) (httl : q.ttl ≠ 0) :
    ∃ rem : List nonceWithTTL,
      rem.Perm (q.index.filter (expired now)) ∧
      (cleanTimeout q now).1.index.Perm (q.index.filter (fun e => !expired now e)) ∧
      (cleanTimeout q now).1.items = sweepItems q.items rem ∧
      (cleanTimeout q now).1.pendingNonce = sweepPending q.pendingNonce rem ∧
      (cleanTimeout q now).2 = sweepActs q.items rem ∧
      (cleanTimeout q now).1.address = q.address ∧
      (cleanTimeout q now).1.confirmedNonce = q.confirmedNonce ∧
      (cleanTimeout q now).1.accountBalance = q.accountBalance ∧
      (cleanTimeout q now).1.ttl = q.ttl := by
  obtain ⟨rem, h1, h2, h3, h4, h5, h6, h7, h8, h9, h10⟩ :=
    cleanLoop_spec now q.index.length
      { i := 0, size := q.index.length, q := q, removedFromQueue := [] }
      (by simp) (by simp) (by simp) (by intro j hj; exact absurd hj (Nat.not_lt_zero _))
  simp only [List.take_length, List.nil_append] at h3 h6
  have hfe := h6.filter (expired now)
  have hfk := h6.filter (fun e => !expired now e)
  rw [List.filter_append] at hfe hfk
  have e1 : rem.filter (expired now) = rem := List.filter_eq_self.mpr h4
  have e2 : ∀ l : List nonceWithTTL, (∀ e ∈ l, expired now e = false) →
      l.filter (expired now) = [] := by
    intro l hl
    exact List.filter_eq_nil_iff.mpr (fun a ha => by simp [hl a ha])
  have e3 : rem.filter (fun e => !expired now e) = [] :=
    List.filter_eq_nil_iff.mpr (fun a ha => by simp [h4 a ha])
  have e4 : ∀ l : List nonceWithTTL, (∀ e ∈ l, expired now e = false) →
      l.filter (fun e => !expired now e) = l := by
    intro l hl
    exact List.filter_eq_self.mpr (fun a ha => by simp [hl a ha])
  rw [e1, e2 _ h5, List.append_nil] at hfe
  rw [e3, e4 _ h5, List.nil_append] at hfk
  refine ⟨rem, hfe, ?_, ?_, ?_, ?_, ?_, ?_, ?_, ?_⟩
  · unfold cleanTimeout
    rw [if_neg httl]
    exact (Heap.Init_perm _).trans hfk
  all_goals
    unfold cleanTimeout
    rw [if_neg httl]
    assumption

end ActPool

namespace ActPool

/-- C5. For every queue whose index holds exactly the keys of `items`, each once (as in every queue
built by the methods of the queue, `runCalls_sameNonceSet`), and every clock reading `now`: when `ttl = 0`, `UpdateQueue` leaves `items` and `index` as they are and returns the
empty list, whatever the deadlines are; when `ttl ≠ 0`, the index it leaves is a rearrangement of
the entries whose deadline is not strictly earlier than `now`, the keys of the entries whose
deadline is strictly earlier than `now` are deleted from `items`, every other key keeps its action
(so every entry left in the index still has its action), and the list returned is made of the
actions stored for the removed entries, one for each. -/
theorem UpdateQueue_timeout_sweep (q : actQueue) (now : Int) (hsame : SameNonceSet q) :
    (q.ttl = 0 →
      (UpdateQueue q now).1.items = q.items ∧ (UpdateQueue q now).1.index = q.index ∧
      (UpdateQueue q now).2 = []) ∧
    (q.ttl ≠ 0 →
      (UpdateQueue q now).1.index.Perm (q.index.filter (fun e => decide (¬ e.deadline < now))) ∧
      (∀ e ∈ q.index, e.deadline < now → (UpdateQueue q now).1.items.find? e.nonce = none) ∧
      (∀ k, (∀ e ∈ q.index, e.nonce = k → ¬ e.deadline < now) →
        (UpdateQueue q now).1.items.find? k = q.items.find? k) ∧
      (∀ e ∈ (UpdateQueue q now).1.index,
        (UpdateQueue q now).1.items.find? e.nonce = q.items.find? e.nonce ∧
        q.items.contains e.nonce = true) ∧
      ∃ rem : List nonceWithTTL,
        rem.Perm (q.index.filter (fun e => decide (e.deadline < now))) ∧
        (UpdateQueue q now).2 = rem.map (fun e => q.items.get e.nonce) ∧
        ∀ e ∈ rem, q.items.find? e.nonce = some (q.items.get e.nonce)) := by
  constructor
  · intro httl
    unfold UpdateQueue cleanTimeout
    simp [httl]
  · intro httl
    obtain ⟨rem, h1, h2, h3, _, h5, _⟩ := cleanTimeout_spec q now httl
    have hexp : (fun e : nonceWithTTL => expired now e) =
        (fun e => decide (e.deadline < now)) := by
      funext e
      simp [expired, Time.After]
    have hkeep : (fun e : nonceWithTTL => !expired now e) =
        (fun e => decide (¬ e.deadline < now)) := by
      funext e
      by_cases h : e.deadline < now <;> simp [expired, Time.After, h]
    have h1a : rem.Perm (q.index.filter (fun e => decide (e.deadline < now))) := by
      rw [← hexp]; exact h1
    rw [hkeep] at h2
    have hitems : (UpdateQueue q now).1.items = sweepItems q.items rem := by
      unfold UpdateQueue; exact h3
    have hindex : (UpdateQueue q now).1.index = (cleanTimeout q now).1.index := by
      unfold UpdateQueue; rfl
    have hret : (UpdateQueue q now).2 = sweepActs q.items rem := by
      unfold UpdateQueue; exact h5
    have hmemrem : ∀ e, e ∈ rem ↔ e ∈ q.index ∧ e.deadline < now := by
      intro e
      rw [h1a.mem_iff, List.mem_filter]
      simp
    have hndrem : (nonces rem).Nodup := by
      have hsub : (q.index.filter (fun e => decide (e.deadline < now))).Sublist q.index :=
        List.filter_sublist _
      have hn : (q.index.map (fun e => e.nonce)).Nodup := hsame.1
      have := (hsub.map (fun e => e.nonce)).nodup hn
      exact (h1a.map (fun e => e.nonce)).nodup_iff.mpr this
    have hkeepfind : ∀ k, (∀ e ∈ q.index, e.nonce = k → ¬ e.deadline < now) →
        (UpdateQueue q now).1.items.find? k = q.items.find? k := by
      intro k hk
      rw [hitems, sweepItems_find?]
      have : k ∉ nonces rem := by
        intro hmem
        obtain ⟨e, he, hek⟩ := List.mem_map.mp hmem
        exact hk e ((hmemrem e).mp he).1 hek ((hmemrem e).mp he).2
      simp [this]
    refine ⟨?_, ?_, hkeepfind, ?_, rem, h1a, ?_, ?_⟩
    · rw [hindex]; exact h2
    · intro e he hd
      rw [hitems, sweepItems_find?]
      have : e.nonce ∈ nonces rem := List.mem_map_of_mem _ ((hmemrem e).mpr ⟨he, hd⟩)
      simp [this]
    · intro e he
      rw [hindex] at he
      have he1 := h2.mem_iff.mp he
      rw [List.mem_filter] at he1
      have hnot : ¬ e.deadline < now := by simpa using he1.2
      refine ⟨hkeepfind e.nonce ?_, hsame.2.1 _ (List.mem_map_of_mem _ he1.1)⟩
      intro e2 he2 hn
      -- two entries of one nonce are one entry
      have : e2 = e := by
        have hinj := List.inj_on_of_nodup_map hsame.1
        exact hinj he2 he1.1 hn
      rw [this]
      exact hnot
    · rw [hret, sweepActs_eq_map _ _ hndrem]
    · intro e he
      have hc := hsame.2.1 _ (List.mem_map_of_mem (fun e => e.nonce) ((hmemrem e).mp he).1)
      unfold ItemMap.contains at hc
      unfold ItemMap.get
      cases hf : q.items.find? e.nonce with
      | none => simp [hf] at hc
      | some v => simp

/-- Witness of C5: `ttl = 1s`, nonces 1 and 2 put at time `0` and nonce 3 put at time `2s`; at
`now = 2.5s` the entries of 1 and 2 have timed out and the entry of 3 has not. -/
theorem UpdateQueue_timeout_sweep_witness :
    (UpdateQueue queueTTL 2500000000).1.index.Perm
        (queueTTL.index.filter (fun e => decide (¬ e.deadline < 2500000000))) ∧
      (UpdateQueue queueTTL 2500000000).1.items.find? 3 = queueTTL.items.find? 3 ∧
      (UpdateQueue queueTTL 2500000000).1.items.find? 1 = none := by
  have h := (UpdateQueue_timeout_sweep queueTTL 2500000000 (by decide)).2 (by decide)
  exact ⟨h.1, h.2.2.1 3 (by decide), h.2.1 ⟨1, 1000000000⟩ (by decide) (by decide)⟩

end ActPool

/-! ## The pending nonce after `UpdateQueue` -/

namespace ActPool

theorem len_lt_of_keys_lt (items : ItemMap) (N : Nat)
    (h : ∀ n, items.contains n = true → n < N) : items.len ≤ N := by
  have hsub : items.keys ⊆ List.range N := by
    intro k hk
    exact List.mem_range.mpr (h k ((ItemMap.contains_iff_mem_keys _ _).mpr hk))
  have := (List.subperm_of_subset (List.nodup_dedup _) hsub).length_le
  simpa [ItemMap.len] using this

/-- From a pending nonce above the confirmed nonce with every nonce between them present, on a map
without the nonce `2 ^ 64 − 1`, the pending advance ends on the least free nonce above the confirmed
nonce. -/
theorem advanceLoop_least (items : ItemMap) (c p : Nat) (hc : c < p) (hp : p < uint64Mod)
    (hbetween : ∀ n, c < n → n < p → items.contains n = true)
    (hkeys : ∀ n, items.contains n = true → n < uint64Mod - 1) :
    IsLeastFreeNonce items c (advanceLoop items (items.len + 1) p) := by
  have hlen : items.len < uint64Mod := by
    have := len_lt_of_keys_lt items (uint64Mod - 1) hkeys
    rw [uint64Mod_eq] at this ⊢
    omega
  obtain ⟨k, _, heq, hall, hstop⟩ := advanceLoop_exits items p hp hlen
  have hnowrap : p + k < uint64Mod := by
    by_contra hcon
    have hi : uint64Mod - 1 - p < k := by
      rw [uint64Mod_eq] at hcon hp ⊢
      omega
    have h1 := hall _ hi
    have h2 : (p + (uint64Mod - 1 - p)) % uint64Mod = uint64Mod - 1 := by
      rw [uint64Mod_eq] at hp ⊢
      omega
    rw [h2] at h1
    have := hkeys _ h1
    omega
  have hmod : ∀ i, i ≤ k → (p + i) % uint64Mod = p + i := by
    intro i hi
    exact Nat.mod_eq_of_lt (by omega)
  rw [heq, hmod k (le_refl _)]
  rw [hmod k (le_refl _)] at hstop
  refine ⟨by omega, hstop, ?_⟩
  intro n hn hcn
  by_cases hnp : n < p
  · exact hbetween n (by omega) hnp
  · have := hall (n - p) (by omega)
    rw [hmod _ (by omega)] at this
    rwa [show p + (n - p) = n by omega] at this

/-- C6, amended. For every queue whose index holds exactly the keys of `items`, in which
`confirmedNonce < pendingNonce < 2 ^ 64`, every nonce in `confirmedNonce+1 .. pendingNonce−1` is a
key of `items`, every key of `items` is above `confirmedNonce`, and `2 ^ 64 − 1` is not a key:
immediately after `UpdateQueue`, `pendingNonce` is the least nonce `≥ confirmedNonce + 1` that is
not a key of `items` (and `confirmedNonce` is what it was). -/
theorem UpdateQueue_pendingNonce_least (q : actQueue) (now : Int) (hsame : SameNonceSet q)
    (hconf : q.confirmedNonce < q.pendingNonce) (hp : q.pendingNonce < uint64Mod)
    (hbetween : ∀ n, q.confirmedNonce < n → n < q.pendingNonce → q.items.contains n = true)
    (hkeys : ∀ n, q.items.contains n = true → q.confirmedNonce < n ∧ n < uint64Mod - 1) :
    IsLeastFreeNonce (UpdateQueue q now).1.items (UpdateQueue q now).1.confirmedNonce
        (UpdateQueue q now).1.pendingNonce ∧
      (UpdateQueue q now).1.confirmedNonce = q.confirmedNonce := by
  by_cases httl : q.ttl = 0
  · have h1 : UpdateQueue q now =
        ({ q with pendingNonce := advanceLoop q.items (q.items.len + 1) q.pendingNonce }, []) := by
      unfold UpdateQueue cleanTimeout
      simp [httl]
    rw [h1]
    exact ⟨advanceLoop_least q.items q.confirmedNonce q.pendingNonce hconf hp hbetween
      (fun n hn => (hkeys n hn).2), rfl⟩
  · obtain ⟨rem, h1, _, h3, h4, _, _, h7, _⟩ := cleanTimeout_spec q now httl
    have hcontains : ∀ n, (sweepItems q.items rem).contains n = true →
        q.items.contains n = true := by
      intro n hn
      unfold ItemMap.contains at hn ⊢
      rw [sweepItems_find?] at hn
      by_cases hmem : n ∈ nonces rem
      · simp [hmem] at hn
      · simpa [hmem] using hn
    have hremkey : ∀ n, n ∈ nonces rem → q.items.contains n = true := by
      intro n hn
      obtain ⟨e, he, rfl⟩ := List.mem_map.mp hn
      have he1 := List.mem_of_mem_filter (h1.mem_iff.mp he)
      exact hsame.2.1 _ (List.mem_map_of_mem _ he1)
    have hconf1 : q.confirmedNonce < sweepPending q.pendingNonce rem := by
      rcases sweepPending_eq_or_mem q.pendingNonce rem with h | h
      · rw [h]; exact hconf
      · exact (hkeys _ (hremkey _ h)).1
    have hp1 : sweepPending q.pendingNonce rem < uint64Mod :=
      lt_of_le_of_lt (sweepPending_le _ _) hp
    have hbetween1 : ∀ n, q.confirmedNonce < n → n < sweepPending q.pendingNonce rem →
        (sweepItems q.items rem).contains n = true := by
      intro n hn1 hn2
      have hnot : n ∉ nonces rem := by
        intro hmem
        obtain ⟨e, he, hen⟩ := List.mem_map.mp hmem
        have := sweepPending_le_mem q.pendingNonce rem e he
        have hen : e.nonce = n := hen
        omega
      have := hbetween n hn1 (lt_of_lt_of_le hn2 (sweepPending_le _ _))
      unfold ItemMap.contains at this ⊢
      rw [sweepItems_find?]
      simpa [hnot] using this
    have hleast := advanceLoop_least (sweepItems q.items rem) q.confirmedNonce
      (sweepPending q.pendingNonce rem) hconf1 hp1 hbetween1
      (fun n hn => (hkeys n (hcontains n hn)).2)
    have e1 : (UpdateQueue q now).1.items = sweepItems q.items rem := by
      unfold UpdateQueue; exact h3
    have e2 : (UpdateQueue q now).1.confirmedNonce = q.confirmedNonce := by
      unfold UpdateQueue; exact h7
    have e3 : (UpdateQueue q now).1.pendingNonce =
        advanceLoop (sweepItems q.items rem) ((sweepItems q.items rem).len + 1)
          (sweepPending q.pendingNonce rem) := by
      unfold UpdateQueue
      simp only
      rw [h3, h4]
    rw [e1, e2, e3]
    exact ⟨hleast, rfl⟩

/-- Witness of C6 (amended): `ttl = 1s`, nonces 1 and 2 put at time `0`, pending nonce 3, nonce 3
put at time `2s`; `UpdateQueue` at `2.5s` leaves the pending nonce on the least free nonce. -/
theorem UpdateQueue_pendingNonce_least_witness :
    IsLeastFreeNonce (UpdateQueue queueTTL 2500000000).1.items
        (UpdateQueue queueTTL 2500000000).1.confirmedNonce
        (UpdateQueue queueTTL 2500000000).1.pendingNonce ∧
      (UpdateQueue queueTTL 2500000000).1.pendingNonce = 1 :=
  ⟨(UpdateQueue_pendingNonce_least queueTTL 2500000000 (by decide) (by decide) (by decide)
      (by
        intro n h1 h2
        have h2 : n < 3 := h2
        have h1 : 0 < n := h1
        have hn : n = 1 ∨ n = 2 := by omega
        rcases hn with hn | hn <;> rw [hn] <;> decide)
      (by
        intro n hn
        have hmem := (ItemMap.contains_iff_mem_keys _ _).mp hn
        have hk : queueTTL.items.keys = [3, 2, 1] := by decide
        rw [hk] at hmem
        have hc : queueTTL.confirmedNonce = 0 := by decide
        rw [hc, uint64Mod_eq]
        simp only [List.mem_cons, List.mem_singleton, List.not_mem_nil, or_false] at hmem
        omega)).1,
    by decide⟩

/-- C6 fails as stated. From a new queue: `Put` of nonce 1, `UpdateQueue` (pending nonce 2),
`FilterNonce(2)` (nonce 1 is removed) and `UpdateQueue` again: the pending nonce stays 2 and the
confirmed nonce is 0, while nonce 1 is `≥ confirmedNonce + 1`, smaller than 2 and not a key of
`items`. -/
theorem UpdateQueue_pendingNonce_counterexample :
    (runCalls (NewActQueue "a" 0)
        [Call.put 0 ⟨1, 1, 1⟩, Call.updateQueue 0, Call.filterNonce 2,
          Call.updateQueue 0]).pendingNonce = 2 ∧
      (runCalls (NewActQueue "a" 0)
        [Call.put 0 ⟨1, 1, 1⟩, Call.updateQueue 0, Call.filterNonce 2,
          Call.updateQueue 0]).confirmedNonce = 0 ∧
      (runCalls (NewActQueue "a" 0)
        [Call.put 0 ⟨1, 1, 1⟩, Call.updateQueue 0, Call.filterNonce 2,
          Call.updateQueue 0]).items.contains 1 = false ∧
      ¬ IsLeastFreeNonce
        (runCalls (NewActQueue "a" 0)
          [Call.put 0 ⟨1, 1, 1⟩, Call.updateQueue 0, Call.filterNonce 2,
            Call.updateQueue 0]).items
        (runCalls (NewActQueue "a" 0)
          [Call.put 0 ⟨1, 1, 1⟩, Call.updateQueue 0, Call.filterNonce 2,
            Call.updateQueue 0]).confirmedNonce
        (runCalls (NewActQueue "a" 0)
          [Call.put 0 ⟨1, 1, 1⟩, Call.updateQueue 0, Call.filterNonce 2,
            Call.updateQueue 0]).pendingNonce := by
  decide

end ActPool

/-! ## AllActs -/

namespace ActPool

theorem sortSort_perm (h : noncePriorityQueue) : (sortSort h).Perm h :=
  List.perm_insertionSort _ h

theorem sortSort_sorted (h : noncePriorityQueue) :
    (nonces (sortSort h)).Sorted (fun a b => a ≤ b) := by
  haveI : IsTotal nonceWithTTL (fun a b => a.nonce ≤ b.nonce) := ⟨fun a b => Nat.le_total _ _⟩
  haveI : IsTrans nonceWithTTL (fun a b => a.nonce ≤ b.nonce) :=
    ⟨fun a b c hab hbc => Nat.le_trans hab hbc⟩
  have hs := List.sorted_insertionSort (fun a b : nonceWithTTL => a.nonce ≤ b.nonce) h
  unfold nonces sortSort
  exact List.pairwise_map.mpr hs

theorem sortSort_idem (h : noncePriorityQueue) : sortSort (sortSort h) = sortSort h := by
  haveI : IsTotal nonceWithTTL (fun a b => a.nonce ≤ b.nonce) := ⟨fun a b => Nat.le_total _ _⟩
  haveI : IsTrans nonceWithTTL (fun a b => a.nonce ≤ b.nonce) :=
    ⟨fun a b c hab hbc => Nat.le_trans hab hbc⟩
  exact List.Sorted.insertionSort_eq
    (List.sorted_insertionSort (fun a b : nonceWithTTL => a.nonce ≤ b.nonce) h)

theorem len_eq_zero_iff (items : ItemMap) : items.len = 0 ↔ ∀ k, items.contains k = false := by
  constructor
  · intro h k
    cases hc : items.contains k with
    | false => rfl
    | true =>
      have := ItemMap.len_pos_of_contains _ _ hc
      omega
  · intro h
    unfold ItemMap.len
    rw [List.length_eq_zero]
    apply List.eq_nil_iff_forall_not_mem.mpr
    intro k hk
    have := (ItemMap.contains_iff_mem_keys _ _).mpr hk
    rw [h k] at this
    cases this

/-- C8. For every queue whose index holds exactly the keys of `items`, each once: `AllActs` returns
the actions stored under the keys `ks` of `items`, where `ks` lists every key once in strictly
ascending order (so each action of `items` is there once, `Len` actions in all); it leaves `items`
(and every field but the order of the index) unchanged; called again, it returns the same list and
the same queue. -/
theorem AllActs_sorted (q : actQueue) (hsame : SameNonceSet q) :
    ∃ ks : List Nat,
      ks.Sorted (fun a b => a < b) ∧
      (∀ k, k ∈ ks ↔ q.items.contains k = true) ∧
      ks.length = Len q ∧
      (AllActs q).2 = ks.map (fun k => q.items.get k) ∧
      (∀ k ∈ ks, q.items.find? k = some (q.items.get k)) ∧
      (AllActs q).1.items = q.items ∧
      (AllActs q).1.index.Perm q.index ∧
      (AllActs q).1.pendingNonce = q.pendingNonce ∧
      (AllActs q).1.confirmedNonce = q.confirmedNonce ∧
      AllActs (AllActs q).1 = ((AllActs q).1, (AllActs q).2) := by
  have hfind : ∀ k, q.items.contains k = true → q.items.find? k = some (q.items.get k) := by
    intro k hk
    unfold ItemMap.contains at hk
    unfold ItemMap.get
    cases hf : q.items.find? k with
    | none => simp [hf] at hk
    | some v => simp
  have hmem : ∀ k, k ∈ nonces q.index ↔ q.items.contains k = true := by
    intro k
    exact ⟨hsame.2.1 k, fun hk => hsame.2.2 k ((ItemMap.contains_iff_mem_keys _ _).mp hk)⟩
  have hlenkeys : (nonces q.index).length = Len q := by
    have hp : (nonces q.index).Perm q.items.keys := by
      have hkn : q.items.keys.Nodup := List.nodup_dedup _
      rw [List.perm_ext_iff_of_nodup hsame.1 hkn]
      intro k
      rw [hmem, ItemMap.contains_iff_mem_keys]
    simpa [Len, ItemMap.len] using hp.length_eq
  by_cases hlen : Len q = 0
  · have hall : AllActs q = (q, []) := by
      unfold AllActs
      rw [if_pos hlen]
    have hnone := (len_eq_zero_iff q.items).mp hlen
    refine ⟨[], List.sorted_nil, ?_, by simp [hlen], by rw [hall]; rfl, by simp, by rw [hall],
      by rw [hall], by rw [hall], by rw [hall], by rw [hall]; exact hall⟩
    intro k
    simp [hnone k]
  · have hall : AllActs q =
        ({ q with index := sortSort q.index },
          (sortSort q.index).map (fun e => q.items.get e.nonce)) := by
      unfold AllActs
      rw [if_neg hlen]
    have hpermn : (nonces (sortSort q.index)).Perm (nonces q.index) :=
      (sortSort_perm q.index).map _
    refine ⟨nonces (sortSort q.index), ?_, ?_, ?_, ?_, ?_, by rw [hall], ?_, by rw [hall],
      by rw [hall], ?_⟩
    · exact (sortSort_sorted q.index).lt_of_le (hpermn.nodup_iff.mpr hsame.1)
    · intro k
      rw [hpermn.mem_iff, hmem]
    · rw [hpermn.length_eq, hlenkeys]
    · rw [hall]
      simp [nonces, List.map_map, Function.comp]
    · intro k hk
      exact hfind k ((hmem k).mp (hpermn.mem_iff.mp hk))
    · rw [hall]
      exact sortSort_perm q.index
    · rw [hall]
      have hlen1 : Len ({ q with index := sortSort q.index } : actQueue) ≠ 0 := hlen
      unfold AllActs
      rw [if_neg hlen1]
      simp only [sortSort_idem]

/-- Witness of C8: the queue with nonces 1, 2 and 4. -/
theorem AllActs_sorted_witness :
    ∃ ks : List Nat, ks.Sorted (fun a b => a < b) ∧
      (∀ k, k ∈ ks ↔ queue124.items.contains k = true) ∧
      (AllActs queue124).2 = ks.map (fun k => queue124.items.get k) := by
  obtain ⟨ks, h1, h2, _, h4, _⟩ := AllActs_sorted queue124 (by decide)
  exact ⟨ks, h1, h2, h4⟩

end ActPool

/-! ## The heap order: `down`, `Pop` -/

namespace ActPool

namespace noncePriorityQueue

theorem getD_Swap (h : noncePriorityQueue) (i j x : Nat) (hi : i < h.length) (hj : j < h.length) :
    (Swap h i j).getD x default =
      if x = j then h.getD i default else if x = i then h.getD j default
      else h.getD x default := by
  unfold Swap
  simp only [List.getD_eq_getElem?_getD, List.getElem?_set, List.length_set]
  by_cases hxj : x = j
  · subst hxj
    simp [hj]
  · have hjx : ¬ j = x := fun e => hxj e.symm
    by_cases hxi : x = i
    · subst hxi
      simp [hjx, hxj, hi]
    · have hix : ¬ i = x := fun e => hxi e.symm
      simp [hjx, hxj, hix, hxi]

theorem nonceAt_Swap (h : noncePriorityQueue) (i j x : Nat) (hi : i < h.length)
    (hj : j < h.length) :
    nonceAt (Swap h i j) x =
      if x = j then nonceAt h i else if x = i then nonceAt h j else nonceAt h x := by
  unfold nonceAt
  rw [getD_Swap h i j x hi hj]
  split_ifs <;> rfl

theorem Less_iff (h : noncePriorityQueue) (i j : Nat) :
    Less h i j = true ↔ nonceAt h i < nonceAt h j := by
  simp [Less, nonceAt]

end noncePriorityQueue

namespace Heap

open noncePriorityQueue

/-- The function `heap.down` leaves the entries from position `n` on where they are. -/
theorem downLoop_getD_ge (fuel : Nat) (h : noncePriorityQueue) (i n x : Nat)
    (hn : n ≤ h.length) (hx : n ≤ x) :
    (downLoop fuel h i n).getD x default = h.getD x default := by
  induction fuel generalizing h i with
  | zero => rfl
  | succ fuel ih =>
    unfold downLoop
    simp only
    split_ifs with h1 h2 h3 h4
    · rfl
    · rfl
    · rw [ih _ _ (by rw [length_Swap]; exact hn),
        getD_Swap h i (2 * i + 1 + 1) x (by omega) (by omega)]
      have e1 : ¬ x = 2 * i + 1 + 1 := by omega
      have e2 : ¬ x = i := by omega
      simp [e1, e2]
    · rfl
    · rw [ih _ _ (by rw [length_Swap]; exact hn),
        getD_Swap h i (2 * i + 1) x (by omega) (by omega)]
      have e1 : ¬ x = 2 * i + 1 := by omega
      have e2 : ¬ x = i := by omega
      simp [e1, e2]

end Heap

end ActPool

namespace ActPool

namespace Heap

open noncePriorityQueue

/-- The function `heap.down` restores the heap order below a hole. -/
theorem downLoop_heap (fuel : Nat) (h : noncePriorityQueue) (i n lo : Nat)
    (hfuel : n - i ≤ fuel) (hn : n ≤ h.length) (hlo : lo ≤ i) (hinv : DownInv h n lo i) :
    HeapFrom (downLoop fuel h i n) n lo := by
  induction fuel generalizing h i with
  | zero =>
    intro j hj hj0 hpar
    unfold downLoop
    exact hinv.1 j hj hj0 hpar (by omega)
  | succ fuel ih =>
    unfold downLoop
    simp only
    by_cases h1 : 2 * i + 1 ≥ n
    · rw [if_pos h1]
      intro j hj hj0 hpar
      exact hinv.1 j hj hj0 hpar (by omega)
    · rw [if_neg h1]
      -- the smaller child
      obtain ⟨c, hc, hcn, hcmin⟩ : ∃ c,
          (if 2 * i + 1 + 1 < n ∧ Less h (2 * i + 1 + 1) (2 * i + 1) = true
            then 2 * i + 1 + 1 else 2 * i + 1) = c ∧
          (c < n ∧ (c - 1) / 2 = i ∧ 0 < c) ∧
          (∀ j, j < n → 0 < j → (j - 1) / 2 = i → nonceAt h c ≤ nonceAt h j) := by
        by_cases h2 : 2 * i + 1 + 1 < n ∧ Less h (2 * i + 1 + 1) (2 * i + 1) = true
        · refine ⟨2 * i + 1 + 1, if_pos h2, ⟨h2.1, by omega, by omega⟩, ?_⟩
          intro j hj hj0 hpar
          have hlt := (Less_iff _ _ _).mp h2.2
          have hj2 : j = 2 * i + 1 ∨ j = 2 * i + 1 + 1 := by omega
          rcases hj2 with e | e
          · rw [e]; omega
          · rw [e]
        · refine ⟨2 * i + 1, if_neg h2, ⟨by omega, by omega, by omega⟩, ?_⟩
          intro j hj hj0 hpar
          have hj2 : j = 2 * i + 1 ∨ j = 2 * i + 1 + 1 := by omega
          rcases hj2 with e | e
          · rw [e]
          · rw [e]
            have hjn : 2 * i + 1 + 1 < n := by omega
            have hnl : ¬ Less h (2 * i + 1 + 1) (2 * i + 1) = true := fun hl => h2 ⟨hjn, hl⟩
            rw [Less_iff] at hnl
            omega
      rw [hc]
      by_cases h3 : Less h c i = false
      · rw [if_pos h3]
        have hge : nonceAt h i ≤ nonceAt h c := by
          have : ¬ Less h c i = true := by simp [h3]
          rw [Less_iff] at this
          omega
        intro j hj hj0 hpar
        by_cases hp : (j - 1) / 2 = i
        · rw [hp]
          exact hge.trans (hcmin j hj hj0 hp)
        · exact hinv.1 j hj hj0 hpar hp
      · rw [if_neg h3]
        have hlt : nonceAt h c < nonceAt h i := by
          have : Less h c i = true := by simpa using h3
          exact (Less_iff _ _ _).mp this
        have hil : i < h.length := by omega
        have hcl : c < h.length := by omega
        apply ih (Swap h i c) c (by omega) (by rw [length_Swap]; exact hn) (by omega)
        constructor
        · intro j hj hj0 hpar hne
          rw [nonceAt_Swap h i c _ hil hcl, nonceAt_Swap h i c _ hil hcl]
          by_cases hp : (j - 1) / 2 = i
          · -- a child of `i`
            have e1 : ¬ (j - 1) / 2 = c := hne
            have e3 : ¬ j = i := by omega
            rw [if_neg e1, if_pos hp]
            by_cases hjc : j = c
            · rw [if_pos hjc]
              omega
            · rw [if_neg hjc, if_neg e3]
              exact hcmin j hj hj0 hp
          · have e1 : ¬ (j - 1) / 2 = c := hne
            have e2 : ¬ j = c := by omega
            rw [if_neg e1, if_neg hp, if_neg e2]
            by_cases hji : j = i
            · rw [if_pos hji]
              have hi0 : 0 < i := by omega
              have := hinv.2 c hcn.1 hcn.2.2 hcn.2.1 hi0 (by rw [← hji]; exact hpar)
              rw [hji]
              exact this
            · rw [if_neg hji]
              exact hinv.1 j hj hj0 hpar hp
        · intro j hj hj0 hpar hc0 hloc
          rw [nonceAt_Swap h i c _ hil hcl, nonceAt_Swap h i c _ hil hcl]
          have e0 : (c - 1) / 2 = i := hcn.2.1
          have e1 : ¬ (c - 1) / 2 = c := by omega
          have e2 : ¬ j = c := by omega
          have e3 : ¬ j = i := by omega
          rw [e0, if_neg (by omega), if_pos rfl, if_neg e2, if_neg e3]
          have hord := hinv.1 j hj hj0 (by omega) (by omega)
          rwa [hpar] at hord

end Heap

end ActPool

namespace ActPool

namespace Heap

open noncePriorityQueue

/-- The root of a min-heap holds the smallest nonce. -/
theorem root_min (h : noncePriorityQueue) (hheap : IsMinHeap h) (j : Nat) (hj : j < h.length) :
    nonceAt h 0 ≤ nonceAt h j := by
  induction j using Nat.strong_induction_on with
  | _ j ih =>
    by_cases hj0 : j = 0
    · rw [hj0]
    · have hp := hheap j hj (by omega) (Nat.zero_le _)
      exact (ih ((j - 1) / 2) (by omega) (by omega)).trans hp

theorem nonceAt_take (h : noncePriorityQueue) (n x : Nat) (hx : x < n) :
    nonceAt (h.take n) x = nonceAt h x := by
  unfold nonceAt
  simp only [List.getD_eq_getElem?_getD]
  rw [List.getElem?_take_of_lt hx]

/-- The function `heap.Pop` on a non-empty index returns the entry at the root and leaves the
other entries. -/
theorem Pop_perm (h : noncePriorityQueue) (hne : 0 < h.length) :
    Heap.Pop h = ((down (Swap h 0 (h.length - 1)) 0 (h.length - 1)).take (h.length - 1),
        some (h.getD 0 default)) ∧
      (h.getD 0 default ::
        (down (Swap h 0 (h.length - 1)) 0 (h.length - 1)).take (h.length - 1)).Perm h := by
  have hn : h.length - 1 < h.length := by omega
  have hsl : (Swap h 0 (h.length - 1)).length = h.length := length_Swap _ _ _
  have hperm1 : (Swap h 0 (h.length - 1)).Perm h := Swap_perm h 0 (h.length - 1) hne hn
  have hperm2 : (down (Swap h 0 (h.length - 1)) 0 (h.length - 1)).Perm
      (Swap h 0 (h.length - 1)) := down_perm _ _ _ (by rw [hsl]; omega)
  have hlen2 : (down (Swap h 0 (h.length - 1)) 0 (h.length - 1)).length = h.length := by
    rw [hperm2.length_eq, hsl]
  have hlast : (down (Swap h 0 (h.length - 1)) 0 (h.length - 1)).getD (h.length - 1) default =
      h.getD 0 default := by
    unfold down
    rw [downLoop_getD_ge _ _ _ _ _ (by rw [hsl]; omega) (le_refl _),
      getD_Swap h 0 (h.length - 1) _ hne hn]
    simp
  have hpop : Heap.Pop h =
      ((down (Swap h 0 (h.length - 1)) 0 (h.length - 1)).take (h.length - 1),
        some (h.getD 0 default)) := by
    unfold Heap.Pop noncePriorityQueue.Pop
    simp only [noncePriorityQueue.Len]
    rw [hlen2, if_neg (by omega), hlast]
  refine ⟨hpop, ?_⟩
  have hsplit : (down (Swap h 0 (h.length - 1)) 0 (h.length - 1)) =
      (down (Swap h 0 (h.length - 1)) 0 (h.length - 1)).take (h.length - 1) ++
        [h.getD 0 default] := by
    have h1 := @List.take_succ _ (down (Swap h 0 (h.length - 1)) 0 (h.length - 1))
      (h.length - 1)
    have h2 : (down (Swap h 0 (h.length - 1)) 0 (h.length - 1))[h.length - 1]? =
        some (h.getD 0 default) := by
      have := hlast
      rw [List.getD_eq_getElem?_getD] at this
      rw [List.getElem?_eq_getElem (by rw [hlen2]; exact hn)] at this ⊢
      simpa using this
    rw [h2] at h1
    have h3 : (down (Swap h 0 (h.length - 1)) 0 (h.length - 1)).take (h.length - 1 + 1) =
        down (Swap h 0 (h.length - 1)) 0 (h.length - 1) :=
      List.take_of_length_le (by rw [hlen2]; omega)
    rw [h3] at h1
    simpa using h1
  have hp : (h.getD 0 default ::
      (down (Swap h 0 (h.length - 1)) 0 (h.length - 1)).take (h.length - 1)).Perm
      (down (Swap h 0 (h.length - 1)) 0 (h.length - 1)) := by
    conv_rhs => rw [hsplit]
    exact (@List.perm_append_comm _ _ [h.getD 0 default]).symm
  exact hp.trans (hperm2.trans hperm1)

/-- The function `heap.Pop` on a non-empty min-heap returns the root and leaves a min-heap of the
other entries. -/
theorem Pop_spec (h : noncePriorityQueue) (hne : 0 < h.length) (hheap : IsMinHeap h) :
    ∃ h1 : noncePriorityQueue, Heap.Pop h = (h1, some (h.getD 0 default)) ∧
      (h.getD 0 default :: h1).Perm h ∧ IsMinHeap h1 := by
  have hn : h.length - 1 < h.length := by omega
  have hsl : (Swap h 0 (h.length - 1)).length = h.length := length_Swap _ _ _
  have hlen2 : (down (Swap h 0 (h.length - 1)) 0 (h.length - 1)).length = h.length := by
    rw [(down_perm _ _ _ (by rw [hsl]; omega)).length_eq, hsl]
  refine ⟨_, (Pop_perm h hne).1, (Pop_perm h hne).2, ?_⟩
  have hinv : DownInv (Swap h 0 (h.length - 1)) (h.length - 1) 0 0 := by
    constructor
    · intro j hj hj0 _ hpar
      rw [nonceAt_Swap h 0 (h.length - 1) _ hne hn, nonceAt_Swap h 0 (h.length - 1) _ hne hn]
      have e1 : ¬ (j - 1) / 2 = h.length - 1 := by omega
      have e2 : ¬ j = h.length - 1 := by omega
      have e3 : ¬ j = 0 := by omega
      rw [if_neg e1, if_neg hpar, if_neg e2, if_neg e3]
      exact hheap j (by omega) hj0 (Nat.zero_le _)
    · intro j _ _ _ h0
      exact absurd h0 (lt_irrefl _)
  have hfrom := downLoop_heap (h.length - 1 - 0) (Swap h 0 (h.length - 1)) 0 (h.length - 1) 0
    (le_refl _) (by rw [hsl]; omega) (le_refl _) hinv
  intro j hj hj0 hpar
  have hjn : j < h.length - 1 := by
    have := hj
    simp only [List.length_take, hlen2] at this
    omega
  rw [nonceAt_take _ _ _ (by omega), nonceAt_take _ _ _ hjn]
  exact hfrom j hjn hj0 hpar

end Heap

end ActPool

/-! ## FilterNonce -/

namespace ActPool

theorem mem_nonceAt (h : noncePriorityQueue) (e : nonceWithTTL) (he : e ∈ h) :
    ∃ j, j < h.length ∧ nonceAt h j = e.nonce := by
  obtain ⟨j, hj, rfl⟩ := List.mem_iff_getElem.mp he
  exact ⟨j, hj, by unfold nonceAt; rw [List.getD_eq_getElem _ _ hj]⟩

/-- What the loop of `FilterNonce` does on a min-heap of distinct nonces: it pops a list `popped`
of entries in strictly ascending order of nonce, all below the threshold, deletes their nonces from
`items`, reads their actions, and leaves a min-heap of the other entries, all at or above the
threshold. -/
theorem filterLoop_spec (t fuel : Nat) (q : actQueue) (removed : List SealedEnvelope)
    (hheap : IsMinHeap q.index) (hnd : (nonces q.index).Nodup) (hfuel : q.index.length ≤ fuel) :
    ∃ popped : List nonceWithTTL,
      (filterLoop t fuel q removed).2 = removed ++ sweepActs q.items popped ∧
      (filterLoop t fuel q removed).1.items = sweepItems q.items popped ∧
      (popped ++ (filterLoop t fuel q removed).1.index).Perm q.index ∧
      (∀ e ∈ popped, e.nonce < t) ∧
      (∀ e ∈ (filterLoop t fuel q removed).1.index, t ≤ e.nonce) ∧
      (nonces popped).Sorted (fun a b => a < b) ∧
      IsMinHeap (filterLoop t fuel q removed).1.index ∧
      (filterLoop t fuel q removed).1.pendingNonce = q.pendingNonce ∧
      (filterLoop t fuel q removed).1.confirmedNonce = q.confirmedNonce ∧
      (filterLoop t fuel q removed).1.accountBalance = q.accountBalance ∧
      (filterLoop t fuel q removed).1.ttl = q.ttl ∧
      (filterLoop t fuel q removed).1.address = q.address := by
  have hstop : ∀ q : actQueue, IsMinHeap q.index →
      ¬ (q.index.Len > 0 ∧ (q.index.getD 0 default).nonce < t) →
      ∀ e ∈ q.index, t ≤ e.nonce := by
    intro q hh hc e he
    obtain ⟨j, hj, hje⟩ := mem_nonceAt q.index e he
    have hpos : q.index.Len > 0 := by
      unfold noncePriorityQueue.Len
      omega
    have hroot : ¬ (q.index.getD 0 default).nonce < t := fun hlt => hc ⟨hpos, hlt⟩
    have := Heap.root_min q.index hh j hj
    unfold nonceAt at this hje
    omega
  induction fuel generalizing q removed with
  | zero =>
    have hc : ¬ (q.index.Len > 0 ∧ (q.index.getD 0 default).nonce < t) := by
      unfold noncePriorityQueue.Len
      omega
    exact ⟨[], by simp [filterLoop, sweepActs], rfl, by simp [filterLoop], by simp,
      hstop q hheap hc, List.sorted_nil, hheap, rfl, rfl, rfl, rfl, rfl⟩
  | succ fuel ih =>
    by_cases hc : q.index.Len > 0 ∧ (q.index.getD 0 default).nonce < t
    · have hpos : 0 < q.index.length := hc.1
      obtain ⟨h1, hpop, hperm, hheap1⟩ := Heap.Pop_spec q.index hpos hheap
      have hstep : filterLoop t (fuel + 1) q removed =
          filterLoop t fuel
            (actQueue.mk q.address (q.items.delete (q.index.getD 0 default).nonce) h1
              q.pendingNonce q.confirmedNonce q.accountBalance q.ttl)
            (removed ++ [q.items.get (q.index.getD 0 default).nonce]) := by
        conv_lhs => unfold filterLoop
        rw [if_pos hc]
        simp only [hpop, Option.getD_some]
      have hpn : (nonces (q.index.getD 0 default :: h1)).Perm (nonces q.index) := hperm.map _
      have hnd1 : (nonces (q.index.getD 0 default :: h1)).Nodup := hpn.nodup_iff.mpr hnd
      simp only [nonces, List.map_cons, List.nodup_cons] at hnd1
      obtain ⟨popped, e1, e2, e3, e4, e5, e6, e7, e8, e9, e10, e11, e12⟩ :=
        ih (actQueue.mk q.address (q.items.delete (q.index.getD 0 default).nonce) h1
              q.pendingNonce q.confirmedNonce q.accountBalance q.ttl)
          (removed ++ [q.items.get (q.index.getD 0 default).nonce]) hheap1 hnd1.2
          (by
            have := hperm.length_eq
            simp only [List.length_cons] at this
            show h1.length ≤ fuel
            omega)
      rw [hstep]
      refine ⟨q.index.getD 0 default :: popped, ?_, e2, ?_, ?_, e5, ?_, e7, e8, e9, e10, e11,
        e12⟩
      · rw [e1]
        simp [sweepActs]
      · simp only [List.cons_append]
        exact (List.Perm.cons _ e3).trans hperm
      · intro e he
        rcases List.mem_cons.mp he with he | he
        · rw [he]; exact hc.2
        · exact e4 e he
      · simp only [nonces, List.map_cons, List.sorted_cons]
        refine ⟨?_, e6⟩
        intro b hb
        obtain ⟨e, he, rfl⟩ := List.mem_map.mp hb
        have heh1 : e ∈ h1 := e3.subset (List.mem_append_left _ he)
        have heq : e ∈ q.index := hperm.subset (List.mem_cons_of_mem _ heh1)
        obtain ⟨j, hj, hje⟩ := mem_nonceAt q.index e heq
        have hmin := Heap.root_min q.index hheap j hj
        have hne : (q.index.getD 0 default).nonce ≠ e.nonce := by
          intro hcon
          exact hnd1.1 (hcon ▸ List.mem_map_of_mem _ heh1)
        unfold nonceAt at hmin hje
        omega
    · have hstep : filterLoop t (fuel + 1) q removed = (q, removed) := by
        conv_lhs => unfold filterLoop
        rw [if_neg hc]
      rw [hstep]
      exact ⟨[], by simp [sweepActs], rfl, by simp, by simp, hstop q hheap hc, List.sorted_nil, hheap,
        rfl, rfl, rfl, rfl, rfl⟩

/-- C4. For every queue whose index is a min-heap by nonce and holds exactly the keys of `items`,
each once, and every threshold `t`: `FilterNonce(t)` returns the actions stored under the keys
`ks` of `items` that are `< t`, where `ks` lists each such key once in strictly ascending order;
afterwards no nonce `< t` is a key of `items` or in the index, and every key `≥ t` has the action it
had and every index entry of nonce `≥ t` is still there, with its deadline (the index is a
rearrangement of those entries, still a min-heap); the nonces of the queue are unchanged. -/
theorem FilterNonce_removes_below (q : actQueue) (t : Nat) (hheap : IsMinHeap q.index)
    (hsame : SameNonceSet q) :
    ∃ ks : List Nat,
      ks.Sorted (fun a b => a < b) ∧
      (∀ k, k ∈ ks ↔ (q.items.contains k = true ∧ k < t)) ∧
      (FilterNonce q t).2 = ks.map (fun k => q.items.get k) ∧
      (∀ k ∈ ks, q.items.find? k = some (q.items.get k)) ∧
      (∀ k, (FilterNonce q t).1.items.find? k = if k < t then none else q.items.find? k) ∧
      (FilterNonce q t).1.index.Perm (q.index.filter (fun e => decide (t ≤ e.nonce))) ∧
      (∀ e ∈ (FilterNonce q t).1.index, t ≤ e.nonce ∧
        (FilterNonce q t).1.items.find? e.nonce = q.items.find? e.nonce) ∧
      IsMinHeap (FilterNonce q t).1.index ∧
      (FilterNonce q t).1.pendingNonce = q.pendingNonce ∧
      (FilterNonce q t).1.confirmedNonce = q.confirmedNonce := by
  obtain ⟨popped, e1, e2, e3, e4, e5, e6, e7, e8, e9, _⟩ :=
    filterLoop_spec t q.index.Len q [] hheap hsame.1 (le_refl _)
  have hF : FilterNonce q t = filterLoop t q.index.Len q [] := rfl
  rw [← hF] at e1 e2 e3 e5 e7 e8 e9
  have hfind : ∀ k, q.items.contains k = true → q.items.find? k = some (q.items.get k) := by
    intro k hk
    unfold ItemMap.contains at hk
    unfold ItemMap.get
    cases hf : q.items.find? k with
    | none => simp [hf] at hk
    | some v => simp
  have hmemidx : ∀ k, k ∈ nonces q.index ↔ q.items.contains k = true := by
    intro k
    exact ⟨hsame.2.1 k, fun hk => hsame.2.2 k ((ItemMap.contains_iff_mem_keys _ _).mp hk)⟩
  -- the popped entries are the entries below the threshold
  have hfl := e3.filter (fun e => decide (e.nonce < t))
  have hfk := e3.filter (fun e => decide (t ≤ e.nonce))
  rw [List.filter_append] at hfl hfk
  have a1 : popped.filter (fun e => decide (e.nonce < t)) = popped :=
    List.filter_eq_self.mpr (fun a ha => by simpa using e4 a ha)
  have a2 : (FilterNonce q t).1.index.filter (fun e => decide (e.nonce < t)) = [] :=
    List.filter_eq_nil_iff.mpr (fun a ha => by have := e5 a ha; simp; omega)
  have a3 : popped.filter (fun e => decide (t ≤ e.nonce)) = [] :=
    List.filter_eq_nil_iff.mpr (fun a ha => by have := e4 a ha; simp; omega)
  have a4 : (FilterNonce q t).1.index.filter (fun e => decide (t ≤ e.nonce)) =
      (FilterNonce q t).1.index :=
    List.filter_eq_self.mpr (fun a ha => by simpa using e5 a ha)
  rw [a1, a2, List.append_nil] at hfl
  rw [a3, a4, List.nil_append] at hfk
  have hmemks : ∀ k, k ∈ nonces popped ↔ (q.items.contains k = true ∧ k < t) := by
    intro k
    rw [← hmemidx]
    constructor
    · intro hk
      obtain ⟨e, he, rfl⟩ := List.mem_map.mp hk
      have := hfl.mem_iff.mp he
      rw [List.mem_filter] at this
      exact ⟨List.mem_map_of_mem _ this.1, by simpa using this.2⟩
    · rintro ⟨hk, hkt⟩
      obtain ⟨e, he, rfl⟩ := List.mem_map.mp hk
      exact List.mem_map_of_mem _ (hfl.mem_iff.mpr (List.mem_filter.mpr ⟨he, by simpa using hkt⟩))
  have hitems : ∀ k, (FilterNonce q t).1.items.find? k =
      if k < t then none else q.items.find? k := by
    intro k
    rw [e2, sweepItems_find?]
    by_cases hkt : k < t
    · rw [if_pos hkt]
      by_cases hk : k ∈ nonces popped
      · rw [if_pos hk]
      · rw [if_neg hk]
        have hnc : ¬ q.items.contains k = true := fun hc => hk ((hmemks k).mpr ⟨hc, hkt⟩)
        exact (ItemMap.find?_eq_none_iff _ _).mpr (by simpa using hnc)
    · rw [if_neg hkt]
      have hk : k ∉ nonces popped := fun hk => hkt ((hmemks k).mp hk).2
      rw [if_neg hk]
  refine ⟨nonces popped, e6, hmemks, ?_, ?_, hitems, hfk, ?_, e7, e8, e9⟩
  · rw [e1, sweepActs_eq_map _ _ e6.nodup]
    simp [nonces, List.map_map, Function.comp]
  · intro k hk
    exact hfind k ((hmemks k).mp hk).1
  · intro e he
    have hte := e5 e he
    refine ⟨hte, ?_⟩
    rw [hitems, if_neg (by omega)]

/-- Witness of C4: the queue with nonces 1, 2 and 4 and the threshold 3. -/
theorem FilterNonce_removes_below_witness :
    ∃ ks : List Nat, ks.Sorted (fun a b => a < b) ∧
      (∀ k, k ∈ ks ↔ (queue124.items.contains k = true ∧ k < 3)) ∧
      (FilterNonce queue124 3).2 = ks.map (fun k => queue124.items.get k) ∧
      (FilterNonce queue124 3).1.index.Perm
        (queue124.index.filter (fun e => decide (3 ≤ e.nonce))) := by
  obtain ⟨ks, h1, h2, h3, _, _, h6, _⟩ :=
    FilterNonce_removes_below queue124 3 (by decide) (by decide)
  exact ⟨ks, h1, h2, h3, h6⟩

end ActPool

/-! ## Every queue built by the methods holds the same nonces in `index` and in `items` -/

namespace ActPool

theorem sameNonceSet_iff (q : actQueue) :
    SameNonceSet q ↔
      (nonces q.index).Nodup ∧ ∀ k, k ∈ nonces q.index ↔ q.items.contains k = true := by
  unfold SameNonceSet
  constructor
  · rintro ⟨h1, h2, h3⟩
    exact ⟨h1, fun k => ⟨h2 k, fun hk => h3 k ((ItemMap.contains_iff_mem_keys _ _).mp hk)⟩⟩
  · rintro ⟨h1, h2⟩
    exact ⟨h1, fun k hk => (h2 k).mp hk,
      fun k hk => (h2 k).mpr ((ItemMap.contains_iff_mem_keys _ _).mpr hk)⟩

theorem Put_sameNonceSet (q : actQueue) (now : Int) (act : SealedEnvelope)
    (h : SameNonceSet q) : SameNonceSet (Put q now act).1 := by
  rw [sameNonceSet_iff] at h ⊢
  cases hf : q.items.find? act.nonce with
  | some old =>
    have hcont : q.items.contains act.nonce = true := by simp [ItemMap.contains, hf]
    by_cases hprice : old.gasPrice < act.gasPrice
    · rw [Put_replace_eq q now act old hf hprice]
      simp only
      rw [nonces_refreshDeadline]
      refine ⟨h.1, fun k => ?_⟩
      rw [h.2 k, ItemMap.contains_insert]
      by_cases hk : k = act.nonce
      · simp [hk, hcont]
      · simp [hk]
    · have hc : bigCmp act.gasPrice old.gasPrice ≠ 1 := by
        unfold bigCmp
        split_ifs with h1 h2
        · decide
        · decide
        · exact absurd (lt_of_le_of_ne (not_lt.mp h1) (fun e => h2 e.symm)) hprice
      have : Put q now act = (q, some ActionError.ErrReplaceUnderpriced) := by
        unfold Put
        simp [hf, hc]
      rw [this]
      exact h
  | none =>
    have hnc : ¬ q.items.contains act.nonce = true := by simp [ItemMap.contains, hf]
    have heq : Put q now act =
        ({ q with index := Heap.Push q.index { nonce := act.nonce, deadline := Time.Add now q.ttl },
                  items := q.items.insert act.nonce act }, none) := by
      unfold Put
      simp only [hf]
    rw [heq]
    simp only
    have hperm : (nonces (Heap.Push q.index
        { nonce := act.nonce, deadline := Time.Add now q.ttl })).Perm
        (act.nonce :: nonces q.index) :=
      (Heap.Push_perm q.index { nonce := act.nonce, deadline := Time.Add now q.ttl }).map _
    have hnotin : act.nonce ∉ nonces q.index := fun hm => hnc ((h.2 _).mp hm)
    refine ⟨hperm.nodup_iff.mpr (List.nodup_cons.mpr ⟨hnotin, h.1⟩), fun k => ?_⟩
    rw [hperm.mem_iff, List.mem_cons, h.2 k, ItemMap.contains_insert]
    simp

theorem filterLoop_sameNonceSet (t fuel : Nat) (q : actQueue) (removed : List SealedEnvelope)
    (h : SameNonceSet q) : SameNonceSet (filterLoop t fuel q removed).1 := by
  induction fuel generalizing q removed with
  | zero => exact h
  | succ fuel ih =>
    unfold filterLoop
    by_cases hc : q.index.Len > 0 ∧ (q.index.getD 0 default).nonce < t
    · rw [if_pos hc]
      apply ih
      have hpos : 0 < q.index.length := hc.1
      obtain ⟨hpop, hperm⟩ := Heap.Pop_perm q.index hpos
      rw [sameNonceSet_iff] at h ⊢
      simp only [hpop, Option.getD_some]
      have hpn : (nonces (q.index.getD 0 default ::
          (Heap.down (noncePriorityQueue.Swap q.index 0 (q.index.length - 1)) 0
            (q.index.length - 1)).take (q.index.length - 1))).Perm (nonces q.index) :=
        hperm.map _
      have hnd := hpn.nodup_iff.mpr h.1
      simp only [nonces, List.map_cons, List.nodup_cons] at hnd
      refine ⟨hnd.2, fun k => ?_⟩
      have hk := hpn.mem_iff (a := k)
      simp only [nonces, List.map_cons, List.mem_cons] at hk
      rw [ItemMap.contains_delete]
      simp only [Bool.and_eq_true, Bool.not_eq_true', decide_eq_false_iff_not, ← h.2 k, nonces]
      constructor
      · intro hm
        have hne : ¬ k = (q.index.getD 0 default).nonce := fun e => hnd.1 (e ▸ hm)
        exact ⟨hne, hk.mp (Or.inr hm)⟩
      · intro hm
        rcases hk.mpr hm.2 with e | e
        · exact absurd e hm.1
        · exact e
    · rw [if_neg hc]
      exact h

theorem UpdateQueue_sameNonceSet (q : actQueue) (now : Int) (h : SameNonceSet q) :
    SameNonceSet (UpdateQueue q now).1 := by
  by_cases httl : q.ttl = 0
  · have h1 : UpdateQueue q now =
        ({ q with pendingNonce := advanceLoop q.items (q.items.len + 1) q.pendingNonce }, []) := by
      unfold UpdateQueue cleanTimeout
      simp [httl]
    rw [h1]
    exact h
  · obtain ⟨rem, h1, h2, h3, _⟩ := cleanTimeout_spec q now httl
    have hidx : (UpdateQueue q now).1.index = (cleanTimeout q now).1.index := by
      unfold UpdateQueue; rfl
    have hitems : (UpdateQueue q now).1.items = sweepItems q.items rem := by
      unfold UpdateQueue; exact h3
    rw [sameNonceSet_iff] at h ⊢
    rw [hidx, hitems]
    have hpn : (nonces (cleanTimeout q now).1.index).Perm
        (nonces (q.index.filter (fun e => !expired now e))) := h2.map _
    have hsub : (nonces (q.index.filter (fun e => !expired now e))).Sublist (nonces q.index) :=
      (List.filter_sublist _).map _
    have hinj := List.inj_on_of_nodup_map h.1
    refine ⟨hpn.nodup_iff.mpr (hsub.nodup h.1), fun k => ?_⟩
    rw [hpn.mem_iff]
    unfold ItemMap.contains
    rw [sweepItems_find?]
    constructor
    · intro hk
      obtain ⟨e, he, rfl⟩ := List.mem_map.mp hk
      rw [List.mem_filter] at he
      have hnot : e.nonce ∉ nonces rem := by
        intro hm
        obtain ⟨e2, he2, hn⟩ := List.mem_map.mp hm
        have he2f := h1.mem_iff.mp he2
        rw [List.mem_filter] at he2f
        have : e2 = e := hinj he2f.1 he.1 hn
        rw [this] at he2f
        simp [he2f.2] at he
      rw [if_neg hnot]
      exact (h.2 _).mp (List.mem_map_of_mem _ he.1)
    · intro hk
      by_cases hm : k ∈ nonces rem
      · simp [hm] at hk
      · rw [if_neg hm] at hk
        obtain ⟨e, he, rfl⟩ := List.mem_map.mp ((h.2 k).mpr hk)
        refine List.mem_map_of_mem _ (List.mem_filter.mpr ⟨he, ?_⟩)
        by_contra hexp
        have hexp1 : expired now e = true := by simpa using hexp
        exact hm (List.mem_map_of_mem _ (h1.mem_iff.mpr (List.mem_filter.mpr ⟨he, hexp1⟩)))

/-- Every queue reached from `NewActQueue` by `Put`, `FilterNonce`, `SetConfirmedNonce` and
`UpdateQueue` holds in its index exactly the keys of `items`, each in one entry. -/
theorem runCalls_sameNonceSet (q : actQueue) (calls : List Call) (h : SameNonceSet q) :
    SameNonceSet (runCalls q calls) := by
  induction calls generalizing q with
  | nil => exact h
  | cons c rest ih =>
    unfold runCalls
    simp only [List.foldl_cons]
    apply ih
    cases c with
    | put now act => exact Put_sameNonceSet q now act h
    | filterNonce threshold => exact filterLoop_sameNonceSet _ _ q [] h
    | setConfirmedNonce nonce => exact h
    | updateQueue now => exact UpdateQueue_sameNonceSet q now h

theorem NewActQueue_sameNonceSet (address : String) (ttl : Int) :
    SameNonceSet (NewActQueue address ttl) := by
  unfold SameNonceSet NewActQueue
  simp [nonces, ItemMap.keys]

end ActPool

/-! ## PendingActs when the oracle fails -/

namespace ActPool

/-- C20. For every queue: when parsing the address of the queue fails, or the account-state lookup
for the parsed address fails, `PendingActs` returns the empty result and the queue as it was
(`items`, `index`, `pendingNonce`, `confirmedNonce` and every other field); the method has no error
result. -/
theorem PendingActs_oracle_failure (q : actQueue) (oracle : AccountOracle)
    (hfail : oracle.FromString q.address = none ∨
      ∃ addr, oracle.FromString q.address = some addr ∧ oracle.AccountStateNonce addr = none) :
    PendingActs q oracle = (q, []) := by
  unfold PendingActs
  split_ifs with hlen
  · rfl
  · rcases hfail with h | ⟨addr, h1, h2⟩
    · simp only [h]
    · simp only [h1, h2]

/-- Witness of C20: the queue with nonces 1, 2 and 4 and an oracle whose lookup fails. -/
theorem PendingActs_oracle_failure_witness :
    PendingActs queue124 failingOracle = (queue124, []) :=
  PendingActs_oracle_failure queue124 failingOracle (Or.inr ⟨"a", by decide, by decide⟩)

end ActPool

/-! ## The errors of the round calculator and the validation of the producer -/

namespace RollDPoS

theorem roundNumFrom_invalid_iff (L I now T : Int) :
    roundNumFrom L I now T = Except.error RoundError.errInvalidCurrentTime ↔ now ≤ L := by
  unfold roundNumFrom
  by_cases h : L < now
  · have hb : Time.Before L now = true := by simp [Time.Before, h]
    simp only [hb, Bool.true_eq_false, if_false]
    constructor
    · intro he
      exfalso
      split_ifs at he
      cases he
    · intro hle
      omega
  · have hb : Time.Before L now = false := by simp [Time.Before, h]
    simp only [hb, if_true, true_iff]
    omega

theorem delegateAt_ne_invalid (m : MiniEpochManager) (idx : Nat) :
    delegateAt m idx ≠ Except.error RoundError.errInvalidCurrentTime := by
  unfold delegateAt
  split_ifs <;> intro h <;> cases h

/-- C18. For every height, block interval and time `now` for which the last-block time `L` is
obtained without error: `getRoundNum` fails with `errInvalidCurrentTime` if and only if `L ≥ now`,
and so does `Proposer` with time-based rotation (for the block interval of the height); in
particular `now = L` is rejected. -/
theorem getRoundNum_invalid_time_iff (m : MiniEpochManager) (height : Nat) (I now T L : Int)
    (hL : lastBlockTime m height I = Except.ok L) :
    (getRoundNum m height I now T = Except.error RoundError.errInvalidCurrentTime ↔ now ≤ L) ∧
    (m.isTimeBasedRotation = true → m.BlockInterval height = I →
      (Proposer m height now = Except.error RoundError.errInvalidCurrentTime ↔ now ≤ L)) ∧
    (now = L → getRoundNum m height I now T = Except.error RoundError.errInvalidCurrentTime) := by
  have hget : ∀ T1, getRoundNum m height I now T1 = roundNumFrom L I now T1 := by
    intro T1
    unfold getRoundNum
    simp only [hL]
  have h1 : getRoundNum m height I now T = Except.error RoundError.errInvalidCurrentTime ↔
      now ≤ L := by
    rw [hget]
    exact roundNumFrom_invalid_iff L I now T
  refine ⟨h1, ?_, fun e => h1.mpr (le_of_eq e)⟩
  intro hrot hI
  unfold Proposer
  simp only [hrot, if_true, hI, hget]
  rw [← roundNumFrom_invalid_iff L I now 0]
  cases hr : roundNumFrom L I now 0 with
  | error e =>
    simp only
    constructor
    · intro he
      rw [Except.error.inj he]
    · intro he
      rw [Except.error.inj he]
  | ok r =>
    simp only
    constructor
    · intro he
      exact absurd he (delegateAt_ne_invalid m _)
    · intro he
      cases he

/-- Witness of C18: height `10`, interval `10s`, last block time `90s`: `now = 90s` is rejected. -/
theorem getRoundNum_invalid_time_iff_witness :
    getRoundNum (sampleManager ["A", "B", "C", "D"] true (10 * second)) 10 (10 * second)
        (90 * second) 0 = Except.error RoundError.errInvalidCurrentTime :=
  (getRoundNum_invalid_time_iff (sampleManager ["A", "B", "C", "D"] true (10 * second)) 10
    (10 * second) (90 * second) 0 (90 * second) (by decide)).2.2 rfl

end RollDPoS

namespace RollDPoS

theorem IsDelegate_iff (m : MiniEpochManager) (addr : String) :
    IsDelegate m addr = true ↔ addr ∈ m.delegates := by
  unfold IsDelegate
  simp [List.any_eq_true]

/-- C12. For every block: `ValidateBlockProducer` returns no error if and only if the producer
address of the block is a member of the delegate list and `Proposer(height, timestamp)` of the
block succeeds and returns that address; a producer that is not a delegate is rejected whatever
`Proposer` would do; an error of `Proposer` is returned as it is; `IsDelegate` is membership of
the delegate list. -/
theorem ValidateBlockProducer_iff (fv : FooterValidator) (blk : Block) :
    (ValidateBlockProducer fv blk = none ↔
      (blk.producer ∈ fv.manager.delegates ∧
        Proposer fv.manager blk.height blk.timestamp = Except.ok blk.producer)) ∧
    (blk.producer ∉ fv.manager.delegates →
      ValidateBlockProducer fv blk = some (FooterError.notDelegate blk.producer)) ∧
    (blk.producer ∈ fv.manager.delegates → ∀ e,
      Proposer fv.manager blk.height blk.timestamp = Except.error e →
      ValidateBlockProducer fv blk = some (FooterError.proposer e)) ∧
    (blk.producer ∈ fv.manager.delegates → ∀ p,
      Proposer fv.manager blk.height blk.timestamp = Except.ok p → p ≠ blk.producer →
      ValidateBlockProducer fv blk = some (FooterError.invalidProposer blk.producer)) ∧
    (∀ addr, IsDelegate fv.manager addr = true ↔ addr ∈ fv.manager.delegates) := by
  refine ⟨?_, ?_, ?_, ?_, IsDelegate_iff fv.manager⟩
  · unfold ValidateBlockProducer
    by_cases hd : blk.producer ∈ fv.manager.delegates
    · have hdel : IsDelegate fv.manager blk.producer = true := (IsDelegate_iff _ _).mpr hd
      simp only [hdel, Bool.true_eq_false, if_false]
      cases hp : Proposer fv.manager blk.height blk.timestamp with
      | error e => simp
      | ok p =>
        by_cases hpp : p = blk.producer
        · simp [hpp, hd]
        · simp [hpp, hd]
    · have hdel : IsDelegate fv.manager blk.producer = false := by
        cases h : IsDelegate fv.manager blk.producer with
        | false => rfl
        | true => exact absurd ((IsDelegate_iff _ _).mp h) hd
      simp [hdel, hd]
  · intro hd
    have hdel : IsDelegate fv.manager blk.producer = false := by
      cases h : IsDelegate fv.manager blk.producer with
      | false => rfl
      | true => exact absurd ((IsDelegate_iff _ _).mp h) hd
    unfold ValidateBlockProducer
    simp [hdel]
  · intro hd e he
    have hdel : IsDelegate fv.manager blk.producer = true := (IsDelegate_iff _ _).mpr hd
    unfold ValidateBlockProducer
    simp [hdel, he]
  · intro hd p hp hne
    have hdel : IsDelegate fv.manager blk.producer = true := (IsDelegate_iff _ _).mpr hd
    unfold ValidateBlockProducer
    simp [hdel, hp, hne]

/-- Witness of C12: delegates `A, B, C, D`, a block of height `1` and time `125s`, for which
`Proposer` returns `A`: the block produced by `A` is accepted, the one produced by the delegate
`B` is refused as not by the proposer, and the one produced by `Z` is refused as not by a
delegate. -/
theorem ValidateBlockProducer_iff_witness :
    ValidateBlockProducer { manager := beringManager 0 }
        { hash := "h", height := 1, timestamp := 125 * second, producer := "A",
          endorsements := [], delegatesAddr := [] } = none ∧
      ValidateBlockProducer { manager := beringManager 0 }
        { hash := "h", height := 1, timestamp := 125 * second, producer := "B",
          endorsements := [], delegatesAddr := [] } = some (FooterError.invalidProposer "B") ∧
      ValidateBlockProducer { manager := beringManager 0 }
        { hash := "h", height := 1, timestamp := 125 * second, producer := "Z",
          endorsements := [], delegatesAddr := [] } = some (FooterError.notDelegate "Z") :=
  ⟨(ValidateBlockProducer_iff { manager := beringManager 0 }
      { hash := "h", height := 1, timestamp := 125 * second, producer := "A",
        endorsements := [], delegatesAddr := [] }).1.mpr ⟨by decide, by decide⟩,
    (ValidateBlockProducer_iff { manager := beringManager 0 }
      { hash := "h", height := 1, timestamp := 125 * second, producer := "B",
        endorsements := [], delegatesAddr := [] }).2.2.2.1 (by decide) "A" (by decide)
      (by decide),
    (ValidateBlockProducer_iff { manager := beringManager 0 }
      { hash := "h", height := 1, timestamp := 125 * second, producer := "Z",
        endorsements := [], delegatesAddr := [] }).2.1 (by decide)⟩

/-- The round number is refused at a height above 1 that is before the Bering height. -/
theorem lastBlockTime_before_bering (m : MiniEpochManager) (height : Nat) (I : Int)
    (h1 : 1 < height) (hb : height < m.chain.BeringBlockHeight) :
    lastBlockTime m height I = Except.error RoundError.beforeBering := by
  unfold lastBlockTime ChainManager.IsBering
  have hnb : ¬ m.chain.BeringBlockHeight ≤ height := by omega
  simp [h1, hnb]

/-- C17, amended. With time-based rotation enabled, for every height above 1 that is before the
Bering hard-fork height: `getRoundNum` returns the error of the unsupported light mode, whatever
the interval, the time and the tolerated overtime are; so does `Proposer`, which returns no
proposer; and `ValidateBlockProducer` returns an error for every block of that height. -/
theorem getRoundNum_before_bering (m : MiniEpochManager) (height : Nat) (I now T : Int)
    (h1 : 1 < height) (hb : height < m.chain.BeringBlockHeight) :
    getRoundNum m height I now T = Except.error RoundError.beforeBering ∧
    (m.isTimeBasedRotation = true →
      Proposer m height now = Except.error RoundError.beforeBering ∧
      ∀ blk : Block, blk.height = height →
        ValidateBlockProducer { manager := m } blk ≠ none) := by
  have hget : ∀ I1 now1 T1, getRoundNum m height I1 now1 T1 =
      Except.error RoundError.beforeBering := by
    intro I1 now1 T1
    unfold getRoundNum
    rw [lastBlockTime_before_bering m height I1 h1 hb]
  refine ⟨hget I now T, fun hrot => ?_⟩
  have hprop : ∀ now1, Proposer m height now1 = Except.error RoundError.beforeBering := by
    intro now1
    unfold Proposer
    simp only [hrot, if_true, hget]
  refine ⟨hprop now, ?_⟩
  intro blk hh
  unfold ValidateBlockProducer
  simp only
  split_ifs with hd
  · intro he
    cases he
  · rw [hh, hprop]
    intro he
    cases he

/-- Witness of C17 (amended): Bering height `5`, height `3`. -/
theorem getRoundNum_before_bering_witness :
    getRoundNum (beringManager 5) 3 (10 * second) (125 * second) 0 =
        Except.error RoundError.beforeBering ∧
      Proposer (beringManager 5) 3 (125 * second) = Except.error RoundError.beforeBering :=
  ⟨(getRoundNum_before_bering (beringManager 5) 3 (10 * second) (125 * second) 0 (by decide)
      (by decide)).1,
    ((getRoundNum_before_bering (beringManager 5) 3 (10 * second) (125 * second) 0 (by decide)
      (by decide)).2 rfl).1⟩

/-- C17 fails as stated. Bering height `5`, time-based rotation, delegates `A, B, C, D`, interval
`10s`, genesis time `0`: at height `1`, which is before the Bering height, and `now = 125s` the
round number is computed (`11`), `Proposer` returns the delegate `A`, and
`ValidateBlockProducer` accepts a block of height `1` produced by `A`; the Bering check is made
for heights above 1 only. -/
theorem getRoundNum_before_bering_counterexample :
    1 < (beringManager 5).chain.BeringBlockHeight ∧
      (beringManager 5).isTimeBasedRotation = true ∧
      getRoundNum (beringManager 5) 1 (10 * second) (125 * second) 0 = Except.ok 11 ∧
      Proposer (beringManager 5) 1 (125 * second) = Except.ok "A" ∧
      ValidateBlockProducer { manager := beringManager 5 }
        { hash := "h", height := 1, timestamp := 125 * second, producer := "A",
          endorsements := [], delegatesAddr := [] } = none := by
  decide

end RollDPoS

/-! ## Lemmas on Go maps -/

namespace GoMap

variable {κ ν : Type} [DecidableEq κ]

theorem find?_none_iff_not_key (m : GoMap κ ν) (k : κ) :
    m.find? k = none ↔ k ∉ m.map Prod.fst := by
  induction m with
  | nil => simp [find?]
  | cons p rest ih =>
    obtain ⟨k1, v⟩ := p
    unfold find?
    by_cases h : k1 = k
    · simp [h]
    · have hne : ¬ k = k1 := fun e => h e.symm
      simp only [h, if_false, List.map_cons, List.mem_cons, hne, false_or]
      exact ih

theorem find?_mem (m : GoMap κ ν) (k : κ) (v : ν) (h : m.find? k = some v) : (k, v) ∈ m := by
  induction m with
  | nil => simp [find?] at h
  | cons p rest ih =>
    obtain ⟨k1, v1⟩ := p
    unfold find? at h
    by_cases hk : k1 = k
    · simp only [hk, if_true, Option.some.injEq] at h
      rw [hk, h]
      exact List.mem_cons_self _ _
    · simp only [hk, if_false] at h
      exact List.mem_cons_of_mem _ (ih h)

theorem find?_of_mem_nodup (m : GoMap κ ν) (k : κ) (v : ν) (hnd : (m.map Prod.fst).Nodup)
    (h : (k, v) ∈ m) : m.find? k = some v := by
  induction m with
  | nil => cases h
  | cons p rest ih =>
    obtain ⟨k1, v1⟩ := p
    simp only [List.map_cons, List.nodup_cons] at hnd
    unfold find?
    rcases List.mem_cons.mp h with he | he
    · have h1 : k1 = k := (Prod.mk.inj he).1.symm
      have h2 : v1 = v := (Prod.mk.inj he).2.symm
      simp [h1, h2]
    · have hne : ¬ k1 = k := by
        intro e
        exact hnd.1 (e ▸ List.mem_map_of_mem Prod.fst he)
      simp only [hne, if_false]
      exact ih hnd.2 he

theorem keys_map_replace (m : GoMap κ ν) (k : κ) (v : ν) :
    (m.map (fun p => if p.1 = k then (k, v) else p)).map Prod.fst = m.map Prod.fst := by
  rw [List.map_map]
  apply List.map_congr_left
  intro p _
  simp only [Function.comp]
  split_ifs with h
  · exact h.symm
  · rfl

theorem keys_set (m : GoMap κ ν) (k : κ) (v : ν) :
    (m.set k v).map Prod.fst =
      if (m.find? k).isSome then m.map Prod.fst else m.map Prod.fst ++ [k] := by
  unfold set
  split_ifs with h
  · exact keys_map_replace m k v
  · simp

theorem find?_map_replace (m : GoMap κ ν) (k j : κ) (v : ν) :
    GoMap.find? (m.map (fun p => if p.1 = k then (k, v) else p)) j =
      if j = k then (m.find? k).map (fun _ => v) else m.find? j := by
  induction m with
  | nil => simp [find?]
  | cons p rest ih =>
    obtain ⟨k1, v1⟩ := p
    simp only [List.map_cons]
    by_cases h1 : k1 = k
    · simp only [h1, if_true]
      unfold find?
      by_cases h2 : j = k
      · simp [h2]
      · have : ¬ k = j := fun e => h2 e.symm
        simp only [this, if_false, h2]
        rw [ih]
        simp [h2]
    · simp only [h1, if_false]
      unfold find?
      by_cases h2 : k1 = j
      · have : ¬ j = k := fun e => h1 (h2.trans e)
        simp [h2, this]
      · simp only [h2, if_false]
        rw [ih]
        by_cases h3 : j = k
        · have : ¬ k1 = k := h1
          simp [h3, this]
        · simp [h3]

theorem find?_append_single (m : GoMap κ ν) (k j : κ) (v : ν) (h : m.find? k = none) :
    GoMap.find? (m ++ [(k, v)]) j = if j = k then some v else m.find? j := by
  induction m with
  | nil =>
    simp only [List.nil_append, find?]
    by_cases hj : j = k
    · simp [hj]
    · have : ¬ k = j := fun e => hj e.symm
      simp [hj, this]
  | cons p rest ih =>
    obtain ⟨k1, v1⟩ := p
    unfold find? at h
    by_cases h1 : k1 = k
    · simp [h1] at h
    · simp only [h1, if_false] at h
      simp only [List.cons_append]
      unfold find?
      by_cases h2 : k1 = j
      · have : ¬ j = k := fun e => h1 (h2.trans e)
        simp [h2, this]
      · simp only [h2, if_false]
        exact ih h

theorem find?_set (m : GoMap κ ν) (k j : κ) (v : ν) :
    (m.set k v).find? j = if j = k then some v else m.find? j := by
  unfold set
  cases hf : m.find? k with
  | none =>
    simp only [Option.isSome_none, Bool.false_eq_true, if_false]
    exact find?_append_single m k j v hf
  | some w =>
    simp only [Option.isSome_some, if_true]
    rw [find?_map_replace, hf]
    simp

theorem set_of_isSome (m : GoMap κ ν) (k : κ) (v : ν) (h : (m.find? k).isSome = true) :
    m.set k v = m.map (fun p => if p.1 = k then (k, v) else p) := by
  unfold set
  rw [if_pos h]

theorem set_of_none (m : GoMap κ ν) (k : κ) (v : ν) (h : m.find? k = none) :
    m.set k v = m ++ [(k, v)] := by
  unfold set
  simp [h]

theorem set_set_same (m : GoMap κ ν) (k : κ) (v : ν) :
    GoMap.set (GoMap.set m k v) k v = GoMap.set m k v := by
  have hsome : ((GoMap.set m k v).find? k).isSome = true := by
    rw [find?_set]
    simp
  rw [set_of_isSome (GoMap.set m k v) k v hsome]
  cases hf : m.find? k with
  | some w =>
    rw [set_of_isSome m k v (by simp [hf]), List.map_map]
    apply List.map_congr_left
    intro p _
    simp only [Function.comp]
    by_cases h1 : p.1 = k <;> simp [h1]
  | none =>
    rw [set_of_none m k v hf, List.map_append]
    simp only [List.map_cons, List.map_nil, if_true]
    congr 1
    rw [find?_none_iff_not_key] at hf
    conv_rhs => rw [← List.map_id m]
    apply List.map_congr_left
    intro p hp
    have : ¬ p.1 = k := fun e => hf (e ▸ List.mem_map_of_mem Prod.fst hp)
    simp [this]

end GoMap

/-! ## The validation of the commit endorsements -/

namespace RollDPoS

theorem addVoteEndorsement_single (V : ConsensusVote → Endorsement → Bool) (h : String)
    (c : blockEndorsementCollection) (en : Endorsement) :
    miniRoundCalculator.addVoteEndorsement V { collections := [(h, c)] }
        (NewConsensusVote h ConsensusVoteTopic.COMMIT) en =
      if V (NewConsensusVote h ConsensusVoteTopic.COMMIT) en = false then
        Except.error FooterError.invalidEndorsement
      else
        match c.AddEndorsement ConsensusVoteTopic.COMMIT en with
        | Except.error e => Except.error (FooterError.collection e)
        | Except.ok c1 => Except.ok { collections := [(h, c1)] } := by
  unfold miniRoundCalculator.addVoteEndorsement
  by_cases hv : V (NewConsensusVote h ConsensusVoteTopic.COMMIT) en = false
  · simp only [hv, if_true]
  · simp only [hv, if_false]
    simp only [NewConsensusVote, GoMap.find?, if_true]
    cases c.AddEndorsement ConsensusVoteTopic.COMMIT en with
    | error e => rfl
    | ok c1 => simp [GoMap.set, GoMap.find?]

theorem endorser_AddEndorsement_error (ee : endorserEndorsementCollection)
    (topic : ConsensusVoteTopic) (en : Endorsement) (e : String)
    (h : ee.AddEndorsement topic en = Except.error e) : e = errReplacedOrExpired := by
  unfold endorserEndorsementCollection.AddEndorsement at h
  cases hf : ee.endorsements.find? topic with
  | none =>
    rw [hf] at h
    cases h
  | some e1 =>
    rw [hf] at h
    simp only at h
    split_ifs at h
    exact (Except.error.inj h).symm

theorem AddEndorsement_error_of (c : blockEndorsementCollection)
    (ee : endorserEndorsementCollection) (topic : ConsensusVoteTopic) (en : Endorsement)
    (e : String)
    (h : (match ee.AddEndorsement topic en with
      | Except.error e => Except.error e
      | Except.ok ee1 =>
        (Except.ok { c with endorsers := c.endorsers.set en.endorser ee1 } :
          Except String blockEndorsementCollection)) = Except.error e) :
    e = errReplacedOrExpired := by
  cases hadd : ee.AddEndorsement topic en with
  | error e1 =>
    rw [hadd] at h
    have he : e1 = e := Except.error.inj h
    rw [← he]
    exact endorser_AddEndorsement_error ee topic en e1 hadd
  | ok ee1 =>
    rw [hadd] at h
    cases h

/-- The one error of `AddEndorsement`. -/
theorem AddEndorsement_error (c : blockEndorsementCollection) (topic : ConsensusVoteTopic)
    (en : Endorsement) (e : String) (h : c.AddEndorsement topic en = Except.error e) :
    e = errReplacedOrExpired :=
  AddEndorsement_error_of c _ topic en e h

/-- The call `AddEndorsement` under `COMMIT` on a collection that holds `COMMIT` endorsements only:
it fails when the endorser has a later endorsement, and otherwise the endorsement becomes the one
of its endorser. -/
theorem AddEndorsement_commit (c : blockEndorsementCollection) (en : Endorsement)
    (hc : CommitOnly c.endorsers) :
    c.AddEndorsement ConsensusVoteTopic.COMMIT en =
      match commitOf c.endorsers en.endorser with
      | some e =>
        if en.timestamp < e.timestamp then Except.error errReplacedOrExpired
        else Except.ok (withCommit c en)
      | none => Except.ok (withCommit c en) := by
  unfold blockEndorsementCollection.AddEndorsement commitOf withCommit
  cases hf : c.endorsers.find? en.endorser with
  | none => rfl
  | some ee =>
    obtain ⟨e, he⟩ := hc (en.endorser, ee) (GoMap.find?_mem _ _ _ hf)
    cases ee with
    | mk l =>
      simp only at he
      subst he
      simp only [endorserEndorsementCollection.AddEndorsement,
        endorserEndorsementCollection.Endorsement, GoMap.find?, if_true, Time.After]
      by_cases hlt : en.timestamp < e.timestamp
      · simp [hlt]
      · simp [hlt, GoMap.set, GoMap.find?, commitEntry]

theorem commitOf_set (m : GoMap String endorserEndorsementCollection) (en : Endorsement)
    (x : String) :
    commitOf (m.set en.endorser (commitEntry en)) x =
      if x = en.endorser then some en else commitOf m x := by
  unfold commitOf
  rw [GoMap.find?_set]
  by_cases hx : x = en.endorser
  · rw [if_pos hx, if_pos hx]
    rfl
  · rw [if_neg hx, if_neg hx]

theorem CommitOnly_set (m : GoMap String endorserEndorsementCollection) (en : Endorsement)
    (hc : CommitOnly m) : CommitOnly (m.set en.endorser (commitEntry en)) := by
  intro p hp
  cases hf : m.find? en.endorser with
  | none =>
    rw [GoMap.set_of_none _ _ _ hf] at hp
    rcases List.mem_append.mp hp with h | h
    · exact hc p h
    · rw [List.mem_singleton] at h
      subst h
      exact ⟨en, rfl⟩
  | some ee =>
    rw [GoMap.set_of_isSome _ _ _ (by rw [hf]; rfl)] at hp
    obtain ⟨q, hq, hqp⟩ := List.mem_map.mp hp
    by_cases hk : q.1 = en.endorser
    · rw [if_pos hk] at hqp
      subst hqp
      exact ⟨en, rfl⟩
    · rw [if_neg hk] at hqp
      subst hqp
      exact hc q hq

theorem keys_set_nodup (m : GoMap String endorserEndorsementCollection) (k : String)
    (v : endorserEndorsementCollection) (hnd : (m.map Prod.fst).Nodup) :
    ((m.set k v).map Prod.fst).Nodup ∧
      ∀ name, name ∈ (m.set k v).map Prod.fst ↔ (name ∈ m.map Prod.fst ∨ name = k) := by
  rw [GoMap.keys_set]
  cases hf : m.find? k with
  | none =>
    have hk : k ∉ m.map Prod.fst := (GoMap.find?_none_iff_not_key m k).mp hf
    simp only [Option.isSome_none, Bool.false_eq_true, if_false]
    refine ⟨?_, ?_⟩
    · rw [List.nodup_append]
      refine ⟨hnd, List.nodup_singleton k, ?_⟩
      intro a ha hb
      rw [List.mem_singleton] at hb
      subst hb
      exact hk ha
    · intro name
      rw [List.mem_append, List.mem_singleton]
  | some ee =>
    have hk : k ∈ m.map Prod.fst := by
      by_contra hn
      rw [(GoMap.find?_none_iff_not_key m k).mpr hn] at hf
      cases hf
    simp only [Option.isSome_some, if_true]
    refine ⟨hnd, fun name => ⟨Or.inl, ?_⟩⟩
    rintro (h | h)
    · exact h
    · rw [h]
      exact hk

/-- The endorsements are fresh for a map when, and only when, the first is not older than the one
kept for its endorser and the others are fresh for the map with the first put in. -/
theorem FreshFor_cons (m : GoMap String endorserEndorsementCollection) (en : Endorsement)
    (rest : List Endorsement) :
    FreshFor m (en :: rest) ↔
      ((∀ e, commitOf m en.endorser = some e → e.timestamp ≤ en.timestamp) ∧
        FreshFor (m.set en.endorser (commitEntry en)) rest) := by
  unfold FreshFor
  rw [List.pairwise_cons]
  constructor
  · rintro ⟨⟨hR, hP⟩, hS⟩
    refine ⟨hS en (List.mem_cons_self _ _), hP, ?_⟩
    intro x hx e he
    rw [commitOf_set] at he
    by_cases hxe : x.endorser = en.endorser
    · rw [if_pos hxe] at he
      cases he
      exact hR x hx hxe.symm
    · rw [if_neg hxe] at he
      exact hS x (List.mem_cons_of_mem _ hx) e he
  · rintro ⟨h0, hP, hS⟩
    refine ⟨⟨?_, hP⟩, ?_⟩
    · intro x hx heq
      exact hS x hx en (by rw [commitOf_set, if_pos heq.symm])
    · intro x hx e he
      rcases List.mem_cons.mp hx with hxe | hxr
      · subst hxe
        exact h0 e he
      · by_cases hxe : x.endorser = en.endorser
        · have h1 : en.timestamp ≤ x.timestamp :=
            hS x hxr en (by rw [commitOf_set, if_pos hxe])
          have h2 : e.timestamp ≤ en.timestamp := h0 e (by rw [← hxe]; exact he)
          exact le_trans h2 h1
        · exact hS x hxr e (by rw [commitOf_set, if_neg hxe]; exact he)

theorem FreshFor_nil_map (ens : List Endorsement) :
    FreshFor [] ens ↔
      ens.Pairwise (fun a b => a.endorser = b.endorser → a.timestamp ≤ b.timestamp) := by
  unfold FreshFor
  constructor
  · exact fun h => h.1
  · intro h
    refine ⟨h, ?_⟩
    intro x _ e he
    cases he

/-- One turn of the loop of `ValidateBlockVote` on an endorsement that fails verification. -/
theorem addCommitVotes_cons_invalid (V : ConsensusVote → Endorsement → Bool) (h : String)
    (c : blockEndorsementCollection) (en : Endorsement) (rest : List Endorsement)
    (hv : V (NewConsensusVote h ConsensusVoteTopic.COMMIT) en = false) :
    addCommitVotes V h { collections := [(h, c)] } (en :: rest) =
      Except.error FooterError.invalidEndorsement := by
  unfold addCommitVotes
  rw [addVoteEndorsement_single, if_pos hv]

/-- One turn of the loop of `ValidateBlockVote` on an endorsement that verifies and is not older
than the one kept for its endorser. -/
theorem addCommitVotes_cons_ok (V : ConsensusVote → Endorsement → Bool) (h : String)
    (c : blockEndorsementCollection) (en : Endorsement) (rest : List Endorsement)
    (hc : CommitOnly c.endorsers)
    (hv : V (NewConsensusVote h ConsensusVoteTopic.COMMIT) en = true)
    (hok : ∀ e, commitOf c.endorsers en.endorser = some e → e.timestamp ≤ en.timestamp) :
    addCommitVotes V h { collections := [(h, c)] } (en :: rest) =
      addCommitVotes V h { collections := [(h, withCommit c en)] } rest := by
  conv_lhs => unfold addCommitVotes
  rw [addVoteEndorsement_single, hv, AddEndorsement_commit c en hc]
  simp only [Bool.true_eq_false, if_false]
  cases hco : commitOf c.endorsers en.endorser with
  | none => rfl
  | some e =>
    have hle := hok e hco
    have hlt : ¬ en.timestamp < e.timestamp := not_lt.mpr hle
    simp only [hlt, if_false]

/-- One turn of the loop of `ValidateBlockVote` on an endorsement that verifies and is older than
the one kept for its endorser. -/
theorem addCommitVotes_cons_stale (V : ConsensusVote → Endorsement → Bool) (h : String)
    (c : blockEndorsementCollection) (en : Endorsement) (rest : List Endorsement)
    (hc : CommitOnly c.endorsers)
    (hv : V (NewConsensusVote h ConsensusVoteTopic.COMMIT) en = true)
    (hstale : ¬ ∀ e, commitOf c.endorsers en.endorser = some e → e.timestamp ≤ en.timestamp) :
    addCommitVotes V h { collections := [(h, c)] } (en :: rest) =
      Except.error (FooterError.collection errReplacedOrExpired) := by
  unfold addCommitVotes
  rw [addVoteEndorsement_single, hv, AddEndorsement_commit c en hc]
  simp only [Bool.true_eq_false, if_false]
  cases hco : commitOf c.endorsers en.endorser with
  | none =>
    exfalso
    apply hstale
    intro e he
    rw [hco] at he
    cases he
  | some e =>
    have hlt : en.timestamp < e.timestamp := by
      by_contra hn
      apply hstale
      intro e1 he1
      rw [hco] at he1
      cases he1
      exact not_lt.mp hn
    simp only [hlt, if_true]

/-- The loop of `ValidateBlockVote` on endorsements that all verify and are fresh: every one is
collected, and the endorsers of the collection are those it had and those of the endorsements. -/
theorem addCommitVotes_fresh (V : ConsensusVote → Endorsement → Bool) (h : String)
    (ens : List Endorsement) (c : blockEndorsementCollection)
    (hc : CommitOnly c.endorsers) (hnd : (c.endorsers.map Prod.fst).Nodup)
    (hall : ∀ en ∈ ens, V (NewConsensusVote h ConsensusVoteTopic.COMMIT) en = true)
    (hfresh : FreshFor c.endorsers ens) :
    ∃ c1 : blockEndorsementCollection,
      addCommitVotes V h { collections := [(h, c)] } ens =
        Except.ok { collections := [(h, c1)] } ∧
      CommitOnly c1.endorsers ∧ (c1.endorsers.map Prod.fst).Nodup ∧
      ∀ name, name ∈ c1.endorsers.map Prod.fst ↔
        (name ∈ c.endorsers.map Prod.fst ∨ name ∈ ens.map (fun e => e.endorser)) := by
  induction ens generalizing c with
  | nil => exact ⟨c, rfl, hc, hnd, fun name => by simp⟩
  | cons en rest ih =>
    obtain ⟨hok, hrest⟩ := (FreshFor_cons c.endorsers en rest).mp hfresh
    rw [addCommitVotes_cons_ok V h c en rest hc (hall en (List.mem_cons_self _ _)) hok]
    obtain ⟨hnd1, hkeys1⟩ := keys_set_nodup c.endorsers en.endorser (commitEntry en) hnd
    obtain ⟨c1, h1, h2, h3, h4⟩ := ih (withCommit c en) (CommitOnly_set c.endorsers en hc) hnd1
      (fun x hx => hall x (List.mem_cons_of_mem _ hx)) hrest
    refine ⟨c1, h1, h2, h3, ?_⟩
    intro name
    rw [h4 name]
    have hk := hkeys1 name
    simp only [withCommit] at hk ⊢
    rw [hk, List.map_cons, List.mem_cons]
    tauto

/-- The loop of `ValidateBlockVote` on endorsements that all verify and are not fresh: it stops
with the error of the collection. -/
theorem addCommitVotes_stale (V : ConsensusVote → Endorsement → Bool) (h : String)
    (ens : List Endorsement) (c : blockEndorsementCollection)
    (hc : CommitOnly c.endorsers)
    (hall : ∀ en ∈ ens, V (NewConsensusVote h ConsensusVoteTopic.COMMIT) en = true)
    (hstale : ¬ FreshFor c.endorsers ens) :
    addCommitVotes V h { collections := [(h, c)] } ens =
      Except.error (FooterError.collection errReplacedOrExpired) := by
  induction ens generalizing c with
  | nil =>
    exfalso
    apply hstale
    exact ⟨List.Pairwise.nil, fun x hx => by cases hx⟩
  | cons en rest ih =>
    by_cases hok : ∀ e, commitOf c.endorsers en.endorser = some e → e.timestamp ≤ en.timestamp
    · rw [addCommitVotes_cons_ok V h c en rest hc (hall en (List.mem_cons_self _ _)) hok]
      apply ih (withCommit c en) (CommitOnly_set c.endorsers en hc)
        (fun x hx => hall x (List.mem_cons_of_mem _ hx))
      intro hrest
      exact hstale ((FreshFor_cons c.endorsers en rest).mpr ⟨hok, hrest⟩)
    · exact addCommitVotes_cons_stale V h c en rest hc (hall en (List.mem_cons_self _ _)) hok

/-- The loop of `ValidateBlockVote` on endorsements one of which fails verification: it stops
with an error, that of the verification or that of the collection, whichever comes first. -/
theorem addCommitVotes_invalid (V : ConsensusVote → Endorsement → Bool) (h : String)
    (ens : List Endorsement) (c : blockEndorsementCollection)
    (hbad : ∃ en ∈ ens, V (NewConsensusVote h ConsensusVoteTopic.COMMIT) en = false) :
    ∃ e, addCommitVotes V h { collections := [(h, c)] } ens = Except.error e ∧
      (e = FooterError.invalidEndorsement ∨
        e = FooterError.collection errReplacedOrExpired) := by
  induction ens generalizing c with
  | nil =>
    obtain ⟨en, hen, _⟩ := hbad
    cases hen
  | cons en rest ih =>
    by_cases hv : V (NewConsensusVote h ConsensusVoteTopic.COMMIT) en = false
    · exact ⟨_, addCommitVotes_cons_invalid V h c en rest hv, Or.inl rfl⟩
    · have hrest : ∃ x ∈ rest, V (NewConsensusVote h ConsensusVoteTopic.COMMIT) x = false := by
        obtain ⟨x, hx, hf⟩ := hbad
        rcases List.mem_cons.mp hx with he | he
        · rw [he] at hf
          exact absurd hf hv
        · exact ⟨x, he, hf⟩
      unfold addCommitVotes
      rw [addVoteEndorsement_single, if_neg hv]
      cases hadd : c.AddEndorsement ConsensusVoteTopic.COMMIT en with
      | error msg =>
        rw [AddEndorsement_error c _ en msg hadd]
        exact ⟨_, rfl, Or.inr rfl⟩
      | ok c1 => exact ih c1 hrest

/-- The loop of `ValidateBlockVote` on fresh endorsements one of which fails verification: it
stops with the error of the verification. -/
theorem addCommitVotes_invalid_fresh (V : ConsensusVote → Endorsement → Bool) (h : String)
    (ens : List Endorsement) (c : blockEndorsementCollection)
    (hc : CommitOnly c.endorsers)
    (hbad : ∃ en ∈ ens, V (NewConsensusVote h ConsensusVoteTopic.COMMIT) en = false)
    (hfresh : FreshFor c.endorsers ens) :
    addCommitVotes V h { collections := [(h, c)] } ens =
      Except.error FooterError.invalidEndorsement := by
  induction ens generalizing c with
  | nil =>
    obtain ⟨en, hen, _⟩ := hbad
    cases hen
  | cons en rest ih =>
    by_cases hv : V (NewConsensusVote h ConsensusVoteTopic.COMMIT) en = false
    · exact addCommitVotes_cons_invalid V h c en rest hv
    · have hrest : ∃ x ∈ rest, V (NewConsensusVote h ConsensusVoteTopic.COMMIT) x = false := by
        obtain ⟨x, hx, hf⟩ := hbad
        rcases List.mem_cons.mp hx with he | he
        · rw [he] at hf
          exact absurd hf hv
        · exact ⟨x, he, hf⟩
      obtain ⟨hok, hfr⟩ := (FreshFor_cons c.endorsers en rest).mp hfresh
      rw [addCommitVotes_cons_ok V h c en rest hc (by simpa using hv) hok]
      exact ih (withCommit c en) (CommitOnly_set c.endorsers en hc) hrest hfr

/-- A collection that holds `COMMIT` endorsements only returns one endorsement for each of its
endorsers under `COMMIT`. -/
theorem Endorsements_length (blk : Block) (m : GoMap String endorserEndorsementCollection)
    (hc : CommitOnly m) :
    ((blockEndorsementCollection.mk blk m).Endorsements [ConsensusVoteTopic.COMMIT]).length =
      m.length := by
  unfold blockEndorsementCollection.Endorsements GoMap.values
  simp only
  induction m with
  | nil => rfl
  | cons p rest ih =>
    obtain ⟨e, he⟩ := hc p (List.mem_cons_self _ _)
    have hrest : CommitOnly rest := fun q hq => hc q (List.mem_cons_of_mem _ hq)
    have hp : [ConsensusVoteTopic.COMMIT].findSome? (fun topic => p.2.Endorsement topic) =
        some e := by
      simp [endorserEndorsementCollection.Endorsement, he, GoMap.find?]
    rw [List.map_cons, List.filterMap_cons, hp]
    simp only [List.length_cons]
    rw [ih hrest]

theorem length_eq_dedup_length (l l2 : List String) (hnd : l.Nodup)
    (hmem : ∀ x, x ∈ l ↔ x ∈ l2) : l.length = l2.dedup.length := by
  have hp : l.Perm l2.dedup := by
    rw [List.perm_ext_iff_of_nodup hnd (List.nodup_dedup l2)]
    intro x
    rw [hmem x, List.mem_dedup]
  exact hp.length_eq

theorem addBlock_new (blk : Block) :
    newMiniRoundCalculator.addBlock blk =
      { collections := [(blk.hash, newBlockEndorsementCollection blk)] } := by
  simp [newMiniRoundCalculator, miniRoundCalculator.addBlock, GoMap.find?, GoMap.set]

/-- The loop of `ValidateBlockVote` on a block whose endorsements all verify and are fresh: the
number of the `COMMIT` endorsements collected is the number of the endorsers. -/
theorem addCommitVotes_count (V : ConsensusVote → Endorsement → Bool) (blk : Block)
    (hall : ∀ en ∈ blk.endorsements,
      V (NewConsensusVote blk.hash ConsensusVoteTopic.COMMIT) en = true)
    (hfresh : blk.endorsements.Pairwise
      (fun a b => a.endorser = b.endorser → a.timestamp ≤ b.timestamp)) :
    ∃ round1 : miniRoundCalculator,
      addCommitVotes V blk.hash (newMiniRoundCalculator.addBlock blk) blk.endorsements =
        Except.ok round1 ∧
      round1.countTopicEndorsement blk.hash [ConsensusVoteTopic.COMMIT] =
        (blk.endorsements.map (fun e => e.endorser)).dedup.length := by
  rw [addBlock_new]
  obtain ⟨c1, h1, h2, h3, h4⟩ := addCommitVotes_fresh V blk.hash blk.endorsements
    (newBlockEndorsementCollection blk) (fun p hp => by cases hp) List.nodup_nil hall
    ((FreshFor_nil_map blk.endorsements).mpr hfresh)
  refine ⟨_, h1, ?_⟩
  have hcount : ({ collections := [(blk.hash, c1)] } : miniRoundCalculator).countTopicEndorsement
      blk.hash [ConsensusVoteTopic.COMMIT] =
        (c1.Endorsements [ConsensusVoteTopic.COMMIT]).length := by
    simp [miniRoundCalculator.countTopicEndorsement, GoMap.find?]
  rw [hcount]
  cases c1 with
  | mk b m =>
    rw [Endorsements_length b m h2]
    have hl : m.length = (m.map Prod.fst).length := (List.length_map _ _).symm
    rw [hl]
    apply length_eq_dedup_length _ _ h3
    intro x
    have := h4 x
    simpa [newBlockEndorsementCollection] using this

/-- The result of `ValidateBlockVote` on a block whose endorsements all verify. -/
theorem ValidateBlockVote_valid (V : ConsensusVote → Endorsement → Bool) (fv : FooterValidator)
    (blk : Block)
    (hall : ∀ en ∈ blk.endorsements,
      V (NewConsensusVote blk.hash ConsensusVoteTopic.COMMIT) en = true) :
    ValidateBlockVote V fv blk =
      if blk.endorsements.Pairwise
          (fun a b => a.endorser = b.endorser → a.timestamp ≤ b.timestamp) then
        if 3 * (blk.endorsements.map (fun e => e.endorser)).dedup.length ≤
            2 * fv.manager.delegates.length then
          some FooterError.ErrInsufficientEndorsements
        else none
      else some (FooterError.collection errReplacedOrExpired) := by
  by_cases hfresh : blk.endorsements.Pairwise
      (fun a b => a.endorser = b.endorser → a.timestamp ≤ b.timestamp)
  · rw [if_pos hfresh]
    obtain ⟨round1, h1, h2⟩ := addCommitVotes_count V blk hall hfresh
    unfold ValidateBlockVote
    simp only [h1, h2]
  · rw [if_neg hfresh]
    have h1 := addCommitVotes_stale V blk.hash blk.endorsements
      (newBlockEndorsementCollection blk) (fun p hp => by cases hp) hall
      (fun hf => hfresh ((FreshFor_nil_map blk.endorsements).mp hf))
    unfold ValidateBlockVote
    simp only [addBlock_new, h1]

/-- The result of `ValidateBlockVote` on a block one of whose endorsements fails verification. -/
theorem ValidateBlockVote_invalid (V : ConsensusVote → Endorsement → Bool)
    (fv : FooterValidator) (blk : Block)
    (hbad : ∃ en ∈ blk.endorsements,
      V (NewConsensusVote blk.hash ConsensusVoteTopic.COMMIT) en = false) :
    (∃ e, ValidateBlockVote V fv blk = some e ∧
      (e = FooterError.invalidEndorsement ∨
        e = FooterError.collection errReplacedOrExpired)) ∧
    (blk.endorsements.Pairwise
        (fun a b => a.endorser = b.endorser → a.timestamp ≤ b.timestamp) →
      ValidateBlockVote V fv blk = some FooterError.invalidEndorsement) := by
  constructor
  · obtain ⟨e, h1, h2⟩ := addCommitVotes_invalid V blk.hash blk.endorsements
      (newBlockEndorsementCollection blk) hbad
    refine ⟨e, ?_, h2⟩
    unfold ValidateBlockVote
    simp only [addBlock_new, h1]
  · intro hfresh
    have h1 := addCommitVotes_invalid_fresh V blk.hash blk.endorsements
      (newBlockEndorsementCollection blk) (fun p hp => by cases hp) hbad
      ((FreshFor_nil_map blk.endorsements).mpr hfresh)
    unfold ValidateBlockVote
    simp only [addBlock_new, h1]

end RollDPoS

namespace RollDPoS

/-- C11, amended. For every block all of whose attached endorsements verify as `COMMIT` votes on
the hash of the block: when no attached endorsement is older than an endorsement of the same
endorser attached before it, every endorsement is collected, the number `n` of the `COMMIT`
endorsements collected for the block is the number of the endorsers (one endorsement is kept for
each), `ValidateBlockVote` returns no error if and only if `3 × n > 2 × len(delegates)`, and it
returns `ErrInsufficientEndorsements` otherwise; when an attached endorsement is older than an
earlier one of its endorser, `ValidateBlockVote` returns the error of the collection, whatever the
number collected is. -/
theorem ValidateBlockVote_quorum (V : ConsensusVote → Endorsement → Bool) (fv : FooterValidator)
    (blk : Block)
    (hall : ∀ en ∈ blk.endorsements,
      V (NewConsensusVote blk.hash ConsensusVoteTopic.COMMIT) en = true) :
    (blk.endorsements.Pairwise
        (fun a b => a.endorser = b.endorser → a.timestamp ≤ b.timestamp) →
      (∃ round1 : miniRoundCalculator,
        addCommitVotes V blk.hash (newMiniRoundCalculator.addBlock blk) blk.endorsements =
          Except.ok round1 ∧
        round1.countTopicEndorsement blk.hash [ConsensusVoteTopic.COMMIT] =
          (blk.endorsements.map (fun e => e.endorser)).dedup.length) ∧
      (ValidateBlockVote V fv blk = none ↔
        3 * (blk.endorsements.map (fun e => e.endorser)).dedup.length >
          2 * fv.manager.delegates.length) ∧
      (¬ 3 * (blk.endorsements.map (fun e => e.endorser)).dedup.length >
          2 * fv.manager.delegates.length →
        ValidateBlockVote V fv blk = some FooterError.ErrInsufficientEndorsements)) ∧
    (¬ blk.endorsements.Pairwise
        (fun a b => a.endorser = b.endorser → a.timestamp ≤ b.timestamp) →
      ValidateBlockVote V fv blk = some (FooterError.collection errReplacedOrExpired)) := by
  have hv := ValidateBlockVote_valid V fv blk hall
  constructor
  · intro hfresh
    rw [if_pos hfresh] at hv
    refine ⟨addCommitVotes_count V blk hall hfresh, ?_, ?_⟩
    · rw [hv]
      constructor
      · intro h
        split_ifs at h with hc
        omega
      · intro h
        rw [if_neg (by omega)]
    · intro h
      rw [hv, if_pos (by omega)]
  · intro hstale
    rw [hv, if_neg hstale]

/-- Witness of C11 (amended): with 7 delegates, the endorsements of 5 endorsers are accepted
(`15 > 14`) and those of 4 are rejected (`12 > 14` is false). -/
theorem ValidateBlockVote_quorum_witness :
    ValidateBlockVote sampleVerify sevenDelegates
        (sampleBlock [goodEndorsement "A", goodEndorsement "B", goodEndorsement "C",
          goodEndorsement "D", goodEndorsement "E"]) = none ∧
      ValidateBlockVote sampleVerify sevenDelegates
        (sampleBlock [goodEndorsement "A", goodEndorsement "B", goodEndorsement "C",
          goodEndorsement "D"]) = some FooterError.ErrInsufficientEndorsements :=
  ⟨((ValidateBlockVote_quorum sampleVerify sevenDelegates
      (sampleBlock [goodEndorsement "A", goodEndorsement "B", goodEndorsement "C",
        goodEndorsement "D", goodEndorsement "E"]) (by decide)).1 (by decide)).2.1.mpr
      (by decide),
    ((ValidateBlockVote_quorum sampleVerify sevenDelegates
      (sampleBlock [goodEndorsement "A", goodEndorsement "B", goodEndorsement "C",
        goodEndorsement "D"]) (by decide)).1 (by decide)).2.2 (by decide)⟩

/-- C11 fails as stated. With 7 delegates, a block carries the endorsements of `A`, `B`, `C`, `D`
and `E` with the timestamp `5` and then an endorsement of `A` with the timestamp `3`, all of which
verify: after the first five, `5` endorsements are collected (`15 > 14`), but the sixth is refused
by the collection as older than the one kept for `A`, and `ValidateBlockVote` returns that error,
which is neither no error nor `ErrInsufficientEndorsements`. -/
theorem ValidateBlockVote_quorum_counterexample :
    (∀ en ∈ (sampleBlock [stampedEndorsement "A" 5, stampedEndorsement "B" 5,
        stampedEndorsement "C" 5, stampedEndorsement "D" 5, stampedEndorsement "E" 5,
        stampedEndorsement "A" 3]).endorsements,
      sampleVerify (NewConsensusVote (sampleBlock []).hash ConsensusVoteTopic.COMMIT) en =
        true) ∧
    Except.map
        (fun round1 : miniRoundCalculator =>
          round1.countTopicEndorsement (sampleBlock []).hash [ConsensusVoteTopic.COMMIT])
        (addCommitVotes sampleVerify (sampleBlock []).hash
          (newMiniRoundCalculator.addBlock (sampleBlock []))
          [stampedEndorsement "A" 5, stampedEndorsement "B" 5, stampedEndorsement "C" 5,
            stampedEndorsement "D" 5, stampedEndorsement "E" 5]) = Except.ok 5 ∧
    3 * 5 > 2 * sevenDelegates.manager.delegates.length ∧
    ValidateBlockVote sampleVerify sevenDelegates
        (sampleBlock [stampedEndorsement "A" 5, stampedEndorsement "B" 5,
          stampedEndorsement "C" 5, stampedEndorsement "D" 5, stampedEndorsement "E" 5,
          stampedEndorsement "A" 3]) =
      some (FooterError.collection errReplacedOrExpired) := by
  decide

/-- C19. For every block: when at least one endorsement attached to the block fails verification
as a `COMMIT` vote on the hash of the block, `ValidateBlockVote` returns an error, whatever the
other endorsements and the delegates are: the error of the first endorsement that is refused,
which is the error of the invalid endorsement or, for an endorsement before it that is older than
an earlier one of its endorser, the error of the collection; it is the error of the invalid
endorsement when no attached endorsement is older than an earlier one of its endorser. -/
theorem ValidateBlockVote_invalid_endorsement (V : ConsensusVote → Endorsement → Bool)
    (fv : FooterValidator) (blk : Block)
    (hbad : ∃ en ∈ blk.endorsements,
      V (NewConsensusVote blk.hash ConsensusVoteTopic.COMMIT) en = false) :
    ValidateBlockVote V fv blk ≠ none ∧
    (∃ e, ValidateBlockVote V fv blk = some e ∧
      (e = FooterError.invalidEndorsement ∨
        e = FooterError.collection errReplacedOrExpired)) ∧
    (blk.endorsements.Pairwise
        (fun a b => a.endorser = b.endorser → a.timestamp ≤ b.timestamp) →
      ValidateBlockVote V fv blk = some FooterError.invalidEndorsement) := by
  obtain ⟨⟨e, h1, h2⟩, h3⟩ := ValidateBlockVote_invalid V fv blk hbad
  refine ⟨?_, ⟨e, h1, h2⟩, h3⟩
  rw [h1]
  exact Option.some_ne_none e

/-- Witness of C19: with 7 delegates, five valid endorsements (more than two thirds) and one
invalid endorsement after them, the block is rejected. -/
theorem ValidateBlockVote_invalid_endorsement_witness :
    ValidateBlockVote sampleVerify sevenDelegates
        (sampleBlock [goodEndorsement "A", goodEndorsement "B", goodEndorsement "C",
          goodEndorsement "D", goodEndorsement "E", badEndorsement "F"]) =
      some FooterError.invalidEndorsement :=
  (ValidateBlockVote_invalid_endorsement sampleVerify sevenDelegates
    (sampleBlock [goodEndorsement "A", goodEndorsement "B", goodEndorsement "C",
      goodEndorsement "D", goodEndorsement "E", badEndorsement "F"])
    ⟨badEndorsement "F", by decide, by decide⟩).2.2 (by decide)

end RollDPoS

/-! ## The vote recomputation -/

namespace Staking

open VoteReviser

theorem keys_cloneLoop (m : GoMap String Candidate) (cands : CandidateList) (k : String) :
    k ∈ (cloneLoop m cands).map Prod.fst ↔
      (k ∈ m.map Prod.fst ∨ k ∈ cands.map (fun c => c.Owner)) := by
  induction cands generalizing m with
  | nil => simp [cloneLoop]
  | cons c rest ih =>
    unfold cloneLoop
    rw [ih, GoMap.keys_set]
    by_cases hs : (m.find? c.Owner).isSome = true
    · rw [if_pos hs]
      have hin : c.Owner ∈ m.map Prod.fst := by
        by_contra hcon
        rw [(GoMap.find?_none_iff_not_key m c.Owner).mpr hcon] at hs
        cases hs
      simp only [List.map_cons, List.mem_cons]
      constructor
      · rintro (h | h)
        · exact Or.inl h
        · exact Or.inr (Or.inr h)
      · rintro (h | h | h)
        · exact Or.inl h
        · exact Or.inl (h ▸ hin)
        · exact Or.inr h
    · rw [if_neg hs]
      simp only [List.map_cons, List.mem_cons, List.mem_append, List.not_mem_nil, or_false]
      constructor
      · rintro ((h | h) | h)
        · exact Or.inl h
        · exact Or.inr (Or.inl h)
        · exact Or.inr (Or.inr h)
      · rintro (h | h | h)
        · exact Or.inl (Or.inl h)
        · exact Or.inl (Or.inr h)
        · exact Or.inr h

theorem keys_bucketStep (c : VoteBucket → Bool → Int) (m : GoMap String Candidate)
    (b : VoteBucket) : (bucketStep c m b).map Prod.fst = m.map Prod.fst := by
  unfold bucketStep
  split_ifs with hu
  · rfl
  · cases hf : m.find? b.Candidate with
    | none => rfl
    | some cand =>
      simp only
      split_ifs with hi
      · rw [GoMap.keys_set, if_pos (by simp [hf])]
      · rw [GoMap.keys_set, if_pos (by simp [hf])]

theorem keys_foldl_bucketStep (c : VoteBucket → Bool → Int) (m : GoMap String Candidate)
    (buckets : List VoteBucket) :
    (buckets.foldl (bucketStep c) m).map Prod.fst = m.map Prod.fst := by
  induction buckets generalizing m with
  | nil => rfl
  | cons b rest ih =>
    simp only [List.foldl_cons]
    rw [ih, keys_bucketStep]

theorem bucketStep_orphan (c : VoteBucket → Bool → Int) (m : GoMap String Candidate)
    (b : VoteBucket) (h : b.Candidate ∉ m.map Prod.fst) : bucketStep c m b = m := by
  unfold bucketStep
  rw [(GoMap.find?_none_iff_not_key m b.Candidate).mpr h]
  split_ifs <;> rfl

theorem foldl_bucketStep_orphan (c : VoteBucket → Bool → Int) (m : GoMap String Candidate)
    (pre post : List VoteBucket) (b : VoteBucket) (h : b.Candidate ∉ m.map Prod.fst) :
    (pre ++ b :: post).foldl (bucketStep c) m = (pre ++ post).foldl (bucketStep c) m := by
  rw [List.foldl_append, List.foldl_append, List.foldl_cons]
  rw [bucketStep_orphan c _ b (by rw [keys_foldl_bucketStep]; exact h)]

theorem upsertLoop_fields (csm : CandidateStateManager) (l : CandidateList) :
    (upsertLoop csm l).1.buckets = csm.buckets ∧
      (upsertLoop csm l).1.bucketsError = csm.bucketsError ∧
      (upsertLoop csm l).1.candidatesError = csm.candidatesError ∧
      (upsertLoop csm l).1.upsertError = csm.upsertError := by
  induction l generalizing csm with
  | nil => exact ⟨rfl, rfl, rfl, rfl⟩
  | cons c rest ih =>
    unfold upsertLoop CandidateStateManager.Upsert
    cases he : csm.upsertError c with
    | some e => exact ⟨rfl, rfl, rfl, rfl⟩
    | none =>
      simp only
      exact ih _

/-- The loop of `flush` reads of the state manager the table, the record of the upserts and the
errors of `Upsert`, and nothing else. -/
theorem upsertLoop_congr (csm1 csm2 : CandidateStateManager) (l : CandidateList)
    (h1 : csm1.candidates = csm2.candidates) (h2 : csm1.upserted = csm2.upserted)
    (h3 : csm1.upsertError = csm2.upsertError) :
    (upsertLoop csm1 l).1.candidates = (upsertLoop csm2 l).1.candidates ∧
      (upsertLoop csm1 l).1.upserted = (upsertLoop csm2 l).1.upserted ∧
      (upsertLoop csm1 l).2 = (upsertLoop csm2 l).2 := by
  induction l generalizing csm1 csm2 with
  | nil => exact ⟨h1, h2, rfl⟩
  | cons c rest ih =>
    unfold upsertLoop CandidateStateManager.Upsert
    rw [h3]
    cases he : csm2.upsertError c with
    | some e => exact ⟨h1, h2, rfl⟩
    | none =>
      simp only
      apply ih
      · simp only [h1]
      · simp only [h2]
      · rfl

end Staking

namespace Staking

open VoteReviser

/-- The value `calculateVoteWeight` returns, in terms of the lists read. -/
theorem calculateVoteWeight_eq (vr : VoteReviser) (order : CandidateList → CandidateList)
    (sm : CandidateStateManager) :
    vr.calculateVoteWeight order sm =
      match sm.candidatesError, sm.bucketsError with
      | some (StateError.other msg), _ => Except.error (StateError.other msg)
      | _, some (StateError.other msg) => Except.error (StateError.other msg)
      | _, _ =>
        Except.ok (order (GoMap.values
          ((getAllBuckets sm).1.foldl (bucketStep vr.c) (cloneLoop [] (getAllCandidates sm).1)))) := by
  unfold calculateVoteWeight getAllCandidates getAllBuckets
  cases h1 : sm.candidatesError with
  | none =>
    cases h2 : sm.bucketsError with
    | none => rfl
    | some e2 => cases e2 <;> rfl
  | some e1 =>
    cases e1 with
    | ErrStateNotExist =>
      cases h2 : sm.bucketsError with
      | none => rfl
      | some e2 => cases e2 <;> rfl
    | other msg =>
      cases h2 : sm.bucketsError with
      | none => rfl
      | some e2 => cases e2 <;> rfl

/-- C14. For every candidate list and bucket list: a bucket whose candidate address is the owner
of no candidate read changes nothing in what `calculateVoteWeight` computes and in what `Revise`
does: the candidates computed, the cache, the error returned (so the bucket causes none of its
own, and there is none when no read and no upsert fails), the candidate table and the candidates
upserted are those obtained from the bucket list with that bucket removed. -/
theorem Revise_orphan_bucket (vr : VoteReviser) (order : CandidateList → CandidateList)
    (sm : CandidateStateManager) (pre post : List VoteBucket) (b : VoteBucket) (height : Nat)
    (hb : sm.buckets = pre ++ b :: post)
    (horphan : ∀ cand ∈ (getAllCandidates sm).1, cand.Owner ≠ b.Candidate) :
    vr.calculateVoteWeight order sm = vr.calculateVoteWeight order (sm.withBuckets (pre ++ post)) ∧
    (vr.Revise order sm height).1 = (vr.Revise order (sm.withBuckets (pre ++ post)) height).1 ∧
    (vr.Revise order sm height).2.2 =
      (vr.Revise order (sm.withBuckets (pre ++ post)) height).2.2 ∧
    (vr.Revise order sm height).2.1.candidates =
      (vr.Revise order (sm.withBuckets (pre ++ post)) height).2.1.candidates ∧
    (vr.Revise order sm height).2.1.upserted =
      (vr.Revise order (sm.withBuckets (pre ++ post)) height).2.1.upserted ∧
    ((∀ msg, sm.candidatesError ≠ some (StateError.other msg)) →
      (∀ msg, sm.bucketsError ≠ some (StateError.other msg)) →
      (∀ cand, sm.upsertError cand = none) → (vr.Revise order sm height).2.2 = none) := by
  have hkeys : b.Candidate ∉ (cloneLoop [] (getAllCandidates sm).1).map Prod.fst := by
    intro hmem
    rcases (keys_cloneLoop [] _ _).mp hmem with h | h
    · simp at h
    · obtain ⟨cand, hc, he⟩ := List.mem_map.mp h
      exact horphan cand hc he
  have hcalc : vr.calculateVoteWeight order sm =
      vr.calculateVoteWeight order (sm.withBuckets (pre ++ post)) := by
    rw [calculateVoteWeight_eq, calculateVoteWeight_eq]
    have hc : getAllCandidates (sm.withBuckets (pre ++ post)) = getAllCandidates sm := rfl
    rw [hc]
    cases h2 : sm.bucketsError with
    | none =>
      have e1 : (getAllBuckets sm).1 = pre ++ b :: post := by
        simp [getAllBuckets, h2, hb]
      have e2 : (getAllBuckets (sm.withBuckets (pre ++ post))).1 = pre ++ post := by
        simp [getAllBuckets, CandidateStateManager.withBuckets, h2]
      have e3 : (sm.withBuckets (pre ++ post)).bucketsError = none := h2
      have e4 : (sm.withBuckets (pre ++ post)).candidatesError = sm.candidatesError := rfl
      rw [e1, e2, e3, e4, foldl_bucketStep_orphan vr.c _ pre post b hkeys]
    | some e =>
      have e1 : (getAllBuckets sm).1 = [] := by simp [getAllBuckets, h2]
      have e2 : (getAllBuckets (sm.withBuckets (pre ++ post))).1 = [] := by
        simp [getAllBuckets, CandidateStateManager.withBuckets, h2]
      have e3 : (sm.withBuckets (pre ++ post)).bucketsError = some e := h2
      have e4 : (sm.withBuckets (pre ++ post)).candidatesError = sm.candidatesError := rfl
      rw [e1, e2, e3, e4]
  have hflush : ∀ vr1 : VoteReviser,
      (vr1.flush height sm).1 = (vr1.flush height (sm.withBuckets (pre ++ post))).1 ∧
      (vr1.flush height sm).2.2 = (vr1.flush height (sm.withBuckets (pre ++ post))).2.2 ∧
      (vr1.flush height sm).2.1.candidates =
        (vr1.flush height (sm.withBuckets (pre ++ post))).2.1.candidates ∧
      (vr1.flush height sm).2.1.upserted =
        (vr1.flush height (sm.withBuckets (pre ++ post))).2.1.upserted := by
    intro vr1
    unfold flush
    cases hf : vr1.cache.find? height with
    | none => exact ⟨rfl, rfl, rfl, rfl⟩
    | some cands =>
      obtain ⟨c1, c2, c3⟩ := upsertLoop_congr sm (sm.withBuckets (pre ++ post))
        (sortCandidates cands) rfl rfl rfl
      exact ⟨rfl, c3, c1, c2⟩
  have hrev : (vr.Revise order sm height).1 =
        (vr.Revise order (sm.withBuckets (pre ++ post)) height).1 ∧
      (vr.Revise order sm height).2.2 =
        (vr.Revise order (sm.withBuckets (pre ++ post)) height).2.2 ∧
      (vr.Revise order sm height).2.1.candidates =
        (vr.Revise order (sm.withBuckets (pre ++ post)) height).2.1.candidates ∧
      (vr.Revise order sm height).2.1.upserted =
        (vr.Revise order (sm.withBuckets (pre ++ post)) height).2.1.upserted := by
    unfold Revise
    rw [← hcalc]
    split_ifs with hcache
    · cases hc : vr.calculateVoteWeight order sm with
      | error e => exact ⟨rfl, rfl, rfl, rfl⟩
      | ok cands => exact hflush _
    · exact hflush _
  refine ⟨hcalc, hrev.1, hrev.2.1, hrev.2.2.1, hrev.2.2.2, ?_⟩
  intro hce hbe hue
  have hloop : ∀ (l : CandidateList) (csm : CandidateStateManager),
      csm.upsertError = sm.upsertError → (upsertLoop csm l).2 = none := by
    intro l
    induction l with
    | nil => intro csm _; rfl
    | cons c rest ih =>
      intro csm he
      unfold upsertLoop CandidateStateManager.Upsert
      rw [he, hue c]
      exact ih _ rfl
  have hflushok : ∀ vr1 : VoteReviser, (vr1.flush height sm).2.2 = none := by
    intro vr1
    unfold flush
    cases hf : vr1.cache.find? height with
    | none => rfl
    | some cands => exact hloop _ sm rfl
  have hok : ∃ cands, vr.calculateVoteWeight order sm = Except.ok cands := by
    rw [calculateVoteWeight_eq]
    cases h1 : sm.candidatesError with
    | none =>
      cases h2 : sm.bucketsError with
      | none => exact ⟨_, rfl⟩
      | some e2 =>
        cases e2 with
        | ErrStateNotExist => exact ⟨_, rfl⟩
        | other msg => exact absurd h2 (hbe msg)
    | some e1 =>
      cases e1 with
      | ErrStateNotExist =>
        cases h2 : sm.bucketsError with
        | none => exact ⟨_, rfl⟩
        | some e2 =>
          cases e2 with
          | ErrStateNotExist => exact ⟨_, rfl⟩
          | other msg => exact absurd h2 (hbe msg)
      | other msg => exact absurd h1 (hce msg)
  obtain ⟨cands, hcands⟩ := hok
  unfold Revise
  split_ifs with hcache
  · rw [hcands]
    exact hflushok _
  · exact hflushok _

end Staking

namespace Staking

open VoteReviser

/-- Witness of C14: candidate `C` with its buckets 1 and 2, and bucket 3 naming the address `X`,
which owns no candidate: 250 votes for `C` with and without bucket 3, and no error. -/
theorem Revise_orphan_bucket_witness :
    (sampleState [⟨"C", "op", 7, 1, 9⟩]
        [⟨1, "C", 100, false, 0⟩, ⟨3, "X", 70, false, 0⟩, ⟨2, "C", 50, false, 0⟩]).buckets =
      [⟨1, "C", 100, false, 0⟩] ++ ⟨3, "X", 70, false, 0⟩ :: [⟨2, "C", 50, false, 0⟩] ∧
    (∀ cand ∈ (getAllCandidates (sampleState [⟨"C", "op", 7, 1, 9⟩]
        [⟨1, "C", 100, false, 0⟩, ⟨3, "X", 70, false, 0⟩, ⟨2, "C", 50, false, 0⟩])).1,
      cand.Owner ≠ "X") ∧
    (NewVoteReviser sampleWeight []).calculateVoteWeight id
        (sampleState [⟨"C", "op", 7, 1, 9⟩]
          [⟨1, "C", 100, false, 0⟩, ⟨3, "X", 70, false, 0⟩, ⟨2, "C", 50, false, 0⟩]) =
      Except.ok [⟨"C", "op", 250, 1, 100⟩] ∧
    (NewVoteReviser sampleWeight []).calculateVoteWeight id
        ((sampleState [⟨"C", "op", 7, 1, 9⟩]
          [⟨1, "C", 100, false, 0⟩, ⟨3, "X", 70, false, 0⟩, ⟨2, "C", 50, false, 0⟩]).withBuckets
          ([⟨1, "C", 100, false, 0⟩] ++ [⟨2, "C", 50, false, 0⟩])) =
      Except.ok [⟨"C", "op", 250, 1, 100⟩] ∧
    ((NewVoteReviser sampleWeight []).Revise id
        (sampleState [⟨"C", "op", 7, 1, 9⟩]
          [⟨1, "C", 100, false, 0⟩, ⟨3, "X", 70, false, 0⟩, ⟨2, "C", 50, false, 0⟩]) 10).2.2 =
      none := by
  have hb : (sampleState [⟨"C", "op", 7, 1, 9⟩]
        [⟨1, "C", 100, false, 0⟩, ⟨3, "X", 70, false, 0⟩, ⟨2, "C", 50, false, 0⟩]).buckets =
      [⟨1, "C", 100, false, 0⟩] ++ ⟨3, "X", 70, false, 0⟩ :: [⟨2, "C", 50, false, 0⟩] := rfl
  have ho : ∀ cand ∈ (getAllCandidates (sampleState [⟨"C", "op", 7, 1, 9⟩]
        [⟨1, "C", 100, false, 0⟩, ⟨3, "X", 70, false, 0⟩, ⟨2, "C", 50, false, 0⟩])).1,
      cand.Owner ≠ "X" := by decide
  have h := Revise_orphan_bucket (NewVoteReviser sampleWeight []) id
    (sampleState [⟨"C", "op", 7, 1, 9⟩]
      [⟨1, "C", 100, false, 0⟩, ⟨3, "X", 70, false, 0⟩, ⟨2, "C", 50, false, 0⟩])
    [⟨1, "C", 100, false, 0⟩] [⟨2, "C", 50, false, 0⟩] ⟨3, "X", 70, false, 0⟩ 10 hb ho
  refine ⟨hb, ho, by decide, ?_, ?_⟩
  · rw [← h.1]
    decide
  · exact h.2.2.2.2.2 (fun _ hc => by cases hc) (fun _ hc => by cases hc) (fun _ => rfl)

end Staking

namespace Staking

open VoteReviser

theorem cloneLoop_eq_append (m : GoMap String Candidate) (cands : CandidateList)
    (hnd : (cands.map (fun c => c.Owner)).Nodup)
    (hdisj : ∀ c ∈ cands, c.Owner ∉ m.map Prod.fst) :
    cloneLoop m cands = m ++ cands.map (fun c => (c.Owner, zeroed c)) := by
  induction cands generalizing m with
  | nil => simp [cloneLoop]
  | cons c rest ih =>
    simp only [List.map_cons, List.nodup_cons] at hnd
    unfold cloneLoop
    have hnone : m.find? c.Owner = none :=
      (GoMap.find?_none_iff_not_key m c.Owner).mpr (hdisj c (List.mem_cons_self _ _))
    rw [GoMap.set_of_none m _ _ hnone, ih _ hnd.2]
    · simp only [List.map_cons, List.append_assoc, List.singleton_append]
      rfl
    · intro c1 hc1
      simp only [List.map_append, List.map_cons, List.map_nil, List.mem_append,
        List.mem_singleton, not_or]
      refine ⟨hdisj c1 (List.mem_cons_of_mem _ hc1), ?_⟩
      intro he
      exact hnd.1 (he ▸ List.mem_map_of_mem (fun c => c.Owner) hc1)

theorem bucketUpdate_fields (c : VoteBucket → Bool → Int) (cand : Candidate) (b : VoteBucket) :
    (bucketUpdate c cand b).Owner = cand.Owner ∧
      (bucketUpdate c cand b).Operator = cand.Operator ∧
      (bucketUpdate c cand b).SelfStakeBucketIdx = cand.SelfStakeBucketIdx := by
  unfold bucketUpdate
  split_ifs <;> exact ⟨rfl, rfl, rfl⟩

theorem applyBuckets_fields (c : VoteBucket → Bool → Int) (cand : Candidate)
    (buckets : List VoteBucket) :
    (applyBuckets c cand buckets).Owner = cand.Owner ∧
      (applyBuckets c cand buckets).Operator = cand.Operator ∧
      (applyBuckets c cand buckets).SelfStakeBucketIdx = cand.SelfStakeBucketIdx := by
  induction buckets generalizing cand with
  | nil => exact ⟨rfl, rfl, rfl⟩
  | cons b rest ih =>
    unfold applyBuckets
    rw [List.foldl_cons]
    obtain ⟨h1, h2, h3⟩ := ih (bucketUpdate c cand b)
    obtain ⟨g1, g2, g3⟩ := bucketUpdate_fields c cand b
    unfold applyBuckets at h1 h2 h3
    exact ⟨h1.trans g1, h2.trans g2, h3.trans g3⟩

theorem bucketStep_eq_map (c : VoteBucket → Bool → Int) (m : GoMap String Candidate)
    (b : VoteBucket) (hnd : (m.map Prod.fst).Nodup) (hown : ∀ p ∈ m, p.2.Owner = p.1) :
    bucketStep c m b = m.map (fun p => (p.1, bucketUpdate c p.2 b)) := by
  unfold bucketStep
  by_cases hu : b.isUnstaked = true
  · rw [if_pos hu]
    conv_lhs => rw [← List.map_id m]
    apply List.map_congr_left
    intro p _
    simp [bucketUpdate, countsFor, hu]
  · rw [if_neg hu]
    have hu1 : b.isUnstaked = false := by simpa using hu
    cases hf : m.find? b.Candidate with
    | none =>
      simp only
      conv_lhs => rw [← List.map_id m]
      apply List.map_congr_left
      intro p hp
      have hne : ¬ b.Candidate = p.2.Owner := by
        intro e
        rw [GoMap.find?_none_iff_not_key] at hf
        apply hf
        rw [e, hown p hp]
        exact List.mem_map_of_mem Prod.fst hp
      simp [bucketUpdate, countsFor, hne]
    | some cand =>
      simp only
      have hmem := GoMap.find?_mem m _ _ hf
      have hco : cand.Owner = b.Candidate := hown _ hmem
      have hsome : (m.find? b.Candidate).isSome = true := by simp [hf]
      have hmap : ∀ v : Candidate, v = bucketUpdate c cand b →
          m.set b.Candidate v = m.map (fun p => (p.1, bucketUpdate c p.2 b)) := by
        intro v hv
        rw [GoMap.set_of_isSome m _ _ hsome]
        apply List.map_congr_left
        intro p hp
        by_cases hk : p.1 = b.Candidate
        · rw [if_pos hk]
          have hfp : m.find? p.1 = some p.2 := GoMap.find?_of_mem_nodup m p.1 p.2 hnd hp
          rw [hk, hf] at hfp
          have hpc : p.2 = cand := (Option.some.inj hfp).symm
          rw [hpc, hk, hv]
        · rw [if_neg hk]
          have hne : ¬ b.Candidate = p.2.Owner := by
            rw [hown p hp]
            exact fun e => hk e.symm
          simp [bucketUpdate, countsFor, hne]
      have hcf : countsFor cand b = true := by
        simp [countsFor, hu1, hco]
      split_ifs with hi
      · apply hmap
        unfold bucketUpdate
        rw [if_pos hcf, if_pos hi]
      · apply hmap
        unfold bucketUpdate
        rw [if_pos hcf, if_neg hi]

theorem foldl_bucketStep_eq_map (c : VoteBucket → Bool → Int) (m : GoMap String Candidate)
    (buckets : List VoteBucket) (hnd : (m.map Prod.fst).Nodup)
    (hown : ∀ p ∈ m, p.2.Owner = p.1) :
    buckets.foldl (bucketStep c) m = m.map (fun p => (p.1, applyBuckets c p.2 buckets)) := by
  induction buckets generalizing m with
  | nil =>
    simp only [List.foldl_nil, applyBuckets]
    exact (List.map_id m).symm
  | cons b rest ih =>
    rw [List.foldl_cons, bucketStep_eq_map c m b hnd hown, ih]
    · rw [List.map_map]
      rfl
    · rw [List.map_map]
      exact hnd
    · intro p hp
      obtain ⟨q, hq, rfl⟩ := List.mem_map.mp hp
      exact (bucketUpdate_fields c q.2 b).1.trans (hown q hq)

/-- The candidates `calculateVoteWeight` computes when the reads succeed and the owners are
distinct: every candidate read, zeroed, with the buckets applied in order. -/
theorem calculateVoteWeight_ok (vr : VoteReviser) (order : CandidateList → CandidateList)
    (sm : CandidateStateManager) (hce : sm.candidatesError = none)
    (hbe : sm.bucketsError = none) (hown : (sm.candidates.map (fun c => c.Owner)).Nodup) :
    vr.calculateVoteWeight order sm =
      Except.ok (order (sm.candidates.map (fun cand =>
        applyBuckets vr.c (zeroed cand) sm.buckets))) := by
  rw [calculateVoteWeight_eq, hce, hbe]
  simp only [getAllCandidates, getAllBuckets, hce, hbe]
  rw [cloneLoop_eq_append [] sm.candidates hown (by simp), List.nil_append,
    foldl_bucketStep_eq_map]
  · simp only [GoMap.values, List.map_map]
    rfl
  · rw [List.map_map]
    exact hown
  · intro p hp
    obtain ⟨q, _, rfl⟩ := List.mem_map.mp hp
    rfl

end Staking

namespace Staking

open VoteReviser

theorem countsFor_congr (a b : Candidate) (h : a.Owner = b.Owner) : countsFor a = countsFor b := by
  funext x
  unfold countsFor
  rw [h]

theorem votesSpec_congr (c : VoteBucket → Bool → Int) (a b : Candidate)
    (buckets : List VoteBucket) (h1 : a.Owner = b.Owner)
    (h2 : a.SelfStakeBucketIdx = b.SelfStakeBucketIdx) :
    votesSpec c a buckets = votesSpec c b buckets := by
  unfold votesSpec
  rw [countsFor_congr a b h1, h2]

theorem bucketUpdate_votes (c : VoteBucket → Bool → Int) (cand : Candidate) (b : VoteBucket) :
    (bucketUpdate c cand b).Votes = cand.Votes + votesSpec c cand [b] := by
  unfold bucketUpdate votesSpec
  by_cases hcf : countsFor cand b = true
  · rw [if_pos hcf]
    simp only [List.filter_cons, hcf, if_true, List.filter_nil, List.map_cons, List.map_nil,
      List.sum_cons, List.sum_nil, add_zero]
    by_cases hi : cand.SelfStakeBucketIdx = b.Index
    · rw [if_pos hi]
      simp [Candidate.AddVote, hi]
    · rw [if_neg hi]
      have hi1 : ¬ b.Index = cand.SelfStakeBucketIdx := fun e => hi e.symm
      simp [Candidate.AddVote, hi1]
  · rw [if_neg hcf]
    simp [hcf]

theorem votesSpec_cons (c : VoteBucket → Bool → Int) (cand : Candidate) (b : VoteBucket)
    (rest : List VoteBucket) :
    votesSpec c cand (b :: rest) = votesSpec c cand [b] + votesSpec c cand rest := by
  unfold votesSpec
  by_cases hcf : countsFor cand b = true
  · simp [List.filter_cons, hcf]
  · simp [List.filter_cons, hcf]

theorem applyBuckets_votes (c : VoteBucket → Bool → Int) (cand : Candidate)
    (buckets : List VoteBucket) :
    (applyBuckets c cand buckets).Votes = cand.Votes + votesSpec c cand buckets := by
  induction buckets generalizing cand with
  | nil => simp [applyBuckets, votesSpec]
  | cons b rest ih =>
    have hstep : applyBuckets c cand (b :: rest) = applyBuckets c (bucketUpdate c cand b) rest :=
      rfl
    obtain ⟨g1, _, g3⟩ := bucketUpdate_fields c cand b
    rw [hstep, ih, bucketUpdate_votes, votesSpec_congr c _ cand rest g1 g3,
      votesSpec_cons c cand b rest]
    ring

/-- The self-stake stays as it is where no bucket that counts for the candidate has the index the
candidate records as that of its self-stake bucket. -/
theorem applyBuckets_selfStake_none (c : VoteBucket → Bool → Int) (cand : Candidate)
    (buckets : List VoteBucket)
    (hnone : ∀ b ∈ buckets, countsFor cand b = true → b.Index ≠ cand.SelfStakeBucketIdx) :
    (applyBuckets c cand buckets).SelfStake = cand.SelfStake := by
  induction buckets generalizing cand with
  | nil => rfl
  | cons b rest ih =>
    have hstep : applyBuckets c cand (b :: rest) = applyBuckets c (bucketUpdate c cand b) rest :=
      rfl
    obtain ⟨g1, _, g3⟩ := bucketUpdate_fields c cand b
    rw [hstep, ih]
    · unfold bucketUpdate
      by_cases hcf : countsFor cand b = true
      · rw [if_pos hcf]
        have hi : ¬ cand.SelfStakeBucketIdx = b.Index :=
          fun e => hnone b (List.mem_cons_self _ _) hcf e.symm
        rw [if_neg hi]
        rfl
      · rw [if_neg hcf]
    · intro b1 hb1 hcf1
      rw [g3]
      rw [countsFor_congr _ cand g1] at hcf1
      exact hnone b1 (List.mem_cons_of_mem _ hb1) hcf1

theorem applyBuckets_selfStake_some (c : VoteBucket → Bool → Int) (cand : Candidate)
    (buckets : List VoteBucket) (hidx : (buckets.map (fun b => b.Index)).Nodup)
    (b : VoteBucket) (hb : b ∈ buckets) (hcf : countsFor cand b = true)
    (hi : b.Index = cand.SelfStakeBucketIdx) :
    (applyBuckets c cand buckets).SelfStake = b.StakedAmount := by
  induction buckets generalizing cand with
  | nil => cases hb
  | cons b0 rest ih =>
    have hstep : applyBuckets c cand (b0 :: rest) =
        applyBuckets c (bucketUpdate c cand b0) rest := rfl
    obtain ⟨g1, _, g3⟩ := bucketUpdate_fields c cand b0
    simp only [List.map_cons, List.nodup_cons] at hidx
    rw [hstep]
    rcases List.mem_cons.mp hb with he | hmem
    · subst he
      rw [applyBuckets_selfStake_none]
      · unfold bucketUpdate
        rw [if_pos hcf, if_pos hi.symm]
      · intro b1 hb1 _ e
        rw [g3, ← hi] at e
        exact hidx.1 (e ▸ List.mem_map_of_mem (fun b => b.Index) hb1)
    · apply ih _ hidx.2 hmem
      · rw [countsFor_congr _ cand g1]
        exact hcf
      · rw [g3]
        exact hi

end Staking

namespace Staking

open VoteReviser

theorem zeroed_owner_map (cands : CandidateList) :
    (cands.map zeroed).map (fun c => c.Owner) = cands.map (fun c => c.Owner) := by
  rw [List.map_map]
  rfl

/-- C13. For every list of candidates with distinct owners and every list of buckets with
distinct indices, whatever the order in which the map is visited: `calculateVoteWeight` returns
candidates whose owners are those read, each once; each has the owner, operator and self-stake
bucket index of the candidate read with its owner; its votes are the sum, over the buckets that
are not unstaked and name its owner, of the weight of the bucket, the self-stake weight for the
bucket with the index of its self-stake bucket; its self-stake is the staked amount of such a
bucket with that index, and zero when there is none; and the same candidates are returned from
every candidate list that differs from the one read in votes and self-stake only. -/
theorem calculateVoteWeight_spec (vr : VoteReviser) (order : CandidateList → CandidateList)
    (sm : CandidateStateManager) (horder : ∀ l, (order l).Perm l)
    (hce : sm.candidatesError = none) (hbe : sm.bucketsError = none)
    (hown : (sm.candidates.map (fun c => c.Owner)).Nodup)
    (hidx : (sm.buckets.map (fun b => b.Index)).Nodup) :
    ∃ res, vr.calculateVoteWeight order sm = Except.ok res ∧
      (res.map (fun r => r.Owner)).Perm (sm.candidates.map (fun c => c.Owner)) ∧
      (∀ r ∈ res, ∃ cand ∈ sm.candidates,
        r.Owner = cand.Owner ∧ r.Operator = cand.Operator ∧
        r.SelfStakeBucketIdx = cand.SelfStakeBucketIdx ∧
        r.Votes = votesSpec vr.c cand sm.buckets ∧
        (∀ b ∈ sm.buckets, countsFor cand b = true → b.Index = cand.SelfStakeBucketIdx →
          r.SelfStake = b.StakedAmount) ∧
        ((∀ b ∈ sm.buckets, countsFor cand b = true → b.Index ≠ cand.SelfStakeBucketIdx) →
          r.SelfStake = 0)) ∧
      (∀ cands1 : CandidateList, cands1.map zeroed = sm.candidates.map zeroed →
        vr.calculateVoteWeight order (sm.withCandidates cands1) = Except.ok res) := by
  refine ⟨_, calculateVoteWeight_ok vr order sm hce hbe hown, ?_, ?_, ?_⟩
  · refine ((horder _).map _).trans ?_
    rw [List.map_map]
    apply List.Perm.of_eq
    apply List.map_congr_left
    intro cand _
    exact (applyBuckets_fields vr.c (zeroed cand) sm.buckets).1
  · intro r hr
    have hr1 := (horder _).mem_iff.mp hr
    obtain ⟨cand, hcand, rfl⟩ := List.mem_map.mp hr1
    obtain ⟨f1, f2, f3⟩ := applyBuckets_fields vr.c (zeroed cand) sm.buckets
    refine ⟨cand, hcand, f1, f2, f3, ?_, ?_, ?_⟩
    · rw [applyBuckets_votes, votesSpec_congr vr.c (zeroed cand) cand sm.buckets rfl rfl]
      exact Int.zero_add _
    · intro b hb hcf hi
      exact applyBuckets_selfStake_some vr.c (zeroed cand) sm.buckets hidx b hb hcf hi
    · intro hnone
      exact applyBuckets_selfStake_none vr.c (zeroed cand) sm.buckets hnone
  · intro cands1 h1
    have hown1 : ((sm.withCandidates cands1).candidates.map (fun c => c.Owner)).Nodup := by
      show (cands1.map (fun c => c.Owner)).Nodup
      rw [← zeroed_owner_map, h1, zeroed_owner_map]
      exact hown
    rw [calculateVoteWeight_ok vr order (sm.withCandidates cands1) hce hbe hown1]
    have e1 : ∀ l : CandidateList,
        l.map (fun cand => applyBuckets vr.c (zeroed cand) sm.buckets) =
          (l.map zeroed).map (fun z => applyBuckets vr.c z sm.buckets) := by
      intro l
      rw [List.map_map]
      rfl
    show Except.ok (order (cands1.map (fun cand => applyBuckets vr.c (zeroed cand) sm.buckets))) =
      Except.ok (order (sm.candidates.map (fun cand =>
        applyBuckets vr.c (zeroed cand) sm.buckets)))
    rw [e1 cands1, e1 sm.candidates, h1]

/-- Witness of C13: two buckets for candidate `C`, the self-stake bucket of amount 100 and
another of amount 50: the self-stake is 100 and the votes are the self-stake weight of the one
plus the plain weight of the other, whatever votes and self-stake `C` had. -/
theorem calculateVoteWeight_spec_witness :
    (∀ l : CandidateList, (id l).Perm l) ∧
    (sampleState [⟨"C", "op", 7, 1, 9⟩]
      [⟨1, "C", 100, false, 0⟩, ⟨2, "C", 50, false, 0⟩]).candidatesError = none ∧
    (NewVoteReviser sampleWeight []).calculateVoteWeight id
        (sampleState [⟨"C", "op", 7, 1, 9⟩]
          [⟨1, "C", 100, false, 0⟩, ⟨2, "C", 50, false, 0⟩]) =
      Except.ok [⟨"C", "op",
        sampleWeight ⟨1, "C", 100, false, 0⟩ true + sampleWeight ⟨2, "C", 50, false, 0⟩ false,
        1, 100⟩] ∧
    ∃ res, (NewVoteReviser sampleWeight []).calculateVoteWeight id
        (sampleState [⟨"C", "op", 7, 1, 9⟩]
          [⟨1, "C", 100, false, 0⟩, ⟨2, "C", 50, false, 0⟩]) = Except.ok res ∧
      (res.map (fun r => r.Owner)).Perm ["C"] ∧
      (∀ cands1 : CandidateList,
        cands1.map zeroed = [zeroed ⟨"C", "op", 7, 1, 9⟩] →
        (NewVoteReviser sampleWeight []).calculateVoteWeight id
          ((sampleState [⟨"C", "op", 7, 1, 9⟩]
            [⟨1, "C", 100, false, 0⟩, ⟨2, "C", 50, false, 0⟩]).withCandidates cands1) =
          Except.ok res) := by
  refine ⟨fun l => List.Perm.refl l, rfl, by decide, ?_⟩
  obtain ⟨res, h1, h2, _, h4⟩ := calculateVoteWeight_spec (NewVoteReviser sampleWeight []) id
    (sampleState [⟨"C", "op", 7, 1, 9⟩] [⟨1, "C", 100, false, 0⟩, ⟨2, "C", 50, false, 0⟩])
    (fun l => List.Perm.refl l) rfl rfl (by decide) (by decide)
  exact ⟨res, h1, h2, h4⟩

end Staking

/-! ## The flush -/

namespace GoMap

variable {κ ν : Type} [DecidableEq κ]

theorem set_set (m : GoMap κ ν) (k : κ) (v w : ν) :
    GoMap.set (GoMap.set m k v) k w = GoMap.set m k w := by
  have hsome : ((GoMap.set m k v).find? k).isSome = true := by
    rw [find?_set]
    simp
  rw [set_of_isSome (GoMap.set m k v) k w hsome]
  cases hf : m.find? k with
  | some u =>
    rw [set_of_isSome m k v (by simp [hf]), set_of_isSome m k w (by simp [hf]), List.map_map]
    apply List.map_congr_left
    intro p _
    simp only [Function.comp]
    by_cases h1 : p.1 = k <;> simp [h1]
  | none =>
    rw [set_of_none m k v hf, set_of_none m k w hf, List.map_append]
    simp only [List.map_cons, List.map_nil, if_true]
    congr 1
    rw [find?_none_iff_not_key] at hf
    conv_rhs => rw [← List.map_id m]
    apply List.map_congr_left
    intro p hp
    have : ¬ p.1 = k := fun e => hf (e ▸ List.mem_map_of_mem Prod.fst hp)
    simp [this]

end GoMap

namespace Staking

open VoteReviser

theorem candidateLE_total (a b : Candidate) : candidateLE a b ∨ candidateLE b a := by
  unfold candidateLE
  rcases lt_trichotomy a.Votes b.Votes with h | h | h
  · exact Or.inr (Or.inl h)
  · rcases le_total a.Owner b.Owner with ho | ho
    · exact Or.inr (Or.inr ⟨h.symm, ho⟩)
    · exact Or.inl (Or.inr ⟨h, ho⟩)
  · exact Or.inl (Or.inl h)

theorem candidateLE_trans (a b c : Candidate) (h1 : candidateLE a b) (h2 : candidateLE b c) :
    candidateLE a c := by
  unfold candidateLE at h1 h2 ⊢
  rcases h1 with h1 | ⟨h1, o1⟩
  · rcases h2 with h2 | ⟨h2, _⟩
    · exact Or.inl (lt_trans h2 h1)
    · exact Or.inl (h2 ▸ h1)
  · rcases h2 with h2 | ⟨h2, o2⟩
    · exact Or.inl (h1 ▸ h2)
    · exact Or.inr ⟨h1.trans h2, le_trans o2 o1⟩

theorem sortCandidates_sorted (l : CandidateList) : (sortCandidates l).Sorted candidateLE := by
  haveI : IsTotal Candidate candidateLE := ⟨candidateLE_total⟩
  haveI : IsTrans Candidate candidateLE := ⟨candidateLE_trans⟩
  exact List.sorted_insertionSort candidateLE l

theorem sortCandidates_perm (l : CandidateList) : (sortCandidates l).Perm l :=
  List.perm_insertionSort candidateLE l

theorem sortCandidates_idem (l : CandidateList) :
    sortCandidates (sortCandidates l) = sortCandidates l :=
  List.Sorted.insertionSort_eq (sortCandidates_sorted l)

/-- The table, the record of the upserts and the error after the loop of `flush`: the candidates
before the first one whose upsert fails are upserted, in order, and the error is that of the
first one whose upsert fails. -/
theorem upsertLoop_eq (csm : CandidateStateManager) (l : CandidateList) :
    (upsertLoop csm l).1.candidates =
        (l.takeWhile (fun c => (csm.upsertError c).isNone)).foldl upsertTable csm.candidates ∧
      (upsertLoop csm l).1.upserted =
        csm.upserted ++ l.takeWhile (fun c => (csm.upsertError c).isNone) ∧
      (upsertLoop csm l).2 =
        (l.find? (fun c => (csm.upsertError c).isSome)).bind csm.upsertError := by
  induction l generalizing csm with
  | nil => simp [upsertLoop]
  | cons c rest ih =>
    unfold upsertLoop CandidateStateManager.Upsert
    cases he : csm.upsertError c with
    | some e => simp [he]
    | none =>
      simp only
      obtain ⟨h1, h2, h3⟩ := ih (CandidateStateManager.mk (upsertTable csm.candidates c)
        csm.candidatesError csm.buckets csm.bucketsError csm.upsertError (csm.upserted ++ [c]))
      refine ⟨?_, ?_, ?_⟩
      · rw [h1]
        simp [he]
      · rw [h2]
        simp [he]
      · rw [h3]
        simp [he]

theorem foldl_overwrite_owner (P : CandidateList) (x : Candidate) :
    (P.foldl overwrite x).Owner = x.Owner := by
  induction P generalizing x with
  | nil => rfl
  | cons p rest ih =>
    rw [List.foldl_cons, ih]
    unfold overwrite
    split_ifs with h
    · exact h.symm
    · rfl

theorem upsertTable_eq_map (T : CandidateList) (p : Candidate)
    (h : p.Owner ∈ T.map (fun x => x.Owner)) :
    upsertTable T p = T.map (fun x => overwrite x p) := by
  unfold upsertTable
  have hany : T.any (fun x => decide (x.Owner = p.Owner)) = true := by
    obtain ⟨x, hx, he⟩ := List.mem_map.mp h
    exact List.any_eq_true.mpr ⟨x, hx, by simp [he]⟩
  rw [if_pos hany]
  rfl

theorem mem_upsertTable (T : CandidateList) (p x : Candidate) (hx : x ∈ upsertTable T p) :
    x = p ∨ (x ∈ T ∧ x.Owner ≠ p.Owner) := by
  unfold upsertTable at hx
  split_ifs at hx with hany
  · obtain ⟨y, hy, rfl⟩ := List.mem_map.mp hx
    by_cases ho : y.Owner = p.Owner
    · left
      simp [ho]
    · right
      simp only [ho, if_false]
      exact ⟨hy, ho⟩
  · rcases List.mem_append.mp hx with h | h
    · right
      refine ⟨h, ?_⟩
      intro ho
      apply hany
      exact List.any_eq_true.mpr ⟨x, h, by simp [ho]⟩
    · left
      simpa using h

theorem owners_upsertTable (T : CandidateList) (p : Candidate) (o : String) :
    o ∈ (upsertTable T p).map (fun x => x.Owner) ↔
      (o ∈ T.map (fun x => x.Owner) ∨ o = p.Owner) := by
  unfold upsertTable
  split_ifs with hany
  · obtain ⟨y, hy, hyo⟩ := List.any_eq_true.mp hany
    have hyo1 : y.Owner = p.Owner := by simpa using hyo
    have hkeys : (T.map (fun x => if x.Owner = p.Owner then p else x)).map (fun x => x.Owner) =
        T.map (fun x => x.Owner) := by
      rw [List.map_map]
      apply List.map_congr_left
      intro x _
      simp only [Function.comp]
      split_ifs with h
      · exact h.symm
      · rfl
    rw [hkeys]
    constructor
    · exact Or.inl
    · rintro (h | h)
      · exact h
      · rw [h, ← hyo1]
        exact List.mem_map_of_mem (fun x => x.Owner) hy
  · simp

theorem owners_foldl_upsertTable (P T : CandidateList) (o : String) :
    o ∈ (P.foldl upsertTable T).map (fun x => x.Owner) ↔
      (o ∈ T.map (fun x => x.Owner) ∨ o ∈ P.map (fun x => x.Owner)) := by
  induction P generalizing T with
  | nil => simp
  | cons p rest ih =>
    rw [List.foldl_cons, ih, owners_upsertTable]
    simp only [List.map_cons, List.mem_cons]
    tauto

theorem foldl_upsertTable_eq_map (P T : CandidateList)
    (h : ∀ p ∈ P, p.Owner ∈ T.map (fun x => x.Owner)) :
    P.foldl upsertTable T = T.map (fun x => P.foldl overwrite x) := by
  induction P generalizing T with
  | nil => simp
  | cons p rest ih =>
    rw [List.foldl_cons, upsertTable_eq_map T p (h p (List.mem_cons_self _ _)), ih]
    · rw [List.map_map]
      rfl
    · intro q hq
      rw [List.map_map]
      have hq1 := h q (List.mem_cons_of_mem _ hq)
      obtain ⟨y, hy, hyo⟩ := List.mem_map.mp hq1
      refine List.mem_map.mpr ⟨y, hy, ?_⟩
      simp only [Function.comp]
      rw [← hyo]
      unfold overwrite
      split_ifs with ho
      · exact ho.symm
      · rfl

theorem foldl_upsertTable_fixed (P T : CandidateList) :
    ∀ x ∈ P.foldl upsertTable T, P.foldl overwrite x = x := by
  induction P using List.reverseRecOn generalizing T with
  | nil => intro x _; rfl
  | append_singleton P0 p ih =>
    intro x hx
    rw [List.foldl_append, List.foldl_cons, List.foldl_nil] at hx
    rw [List.foldl_append, List.foldl_cons, List.foldl_nil]
    rcases mem_upsertTable _ p x hx with rfl | ⟨hmem, hne⟩
    · exact if_pos (foldl_overwrite_owner P0 x)
    · rw [ih T x hmem]
      exact if_neg hne

/-- Upserting the same candidates once more leaves the table as it is. -/
theorem foldl_upsertTable_idem (P T : CandidateList) :
    P.foldl upsertTable (P.foldl upsertTable T) = P.foldl upsertTable T := by
  rw [foldl_upsertTable_eq_map P (P.foldl upsertTable T)]
  · conv_rhs => rw [← List.map_id (P.foldl upsertTable T)]
    apply List.map_congr_left
    intro x hx
    exact foldl_upsertTable_fixed P T x hx
  · intro p hp
    rw [owners_foldl_upsertTable]
    exact Or.inr (List.mem_map_of_mem (fun x => x.Owner) hp)

/-- The loop of `flush`, run once more on the same candidates: the table stays, the same
candidates are upserted, and the error is the same. -/
theorem upsertLoop_twice (csm : CandidateStateManager) (l : CandidateList) :
    (upsertLoop (upsertLoop csm l).1 l).1.candidates = (upsertLoop csm l).1.candidates ∧
      (upsertLoop (upsertLoop csm l).1 l).1.upserted =
        (upsertLoop csm l).1.upserted ++ l.takeWhile (fun c => (csm.upsertError c).isNone) ∧
      (upsertLoop (upsertLoop csm l).1 l).2 = (upsertLoop csm l).2 := by
  obtain ⟨a1, _, a3⟩ := upsertLoop_eq csm l
  obtain ⟨b1, b2, b3⟩ := upsertLoop_eq (upsertLoop csm l).1 l
  have he : (upsertLoop csm l).1.upsertError = csm.upsertError := (upsertLoop_fields csm l).2.2.2
  rw [he] at b1 b2 b3
  refine ⟨?_, b2, ?_⟩
  · rw [b1, a1, foldl_upsertTable_idem]
  · rw [b3, a3]

end Staking

namespace Staking

open VoteReviser

theorem flush_of_cached (vr : VoteReviser) (h : Nat) (csm : CandidateStateManager)
    (cached : CandidateList) (hf : vr.cache.find? h = some cached) :
    vr.flush h csm =
      (VoteReviser.mk vr.reviseHeights (vr.cache.set h (sortCandidates cached)) vr.c,
        (upsertLoop csm (sortCandidates cached)).1, (upsertLoop csm (sortCandidates cached)).2) := by
  unfold flush
  rw [hf]

theorem Revise_of_cached (vr : VoteReviser) (order : CandidateList → CandidateList)
    (csm : CandidateStateManager) (h : Nat) (cached : CandidateList)
    (hf : vr.cache.find? h = some cached) :
    vr.Revise order csm h =
      (VoteReviser.mk vr.reviseHeights (vr.cache.set h (sortCandidates cached)) vr.c,
        (upsertLoop csm (sortCandidates cached)).1, (upsertLoop csm (sortCandidates cached)).2) := by
  unfold Revise isCacheExist
  rw [hf]
  simp only [Option.isSome_some, Bool.true_eq_false, if_false]
  exact flush_of_cached vr h csm cached hf

theorem Revise_of_fresh (vr : VoteReviser) (order : CandidateList → CandidateList)
    (csm : CandidateStateManager) (h : Nat) (cands : CandidateList)
    (hfresh : vr.isCacheExist h = false)
    (hcalc : vr.calculateVoteWeight order csm = Except.ok cands) :
    vr.Revise order csm h =
      (VoteReviser.mk vr.reviseHeights (vr.cache.set h (sortCandidates cands)) vr.c,
        (upsertLoop csm (sortCandidates cands)).1, (upsertLoop csm (sortCandidates cands)).2) := by
  unfold Revise
  rw [if_pos hfresh, hcalc]
  simp only
  have hf : (vr.storeToCache h cands).cache.find? h = some cands := by
    unfold storeToCache
    simp only
    rw [GoMap.find?_set]
    simp
  rw [flush_of_cached _ h csm cands hf]
  unfold storeToCache
  simp only
  rw [GoMap.set_set]

theorem Revise_of_error (vr : VoteReviser) (order : CandidateList → CandidateList)
    (csm : CandidateStateManager) (h : Nat) (e : StateError)
    (hfresh : vr.isCacheExist h = false)
    (hcalc : vr.calculateVoteWeight order csm = Except.error e) :
    vr.Revise order csm h = (vr, csm, some e) := by
  unfold Revise
  rw [if_pos hfresh, hcalc]

/-- The two ways a call of `Revise` ends: with the error of the recomputation and nothing
changed, or with a sorted list cached at the height and flushed. -/
theorem Revise_cases (vr : VoteReviser) (order : CandidateList → CandidateList)
    (csm : CandidateStateManager) (h : Nat) :
    (vr.isCacheExist h = false ∧
      ∃ e, vr.calculateVoteWeight order csm = Except.error e ∧
        vr.Revise order csm h = (vr, csm, some e)) ∨
    (∃ S, sortCandidates S = S ∧
      vr.Revise order csm h =
        (VoteReviser.mk vr.reviseHeights (vr.cache.set h S) vr.c,
          (upsertLoop csm S).1, (upsertLoop csm S).2)) := by
  cases hf : vr.cache.find? h with
  | some cached =>
    right
    exact ⟨sortCandidates cached, sortCandidates_idem cached,
      Revise_of_cached vr order csm h cached hf⟩
  | none =>
    have hfresh : vr.isCacheExist h = false := by
      unfold isCacheExist
      rw [hf]
      rfl
    cases hc : vr.calculateVoteWeight order csm with
    | error e =>
      left
      exact ⟨hfresh, e, rfl, Revise_of_error vr order csm h e hfresh hc⟩
    | ok cands =>
      right
      exact ⟨sortCandidates cands, sortCandidates_idem cands,
        Revise_of_fresh vr order csm h cands hfresh hc⟩

end Staking

namespace Staking

open VoteReviser

/-- A call of `Revise` at a height where a sorted list is cached, as left by an earlier call. -/
theorem Revise_again (vr : VoteReviser) (order : CandidateList → CandidateList)
    (csm : CandidateStateManager) (h : Nat) (S : CandidateList) (hS : sortCandidates S = S) :
    (VoteReviser.mk vr.reviseHeights (vr.cache.set h S) vr.c).Revise order csm h =
      (VoteReviser.mk vr.reviseHeights (vr.cache.set h S) vr.c,
        (upsertLoop csm S).1, (upsertLoop csm S).2) := by
  have hf : (VoteReviser.mk vr.reviseHeights (vr.cache.set h S) vr.c).cache.find? h = some S := by
    show (vr.cache.set h S).find? h = some S
    rw [GoMap.find?_set]
    simp
  rw [Revise_of_cached _ order csm h S hf, hS]
  show (VoteReviser.mk vr.reviseHeights (GoMap.set (GoMap.set vr.cache h S) h S) vr.c, _, _) = _
  rw [GoMap.set_set]

/-- C15. For every reviser, state manager and height: after a call of `Revise` at the height, a
second call at the height on the same snapshot returns what the first returned (cache, table,
upserts and error); and a second call on the state the first one left leaves the cache and the
candidate table as the first left them, returns the same error, and upserts the same candidates,
votes and self-stake included, in the same order. -/
theorem Revise_idempotent (vr : VoteReviser) (order : CandidateList → CandidateList)
    (csm : CandidateStateManager) (h : Nat) :
    (vr.Revise order csm h).1.Revise order csm h = vr.Revise order csm h ∧
    ((vr.Revise order csm h).1.Revise order (vr.Revise order csm h).2.1 h).1 =
      (vr.Revise order csm h).1 ∧
    ((vr.Revise order csm h).1.Revise order (vr.Revise order csm h).2.1 h).2.1.candidates =
      (vr.Revise order csm h).2.1.candidates ∧
    ((vr.Revise order csm h).1.Revise order (vr.Revise order csm h).2.1 h).2.2 =
      (vr.Revise order csm h).2.2 ∧
    ∃ L : CandidateList, (vr.Revise order csm h).2.1.upserted = csm.upserted ++ L ∧
      ((vr.Revise order csm h).1.Revise order (vr.Revise order csm h).2.1 h).2.1.upserted =
        (vr.Revise order csm h).2.1.upserted ++ L := by
  rcases Revise_cases vr order csm h with ⟨_, e, _, hr⟩ | ⟨S, hS, hr⟩
  · rw [hr]
    simp only
    rw [hr]
    exact ⟨rfl, rfl, rfl, rfl, [], (List.append_nil _).symm, (List.append_nil _).symm⟩
  · rw [hr]
    simp only
    rw [Revise_again vr order csm h S hS, Revise_again vr order _ h S hS]
    simp only
    obtain ⟨t1, t2, t3⟩ := upsertLoop_twice csm S
    exact ⟨trivial, trivial, t1, t3, _, (upsertLoop_eq csm S).2.1, t2⟩

/-- Witness of C15: candidate `C` with two buckets, a reviser with an empty cache, height 10:
the first call upserts `C` with 250 votes, the second upserts it again and leaves the table. -/
theorem Revise_idempotent_witness :
    ((NewVoteReviser sampleWeight []).Revise id
        (sampleState [⟨"C", "op", 7, 1, 9⟩]
          [⟨1, "C", 100, false, 0⟩, ⟨2, "C", 50, false, 0⟩]) 10).2.1.candidates =
      [⟨"C", "op", 250, 1, 100⟩] ∧
    ((NewVoteReviser sampleWeight []).Revise id
        (sampleState [⟨"C", "op", 7, 1, 9⟩]
          [⟨1, "C", 100, false, 0⟩, ⟨2, "C", 50, false, 0⟩]) 10).2.1.upserted =
      [⟨"C", "op", 250, 1, 100⟩] ∧
    (((NewVoteReviser sampleWeight []).Revise id
        (sampleState [⟨"C", "op", 7, 1, 9⟩]
          [⟨1, "C", 100, false, 0⟩, ⟨2, "C", 50, false, 0⟩]) 10).1.Revise id
        ((NewVoteReviser sampleWeight []).Revise id
          (sampleState [⟨"C", "op", 7, 1, 9⟩]
            [⟨1, "C", 100, false, 0⟩, ⟨2, "C", 50, false, 0⟩]) 10).2.1 10).2.1.candidates =
      [⟨"C", "op", 250, 1, 100⟩] ∧
    (((NewVoteReviser sampleWeight []).Revise id
        (sampleState [⟨"C", "op", 7, 1, 9⟩]
          [⟨1, "C", 100, false, 0⟩, ⟨2, "C", 50, false, 0⟩]) 10).1.Revise id
        ((NewVoteReviser sampleWeight []).Revise id
          (sampleState [⟨"C", "op", 7, 1, 9⟩]
            [⟨1, "C", 100, false, 0⟩, ⟨2, "C", 50, false, 0⟩]) 10).2.1 10).2.2 = none := by
  have h := Revise_idempotent (NewVoteReviser sampleWeight []) id
    (sampleState [⟨"C", "op", 7, 1, 9⟩] [⟨1, "C", 100, false, 0⟩, ⟨2, "C", 50, false, 0⟩]) 10
  have h1 : ((NewVoteReviser sampleWeight []).Revise id
        (sampleState [⟨"C", "op", 7, 1, 9⟩]
          [⟨1, "C", 100, false, 0⟩, ⟨2, "C", 50, false, 0⟩]) 10).2.1.candidates =
      [⟨"C", "op", 250, 1, 100⟩] := by decide
  have h2 : ((NewVoteReviser sampleWeight []).Revise id
        (sampleState [⟨"C", "op", 7, 1, 9⟩]
          [⟨1, "C", 100, false, 0⟩, ⟨2, "C", 50, false, 0⟩]) 10).2.2 = none := by decide
  exact ⟨h1, by decide, h.2.2.1.trans h1, h.2.2.2.1.trans h2⟩

end Staking

namespace Staking

open VoteReviser

theorem upsertLoop_all_ok (csm : CandidateStateManager) (l : CandidateList)
    (hok : ∀ cand, csm.upsertError cand = none) :
    (upsertLoop csm l).1.upserted = csm.upserted ++ l ∧ (upsertLoop csm l).2 = none := by
  obtain ⟨_, h2, h3⟩ := upsertLoop_eq csm l
  constructor
  · rw [h2]
    congr 1
    apply List.takeWhile_eq_self_iff.mpr
    intro c _
    simp [hok c]
  · rw [h3]
    have : l.find? (fun c => (csm.upsertError c).isSome) = none := by
      apply List.find?_eq_none.mpr
      intro c _
      simp [hok c]
    rw [this]
    rfl

end Staking

namespace Staking

theorem sorted_perm_unique (l1 l2 : CandidateList) (hp : l1.Perm l2)
    (h1 : l1.Sorted candidateLE) (h2 : l2.Sorted candidateLE)
    (hanti : ∀ a ∈ l1, ∀ b ∈ l1, candidateLE a b → candidateLE b a → a = b) : l1 = l2 := by
  induction l1 generalizing l2 with
  | nil => exact hp.nil_eq
  | cons a t1 ih =>
    cases l2 with
    | nil => exact absurd hp.symm.nil_eq (List.cons_ne_nil _ _).symm
    | cons b t2 =>
      have hab : a = b := by
        by_contra hne
        have ha : a ∈ t2 := by
          rcases List.mem_cons.mp (hp.mem_iff.mp (List.mem_cons_self a t1)) with h | h
          · exact absurd h hne
          · exact h
        have hb : b ∈ t1 := by
          rcases List.mem_cons.mp (hp.mem_iff.mpr (List.mem_cons_self b t2)) with h | h
          · exact absurd h.symm hne
          · exact h
        exact hne (hanti a (List.mem_cons_self _ _) b (List.mem_cons_of_mem _ hb)
          (List.rel_of_sorted_cons h1 b hb) (List.rel_of_sorted_cons h2 a ha))
      subst hab
      rw [ih t2 (List.Perm.cons_inv hp) h1.of_cons h2.of_cons
        (fun x hx y hy => hanti x (List.mem_cons_of_mem _ hx) y (List.mem_cons_of_mem _ hy))]

/-- A candidate list with distinct owners has one sorted rearrangement only, so every sort
returns on it what `sortCandidates` returns. -/
theorem sortCandidates_unique (l l1 : CandidateList)
    (hown : (l.map (fun c => c.Owner)).Nodup) (hp : l1.Perm l)
    (hs : l1.Sorted candidateLE) : l1 = sortCandidates l := by
  apply sorted_perm_unique l1 (sortCandidates l) (hp.trans (sortCandidates_perm l).symm) hs
    (sortCandidates_sorted l)
  intro a ha b hb hab hba
  have hown1 : (l1.map (fun c => c.Owner)).Nodup := (hp.map _).nodup_iff.mpr hown
  apply List.inj_on_of_nodup_map hown1 ha hb
  unfold candidateLE at hab hba
  rcases hab with h | ⟨_, o1⟩
  · rcases hba with h3 | ⟨h3, _⟩
    · exact absurd h (lt_asymm h3)
    · exact absurd h (by rw [h3]; exact lt_irrefl _)
  · rcases hba with h3 | ⟨_, o2⟩
    · rename_i hv
      exact absurd h3 (by rw [hv]; exact lt_irrefl _)
    · exact le_antisymm o2 o1

end Staking

/-! ## The pending prefix: scenarios, rewinding, and the view of `PendingActs` -/

namespace ActPool

/-- C25. From a new queue with confirmed nonce 0 and an oracle that reports nonce 0: after `Put`
of the nonces 1, 2 and 4 the pending nonce after `UpdateQueue` is 3 and `PendingActs` returns the
actions of 1 and 2; after a further `Put` of nonce 3 `PendingActs` returns the actions of 1, 2, 3
and 4, and the pending nonce after `UpdateQueue`, which is what advances it, is 5 (it stays 3
until that call, as `Put` does not write it). -/
theorem gap_scenario :
    (runCalls (NewActQueue "a" 0)
      [Call.put 0 ⟨1, 1, 1⟩, Call.put 0 ⟨2, 1, 2⟩, Call.put 0 ⟨4, 1, 4⟩]).confirmedNonce = 0 ∧
    (runCalls (NewActQueue "a" 0)
      [Call.put 0 ⟨1, 1, 1⟩, Call.put 0 ⟨2, 1, 2⟩, Call.put 0 ⟨4, 1, 4⟩,
        Call.updateQueue 0]).pendingNonce = 3 ∧
    (PendingActs (runCalls (NewActQueue "a" 0)
      [Call.put 0 ⟨1, 1, 1⟩, Call.put 0 ⟨2, 1, 2⟩, Call.put 0 ⟨4, 1, 4⟩,
        Call.updateQueue 0]) (constOracle 0)).2 = [⟨1, 1, 1⟩, ⟨2, 1, 2⟩] ∧
    (PendingActs (runCalls (NewActQueue "a" 0)
      [Call.put 0 ⟨1, 1, 1⟩, Call.put 0 ⟨2, 1, 2⟩, Call.put 0 ⟨4, 1, 4⟩,
        Call.updateQueue 0, Call.put 0 ⟨3, 1, 3⟩]) (constOracle 0)).2 =
      [⟨1, 1, 1⟩, ⟨2, 1, 2⟩, ⟨3, 1, 3⟩, ⟨4, 1, 4⟩] ∧
    (runCalls (NewActQueue "a" 0)
      [Call.put 0 ⟨1, 1, 1⟩, Call.put 0 ⟨2, 1, 2⟩, Call.put 0 ⟨4, 1, 4⟩,
        Call.updateQueue 0, Call.put 0 ⟨3, 1, 3⟩]).pendingNonce = 3 ∧
    (runCalls (NewActQueue "a" 0)
      [Call.put 0 ⟨1, 1, 1⟩, Call.put 0 ⟨2, 1, 2⟩, Call.put 0 ⟨4, 1, 4⟩,
        Call.updateQueue 0, Call.put 0 ⟨3, 1, 3⟩, Call.updateQueue 0]).pendingNonce = 5 ∧
    (PendingActs (runCalls (NewActQueue "a" 0)
      [Call.put 0 ⟨1, 1, 1⟩, Call.put 0 ⟨2, 1, 2⟩, Call.put 0 ⟨4, 1, 4⟩,
        Call.updateQueue 0, Call.put 0 ⟨3, 1, 3⟩, Call.updateQueue 0]) (constOracle 0)).2 =
      [⟨1, 1, 1⟩, ⟨2, 1, 2⟩, ⟨3, 1, 3⟩, ⟨4, 1, 4⟩] := by
  decide

end ActPool

namespace ActPool

theorem expired_iff (now : Int) (e : nonceWithTTL) : expired now e = true ↔ e.deadline < now := by
  unfold expired Time.After
  exact decide_eq_true_iff

/-- The pending advance stops where it stands when the pending nonce is not a key. -/
theorem advanceLoop_of_not_contains (items : ItemMap) (fuel p : Nat)
    (h : items.contains p = false) : advanceLoop items fuel p = p := by
  cases fuel with
  | zero => rfl
  | succ f =>
    unfold advanceLoop
    rw [h]
    rfl

theorem UpdateQueue_eq_of_ttl_zero (q : actQueue) (now : Int) (httl : q.ttl = 0) :
    UpdateQueue q now =
      ({ q with pendingNonce := advanceLoop q.items (q.items.len + 1) q.pendingNonce }, []) := by
  unfold UpdateQueue cleanTimeout
  simp [httl]

/-- What `UpdateQueue` does when `ttl ≠ 0`, in terms of the list `rem` of the entries the sweep
removes. -/
theorem UpdateQueue_spec (q : actQueue) (now : Int) (httl : q.ttl ≠ 0) :
    ∃ rem : List nonceWithTTL,
      rem.Perm (q.index.filter (expired now)) ∧
      (UpdateQueue q now).1.index.Perm (q.index.filter (fun e => !expired now e)) ∧
      (UpdateQueue q now).1.items = sweepItems q.items rem ∧
      (UpdateQueue q now).1.pendingNonce =
        advanceLoop (sweepItems q.items rem) ((sweepItems q.items rem).len + 1)
          (sweepPending q.pendingNonce rem) ∧
      (UpdateQueue q now).2 = sweepActs q.items rem ∧
      (UpdateQueue q now).1.address = q.address ∧
      (UpdateQueue q now).1.confirmedNonce = q.confirmedNonce ∧
      (UpdateQueue q now).1.accountBalance = q.accountBalance ∧
      (UpdateQueue q now).1.ttl = q.ttl := by
  obtain ⟨rem, h1, h2, h3, h4, h5, h6, h7, h8, h9⟩ := cleanTimeout_spec q now httl
  refine ⟨rem, h1, h2, h3, ?_, h5, h6, h7, h8, h9⟩
  unfold UpdateQueue
  simp only
  rw [h3, h4]

end ActPool

namespace ActPool

theorem sweepItems_contains (items : ItemMap) (rem : List nonceWithTTL) (k : Nat) :
    (sweepItems items rem).contains k = (!decide (k ∈ nonces rem) && items.contains k) := by
  unfold ItemMap.contains
  rw [sweepItems_find?]
  by_cases h : k ∈ nonces rem <;> simp [h]

/-- C26. For every queue with `ttl ≠ 0` and every clock reading: when the index holds an entry
whose deadline is before the clock reading (the sweep removes it) and whose nonce is smaller than
the pending nonce, then after `UpdateQueue` the pending nonce is the smallest nonce among the
entries removed by the sweep, which is no key of `items` any more, whatever entries survive. -/
theorem UpdateQueue_rewind (q : actQueue) (now : Int) (httl : q.ttl ≠ 0)
    (hrem : ∃ e ∈ q.index, e.deadline < now ∧ e.nonce < q.pendingNonce) :
    ∃ e ∈ q.index, e.deadline < now ∧
      (UpdateQueue q now).1.pendingNonce = e.nonce ∧
      (∀ e1 ∈ q.index, e1.deadline < now → e.nonce ≤ e1.nonce) ∧
      e.nonce < q.pendingNonce ∧
      (UpdateQueue q now).1.items.contains e.nonce = false := by
  obtain ⟨rem, h1, _, h3, h4, _⟩ := UpdateQueue_spec q now httl
  obtain ⟨e0, he0, hd0, hn0⟩ := hrem
  have he0rem : e0 ∈ rem :=
    h1.mem_iff.mpr (List.mem_filter.mpr ⟨he0, (expired_iff now e0).mpr hd0⟩)
  have hlt : sweepPending q.pendingNonce rem < q.pendingNonce :=
    lt_of_le_of_lt (sweepPending_le_mem _ _ _ he0rem) hn0
  have hmem : sweepPending q.pendingNonce rem ∈ nonces rem := by
    rcases sweepPending_eq_or_mem q.pendingNonce rem with h | h
    · omega
    · exact h
  obtain ⟨e, he, hen⟩ := List.mem_map.mp hmem
  have hef := List.mem_filter.mp (h1.mem_iff.mp he)
  have hfree : (sweepItems q.items rem).contains (sweepPending q.pendingNonce rem) = false := by
    rw [sweepItems_contains]
    simp [hmem]
  have hp : (UpdateQueue q now).1.pendingNonce = sweepPending q.pendingNonce rem := by
    rw [h4]
    exact advanceLoop_of_not_contains _ _ _ hfree
  refine ⟨e, hef.1, (expired_iff now e).mp hef.2, ?_, ?_, ?_, ?_⟩
  · rw [hp]
    exact hen.symm
  · intro e1 he1 hd1
    have he1rem : e1 ∈ rem :=
      h1.mem_iff.mpr (List.mem_filter.mpr ⟨he1, (expired_iff now e1).mpr hd1⟩)
    have := sweepPending_le_mem q.pendingNonce rem e1 he1rem
    have hen1 : e.nonce = sweepPending q.pendingNonce rem := hen
    omega
  · have hen1 : e.nonce = sweepPending q.pendingNonce rem := hen
    omega
  · rw [h3]
    have hen1 : e.nonce = sweepPending q.pendingNonce rem := hen
    rw [hen1]
    exact hfree

/-- Witness of C26: `ttl = 1s`, nonces 1 and 2 put at time `0`, pending nonce 3, nonce 3 put at
time `2s`; at `2.5s` the entries of 1 and 2 have timed out: `UpdateQueue` rewinds the pending nonce
from 3 to 1 and `PendingActs` is empty, with nonce 3 still in the queue. -/
theorem UpdateQueue_rewind_witness :
    queueTTL.ttl ≠ 0 ∧ queueTTL.pendingNonce = 3 ∧
    (PendingActs queueTTL (constOracle 0)).2 = [⟨1, 1, 1⟩, ⟨2, 1, 2⟩, ⟨3, 1, 3⟩] ∧
    (∃ e ∈ queueTTL.index, e.deadline < 2500000000 ∧
      (UpdateQueue queueTTL 2500000000).1.pendingNonce = e.nonce ∧
      (∀ e1 ∈ queueTTL.index, e1.deadline < 2500000000 → e.nonce ≤ e1.nonce) ∧
      e.nonce < queueTTL.pendingNonce ∧
      (UpdateQueue queueTTL 2500000000).1.items.contains e.nonce = false) ∧
    (UpdateQueue queueTTL 2500000000).1.pendingNonce = 1 ∧
    (UpdateQueue queueTTL 2500000000).1.items.contains 3 = true ∧
    (PendingActs (UpdateQueue queueTTL 2500000000).1 (constOracle 0)).2 = [] :=
  ⟨by decide, by decide, by decide,
    UpdateQueue_rewind queueTTL 2500000000 (by decide)
      ⟨⟨1, 1000000000⟩, by decide, by decide, by decide⟩,
    by decide, by decide, by decide⟩

end ActPool

namespace ActPool

/-- The list `AllActs` returns, for a queue whose index holds the keys of `items`, each once: the
actions of the keys in strictly ascending order. -/
theorem AllActs_eq_keys (q : actQueue) (hsame : SameNonceSet q) :
    ∃ ks : List Nat, ks.Sorted (fun a b => a < b) ∧
      (∀ k, k ∈ ks ↔ q.items.contains k = true) ∧
      (AllActs q).2 = ks.map (fun k => q.items.get k) := by
  rw [sameNonceSet_iff] at hsame
  by_cases hlen : Len q = 0
  · have hall : AllActs q = (q, []) := by
      unfold AllActs
      rw [if_pos hlen]
    have hnone := (len_eq_zero_iff q.items).mp hlen
    refine ⟨[], List.sorted_nil, ?_, by rw [hall]; rfl⟩
    intro k
    simp [hnone k]
  · have hall : AllActs q =
        ({ q with index := sortSort q.index },
          (sortSort q.index).map (fun e => q.items.get e.nonce)) := by
      unfold AllActs
      rw [if_neg hlen]
    have hpermn : (nonces (sortSort q.index)).Perm (nonces q.index) :=
      (sortSort_perm q.index).map _
    refine ⟨nonces (sortSort q.index), ?_, ?_, ?_⟩
    · exact (sortSort_sorted q.index).lt_of_le (hpermn.nodup_iff.mpr hsame.1)
    · intro k
      rw [hpermn.mem_iff, hsame.2]
    · rw [hall]
      simp [nonces, List.map_map, Function.comp]

/-- A strictly ascending list of numbers above `c` that holds `c + 1, ..., c + k` starts with
them. -/
theorem sorted_prefix_range (ks : List Nat) (c k : Nat) (hs : ks.Sorted (fun a b => a < b))
    (hlow : ∀ x ∈ ks, c < x) (hmem : ∀ i, i < k → c + 1 + i ∈ ks) :
    ∃ rest, ks = (List.range k).map (fun i => c + 1 + i) ++ rest := by
  induction k generalizing c ks with
  | zero => exact ⟨ks, by simp⟩
  | succ k ih =>
    cases ks with
    | nil =>
      have := hmem 0 (by omega)
      cases this
    | cons x t =>
      have hx : x = c + 1 := by
        have h1 := hlow x (List.mem_cons_self _ _)
        rcases List.mem_cons.mp (hmem 0 (by omega)) with h | h
        · omega
        · have := List.rel_of_sorted_cons hs _ h
          omega
      subst hx
      obtain ⟨rest, hrest⟩ := ih t (c + 1) hs.of_cons
        (fun y hy => List.rel_of_sorted_cons hs y hy)
        (fun i hi => by
          rcases List.mem_cons.mp (hmem (i + 1) (by omega)) with h | h
          · omega
          · rw [show c + 1 + 1 + i = c + 1 + (i + 1) by omega]
            exact h)
      refine ⟨rest, ?_⟩
      rw [hrest, List.range_succ_eq_map, List.map_cons, List.map_map, List.cons_append]
      congr 2
      apply List.map_congr_left
      intro i _
      simp only [Function.comp]
      omega

/-- C21, amended. For every queue whose index holds the keys of `items`, each once, and every
confirmed nonce `c` returned by the oracle such that every key of `items` is above `c`:
the list `PendingActs` returns is a prefix of the list `AllActs` returns; it is made of the
actions of the nonces `c + 1, ..., c + k`, all keys of `items`, and the walk ends on a nonce that
is no key. -/
theorem PendingActs_prefix_of_AllActs (q : actQueue) (oracle : AccountOracle) (addr : String)
    (c : Nat)
    (hsame : SameNonceSet q) (hlen : Len q < uint64Mod) (hc : c < uint64Mod)
    (haddr : oracle.FromString q.address = some addr)
    (hstate : oracle.AccountStateNonce addr = some c)
    (hkeys : ∀ n, q.items.contains n = true → c < n) :
    (PendingActs q oracle).2 <+: (AllActs q).2 ∧
    ∃ k, (PendingActs q oracle).2 = (List.range k).map (fun i => q.items.get (c + 1 + i)) ∧
      (∀ i, i < k → q.items.contains (c + 1 + i) = true) ∧
      q.items.contains ((c + 1 + k) % uint64Mod) = false := by
  obtain ⟨ks, hs, hks, hall⟩ := AllActs_eq_keys q hsame
  by_cases hzero : Len q = 0
  · have hp : PendingActs q oracle = (q, []) := by
      unfold PendingActs
      rw [if_pos hzero]
    rw [hp]
    refine ⟨?_, 0, rfl, fun i hi => by omega, ?_⟩
    · exact List.nil_prefix
    · exact (len_eq_zero_iff q.items).mp hzero _
  · obtain ⟨k, _, heq, hcont, hstop⟩ :=
      pendingLoop_exits q.items ((c + 1) % uint64Mod) (Nat.mod_lt _ (by norm_num [uint64Mod]))
        hlen
    have hp : PendingActs q oracle =
        (q, pendingLoop q.items (q.items.len + 1) ((c + 1) % uint64Mod) []) := by
      unfold PendingActs
      rw [if_neg hzero]
      simp only [haddr, hstate]
    have hshift : ∀ i, ((c + 1) % uint64Mod + i) % uint64Mod = (c + 1 + i) % uint64Mod := by
      intro i
      rw [Nat.add_mod, Nat.mod_mod, ← Nat.add_mod]
    have hnowrap : ∀ i, i < k → c + 1 + i < uint64Mod := by
      intro i hi
      by_contra hcon
      have hi0 : uint64Mod - (c + 1) < k := by omega
      have h1 := hcont _ hi0
      rw [hshift] at h1
      have h2 : (c + 1 + (uint64Mod - (c + 1))) % uint64Mod = 0 := by
        rw [show c + 1 + (uint64Mod - (c + 1)) = uint64Mod by omega]
        exact Nat.mod_self _
      rw [h2] at h1
      have := hkeys 0 h1
      omega
    have hcont1 : ∀ i, i < k → q.items.contains (c + 1 + i) = true := by
      intro i hi
      have h1 := hcont i hi
      rw [hshift, Nat.mod_eq_of_lt (hnowrap i hi)] at h1
      exact h1
    have hlist : (PendingActs q oracle).2 =
        (List.range k).map (fun i => q.items.get (c + 1 + i)) := by
      rw [hp]
      simp only
      rw [heq]
      apply List.map_congr_left
      intro i hi
      rw [hshift, Nat.mod_eq_of_lt (hnowrap i (List.mem_range.mp hi))]
    refine ⟨?_, k, hlist, hcont1, ?_⟩
    · obtain ⟨rest, hrest⟩ := sorted_prefix_range ks c k hs
        (fun x hx => hkeys x ((hks x).mp hx)) (fun i hi => (hks _).mpr (hcont1 i hi))
      rw [hlist, hall, hrest, List.map_append, List.map_map]
      exact List.prefix_append _ _
    · rw [← hshift]
      exact hstop

/-- Witness of C21 (amended): the queue with nonces 1, 2 and 4 and the confirmed nonce 0. -/
theorem PendingActs_prefix_of_AllActs_witness :
    (∀ n, queue124.items.contains n = true → 0 < n) ∧
    (PendingActs queue124 (constOracle 0)).2 <+: (AllActs queue124).2 ∧
    (PendingActs queue124 (constOracle 0)).2 = [⟨1, 1, 1⟩, ⟨2, 1, 2⟩] ∧
    (AllActs queue124).2 = [⟨1, 1, 1⟩, ⟨2, 1, 2⟩, ⟨4, 1, 4⟩] := by
  have hkeys : ∀ n, queue124.items.contains n = true → 0 < n := by
    intro n hn
    by_contra hcon
    have h0 : n = 0 := by omega
    rw [h0] at hn
    revert hn
    decide
  exact ⟨hkeys,
    (PendingActs_prefix_of_AllActs queue124 (constOracle 0) "a" 0 (by decide) (by decide)
      (by decide) rfl rfl hkeys).1,
    by decide, by decide⟩

/-- C21 fails as stated. The queue holds the nonces 1, 2 and 4 and the oracle reports the
confirmed nonce 1 (the action of nonce 1 is confirmed and still in the queue): `PendingActs`
returns the action of nonce 2 alone, `AllActs` returns the actions of 1, 2 and 4, and the first is
no prefix of the second. -/
theorem PendingActs_prefix_of_AllActs_counterexample :
    (PendingActs queue124 (constOracle 1)).2 = [⟨2, 1, 2⟩] ∧
    (AllActs queue124).2 = [⟨1, 1, 1⟩, ⟨2, 1, 2⟩, ⟨4, 1, 4⟩] ∧
    ¬ (PendingActs queue124 (constOracle 1)).2 <+: (AllActs queue124).2 := by
  refine ⟨by decide, by decide, ?_⟩
  have h1 : (PendingActs queue124 (constOracle 1)).2 = [⟨2, 1, 2⟩] := by decide
  have h2 : (AllActs queue124).2 = [⟨1, 1, 1⟩, ⟨2, 1, 2⟩, ⟨4, 1, 4⟩] := by decide
  rw [h1, h2]
  decide

end ActPool

/-! ## `UpdateQueue` twice, and `UpdateQueue` against `Put` -/

namespace ActPool

/-- A map whose keys are keys of another has no more keys. -/
theorem len_le_of_contains (m1 m2 : ItemMap)
    (h : ∀ k, m1.contains k = true → m2.contains k = true) : m1.len ≤ m2.len := by
  have hsub : m1.keys ⊆ m2.keys := by
    intro k hk
    exact (ItemMap.contains_iff_mem_keys _ _).mp
      (h k ((ItemMap.contains_iff_mem_keys _ _).mpr hk))
  exact (List.subperm_of_subset (List.nodup_dedup _) hsub).length_le

/-- The pending advance ends on a nonce that is no key, from whatever nonce it starts, on a map of
fewer than `2 ^ 64` keys: the step bound `len(items) + 1` is enough. -/
theorem advanceLoop_free (items : ItemMap) (p : Nat) (hlen : items.len < uint64Mod) :
    items.contains (advanceLoop items (items.len + 1) p) = false := by
  cases hc : items.contains p with
  | false =>
    rw [advanceLoop_of_not_contains items _ p hc]
    exact hc
  | true =>
    have hstep : advanceLoop items (items.len + 1) p =
        advanceLoop items items.len ((p + 1) % uint64Mod) := by
      conv_lhs => unfold advanceLoop
      rw [hc]
      rfl
    rw [hstep]
    obtain ⟨k, hk, heq, hall, hstop⟩ :=
      advanceLoop_spec items items.len ((p + 1) % uint64Mod)
        (Nat.mod_lt _ (by norm_num [uint64Mod]))
    rw [heq]
    apply hstop
    by_contra hcon
    have hkl : k = items.len := by omega
    rw [hkl] at hall
    have hnd : ((List.range items.len).map
        (fun i => ((p + 1) % uint64Mod + i) % uint64Mod)).Nodup := by
      refine List.Nodup.map_on ?_ (List.nodup_range _)
      intro x hx y hy hxy
      rw [List.mem_range] at hx hy
      rw [uint64Mod_eq] at hxy hlen
      omega
    have hsub : (List.range items.len).map
        (fun i => ((p + 1) % uint64Mod + i) % uint64Mod) ⊆ items.keys := by
      intro a ha
      obtain ⟨i, hi, rfl⟩ := List.mem_map.mp ha
      exact (ItemMap.contains_iff_mem_keys _ _).mp (hall i (List.mem_range.mp hi))
    have hperm := (List.subperm_of_subset hnd hsub).perm_of_length_le
      (by simp [ItemMap.len])
    have hp := hperm.mem_iff.mpr ((ItemMap.contains_iff_mem_keys _ _).mp hc)
    obtain ⟨i, hi, hpi⟩ := List.mem_map.mp hp
    rw [List.mem_range] at hi
    rw [uint64Mod_eq] at hpi hlen
    omega

theorem sweepItems_len_le (items : ItemMap) (rem : List nonceWithTTL) :
    (sweepItems items rem).len ≤ items.len := by
  apply len_le_of_contains
  intro k hk
  rw [sweepItems_contains] at hk
  simp only [Bool.and_eq_true] at hk
  exact hk.2

theorem UpdateQueue_len_le (q : actQueue) (now : Int) :
    (UpdateQueue q now).1.items.len ≤ q.items.len := by
  by_cases httl : q.ttl = 0
  · rw [UpdateQueue_eq_of_ttl_zero q now httl]
  · obtain ⟨rem, _, _, h3, _⟩ := UpdateQueue_spec q now httl
    rw [h3]
    exact sweepItems_len_le _ _

/-- After `UpdateQueue`, the pending nonce is no key of `items`. -/
theorem UpdateQueue_pending_free (q : actQueue) (now : Int) (hlen : Len q < uint64Mod) :
    (UpdateQueue q now).1.items.contains (UpdateQueue q now).1.pendingNonce = false := by
  by_cases httl : q.ttl = 0
  · rw [UpdateQueue_eq_of_ttl_zero q now httl]
    exact advanceLoop_free q.items q.pendingNonce hlen
  · obtain ⟨rem, _, _, h3, h4, _⟩ := UpdateQueue_spec q now httl
    rw [h3, h4]
    exact advanceLoop_free _ _ (lt_of_le_of_lt (sweepItems_len_le _ _) hlen)

/-- C27. For every queue (of fewer than `2 ^ 64` actions) and every clock reading: a second
`UpdateQueue` at the same clock reading leaves `items` and the pending nonce as the first left
them, leaves the entries of the index (rearranged at most), the confirmed nonce, the balance, the
`ttl` and the address, and returns the empty list. -/
theorem UpdateQueue_idempotent (q : actQueue) (now : Int) (hlen : Len q < uint64Mod) :
    (UpdateQueue (UpdateQueue q now).1 now).1.items = (UpdateQueue q now).1.items ∧
    (UpdateQueue (UpdateQueue q now).1 now).1.index.Perm (UpdateQueue q now).1.index ∧
    (UpdateQueue (UpdateQueue q now).1 now).1.pendingNonce = (UpdateQueue q now).1.pendingNonce ∧
    (UpdateQueue (UpdateQueue q now).1 now).2 = [] ∧
    (UpdateQueue (UpdateQueue q now).1 now).1.confirmedNonce =
      (UpdateQueue q now).1.confirmedNonce ∧
    (UpdateQueue (UpdateQueue q now).1 now).1.accountBalance =
      (UpdateQueue q now).1.accountBalance ∧
    (UpdateQueue (UpdateQueue q now).1 now).1.ttl = (UpdateQueue q now).1.ttl ∧
    (UpdateQueue (UpdateQueue q now).1 now).1.address = (UpdateQueue q now).1.address := by
  have hfree := UpdateQueue_pending_free q now hlen
  by_cases httl : q.ttl = 0
  · have httl1 : (UpdateQueue q now).1.ttl = 0 := by
      rw [UpdateQueue_eq_of_ttl_zero q now httl]
      exact httl
    rw [UpdateQueue_eq_of_ttl_zero (UpdateQueue q now).1 now httl1]
    simp only
    refine ⟨trivial, List.Perm.refl _, ?_, trivial, trivial, trivial, trivial, trivial⟩
    exact advanceLoop_of_not_contains _ _ _ hfree
  · obtain ⟨rem, _, h2, _, _, _, _, _, _, h10⟩ := UpdateQueue_spec q now httl
    have httl1 : (UpdateQueue q now).1.ttl ≠ 0 := by
      rw [h10]
      exact httl
    obtain ⟨rem2, g1, g2, g3, g4, g5, g6, g7, g8, g9⟩ :=
      UpdateQueue_spec (UpdateQueue q now).1 now httl1
    have hnone : ∀ e ∈ (UpdateQueue q now).1.index, expired now e = false := by
      intro e he
      have := (List.mem_filter.mp (h2.mem_iff.mp he)).2
      simpa using this
    have hrem2 : rem2 = [] := by
      apply List.Perm.eq_nil
      refine g1.trans (List.Perm.of_eq ?_)
      apply List.filter_eq_nil_iff.mpr
      intro e he
      rw [hnone e he]
      simp
    rw [hrem2] at g3 g4 g5
    refine ⟨g3, ?_, ?_, g5, g7, g8, g9, g6⟩
    · refine g2.trans (List.Perm.of_eq ?_)
      apply List.filter_eq_self.mpr
      intro e he
      rw [hnone e he]
      rfl
    · rw [g4]
      exact advanceLoop_of_not_contains _ _ _ hfree

/-- Witness of C27: `ttl = 1s`, nonces 1 and 2 put at time `0`, nonce 3 put at time `2s`, clock
reading `2.5s`: the first `UpdateQueue` removes 1 and 2 and rewinds the pending nonce to 1, the
second changes nothing and returns the empty list. -/
theorem UpdateQueue_idempotent_witness :
    (UpdateQueue queueTTL 2500000000).2 = [⟨1, 1, 1⟩, ⟨2, 1, 2⟩] ∧
    (UpdateQueue (UpdateQueue queueTTL 2500000000).1 2500000000).1.items =
      (UpdateQueue queueTTL 2500000000).1.items ∧
    (UpdateQueue (UpdateQueue queueTTL 2500000000).1 2500000000).1.pendingNonce =
      (UpdateQueue queueTTL 2500000000).1.pendingNonce ∧
    (UpdateQueue (UpdateQueue queueTTL 2500000000).1 2500000000).2 = [] :=
  ⟨by decide,
    (UpdateQueue_idempotent queueTTL 2500000000 (by decide)).1,
    (UpdateQueue_idempotent queueTTL 2500000000 (by decide)).2.2.1,
    (UpdateQueue_idempotent queueTTL 2500000000 (by decide)).2.2.2.1⟩

end ActPool

/-! ## Confirming a nonce: `SetConfirmedNonce`, `FilterNonce`, `UpdateQueue` -/

namespace ActPool

theorem advanceLoop_lt (items : ItemMap) (fuel p : Nat) (hp : p < uint64Mod) :
    advanceLoop items fuel p < uint64Mod := by
  obtain ⟨k, _, heq, _⟩ := advanceLoop_spec items fuel p hp
  rw [heq]
  exact Nat.mod_lt _ (by norm_num [uint64Mod])

/-- The pending nonce after `UpdateQueue` is the least free nonce above the confirmed nonce, for a
queue in which the pending nonce is above the confirmed nonce, every nonce between them is a key,
and every key is above the confirmed nonce and below `2 ^ 64 − 1`; and every key left was a key. -/
theorem UpdateQueue_least_free (q : actQueue) (now : Int) (hsame : SameNonceSet q)
    (hconf : q.confirmedNonce < q.pendingNonce) (hp : q.pendingNonce < uint64Mod)
    (hbetween : ∀ n, q.confirmedNonce < n → n < q.pendingNonce → q.items.contains n = true)
    (hkeys : ∀ n, q.items.contains n = true → q.confirmedNonce < n ∧ n < uint64Mod - 1) :
    IsLeastFreeNonce (UpdateQueue q now).1.items q.confirmedNonce
        (UpdateQueue q now).1.pendingNonce ∧
      (UpdateQueue q now).1.confirmedNonce = q.confirmedNonce ∧
      (UpdateQueue q now).1.pendingNonce < uint64Mod ∧
      (∀ n, (UpdateQueue q now).1.items.contains n = true → q.items.contains n = true) := by
  by_cases httl : q.ttl = 0
  · rw [UpdateQueue_eq_of_ttl_zero q now httl]
    exact ⟨advanceLoop_least q.items q.confirmedNonce q.pendingNonce hconf hp hbetween
      (fun n hn => (hkeys n hn).2), rfl, advanceLoop_lt _ _ _ hp, fun n hn => hn⟩
  · obtain ⟨rem, h1, _, h3, h4, _, _, h7, _⟩ := UpdateQueue_spec q now httl
    have hcontains : ∀ n, (sweepItems q.items rem).contains n = true →
        q.items.contains n = true := by
      intro n hn
      rw [sweepItems_contains] at hn
      simp only [Bool.and_eq_true] at hn
      exact hn.2
    have hremkey : ∀ n, n ∈ nonces rem → q.items.contains n = true := by
      intro n hn
      obtain ⟨e, he, rfl⟩ := List.mem_map.mp hn
      have he1 := List.mem_of_mem_filter (h1.mem_iff.mp he)
      exact hsame.2.1 _ (List.mem_map_of_mem _ he1)
    have hconf1 : q.confirmedNonce < sweepPending q.pendingNonce rem := by
      rcases sweepPending_eq_or_mem q.pendingNonce rem with h | h
      · rw [h]; exact hconf
      · exact (hkeys _ (hremkey _ h)).1
    have hp1 : sweepPending q.pendingNonce rem < uint64Mod :=
      lt_of_le_of_lt (sweepPending_le _ _) hp
    have hbetween1 : ∀ n, q.confirmedNonce < n → n < sweepPending q.pendingNonce rem →
        (sweepItems q.items rem).contains n = true := by
      intro n hn1 hn2
      have hnot : n ∉ nonces rem := by
        intro hmem
        obtain ⟨e, he, hen⟩ := List.mem_map.mp hmem
        have := sweepPending_le_mem q.pendingNonce rem e he
        have hen : e.nonce = n := hen
        omega
      have := hbetween n hn1 (lt_of_lt_of_le hn2 (sweepPending_le _ _))
      rw [sweepItems_contains]
      simp [hnot, this]
    have hleast := advanceLoop_least (sweepItems q.items rem) q.confirmedNonce
      (sweepPending q.pendingNonce rem) hconf1 hp1 hbetween1
      (fun n hn => (hkeys n (hcontains n hn)).2)
    rw [h3, h4, h7]
    exact ⟨hleast, rfl, advanceLoop_lt _ _ _ hp1, hcontains⟩

/-- What `FilterNonce` leaves, on a min-heap index that holds the keys of `items`, each once: the
keys at or above the threshold, with a min-heap index that holds them, each once. -/
theorem FilterNonce_keys (q : actQueue) (t : Nat) (hheap : IsMinHeap q.index)
    (hsame : SameNonceSet q) :
    (∀ k, (FilterNonce q t).1.items.contains k = true ↔ (q.items.contains k = true ∧ t ≤ k)) ∧
      IsMinHeap (FilterNonce q t).1.index ∧ SameNonceSet (FilterNonce q t).1 ∧
      (FilterNonce q t).1.pendingNonce = q.pendingNonce ∧
      (FilterNonce q t).1.confirmedNonce = q.confirmedNonce ∧
      (FilterNonce q t).1.ttl = q.ttl := by
  have hsame2 : SameNonceSet (FilterNonce q t).1 := filterLoop_sameNonceSet t _ q [] hsame
  obtain ⟨popped, _, h2, h3, h4, h5, _, h7, h8, h9, _, h11, _⟩ :=
    filterLoop_spec t q.index.Len q [] hheap hsame.1 (le_refl _)
  refine ⟨?_, h7, hsame2, h8, h9, h11⟩
  intro k
  constructor
  · intro hk
    have hk1 : (sweepItems q.items popped).contains k = true := by
      rw [← h2]
      exact hk
    rw [sweepItems_contains] at hk1
    simp only [Bool.and_eq_true] at hk1
    refine ⟨hk1.2, ?_⟩
    have hmem := ((sameNonceSet_iff _).mp hsame2).2 k |>.mpr hk
    obtain ⟨e, he, rfl⟩ := List.mem_map.mp hmem
    exact h5 e he
  · rintro ⟨hk, htk⟩
    have hmem := ((sameNonceSet_iff _).mp hsame).2 k |>.mpr hk
    obtain ⟨e, he, rfl⟩ := List.mem_map.mp hmem
    have hnot : e.nonce ∉ nonces popped := by
      intro hm
      obtain ⟨e2, he2, hn⟩ := List.mem_map.mp hm
      have := h4 e2 he2
      have hn : e2.nonce = e.nonce := hn
      omega
    show (filterLoop t q.index.Len q []).1.items.contains e.nonce = true
    rw [h2, sweepItems_contains]
    simp [hnot, hk]

/-- C24, amended. For every queue whose index is a min-heap with the same nonce set as `items`,
whose keys are all below `2 ^ 64 − 1`, and every `n < 2 ^ 64 − 1`: after `SetConfirmedNonce(n)`,
then `FilterNonce(n + 1)`, then `UpdateQueue`, the confirmed nonce is `n`, every key left in
`items` is above `n`, and the pending nonce is the least nonce `≥ n + 1` that is not a key of
`items` (so all of `n + 1 .. pendingNonce − 1` are keys). -/
theorem confirm_then_update (q : actQueue) (n : Nat) (now : Int) (hheap : IsMinHeap q.index)
    (hsame : SameNonceSet q) (hn : n < uint64Mod - 1)
    (hkeys : ∀ k, q.items.contains k = true → k < uint64Mod - 1) :
    (UpdateQueue (FilterNonce (SetConfirmedNonce q n) (n + 1)).1 now).1.confirmedNonce = n ∧
    (∀ k, (UpdateQueue (FilterNonce (SetConfirmedNonce q n) (n + 1)).1 now).1.items.contains k
      = true → n < k) ∧
    IsLeastFreeNonce (UpdateQueue (FilterNonce (SetConfirmedNonce q n) (n + 1)).1 now).1.items n
      (UpdateQueue (FilterNonce (SetConfirmedNonce q n) (n + 1)).1 now).1.pendingNonce := by
  have hmod : (n + 1) % uint64Mod = n + 1 := Nat.mod_eq_of_lt (by omega)
  have hheap1 : IsMinHeap (SetConfirmedNonce q n).index := hheap
  have hsame1 : SameNonceSet (SetConfirmedNonce q n) := hsame
  obtain ⟨f1, _, f3, f4, f5, _⟩ := FilterNonce_keys (SetConfirmedNonce q n) (n + 1) hheap1 hsame1
  have hc2 : (FilterNonce (SetConfirmedNonce q n) (n + 1)).1.confirmedNonce = n := f5
  have hp2 : (FilterNonce (SetConfirmedNonce q n) (n + 1)).1.pendingNonce = n + 1 := by
    rw [f4]
    exact hmod
  have hkeys2 : ∀ k, (FilterNonce (SetConfirmedNonce q n) (n + 1)).1.items.contains k = true →
      (FilterNonce (SetConfirmedNonce q n) (n + 1)).1.confirmedNonce < k ∧
        k < uint64Mod - 1 := by
    intro k hk
    have := (f1 k).mp hk
    rw [hc2]
    exact ⟨by omega, hkeys k this.1⟩
  obtain ⟨g1, g2, _, g4⟩ := UpdateQueue_least_free
    (FilterNonce (SetConfirmedNonce q n) (n + 1)).1 now f3 (by rw [hc2, hp2]; omega)
    (by rw [hp2]; omega) (by intro k h1 h2; rw [hc2] at h1; rw [hp2] at h2; omega) hkeys2
  rw [hc2] at g1 g2
  refine ⟨g2, ?_, g1⟩
  intro k hk
  have := (hkeys2 k (g4 k hk)).1
  rw [hc2] at this
  exact this

/-- Witness of C24 (amended): the queue with nonces 1, 2 and 4, confirmed at nonce 1: nonce 1 is
removed, the confirmed nonce is 1 and the pending nonce is 3. -/
theorem confirm_then_update_witness :
    IsMinHeap queue124.index ∧ SameNonceSet queue124 ∧
    (UpdateQueue (FilterNonce (SetConfirmedNonce queue124 1) (1 + 1)).1 0).1.confirmedNonce = 1 ∧
    (∀ k, (UpdateQueue (FilterNonce (SetConfirmedNonce queue124 1) (1 + 1)).1 0).1.items.contains
      k = true → 1 < k) ∧
    IsLeastFreeNonce (UpdateQueue (FilterNonce (SetConfirmedNonce queue124 1) (1 + 1)).1 0).1.items
      1 (UpdateQueue (FilterNonce (SetConfirmedNonce queue124 1) (1 + 1)).1 0).1.pendingNonce ∧
    (UpdateQueue (FilterNonce (SetConfirmedNonce queue124 1) (1 + 1)).1 0).1.pendingNonce = 3 := by
  have hkeys : ∀ k, queue124.items.contains k = true → k < uint64Mod - 1 := by
    intro k hk
    have hk1 : k ∈ queue124.items.keys := (ItemMap.contains_iff_mem_keys _ _).mp hk
    have hks : queue124.items.keys = [4, 2, 1] := by decide
    rw [hks] at hk1
    simp only [List.mem_cons, List.mem_singleton, List.not_mem_nil, or_false] at hk1
    rw [uint64Mod_eq]
    omega
  obtain ⟨h1, h2, h3⟩ := confirm_then_update queue124 1 0 (by decide) (by decide)
    (by rw [uint64Mod_eq]; omega) hkeys
  exact ⟨by decide, by decide, h1, h2, h3, by decide⟩

/-- C24 fails as stated. The queue holds the nonces `2 ^ 64 − 2` and `2 ^ 64 − 1` (its index is a
min-heap with the same nonce set as `items`) and `n = 2 ^ 64 − 3`: after `SetConfirmedNonce(n)`,
`FilterNonce(n + 1)` and `UpdateQueue` both nonces are still keys and the pending nonce is `0`,
the advance having wrapped at `2 ^ 64`; `0` is not a nonce `≥ n + 1`. -/
theorem confirm_then_update_counterexample :
    IsMinHeap (runCalls (NewActQueue "a" 0)
      [Call.put 0 ⟨2 ^ 64 - 2, 1, 1⟩, Call.put 0 ⟨2 ^ 64 - 1, 1, 2⟩]).index ∧
    SameNonceSet (runCalls (NewActQueue "a" 0)
      [Call.put 0 ⟨2 ^ 64 - 2, 1, 1⟩, Call.put 0 ⟨2 ^ 64 - 1, 1, 2⟩]) ∧
    2 ^ 64 - 3 < 2 ^ 64 - 1 ∧
    (UpdateQueue (FilterNonce (SetConfirmedNonce (runCalls (NewActQueue "a" 0)
      [Call.put 0 ⟨2 ^ 64 - 2, 1, 1⟩, Call.put 0 ⟨2 ^ 64 - 1, 1, 2⟩]) (2 ^ 64 - 3))
      (2 ^ 64 - 3 + 1)).1 0).1.items.keys = [2 ^ 64 - 1, 2 ^ 64 - 2] ∧
    (UpdateQueue (FilterNonce (SetConfirmedNonce (runCalls (NewActQueue "a" 0)
      [Call.put 0 ⟨2 ^ 64 - 2, 1, 1⟩, Call.put 0 ⟨2 ^ 64 - 1, 1, 2⟩]) (2 ^ 64 - 3))
      (2 ^ 64 - 3 + 1)).1 0).1.pendingNonce = 0 ∧
    ¬ IsLeastFreeNonce
      (UpdateQueue (FilterNonce (SetConfirmedNonce (runCalls (NewActQueue "a" 0)
        [Call.put 0 ⟨2 ^ 64 - 2, 1, 1⟩, Call.put 0 ⟨2 ^ 64 - 1, 1, 2⟩]) (2 ^ 64 - 3))
        (2 ^ 64 - 3 + 1)).1 0).1.items (2 ^ 64 - 3)
      (UpdateQueue (FilterNonce (SetConfirmedNonce (runCalls (NewActQueue "a" 0)
        [Call.put 0 ⟨2 ^ 64 - 2, 1, 1⟩, Call.put 0 ⟨2 ^ 64 - 1, 1, 2⟩]) (2 ^ 64 - 3))
        (2 ^ 64 - 3 + 1)).1 0).1.pendingNonce := by
  have hp : (UpdateQueue (FilterNonce (SetConfirmedNonce (runCalls (NewActQueue "a" 0)
      [Call.put 0 ⟨2 ^ 64 - 2, 1, 1⟩, Call.put 0 ⟨2 ^ 64 - 1, 1, 2⟩]) (2 ^ 64 - 3))
      (2 ^ 64 - 3 + 1)).1 0).1.pendingNonce = 0 := by decide
  refine ⟨by decide, by decide, by decide, by decide, hp, ?_⟩
  rw [hp]
  intro h
  have := h.1
  omega

end ActPool

/-! ## The index stays a min-heap -/

namespace ActPool

namespace Heap

open noncePriorityQueue

/-- The function `heap.up` restores the heap order above an entry that may be smaller than its
parent. -/
theorem upLoop_heap (fuel : Nat) (h : noncePriorityQueue) (j : Nat) (hfuel : j ≤ fuel)
    (hj : j < h.length) (hinv : UpInv h h.length j) : IsMinHeap (upLoop fuel h j) := by
  induction fuel generalizing h j with
  | zero =>
    have hj0 : j = 0 := by omega
    intro c hc hc0 _
    exact hinv.1 c hc hc0 (by omega)
  | succ fuel ih =>
    unfold upLoop
    simp only
    by_cases h1 : (j - 1) / 2 = j ∨ Less h j ((j - 1) / 2) = false
    · rw [if_pos h1]
      intro c hc hc0 _
      by_cases hcj : c = j
      · rcases h1 with e | e
        · omega
        · have : ¬ Less h j ((j - 1) / 2) = true := by simp [e]
          rw [Less_iff] at this
          rw [hcj]
          omega
      · exact hinv.1 c hc hc0 hcj
    · rw [if_neg h1]
      have hne : (j - 1) / 2 ≠ j := fun e => h1 (Or.inl e)
      have hj0 : 0 < j := by omega
      have hlt : nonceAt h j < nonceAt h ((j - 1) / 2) := by
        have : Less h j ((j - 1) / 2) = true := by
          cases hl : Less h j ((j - 1) / 2) with
          | true => rfl
          | false => exact absurd (Or.inr hl) h1
        exact (Less_iff _ _ _).mp this
      have hil : (j - 1) / 2 < h.length := by omega
      have hlen : (Swap h ((j - 1) / 2) j).length = h.length := length_Swap _ _ _
      apply ih (Swap h ((j - 1) / 2) j) ((j - 1) / 2) (by omega) (by rw [hlen]; exact hil)
      rw [hlen]
      constructor
      · intro c hc hc0 hci
        rw [nonceAt_Swap h _ j _ hil hj, nonceAt_Swap h _ j c hil hj]
        by_cases hcj : c = j
        · rw [if_pos hcj]
          have e1 : ¬ (c - 1) / 2 = j := by omega
          have e2 : (c - 1) / 2 = (j - 1) / 2 := by rw [hcj]
          rw [if_neg e1, if_pos e2]
          omega
        · rw [if_neg hcj, if_neg hci]
          by_cases hpj : (c - 1) / 2 = j
          · rw [if_pos hpj]
            exact hinv.2 c hc hc0 hpj hj0
          · rw [if_neg hpj]
            by_cases hpi : (c - 1) / 2 = (j - 1) / 2
            · rw [if_pos hpi]
              have := hinv.1 c hc hc0 hcj
              rw [hpi] at this
              omega
            · rw [if_neg hpi]
              exact hinv.1 c hc hc0 hcj
      · intro c hc hc0 hpar hi0
        rw [nonceAt_Swap h _ j _ hil hj, nonceAt_Swap h _ j c hil hj]
        have e1 : ¬ ((j - 1) / 2 - 1) / 2 = j := by omega
        have e2 : ¬ ((j - 1) / 2 - 1) / 2 = (j - 1) / 2 := by omega
        rw [if_neg e1, if_neg e2]
        have hgp := hinv.1 ((j - 1) / 2) (by omega) hi0 hne
        by_cases hcj : c = j
        · rw [if_pos hcj]
          exact hgp
        · have hci : ¬ c = (j - 1) / 2 := by omega
          rw [if_neg hcj, if_neg hci]
          have := hinv.1 c hc hc0 hcj
          rw [hpar] at this
          omega

theorem nonceAt_append_left (h : noncePriorityQueue) (x : nonceWithTTL) (c : Nat)
    (hc : c < h.length) : nonceAt (h ++ [x]) c = nonceAt h c := by
  unfold nonceAt
  rw [List.getD_append _ _ _ _ hc]

/-- The function `heap.Push` on a min-heap leaves a min-heap. -/
theorem Push_heap (h : noncePriorityQueue) (x : nonceWithTTL) (hheap : IsMinHeap h) :
    IsMinHeap (Heap.Push h x) := by
  unfold Heap.Push up noncePriorityQueue.Push
  simp only
  have hlen : (h ++ [x]).Len - 1 = h.length := by
    unfold noncePriorityQueue.Len
    simp
  rw [hlen]
  apply upLoop_heap _ _ _ (le_refl _) (by simp)
  have hl : (h ++ [x]).length = h.length + 1 := by simp
  rw [hl]
  constructor
  · intro c hc hc0 hcj
    have hc1 : c < h.length := by omega
    rw [nonceAt_append_left h x c hc1, nonceAt_append_left h x _ (by omega)]
    exact hheap c hc1 hc0 (Nat.zero_le _)
  · intro c hc hc0 hpar _
    omega

theorem length_down (h : noncePriorityQueue) (i n : Nat) (hn : n ≤ h.length) :
    (down h i n).length = h.length := (down_perm h i n hn).length_eq

theorem initLoop_heap (n k : Nat) (h : noncePriorityQueue) (hn : n ≤ h.length)
    (hinv : HeapFrom h n k) : HeapFrom (initLoop n k h) n 0 := by
  induction k generalizing h with
  | zero => exact hinv
  | succ k ih =>
    unfold initLoop
    apply ih (down h k n) (by rw [length_down h k n hn]; exact hn)
    unfold down
    apply downLoop_heap (n - k) h k n k (le_refl _) hn (le_refl _)
    constructor
    · intro j hj hj0 hpar hne
      exact hinv j hj hj0 (by omega)
    · intro j hj hj0 hpar hk0 hlo
      omega

/-- The function `heap.Init` leaves a min-heap, whatever the order of the entries was. -/
theorem Init_heap (h : noncePriorityQueue) : IsMinHeap (Heap.Init h) := by
  unfold IsMinHeap
  rw [(Init_perm h).length_eq]
  unfold Heap.Init noncePriorityQueue.Len
  apply initLoop_heap h.length (h.length / 2) h (le_refl _)
  intro j hj hj0 hpar
  omega

end Heap

theorem nonceAt_eq_getD_nonces (h : noncePriorityQueue) (j : Nat) :
    nonceAt h j = (nonces h).getD j 0 := by
  unfold nonceAt nonces
  rw [List.getD_eq_getElem?_getD, List.getD_eq_getElem?_getD, List.getElem?_map]
  cases h[j]? <;> rfl

/-- The heap order is a matter of the nonces of the entries, in slice order. -/
theorem IsMinHeap_of_nonces_eq (h1 h2 : noncePriorityQueue) (hn : nonces h1 = nonces h2)
    (hheap : IsMinHeap h1) : IsMinHeap h2 := by
  have hlen : h1.length = h2.length := by
    have := congrArg List.length hn
    simpa [nonces] using this
  intro j hj hj0 hlo
  rw [nonceAt_eq_getD_nonces, nonceAt_eq_getD_nonces, ← hn,
    ← nonceAt_eq_getD_nonces, ← nonceAt_eq_getD_nonces]
  exact hheap j (by rw [hlen]; exact hj) hj0 hlo

/-- The method `Put` leaves the index a min-heap. -/
theorem Put_heap (q : actQueue) (now : Int) (act : SealedEnvelope) (hheap : IsMinHeap q.index) :
    IsMinHeap (Put q now act).1.index := by
  unfold Put
  simp only
  cases hf : q.items.find? act.nonce with
  | some old =>
    simp only
    split_ifs
    · exact hheap
    · exact IsMinHeap_of_nonces_eq _ _ (nonces_refreshDeadline _ _ _).symm hheap
  | none => exact Heap.Push_heap _ _ hheap

/-- The method `UpdateQueue` leaves the index a min-heap. -/
theorem UpdateQueue_heap (q : actQueue) (now : Int) (hheap : IsMinHeap q.index) :
    IsMinHeap (UpdateQueue q now).1.index := by
  by_cases httl : q.ttl = 0
  · rw [UpdateQueue_eq_of_ttl_zero q now httl]
    exact hheap
  · unfold UpdateQueue cleanTimeout
    simp only [httl, if_false]
    exact Heap.Init_heap _

end ActPool

/-! ## The nonces of a queue kept by a disciplined caller -/

namespace ActPool

theorem keysAbove_iff (q : actQueue) :
    KeysAbove q ↔ ∀ k, q.items.contains k = true → q.confirmedNonce < k := by
  unfold KeysAbove
  constructor
  · intro h k hk
    exact h k ((ItemMap.contains_iff_mem_keys _ _).mp hk)
  · intro h k hk
    exact h k ((ItemMap.contains_iff_mem_keys _ _).mpr hk)

/-- What `Put` does to the keys and the nonces of the queue. -/
theorem Put_frame (q : actQueue) (now : Int) (act : SealedEnvelope) :
    (∀ k, (Put q now act).1.items.contains k = true →
      (q.items.contains k = true ∨ k = act.nonce)) ∧
    (Put q now act).1.pendingNonce = q.pendingNonce ∧
    (Put q now act).1.confirmedNonce = q.confirmedNonce ∧
    (Put q now act).1.ttl = q.ttl := by
  unfold Put
  simp only
  cases hf : q.items.find? act.nonce with
  | some old =>
    simp only
    split_ifs
    · exact ⟨fun k hk => Or.inl hk, rfl, rfl, rfl⟩
    · refine ⟨fun k hk => ?_, rfl, rfl, rfl⟩
      simp only [ItemMap.contains_insert, Bool.or_eq_true, decide_eq_true_eq] at hk
      rcases hk with h | h
      · exact Or.inr h
      · exact Or.inl h
  | none =>
    refine ⟨fun k hk => ?_, rfl, rfl, rfl⟩
    simp only [ItemMap.contains_insert, Bool.or_eq_true, decide_eq_true_eq] at hk
    rcases hk with h | h
    · exact Or.inr h
    · exact Or.inl h

theorem UpdateQueue_frame (q : actQueue) (now : Int) :
    (∀ k, (UpdateQueue q now).1.items.contains k = true → q.items.contains k = true) ∧
    (UpdateQueue q now).1.confirmedNonce = q.confirmedNonce ∧
    (UpdateQueue q now).1.ttl = q.ttl := by
  by_cases httl : q.ttl = 0
  · rw [UpdateQueue_eq_of_ttl_zero q now httl]
    exact ⟨fun k hk => hk, rfl, rfl⟩
  · obtain ⟨rem, _, _, h3, _, _, _, h7, _, h9⟩ := UpdateQueue_spec q now httl
    refine ⟨fun k hk => ?_, h7, h9⟩
    rw [h3, sweepItems_contains] at hk
    simp only [Bool.and_eq_true] at hk
    exact hk.2

theorem runCalls_append (q : actQueue) (l1 l2 : List Call) :
    runCalls q (l1 ++ l2) = runCalls (runCalls q l1) l2 := by
  unfold runCalls
  exact List.foldl_append _ _ _ _

/-- One admissible step keeps: the index a min-heap that holds the keys of `items`, each once, and
every key above the confirmed nonce. -/
theorem step_keysAbove (q : actQueue) (s : Step) (hadm : s.admissible q = true)
    (hsame : SameNonceSet q) (hheap : IsMinHeap q.index) (hkeys : KeysAbove q) :
    SameNonceSet (runCalls q s.calls) ∧ IsMinHeap (runCalls q s.calls).index ∧
      KeysAbove (runCalls q s.calls) := by
  rw [keysAbove_iff] at hkeys
  cases s with
  | put now act =>
    have hq : runCalls q (Step.put now act).calls = (Put q now act).1 := rfl
    rw [hq]
    obtain ⟨f1, _, f3, _⟩ := Put_frame q now act
    refine ⟨Put_sameNonceSet q now act hsame, Put_heap q now act hheap, ?_⟩
    rw [keysAbove_iff]
    intro k hk
    rw [f3]
    rcases f1 k hk with h | h
    · exact hkeys k h
    · rw [h]
      simpa [Step.admissible] using hadm
  | filterNonce t =>
    have hq : runCalls q (Step.filterNonce t).calls = (FilterNonce q t).1 := rfl
    rw [hq]
    obtain ⟨f1, f2, f3, _, f5, _⟩ := FilterNonce_keys q t hheap hsame
    refine ⟨f3, f2, ?_⟩
    rw [keysAbove_iff]
    intro k hk
    rw [f5]
    exact hkeys k ((f1 k).mp hk).1
  | updateQueue now =>
    have hq : runCalls q (Step.updateQueue now).calls = (UpdateQueue q now).1 := rfl
    rw [hq]
    obtain ⟨f1, f2, _⟩ := UpdateQueue_frame q now
    refine ⟨UpdateQueue_sameNonceSet q now hsame, UpdateQueue_heap q now hheap, ?_⟩
    rw [keysAbove_iff]
    intro k hk
    rw [f2]
    exact hkeys k (f1 k hk)
  | confirm n =>
    have hq : runCalls q (Step.confirm n).calls =
        (FilterNonce (SetConfirmedNonce q n) (n + 1)).1 := rfl
    rw [hq]
    obtain ⟨f1, f2, f3, _, f5, _⟩ :=
      FilterNonce_keys (SetConfirmedNonce q n) (n + 1) hheap hsame
    refine ⟨f3, f2, ?_⟩
    rw [keysAbove_iff]
    intro k hk
    rw [f5]
    have := ((f1 k).mp hk).2
    show n < k
    omega

theorem steps_keysAbove (steps : List Step) (q : actQueue)
    (hadm : admissibleFrom q steps = true)
    (hsame : SameNonceSet q) (hheap : IsMinHeap q.index) (hkeys : KeysAbove q) :
    SameNonceSet (runCalls q (stepCalls steps)) ∧
      IsMinHeap (runCalls q (stepCalls steps)).index ∧
      KeysAbove (runCalls q (stepCalls steps)) := by
  induction steps generalizing q with
  | nil => exact ⟨hsame, hheap, hkeys⟩
  | cons s rest ih =>
    unfold admissibleFrom at hadm
    rw [Bool.and_eq_true] at hadm
    unfold stepCalls
    rw [runCalls_append]
    obtain ⟨g1, g2, g3⟩ := step_keysAbove q s hadm.1 hsame hheap hkeys
    exact ih _ hadm.2 g1 g2 g3

theorem NewActQueue_heap (address : String) (ttl : Int) :
    IsMinHeap (NewActQueue address ttl).index := by
  intro j hj
  cases hj

theorem NewActQueue_keysAbove (address : String) (ttl : Int) :
    KeysAbove (NewActQueue address ttl) := by
  intro k hk
  cases hk

/-- C22, amended. In every queue state reached from `NewActQueue` by a finite sequence of `Put`
calls with a nonce above the confirmed nonce of the queue, `FilterNonce` calls, `UpdateQueue` calls
and `SetConfirmedNonce(n)` calls with `n < 2 ^ 64 − 1` that are each followed at once by
`FilterNonce(n + 1)`: every nonce that is a key of `items` is above the confirmed nonce. -/
theorem reachable_keys_above (address : String) (ttl : Int) (steps : List Step)
    (hadm : admissibleFrom (NewActQueue address ttl) steps = true) :
    ∀ k, (runCalls (NewActQueue address ttl) (stepCalls steps)).items.contains k = true →
      (runCalls (NewActQueue address ttl) (stepCalls steps)).confirmedNonce < k :=
  (keysAbove_iff _).mp
    (steps_keysAbove steps _ hadm (NewActQueue_sameNonceSet address ttl)
      (NewActQueue_heap address ttl) (NewActQueue_keysAbove address ttl)).2.2

/-- Witness of C22 (amended): `Put` of the nonces 1, 2 and 4, `UpdateQueue`, then nonce 2 is
confirmed: the confirmed nonce is 2 and nonce 4 alone is left. -/
theorem reachable_keys_above_witness :
    admissibleFrom (NewActQueue "a" 0)
      [Step.put 0 ⟨1, 1, 1⟩, Step.put 0 ⟨2, 1, 2⟩, Step.put 0 ⟨4, 1, 4⟩, Step.updateQueue 0,
        Step.confirm 2] = true ∧
    (runCalls (NewActQueue "a" 0) (stepCalls
      [Step.put 0 ⟨1, 1, 1⟩, Step.put 0 ⟨2, 1, 2⟩, Step.put 0 ⟨4, 1, 4⟩, Step.updateQueue 0,
        Step.confirm 2])).confirmedNonce = 2 ∧
    (runCalls (NewActQueue "a" 0) (stepCalls
      [Step.put 0 ⟨1, 1, 1⟩, Step.put 0 ⟨2, 1, 2⟩, Step.put 0 ⟨4, 1, 4⟩, Step.updateQueue 0,
        Step.confirm 2])).items.keys = [4] ∧
    (∀ k, (runCalls (NewActQueue "a" 0) (stepCalls
      [Step.put 0 ⟨1, 1, 1⟩, Step.put 0 ⟨2, 1, 2⟩, Step.put 0 ⟨4, 1, 4⟩, Step.updateQueue 0,
        Step.confirm 2])).items.contains k = true →
      (runCalls (NewActQueue "a" 0) (stepCalls
        [Step.put 0 ⟨1, 1, 1⟩, Step.put 0 ⟨2, 1, 2⟩, Step.put 0 ⟨4, 1, 4⟩, Step.updateQueue 0,
          Step.confirm 2])).confirmedNonce < k) :=
  ⟨by decide, by decide, by decide,
    reachable_keys_above "a" 0
      [Step.put 0 ⟨1, 1, 1⟩, Step.put 0 ⟨2, 1, 2⟩, Step.put 0 ⟨4, 1, 4⟩, Step.updateQueue 0,
        Step.confirm 2] (by decide)⟩

/-- C22 fails as stated. From a new queue, `Put` of nonce 1 and `SetConfirmedNonce(1)` leave
nonce 1 a key of `items` with the confirmed nonce 1: `SetConfirmedNonce` removes nothing. And
`Put` of nonce 0 on a new queue, whose confirmed nonce is 0, makes 0 a key: `Put` does not compare
the nonce with the confirmed nonce. -/
theorem reachable_keys_above_counterexample :
    (runCalls (NewActQueue "a" 0)
      [Call.put 0 ⟨1, 1, 1⟩, Call.setConfirmedNonce 1]).items.contains 1 = true ∧
    (runCalls (NewActQueue "a" 0)
      [Call.put 0 ⟨1, 1, 1⟩, Call.setConfirmedNonce 1]).confirmedNonce = 1 ∧
    (runCalls (NewActQueue "a" 0) [Call.put 0 ⟨0, 1, 1⟩]).items.contains 0 = true ∧
    (runCalls (NewActQueue "a" 0) [Call.put 0 ⟨0, 1, 1⟩]).confirmedNonce = 0 := by
  decide

end ActPool

namespace ActPool

/-- On a map without the nonce `2 ^ 64 − 1`, the pending advance does not wrap: it ends at or
above the nonce it starts from. -/
theorem advanceLoop_ge (items : ItemMap) (fuel p : Nat) (hp : p < uint64Mod)
    (hkeys : ∀ n, items.contains n = true → n < uint64Mod - 1) :
    p ≤ advanceLoop items fuel p ∧ advanceLoop items fuel p < uint64Mod := by
  obtain ⟨k, _, heq, hall, _⟩ := advanceLoop_spec items fuel p hp
  have hnowrap : p + k < uint64Mod := by
    by_contra hcon
    have hi : uint64Mod - 1 - p < k := by
      rw [uint64Mod_eq] at hcon hp ⊢
      omega
    have h1 := hall _ hi
    have h2 : (p + (uint64Mod - 1 - p)) % uint64Mod = uint64Mod - 1 := by
      rw [uint64Mod_eq] at hp ⊢
      omega
    rw [h2] at h1
    have := hkeys _ h1
    omega
  rw [heq, Nat.mod_eq_of_lt hnowrap]
  exact ⟨by omega, hnowrap⟩

/-- The method `UpdateQueue` keeps the pending nonce above the confirmed nonce, on a queue whose
keys are above the confirmed nonce and below `2 ^ 64 − 1`. -/
theorem UpdateQueue_pending_above (q : actQueue) (now : Int) (hsame : SameNonceSet q)
    (hconf : q.confirmedNonce < q.pendingNonce) (hp : q.pendingNonce < uint64Mod)
    (hkeys : ∀ n, q.items.contains n = true → q.confirmedNonce < n ∧ n < uint64Mod - 1) :
    q.confirmedNonce < (UpdateQueue q now).1.pendingNonce ∧
      (UpdateQueue q now).1.pendingNonce < uint64Mod := by
  by_cases httl : q.ttl = 0
  · rw [UpdateQueue_eq_of_ttl_zero q now httl]
    obtain ⟨h1, h2⟩ := advanceLoop_ge q.items (q.items.len + 1) q.pendingNonce hp
      (fun n hn => (hkeys n hn).2)
    exact ⟨by show q.confirmedNonce < advanceLoop _ _ _; omega, h2⟩
  · obtain ⟨rem, h1, _, _, h4, _⟩ := UpdateQueue_spec q now httl
    have hremkey : ∀ n, n ∈ nonces rem → q.items.contains n = true := by
      intro n hn
      obtain ⟨e, he, rfl⟩ := List.mem_map.mp hn
      have he1 := List.mem_of_mem_filter (h1.mem_iff.mp he)
      exact hsame.2.1 _ (List.mem_map_of_mem _ he1)
    have hconf1 : q.confirmedNonce < sweepPending q.pendingNonce rem := by
      rcases sweepPending_eq_or_mem q.pendingNonce rem with h | h
      · rw [h]; exact hconf
      · exact (hkeys _ (hremkey _ h)).1
    have hp1 : sweepPending q.pendingNonce rem < uint64Mod :=
      lt_of_le_of_lt (sweepPending_le _ _) hp
    obtain ⟨g1, g2⟩ := advanceLoop_ge (sweepItems q.items rem)
      ((sweepItems q.items rem).len + 1) (sweepPending q.pendingNonce rem) hp1
      (fun n hn => by
        rw [sweepItems_contains] at hn
        simp only [Bool.and_eq_true] at hn
        exact (hkeys n hn.2).2)
    rw [h4]
    exact ⟨by omega, g2⟩

/-- One admissible step that puts no nonce `2 ^ 64 − 1` keeps, besides what `step_keysAbove`
says: every key below `2 ^ 64 − 1`, and the pending nonce above the confirmed nonce. -/
theorem step_pending_above (q : actQueue) (s : Step) (hadm : s.admissible q = true)
    (hb : s.bounded = true) (hsame : SameNonceSet q) (hheap : IsMinHeap q.index)
    (hkeys : KeysAbove q) (hmax : ∀ k, q.items.contains k = true → k < uint64Mod - 1)
    (hconf : q.confirmedNonce < q.pendingNonce) (hp : q.pendingNonce < uint64Mod) :
    (∀ k, (runCalls q s.calls).items.contains k = true → k < uint64Mod - 1) ∧
      (runCalls q s.calls).confirmedNonce < (runCalls q s.calls).pendingNonce ∧
      (runCalls q s.calls).pendingNonce < uint64Mod := by
  have hkeys1 := (keysAbove_iff q).mp hkeys
  cases s with
  | put now act =>
    have hq : runCalls q (Step.put now act).calls = (Put q now act).1 := rfl
    rw [hq]
    obtain ⟨f1, f2, f3, _⟩ := Put_frame q now act
    rw [f2, f3]
    refine ⟨?_, hconf, hp⟩
    intro k hk
    rcases f1 k hk with h | h
    · exact hmax k h
    · rw [h]
      have : act.nonce + 1 < uint64Mod := by simpa [Step.bounded] using hb
      omega
  | filterNonce t =>
    have hq : runCalls q (Step.filterNonce t).calls = (FilterNonce q t).1 := rfl
    rw [hq]
    obtain ⟨f1, _, _, f4, f5, _⟩ := FilterNonce_keys q t hheap hsame
    rw [f4, f5]
    exact ⟨fun k hk => hmax k ((f1 k).mp hk).1, hconf, hp⟩
  | updateQueue now =>
    have hq : runCalls q (Step.updateQueue now).calls = (UpdateQueue q now).1 := rfl
    rw [hq]
    obtain ⟨f1, f2, _⟩ := UpdateQueue_frame q now
    obtain ⟨g1, g2⟩ := UpdateQueue_pending_above q now hsame hconf hp
      (fun n hn => ⟨hkeys1 n hn, hmax n hn⟩)
    rw [f2]
    exact ⟨fun k hk => hmax k (f1 k hk), g1, g2⟩
  | confirm n =>
    have hq : runCalls q (Step.confirm n).calls =
        (FilterNonce (SetConfirmedNonce q n) (n + 1)).1 := rfl
    rw [hq]
    obtain ⟨f1, _, _, f4, f5, _⟩ :=
      FilterNonce_keys (SetConfirmedNonce q n) (n + 1) hheap hsame
    have hn : n + 1 < uint64Mod := by simpa [Step.admissible] using hadm
    have hpend : (SetConfirmedNonce q n).pendingNonce = n + 1 := Nat.mod_eq_of_lt hn
    have hc : (SetConfirmedNonce q n).confirmedNonce = n := rfl
    rw [f4, f5, hpend, hc]
    exact ⟨fun k hk => hmax k ((f1 k).mp hk).1, by omega, hn⟩

theorem steps_pending_above (steps : List Step) (q : actQueue)
    (hadm : admissibleFrom q steps = true) (hb : ∀ s ∈ steps, s.bounded = true)
    (hsame : SameNonceSet q) (hheap : IsMinHeap q.index)
    (hkeys : KeysAbove q) (hmax : ∀ k, q.items.contains k = true → k < uint64Mod - 1)
    (hconf : q.confirmedNonce < q.pendingNonce) (hp : q.pendingNonce < uint64Mod) :
    (runCalls q (stepCalls steps)).confirmedNonce < (runCalls q (stepCalls steps)).pendingNonce ∧
      (runCalls q (stepCalls steps)).pendingNonce < uint64Mod := by
  induction steps generalizing q with
  | nil => exact ⟨hconf, hp⟩
  | cons s rest ih =>
    unfold admissibleFrom at hadm
    rw [Bool.and_eq_true] at hadm
    unfold stepCalls
    rw [runCalls_append]
    obtain ⟨g1, g2, g3⟩ := step_keysAbove q s hadm.1 hsame hheap hkeys
    obtain ⟨f1, f2, f3⟩ := step_pending_above q s hadm.1 (hb s (List.mem_cons_self _ _))
      hsame hheap hkeys hmax hconf hp
    exact ih _ hadm.2 (fun s1 hs1 => hb s1 (List.mem_cons_of_mem _ hs1)) g1 g2 g3 f1 f2 f3

/-- C23, amended. In every queue state reached from `NewActQueue` by a finite sequence of `Put`
calls with a nonce above the confirmed nonce of the queue and below `2 ^ 64 − 1`, `FilterNonce`
calls, `UpdateQueue` calls and `SetConfirmedNonce(n)` calls with `n < 2 ^ 64 − 1` that are each
followed at once by `FilterNonce(n + 1)`: the pending nonce is above the confirmed nonce (and is a
64-bit nonce). -/
theorem reachable_pending_above (address : String) (ttl : Int) (steps : List Step)
    (hadm : admissibleFrom (NewActQueue address ttl) steps = true)
    (hb : ∀ s ∈ steps, s.bounded = true) :
    (runCalls (NewActQueue address ttl) (stepCalls steps)).confirmedNonce <
        (runCalls (NewActQueue address ttl) (stepCalls steps)).pendingNonce ∧
      (runCalls (NewActQueue address ttl) (stepCalls steps)).pendingNonce < uint64Mod :=
  steps_pending_above steps _ hadm hb (NewActQueue_sameNonceSet address ttl)
    (NewActQueue_heap address ttl) (NewActQueue_keysAbove address ttl)
    (fun k hk => by
      have : (NewActQueue address ttl).items.contains k = false := rfl
      rw [this] at hk
      cases hk)
    (by show 0 < 1; omega) (by show 1 < uint64Mod; rw [uint64Mod_eq]; omega)

/-- Witness of C23 (amended): `ttl = 1s`; `Put` of the nonces 1 and 2 at time `0`, `UpdateQueue`,
nonce 1 confirmed, `UpdateQueue` at `2s` (nonce 2 times out): the confirmed nonce is 1 and the
pending nonce is 2. -/
theorem reachable_pending_above_witness :
    admissibleFrom (NewActQueue "a" 1000000000)
      [Step.put 0 ⟨1, 1, 1⟩, Step.put 0 ⟨2, 1, 2⟩, Step.updateQueue 0, Step.confirm 1,
        Step.updateQueue 2000000000] = true ∧
    (∀ s ∈ [Step.put 0 ⟨1, 1, 1⟩, Step.put 0 ⟨2, 1, 2⟩, Step.updateQueue 0, Step.confirm 1,
        Step.updateQueue 2000000000], s.bounded = true) ∧
    (runCalls (NewActQueue "a" 1000000000) (stepCalls
      [Step.put 0 ⟨1, 1, 1⟩, Step.put 0 ⟨2, 1, 2⟩, Step.updateQueue 0, Step.confirm 1,
        Step.updateQueue 2000000000])).confirmedNonce = 1 ∧
    (runCalls (NewActQueue "a" 1000000000) (stepCalls
      [Step.put 0 ⟨1, 1, 1⟩, Step.put 0 ⟨2, 1, 2⟩, Step.updateQueue 0, Step.confirm 1,
        Step.updateQueue 2000000000])).pendingNonce = 2 ∧
    (runCalls (NewActQueue "a" 1000000000) (stepCalls
      [Step.put 0 ⟨1, 1, 1⟩, Step.put 0 ⟨2, 1, 2⟩, Step.updateQueue 0, Step.confirm 1,
        Step.updateQueue 2000000000])).confirmedNonce <
      (runCalls (NewActQueue "a" 1000000000) (stepCalls
        [Step.put 0 ⟨1, 1, 1⟩, Step.put 0 ⟨2, 1, 2⟩, Step.updateQueue 0, Step.confirm 1,
          Step.updateQueue 2000000000])).pendingNonce :=
  ⟨by decide, by decide, by decide, by decide,
    (reachable_pending_above "a" 1000000000
      [Step.put 0 ⟨1, 1, 1⟩, Step.put 0 ⟨2, 1, 2⟩, Step.updateQueue 0, Step.confirm 1,
        Step.updateQueue 2000000000] (by decide) (by decide)).1⟩

/-- C23 fails as stated. From a new queue, `SetConfirmedNonce(2 ^ 64 − 1)` leaves the confirmed
nonce `2 ^ 64 − 1` and the pending nonce `0`, the sum having wrapped. And with `ttl = 1s`, `Put`
of nonce 1 at time `0`, `SetConfirmedNonce(1)` and `UpdateQueue` at `2s` leave the pending nonce
`1` with the confirmed nonce `1`: the sweep rewinds the pending nonce to the nonce it removes. -/
theorem reachable_pending_above_counterexample :
    (runCalls (NewActQueue "a" 0) [Call.setConfirmedNonce (2 ^ 64 - 1)]).confirmedNonce =
      2 ^ 64 - 1 ∧
    (runCalls (NewActQueue "a" 0) [Call.setConfirmedNonce (2 ^ 64 - 1)]).pendingNonce = 0 ∧
    (runCalls (NewActQueue "a" 1000000000)
      [Call.put 0 ⟨1, 1, 1⟩, Call.setConfirmedNonce 1,
        Call.updateQueue 2000000000]).confirmedNonce = 1 ∧
    (runCalls (NewActQueue "a" 1000000000)
      [Call.put 0 ⟨1, 1, 1⟩, Call.setConfirmedNonce 1,
        Call.updateQueue 2000000000]).pendingNonce = 1 := by
  decide

end ActPool

/-! ## `UpdateQueue` against `Put` -/

namespace ActPool

/-- What `UpdateQueue` does, whatever the `ttl`, in terms of the list `rem` of the entries the
sweep removes. -/
theorem UpdateQueue_sweep (q : actQueue) (now : Int) :
    ∃ rem : List nonceWithTTL,
      rem.Perm (q.index.filter (swept q now)) ∧
      (UpdateQueue q now).1.index.Perm (q.index.filter (fun e => !swept q now e)) ∧
      (UpdateQueue q now).1.items = sweepItems q.items rem ∧
      (UpdateQueue q now).1.pendingNonce =
        advanceLoop (sweepItems q.items rem) ((sweepItems q.items rem).len + 1)
          (sweepPending q.pendingNonce rem) ∧
      (UpdateQueue q now).1.address = q.address ∧
      (UpdateQueue q now).1.confirmedNonce = q.confirmedNonce ∧
      (UpdateQueue q now).1.accountBalance = q.accountBalance ∧
      (UpdateQueue q now).1.ttl = q.ttl := by
  by_cases httl : q.ttl = 0
  · rw [UpdateQueue_eq_of_ttl_zero q now httl]
    have hs : ∀ e, swept q now e = false := by
      intro e
      simp [swept, httl]
    refine ⟨[], ?_, ?_, rfl, rfl, rfl, rfl, rfl, rfl⟩
    · refine List.Perm.of_eq (Eq.symm ?_)
      apply List.filter_eq_nil_iff.mpr
      intro e _
      simp [hs e]
    · refine List.Perm.of_eq (Eq.symm ?_)
      apply List.filter_eq_self.mpr
      intro e _
      simp [hs e]
  · obtain ⟨rem, h1, h2, h3, h4, _, h6, h7, h8, h9⟩ := UpdateQueue_spec q now httl
    have hs : swept q now = expired now := by
      funext e
      simp [swept, httl]
    rw [hs]
    exact ⟨rem, h1, h2, h3, h4, h6, h7, h8, h9⟩

theorem delete_comm (m : ItemMap) (j k : Nat) : (m.delete j).delete k = (m.delete k).delete j := by
  unfold ItemMap.delete
  rw [List.filter_filter, List.filter_filter]
  apply List.filter_congr
  intro p _
  exact Bool.and_comm _ _

theorem delete_insert_of_ne (m : ItemMap) (n k : Nat) (a : SealedEnvelope) (h : n ≠ k) :
    (m.insert n a).delete k = (m.delete k).insert n a := by
  unfold ItemMap.insert
  have e1 : ItemMap.delete ((n, a) :: m.delete n) k = (n, a) :: (m.delete n).delete k := by
    unfold ItemMap.delete
    simp [h]
  rw [e1, delete_comm]

/-- The sweep of `items` passes an insertion of a nonce it does not remove. -/
theorem sweepItems_insert (items : ItemMap) (rem : List nonceWithTTL) (n : Nat)
    (a : SealedEnvelope) (hn : n ∉ nonces rem) :
    sweepItems (items.insert n a) rem = (sweepItems items rem).insert n a := by
  induction rem generalizing items with
  | nil => rfl
  | cons e rest ih =>
    have hne : n ≠ e.nonce := fun h => hn (by simp [nonces, h])
    have hrest : n ∉ nonces rest := fun h => hn (by
      simp only [nonces, List.map_cons, List.mem_cons]
      exact Or.inr h)
    unfold sweepItems
    rw [delete_insert_of_ne _ _ _ _ hne, ih _ hrest]

theorem sweepItems_perm (items : ItemMap) (rem1 rem2 : List nonceWithTTL) (h : rem1.Perm rem2) :
    sweepItems items rem1 = sweepItems items rem2 := by
  induction h generalizing items with
  | nil => rfl
  | cons x _ ih =>
    unfold sweepItems
    exact ih _
  | swap x y l =>
    unfold sweepItems
    unfold sweepItems
    rw [delete_comm]
  | trans _ _ ih1 ih2 => exact (ih1 items).trans (ih2 items)

theorem sweepPending_perm (p : Nat) (rem1 rem2 : List nonceWithTTL) (h : rem1.Perm rem2) :
    sweepPending p rem1 = sweepPending p rem2 := by
  induction h generalizing p with
  | nil => rfl
  | cons x _ ih =>
    unfold sweepPending
    exact ih _
  | swap x y l =>
    unfold sweepPending
    unfold sweepPending
    congr 1
    split_ifs <;> omega
  | trans _ _ ih1 ih2 => exact (ih1 p).trans (ih2 p)

/-- The pending advance reads of `items` which nonces are keys, and nothing else. -/
theorem advanceLoop_congr (items1 items2 : ItemMap) (fuel p : Nat)
    (h : ∀ k, items1.contains k = items2.contains k) :
    advanceLoop items1 fuel p = advanceLoop items2 fuel p := by
  induction fuel generalizing p with
  | zero => rfl
  | succ f ih =>
    unfold advanceLoop
    rw [h p, ih]

/-- More steps than it takes to reach a nonce that is no key change nothing. -/
theorem advanceLoop_fuel_mono (items : ItemMap) (f1 f2 p : Nat) (hle : f1 ≤ f2)
    (hfree : items.contains (advanceLoop items f1 p) = false) :
    advanceLoop items f2 p = advanceLoop items f1 p := by
  induction f1 generalizing p f2 with
  | zero => exact advanceLoop_of_not_contains items f2 p hfree
  | succ f ih =>
    obtain ⟨g, rfl⟩ : ∃ g, f2 = g + 1 := ⟨f2 - 1, by omega⟩
    cases hc : items.contains p with
    | false =>
      rw [advanceLoop_of_not_contains items _ p hc, advanceLoop_of_not_contains items _ p hc]
    | true =>
      have e1 : ∀ x, advanceLoop items (x + 1) p =
          advanceLoop items x ((p + 1) % uint64Mod) := by
        intro x
        conv_lhs => unfold advanceLoop
        rw [hc]
        rfl
      rw [e1] at hfree ⊢
      rw [e1]
      exact ih _ _ (by omega) hfree

/-- The pending advance is the same after the insertion of a nonce other than the one on which it
ends. -/
theorem advanceLoop_insert (items : ItemMap) (fuel p n : Nat) (a : SealedEnvelope)
    (hfree : items.contains (advanceLoop items fuel p) = false)
    (hne : advanceLoop items fuel p ≠ n) :
    advanceLoop (items.insert n a) fuel p = advanceLoop items fuel p := by
  induction fuel generalizing p with
  | zero => rfl
  | succ f ih =>
    cases hc : items.contains p with
    | false =>
      rw [advanceLoop_of_not_contains items _ p hc] at hne ⊢
      apply advanceLoop_of_not_contains
      rw [ItemMap.contains_insert, hc]
      simp [hne]
    | true =>
      have e1 : advanceLoop items (f + 1) p = advanceLoop items f ((p + 1) % uint64Mod) := by
        conv_lhs => unfold advanceLoop
        rw [hc]
        rfl
      have hc2 : (items.insert n a).contains p = true := by
        rw [ItemMap.contains_insert, hc]
        simp
      have e2 : advanceLoop (items.insert n a) (f + 1) p =
          advanceLoop (items.insert n a) f ((p + 1) % uint64Mod) := by
        conv_lhs => unfold advanceLoop
        rw [hc2]
        rfl
      rw [e1] at hfree hne ⊢
      rw [e2]
      exact ih _ hfree hne

theorem refreshDeadline_eq_map (n : Nat) (d : Int) (l : noncePriorityQueue)
    (hnd : (nonces l).Nodup) :
    refreshDeadline n d l =
      l.map (fun e => if e.nonce = n then { e with deadline := d } else e) := by
  induction l with
  | nil => rfl
  | cons x rest ih =>
    simp only [nonces, List.map_cons, List.nodup_cons] at hnd
    unfold refreshDeadline
    by_cases hx : x.nonce = n
    · rw [if_pos hx, List.map_cons, if_pos hx]
      congr 1
      conv_lhs => rw [← List.map_id rest]
      apply List.map_congr_left
      intro e he
      have : ¬ e.nonce = n := by
        intro h
        apply hnd.1
        rw [hx, ← h]
        exact List.mem_map_of_mem _ he
      simp [this]
    · rw [if_neg hx, List.map_cons, if_neg hx, ih hnd.2]

theorem refreshDeadline_perm (n : Nat) (d : Int) (l1 l2 : noncePriorityQueue)
    (hnd : (nonces l1).Nodup) (hp : l1.Perm l2) :
    (refreshDeadline n d l1).Perm (refreshDeadline n d l2) := by
  have hnd2 : (nonces l2).Nodup := (hp.map _).nodup_iff.mp hnd
  rw [refreshDeadline_eq_map n d l1 hnd, refreshDeadline_eq_map n d l2 hnd2]
  exact hp.map _

theorem refreshDeadline_cons_eq (n : Nat) (d : Int) (x : nonceWithTTL)
    (rest : noncePriorityQueue) (hx : x.nonce = n) :
    refreshDeadline n d (x :: rest) = { x with deadline := d } :: rest := by
  unfold refreshDeadline
  rw [if_pos hx]

theorem refreshDeadline_cons_ne (n : Nat) (d : Int) (x : nonceWithTTL)
    (rest : noncePriorityQueue) (hx : ¬ x.nonce = n) :
    refreshDeadline n d (x :: rest) = x :: refreshDeadline n d rest := by
  conv_lhs => unfold refreshDeadline
  rw [if_neg hx]

/-- Refreshing the deadline of an entry that the test keeps, to a deadline that the test keeps,
passes the filter. -/
theorem filter_refreshDeadline (n : Nat) (d : Int) (P : nonceWithTTL → Bool)
    (l : noncePriorityQueue) (hold : ∀ e ∈ l, e.nonce = n → P e = true)
    (hnew : ∀ e ∈ l, e.nonce = n → P { e with deadline := d } = true) :
    (refreshDeadline n d l).filter P = refreshDeadline n d (l.filter P) ∧
      (refreshDeadline n d l).filter (fun e => !P e) = l.filter (fun e => !P e) := by
  induction l with
  | nil => exact ⟨rfl, rfl⟩
  | cons x rest ih =>
    obtain ⟨ih1, ih2⟩ := ih (fun e he => hold e (List.mem_cons_of_mem _ he))
      (fun e he => hnew e (List.mem_cons_of_mem _ he))
    by_cases hx : x.nonce = n
    · have h1 := hold x (List.mem_cons_self _ _) hx
      have h2 := hnew x (List.mem_cons_self _ _) hx
      rw [refreshDeadline_cons_eq n d x rest hx]
      constructor
      · rw [List.filter_cons_of_pos h2, List.filter_cons_of_pos h1,
          refreshDeadline_cons_eq n d x _ hx]
      · rw [List.filter_cons_of_neg (by simp [h2]), List.filter_cons_of_neg (by simp [h1])]
    · rw [refreshDeadline_cons_ne n d x rest hx]
      constructor
      · by_cases hP : P x = true
        · rw [List.filter_cons_of_pos hP, List.filter_cons_of_pos hP,
            refreshDeadline_cons_ne n d x _ hx, ih1]
        · rw [List.filter_cons_of_neg hP, List.filter_cons_of_neg hP, ih1]
      · by_cases hP : P x = true
        · rw [List.filter_cons_of_neg (by simp [hP]), List.filter_cons_of_neg (by simp [hP]),
            ih2]
        · rw [List.filter_cons_of_pos (by simp [hP]), List.filter_cons_of_pos (by simp [hP]),
            ih2]

end ActPool

namespace ActPool

theorem Put_fresh_fields (q : actQueue) (now : Int) (act : SealedEnvelope)
    (hf : q.items.find? act.nonce = none) :
    (Put q now act).2 = none ∧
    (Put q now act).1.items = q.items.insert act.nonce act ∧
    (Put q now act).1.index =
      Heap.Push q.index { nonce := act.nonce, deadline := now + q.ttl } ∧
    (Put q now act).1.pendingNonce = q.pendingNonce ∧
    (Put q now act).1.confirmedNonce = q.confirmedNonce ∧
    (Put q now act).1.ttl = q.ttl ∧
    (Put q now act).1.accountBalance = q.accountBalance ∧
    (Put q now act).1.address = q.address := by
  have h : Put q now act =
      ({ q with index := Heap.Push q.index { nonce := act.nonce, deadline := Time.Add now q.ttl },
                items := q.items.insert act.nonce act }, none) := by
    unfold Put
    simp only [hf]
  rw [h]
  exact ⟨rfl, rfl, rfl, rfl, rfl, rfl, rfl, rfl⟩

theorem Put_replace_fields (q : actQueue) (now : Int) (act old : SealedEnvelope)
    (hf : q.items.find? act.nonce = some old) (hprice : old.gasPrice < act.gasPrice) :
    (Put q now act).2 = none ∧
    (Put q now act).1.items = q.items.insert act.nonce act ∧
    (Put q now act).1.index = refreshDeadline act.nonce (now + q.ttl) q.index ∧
    (Put q now act).1.pendingNonce = q.pendingNonce ∧
    (Put q now act).1.confirmedNonce = q.confirmedNonce ∧
    (Put q now act).1.ttl = q.ttl ∧
    (Put q now act).1.accountBalance = q.accountBalance ∧
    (Put q now act).1.address = q.address := by
  rw [Put_replace_eq q now act old hf hprice]
  exact ⟨rfl, rfl, rfl, rfl, rfl, rfl, rfl, rfl⟩

theorem Put_underpriced_eq (q : actQueue) (now : Int) (act old : SealedEnvelope)
    (hf : q.items.find? act.nonce = some old) (hprice : ¬ old.gasPrice < act.gasPrice) :
    Put q now act = (q, some ActionError.ErrReplaceUnderpriced) := by
  unfold Put
  simp only [hf]
  have hc : bigCmp act.gasPrice old.gasPrice ≠ 1 := by
    unfold bigCmp
    split_ifs with h1 h2
    · decide
    · decide
    · exact absurd (lt_of_le_of_ne (not_lt.mp h1) (fun e => h2 e.symm)) hprice
  simp [hc]

/-- An entry with the deadline `now + ttl`, for a `ttl` that is not negative, is not removed by
the sweep at the clock reading `now`. -/
theorem swept_new (q : actQueue) (now : Int) (n : Nat) (httl : 0 ≤ q.ttl) :
    swept q now { nonce := n, deadline := now + q.ttl } = false := by
  unfold swept expired Time.After
  have : ¬ now + q.ttl < now := by omega
  simp [this]

theorem swept_congr (q1 q2 : actQueue) (now : Int) (h : q1.ttl = q2.ttl) :
    swept q1 now = swept q2 now := by
  funext e
  unfold swept
  rw [h]

/-- The items, the pending nonce before the advance and the entries kept are the same for two
queues of which the second has the items of the first with an insertion at a nonce the sweep does
not remove, and removes the same entries. -/
theorem items_after_insert (q : actQueue) (act : SealedEnvelope)
    (rem rem1 : List nonceWithTTL) (hrem : rem1.Perm rem) (hn : act.nonce ∉ nonces rem) :
    sweepItems (q.items.insert act.nonce act) rem1 =
      (sweepItems q.items rem).insert act.nonce act := by
  rw [sweepItems_perm _ _ _ hrem, sweepItems_insert _ _ _ _ hn]

end ActPool

namespace ActPool

/-- C28, amended. For every queue whose index holds the keys of `items`, each once, with a `ttl`
that is not negative (so an action put at `now` has not timed out at `now`), every clock reading
`now` and every action `a` put at `now`, in either of the two cases
* the nonce of `a` is a key of `items` and its index entry is not removed by the sweep (there is
  no `ttl`, or the deadline of the entry is not before `now`), or
* the nonce of `a` is no key of `items` and is not the pending nonce that `UpdateQueue` leaves:
`UpdateQueue` then `Put(a)` and `Put(a)` then `UpdateQueue` give the same `items`, the same index
entries (rearranged at most), the same pending nonce, the same outcome of `Put`, and the same
confirmed nonce, `ttl`, balance and address. -/
theorem UpdateQueue_Put_commute (q : actQueue) (now : Int) (a : SealedEnvelope)
    (hsame : SameNonceSet q) (hlen : Len q + 1 < uint64Mod) (httl : 0 ≤ q.ttl)
    (hcond : (q.items.contains a.nonce = true ∧
        (q.ttl = 0 ∨ ∀ e ∈ q.index, e.nonce = a.nonce → ¬ e.deadline < now)) ∨
      (q.items.contains a.nonce = false ∧ a.nonce ≠ (UpdateQueue q now).1.pendingNonce)) :
    (Put (UpdateQueue q now).1 now a).1.items = (UpdateQueue (Put q now a).1 now).1.items ∧
    (Put (UpdateQueue q now).1 now a).1.index.Perm (UpdateQueue (Put q now a).1 now).1.index ∧
    (Put (UpdateQueue q now).1 now a).1.pendingNonce =
      (UpdateQueue (Put q now a).1 now).1.pendingNonce ∧
    (Put (UpdateQueue q now).1 now a).2 = (Put q now a).2 ∧
    (Put (UpdateQueue q now).1 now a).1.confirmedNonce =
      (UpdateQueue (Put q now a).1 now).1.confirmedNonce ∧
    (Put (UpdateQueue q now).1 now a).1.ttl = (UpdateQueue (Put q now a).1 now).1.ttl ∧
    (Put (UpdateQueue q now).1 now a).1.accountBalance =
      (UpdateQueue (Put q now a).1 now).1.accountBalance ∧
    (Put (UpdateQueue q now).1 now a).1.address =
      (UpdateQueue (Put q now a).1 now).1.address := by
  obtain ⟨rem, r1, r2, r3, r4, r5, r6, r7, r8⟩ := UpdateQueue_sweep q now
  obtain ⟨rem1, s1, s2, s3, s4, s5, s6, s7, s8⟩ := UpdateQueue_sweep (Put q now a).1 now
  have hsame1 := (sameNonceSet_iff q).mp hsame
  have hremidx : ∀ e ∈ rem, e ∈ q.index ∧ swept q now e = true := by
    intro e he
    exact List.mem_filter.mp (r1.mem_iff.mp he)
  have hlenS : (sweepItems q.items rem).len < uint64Mod :=
    lt_of_le_of_lt (sweepItems_len_le _ _) (by unfold Len at hlen; omega)
  have hfree : (sweepItems q.items rem).contains
      (advanceLoop (sweepItems q.items rem) ((sweepItems q.items rem).len + 1)
        (sweepPending q.pendingNonce rem)) = false := advanceLoop_free _ _ hlenS
  cases hf : q.items.find? a.nonce with
  | none =>
    have hnc : q.items.contains a.nonce = false := by simp [ItemMap.contains, hf]
    have hne : a.nonce ≠ (UpdateQueue q now).1.pendingNonce := by
      rcases hcond with h | h
      · rw [hnc] at h
        exact absurd h.1 (by simp)
      · exact h.2
    have hnidx : a.nonce ∉ nonces q.index := by
      intro hm
      have := (hsame1.2 _).mp hm
      rw [hnc] at this
      cases this
    have hnrem : a.nonce ∉ nonces rem := by
      intro hm
      obtain ⟨e, he, hen⟩ := List.mem_map.mp hm
      exact hnidx (hen ▸ List.mem_map_of_mem _ (hremidx e he).1)
    obtain ⟨b1, b2, b3, b4, b5, b6, b7, b8⟩ := Put_fresh_fields q now a hf
    have hfA : (UpdateQueue q now).1.items.find? a.nonce = none := by
      rw [r3, sweepItems_find?, hf]
      simp
    obtain ⟨a1, a2, a3, a4, a5, a6, a7, a8⟩ := Put_fresh_fields (UpdateQueue q now).1 now a hfA
    have hsw : swept (Put q now a).1 now = swept q now := swept_congr _ _ now b6
    have hnew := swept_new q now a.nonce httl
    have hrem : rem1.Perm rem := by
      refine s1.trans (List.Perm.trans ?_ r1.symm)
      rw [hsw, b3]
      refine ((Heap.Push_perm _ _).filter _).trans (List.Perm.of_eq ?_)
      rw [List.filter_cons_of_neg (by simp [hnew])]
    have hitems : (Put (UpdateQueue q now).1 now a).1.items =
        (UpdateQueue (Put q now a).1 now).1.items := by
      rw [a2, s3, b2, r3]
      exact (items_after_insert q a rem rem1 hrem hnrem).symm
    refine ⟨hitems, ?_, ?_, by rw [a1, b1], by rw [a5, s6, b5, r6], by rw [a6, s8, b6, r8],
      by rw [a7, s7, b7, r7], by rw [a8, s5, b8, r5]⟩
    · rw [a3, r8]
      refine (Heap.Push_perm _ _).trans (List.Perm.trans ?_ s2.symm)
      rw [hsw, b3]
      refine List.Perm.trans ?_ ((Heap.Push_perm _ _).filter _).symm
      rw [List.filter_cons_of_pos (by simp [hnew])]
      exact List.Perm.cons _ r2
    · rw [a4, r4, s4, b2, b4, items_after_insert q a rem rem1 hrem hnrem,
        sweepPending_perm _ _ _ hrem]
      have hne1 : advanceLoop (sweepItems q.items rem) ((sweepItems q.items rem).len + 1)
          (sweepPending q.pendingNonce rem) ≠ a.nonce := by
        rw [← r4]
        exact fun e => hne e.symm
      have hins := advanceLoop_insert (sweepItems q.items rem)
        ((sweepItems q.items rem).len + 1) (sweepPending q.pendingNonce rem) a.nonce a hfree hne1
      have hfree1 : ((sweepItems q.items rem).insert a.nonce a).contains
          (advanceLoop ((sweepItems q.items rem).insert a.nonce a)
            ((sweepItems q.items rem).len + 1) (sweepPending q.pendingNonce rem)) = false := by
        rw [hins, ItemMap.contains_insert, hfree]
        simp [hne1]
      rw [advanceLoop_fuel_mono _ ((sweepItems q.items rem).len + 1) _ _ ?_ hfree1, hins]
      rw [ItemMap.len_insert]
      split_ifs <;> omega
  | some old =>
    have hcont : q.items.contains a.nonce = true := by simp [ItemMap.contains, hf]
    have hkeep : ∀ e ∈ q.index, e.nonce = a.nonce → swept q now e = false := by
      rcases hcond with h | h
      · intro e he hen
        unfold swept
        rcases h.2 with h0 | h0
        · simp [h0]
        · have := h0 e he hen
          simp [expired, Time.After, this]
      · rw [hcont] at h
        exact absurd h.1 (by simp)
    have hnrem : a.nonce ∉ nonces rem := by
      intro hm
      obtain ⟨e, he, hen⟩ := List.mem_map.mp hm
      have := hkeep e (hremidx e he).1 hen
      rw [(hremidx e he).2] at this
      cases this
    have hfA : (UpdateQueue q now).1.items.find? a.nonce = some old := by
      rw [r3, sweepItems_find?, hf]
      simp [hnrem]
    by_cases hprice : old.gasPrice < a.gasPrice
    · obtain ⟨b1, b2, b3, b4, b5, b6, b7, b8⟩ := Put_replace_fields q now a old hf hprice
      obtain ⟨a1, a2, a3, a4, a5, a6, a7, a8⟩ :=
        Put_replace_fields (UpdateQueue q now).1 now a old hfA hprice
      have hsw : swept (Put q now a).1 now = swept q now := swept_congr _ _ now b6
      obtain ⟨f1, f2⟩ := filter_refreshDeadline a.nonce (now + q.ttl)
        (fun e => !swept q now e) q.index
        (fun e he hen => by simp [hkeep e he hen])
        (fun e he _ => by simp [swept_new q now e.nonce httl])
      have hnn : ∀ l : noncePriorityQueue,
          l.filter (fun e => !(fun e => !swept q now e) e) = l.filter (swept q now) := by
        intro l
        apply List.filter_congr
        intro e _
        simp
      rw [hnn, hnn] at f2
      have hrem : rem1.Perm rem := by
        refine s1.trans (List.Perm.trans (List.Perm.of_eq ?_) r1.symm)
        rw [hsw, b3, f2]
      have hitems : (Put (UpdateQueue q now).1 now a).1.items =
          (UpdateQueue (Put q now a).1 now).1.items := by
        rw [a2, s3, b2, r3]
        exact (items_after_insert q a rem rem1 hrem hnrem).symm
      refine ⟨hitems, ?_, ?_, by rw [a1, b1], by rw [a5, s6, b5, r6], by rw [a6, s8, b6, r8],
        by rw [a7, s7, b7, r7], by rw [a8, s5, b8, r5]⟩
      · rw [a3, r8]
        refine List.Perm.trans ?_ s2.symm
        rw [hsw, b3, f1]
        exact refreshDeadline_perm _ _ _ _
          ((sameNonceSet_iff _).mp (UpdateQueue_sameNonceSet q now hsame)).1 r2
      · rw [a4, r4, s4, b2, b4, items_after_insert q a rem rem1 hrem hnrem,
          sweepPending_perm _ _ _ hrem]
        have hcS : (sweepItems q.items rem).contains a.nonce = true := by
          rw [sweepItems_contains, hcont]
          simp [hnrem]
        rw [ItemMap.len_insert, if_pos hcS]
        apply advanceLoop_congr
        intro k
        rw [ItemMap.contains_insert]
        by_cases hk : k = a.nonce
        · rw [hk, hcS]
          simp
        · simp [hk]
    · have hB := Put_underpriced_eq q now a old hf hprice
      have hA := Put_underpriced_eq (UpdateQueue q now).1 now a old hfA hprice
      rw [hA, hB]
      exact ⟨rfl, List.Perm.refl _, rfl, rfl, rfl, rfl, rfl, rfl⟩

end ActPool

namespace ActPool

/-- Witness of C28 (amended): `ttl = 1s`, nonces 1 and 2 put at time `0`, nonce 3 put at `2s`,
clock reading `2.5s`, and an action of the new nonce 5: in either order nonces 1 and 2 are removed,
nonce 5 is added and the pending nonce is 1. -/
theorem UpdateQueue_Put_commute_witness :
    SameNonceSet queueTTL ∧ (0 : Int) ≤ queueTTL.ttl ∧
    queueTTL.items.contains 5 = false ∧ 5 ≠ (UpdateQueue queueTTL 2500000000).1.pendingNonce ∧
    (Put (UpdateQueue queueTTL 2500000000).1 2500000000 ⟨5, 1, 5⟩).1.items =
      (UpdateQueue (Put queueTTL 2500000000 ⟨5, 1, 5⟩).1 2500000000).1.items ∧
    (Put (UpdateQueue queueTTL 2500000000).1 2500000000 ⟨5, 1, 5⟩).1.index.Perm
      (UpdateQueue (Put queueTTL 2500000000 ⟨5, 1, 5⟩).1 2500000000).1.index ∧
    (Put (UpdateQueue queueTTL 2500000000).1 2500000000 ⟨5, 1, 5⟩).1.pendingNonce =
      (UpdateQueue (Put queueTTL 2500000000 ⟨5, 1, 5⟩).1 2500000000).1.pendingNonce ∧
    (Put (UpdateQueue queueTTL 2500000000).1 2500000000 ⟨5, 1, 5⟩).2 =
      (Put queueTTL 2500000000 ⟨5, 1, 5⟩).2 ∧
    (UpdateQueue (Put queueTTL 2500000000 ⟨5, 1, 5⟩).1 2500000000).1.pendingNonce = 1 ∧
    (UpdateQueue (Put queueTTL 2500000000 ⟨5, 1, 5⟩).1 2500000000).1.items.keys = [5, 3] := by
  obtain ⟨h1, h2, h3, h4, _⟩ := UpdateQueue_Put_commute queueTTL 2500000000 ⟨5, 1, 5⟩
    (by decide) (by decide) (by decide) (Or.inr ⟨by decide, by decide⟩)
  exact ⟨by decide, by decide, by decide, by decide, h1, h2, h3, h4, by decide, by decide⟩

/-- C28 fails as stated. On a new queue (pending nonce 1) and the action of nonce 1:
`UpdateQueue` then `Put` leaves the pending nonce 1, `Put` then `UpdateQueue` leaves it 2, since
`UpdateQueue` advances the pending nonce over the action just put. And with `ttl = 1s`, an action
of nonce 1 and gas price 5 put at time `0`, the clock reading `2s` and an action of nonce 1 and gas
price 1: after `UpdateQueue` the `Put` succeeds and `items` holds the new action; before it the
`Put` is refused as underpriced and `UpdateQueue` then empties `items`. -/
theorem UpdateQueue_Put_commute_counterexample :
    (Put (UpdateQueue (NewActQueue "a" 0) 0).1 0 ⟨1, 1, 1⟩).1.pendingNonce = 1 ∧
    (UpdateQueue (Put (NewActQueue "a" 0) 0 ⟨1, 1, 1⟩).1 0).1.pendingNonce = 2 ∧
    (Put (UpdateQueue (Put (NewActQueue "a" 1000000000) 0 ⟨1, 5, 1⟩).1 2000000000).1
      2000000000 ⟨1, 1, 2⟩).2 = none ∧
    (Put (Put (NewActQueue "a" 1000000000) 0 ⟨1, 5, 1⟩).1 2000000000 ⟨1, 1, 2⟩).2 =
      some ActionError.ErrReplaceUnderpriced ∧
    (Put (UpdateQueue (Put (NewActQueue "a" 1000000000) 0 ⟨1, 5, 1⟩).1 2000000000).1
      2000000000 ⟨1, 1, 2⟩).1.items.keys = [1] ∧
    (UpdateQueue (Put (Put (NewActQueue "a" 1000000000) 0 ⟨1, 5, 1⟩).1 2000000000
      ⟨1, 1, 2⟩).1 2000000000).1.items.keys = [] := by
  decide

end ActPool

/-! ## The vote reviser: determinism and errors -/

namespace Staking

open VoteReviser

theorem Candidate.eq_of_fields (a b : Candidate) (h1 : a.Owner = b.Owner)
    (h2 : a.Operator = b.Operator) (h3 : a.Votes = b.Votes)
    (h4 : a.SelfStakeBucketIdx = b.SelfStakeBucketIdx) (h5 : a.SelfStake = b.SelfStake) :
    a = b := by
  cases a
  cases b
  simp only [Candidate.mk.injEq]
  exact ⟨h1, h2, h3, h4, h5⟩

theorem votesSpec_perm (c : VoteBucket → Bool → Int) (cand : Candidate)
    (b1 b2 : List VoteBucket) (h : b1.Perm b2) : votesSpec c cand b1 = votesSpec c cand b2 := by
  unfold votesSpec
  exact ((h.filter _).map _).sum_eq

/-- The buckets applied to a candidate in another order give the same candidate, when the indices
of the buckets are distinct. -/
theorem applyBuckets_perm (c : VoteBucket → Bool → Int) (cand : Candidate)
    (b1 b2 : List VoteBucket) (h : b1.Perm b2) (hidx : (b1.map (fun b => b.Index)).Nodup) :
    applyBuckets c cand b1 = applyBuckets c cand b2 := by
  have hidx2 : (b2.map (fun b => b.Index)).Nodup := (h.map _).nodup_iff.mp hidx
  obtain ⟨f1, f2, f3⟩ := applyBuckets_fields c cand b1
  obtain ⟨g1, g2, g3⟩ := applyBuckets_fields c cand b2
  apply Candidate.eq_of_fields
  · rw [f1, g1]
  · rw [f2, g2]
  · rw [applyBuckets_votes, applyBuckets_votes, votesSpec_perm c cand b1 b2 h]
  · rw [f3, g3]
  · by_cases hex : ∃ b ∈ b1, countsFor cand b = true ∧ b.Index = cand.SelfStakeBucketIdx
    · obtain ⟨b, hb, hcf, hi⟩ := hex
      rw [applyBuckets_selfStake_some c cand b1 hidx b hb hcf hi,
        applyBuckets_selfStake_some c cand b2 hidx2 b (h.mem_iff.mp hb) hcf hi]
    · have hnone : ∀ b ∈ b1, countsFor cand b = true → b.Index ≠ cand.SelfStakeBucketIdx :=
        fun b hb hcf hi => hex ⟨b, hb, hcf, hi⟩
      rw [applyBuckets_selfStake_none c cand b1 hnone,
        applyBuckets_selfStake_none c cand b2
          (fun b hb hcf => hnone b (h.mem_iff.mpr hb) hcf)]

/-- C29. For every list of candidates with distinct owners and every list of buckets with
distinct indices: two calls of `Revise` that recompute (nothing is cached at the height), with the
same constants, on state managers that hold the candidates in different orders and the buckets in
different orders, and with different orders of visiting the map of candidates, cache the same
sorted list, upsert the same sequence of candidates (owner, operator, votes, self-stake and
self-stake bucket index of each, in the same order) and return the same error. -/
theorem Revise_deterministic (vr1 vr2 : VoteReviser) (order1 order2 : CandidateList → CandidateList)
    (sm1 sm2 : CandidateStateManager) (h : Nat)
    (hc : vr1.c = vr2.c)
    (hfresh1 : vr1.isCacheExist h = false) (hfresh2 : vr2.isCacheExist h = false)
    (horder1 : ∀ l, (order1 l).Perm l) (horder2 : ∀ l, (order2 l).Perm l)
    (hce1 : sm1.candidatesError = none) (hbe1 : sm1.bucketsError = none)
    (hce2 : sm2.candidatesError = none) (hbe2 : sm2.bucketsError = none)
    (hcand : sm2.candidates.Perm sm1.candidates) (hbuck : sm2.buckets.Perm sm1.buckets)
    (hup : sm2.upsertError = sm1.upsertError)
    (hown : (sm1.candidates.map (fun c => c.Owner)).Nodup)
    (hidx : (sm1.buckets.map (fun b => b.Index)).Nodup) :
    ∃ S L : CandidateList,
      (vr1.Revise order1 sm1 h).1.cache.find? h = some S ∧
      (vr2.Revise order2 sm2 h).1.cache.find? h = some S ∧
      (vr1.Revise order1 sm1 h).2.1.upserted = sm1.upserted ++ L ∧
      (vr2.Revise order2 sm2 h).2.1.upserted = sm2.upserted ++ L ∧
      (vr1.Revise order1 sm1 h).2.2 = (vr2.Revise order2 sm2 h).2.2 ∧
      S.Perm (sm1.candidates.map
        (fun cand => applyBuckets vr1.c (zeroed cand) sm1.buckets)) ∧
      S.Sorted candidateLE ∧ L <+: S ∧
      ((∀ cand, sm1.upsertError cand = none) → L = S) := by
  have hown2 : (sm2.candidates.map (fun c => c.Owner)).Nodup :=
    (hcand.map _).nodup_iff.mpr hown
  have hcalc1 := calculateVoteWeight_ok vr1 order1 sm1 hce1 hbe1 hown
  have hcalc2 := calculateVoteWeight_ok vr2 order2 sm2 hce2 hbe2 hown2
  have hf : (fun cand => applyBuckets vr2.c (zeroed cand) sm2.buckets) =
      (fun cand => applyBuckets vr1.c (zeroed cand) sm1.buckets) := by
    funext cand
    rw [← hc]
    exact (applyBuckets_perm vr1.c (zeroed cand) sm1.buckets sm2.buckets hbuck.symm hidx).symm
  rw [hf] at hcalc2
  have hLown : ((sm1.candidates.map
      (fun cand => applyBuckets vr1.c (zeroed cand) sm1.buckets)).map
        (fun c => c.Owner)).Nodup := by
    rw [List.map_map]
    have : ((fun c : Candidate => c.Owner) ∘
        (fun cand => applyBuckets vr1.c (zeroed cand) sm1.buckets)) =
        (fun c => c.Owner) := by
      funext cand
      exact (applyBuckets_fields vr1.c (zeroed cand) sm1.buckets).1
    rw [this]
    exact hown
  have hS1 := sortCandidates_unique _ _ hLown
    ((sortCandidates_perm _).trans (horder1 _)) (sortCandidates_sorted _)
  have hS2 := sortCandidates_unique
    (sm1.candidates.map (fun cand => applyBuckets vr1.c (zeroed cand) sm1.buckets))
    (sortCandidates (order2 (sm2.candidates.map
      (fun cand => applyBuckets vr1.c (zeroed cand) sm1.buckets)))) hLown
    (((sortCandidates_perm _).trans (horder2 _)).trans (hcand.map _)) (sortCandidates_sorted _)
  rw [Revise_of_fresh vr1 order1 sm1 h _ hfresh1 hcalc1,
    Revise_of_fresh vr2 order2 sm2 h _ hfresh2 hcalc2, hS1, hS2]
  simp only
  obtain ⟨_, u2, u3⟩ := upsertLoop_eq sm1 (sortCandidates (sm1.candidates.map
    (fun cand => applyBuckets vr1.c (zeroed cand) sm1.buckets)))
  obtain ⟨_, v2, v3⟩ := upsertLoop_eq sm2 (sortCandidates (sm1.candidates.map
    (fun cand => applyBuckets vr1.c (zeroed cand) sm1.buckets)))
  rw [hup] at v2 v3
  refine ⟨_, _, ?_, ?_, u2, v2, by rw [u3, v3], sortCandidates_perm _, sortCandidates_sorted _,
    ?_, ?_⟩
  · rw [GoMap.find?_set]
    simp
  · rw [GoMap.find?_set]
    simp
  · exact List.takeWhile_prefix _
  · intro hok
    apply List.takeWhile_eq_self_iff.mpr
    intro c _
    simp [hok c]

end Staking

namespace Staking

open VoteReviser

/-- Witness of C29: candidates `C` and `D`, buckets 1 and 2 for `C` and bucket 3 for `D`; the
second state manager holds the candidates and the buckets in another order and the map is visited
in reverse order: both calls upsert `C` with 250 votes and then `D` with 70 votes. -/
theorem Revise_deterministic_witness :
    (sampleState [⟨"D", "op", 3, 9, 4⟩, ⟨"C", "op", 7, 1, 9⟩]
      [⟨3, "D", 70, false, 0⟩, ⟨1, "C", 100, false, 0⟩, ⟨2, "C", 50, false, 0⟩]).candidates.Perm
      (sampleState [⟨"C", "op", 7, 1, 9⟩, ⟨"D", "op", 3, 9, 4⟩]
        [⟨1, "C", 100, false, 0⟩, ⟨2, "C", 50, false, 0⟩, ⟨3, "D", 70, false, 0⟩]).candidates ∧
    ((NewVoteReviser sampleWeight []).Revise id
      (sampleState [⟨"C", "op", 7, 1, 9⟩, ⟨"D", "op", 3, 9, 4⟩]
        [⟨1, "C", 100, false, 0⟩, ⟨2, "C", 50, false, 0⟩, ⟨3, "D", 70, false, 0⟩])
      10).2.1.upserted = [⟨"C", "op", 250, 1, 100⟩, ⟨"D", "op", 70, 9, 0⟩] ∧
    ((NewVoteReviser sampleWeight []).Revise List.reverse
      (sampleState [⟨"D", "op", 3, 9, 4⟩, ⟨"C", "op", 7, 1, 9⟩]
        [⟨3, "D", 70, false, 0⟩, ⟨1, "C", 100, false, 0⟩, ⟨2, "C", 50, false, 0⟩])
      10).2.1.upserted =
      ((NewVoteReviser sampleWeight []).Revise id
        (sampleState [⟨"C", "op", 7, 1, 9⟩, ⟨"D", "op", 3, 9, 4⟩]
          [⟨1, "C", 100, false, 0⟩, ⟨2, "C", 50, false, 0⟩, ⟨3, "D", 70, false, 0⟩])
        10).2.1.upserted := by
  obtain ⟨S, L, _, _, h3, h4, _⟩ := Revise_deterministic
    (NewVoteReviser sampleWeight []) (NewVoteReviser sampleWeight []) id List.reverse
    (sampleState [⟨"C", "op", 7, 1, 9⟩, ⟨"D", "op", 3, 9, 4⟩]
      [⟨1, "C", 100, false, 0⟩, ⟨2, "C", 50, false, 0⟩, ⟨3, "D", 70, false, 0⟩])
    (sampleState [⟨"D", "op", 3, 9, 4⟩, ⟨"C", "op", 7, 1, 9⟩]
      [⟨3, "D", 70, false, 0⟩, ⟨1, "C", 100, false, 0⟩, ⟨2, "C", 50, false, 0⟩])
    10 rfl rfl rfl (fun l => List.Perm.refl l) (fun l => List.reverse_perm l) rfl rfl rfl rfl
    (by decide) (by decide) rfl (by decide) (by decide)
  refine ⟨by decide, by decide, ?_⟩
  rw [h3, h4]
  rfl

end Staking

namespace Staking

open VoteReviser

theorem takeWhile_split {α : Type} (p : α → Bool) (pre post : List α) (c : α)
    (hpre : ∀ x ∈ pre, p x = true) (hc : p c = false) :
    (pre ++ c :: post).takeWhile p = pre := by
  induction pre with
  | nil => simp [List.takeWhile, hc]
  | cons x rest ih =>
    rw [List.cons_append, List.takeWhile_cons_of_pos (hpre x (List.mem_cons_self _ _)),
      ih (fun y hy => hpre y (List.mem_cons_of_mem _ hy))]

theorem find?_split {α : Type} (p : α → Bool) (pre post : List α) (c : α)
    (hpre : ∀ x ∈ pre, p x = false) (hc : p c = true) :
    (pre ++ c :: post).find? p = some c := by
  induction pre with
  | nil => simp [hc]
  | cons x rest ih =>
    rw [List.cons_append, List.find?_cons_of_neg _ (by simp [hpre x (List.mem_cons_self _ _)]),
      ih (fun y hy => hpre y (List.mem_cons_of_mem _ hy))]

/-- The error of the loop of `flush` is an error of `Upsert` for a candidate of the list, and
there is one exactly when `Upsert` fails for a candidate of the list. -/
theorem upsertLoop_error_iff (csm : CandidateStateManager) (l : CandidateList) :
    (upsertLoop csm l).2 ≠ none ↔ ∃ c ∈ l, csm.upsertError c ≠ none := by
  rw [(upsertLoop_eq csm l).2.2]
  constructor
  · intro h
    cases hf : l.find? (fun c => (csm.upsertError c).isSome) with
    | none =>
      rw [hf] at h
      exact absurd rfl h
    | some c =>
      have hm := List.mem_of_find?_eq_some hf
      have hp := List.find?_some hf
      refine ⟨c, hm, ?_⟩
      intro hn
      rw [hn] at hp
      cases hp
  · rintro ⟨c, hc, hne⟩
    cases hf : l.find? (fun c => (csm.upsertError c).isSome) with
    | none =>
      have := List.find?_eq_none.mp hf c hc
      cases he : csm.upsertError c with
      | none => exact absurd he hne
      | some e => simp [he] at this
    | some d =>
      have hp := List.find?_some hf
      cases he : csm.upsertError d with
      | none => simp [he] at hp
      | some e => simp [he]

theorem calculateVoteWeight_error_iff (vr : VoteReviser)
    (order : CandidateList → CandidateList) (sm : CandidateStateManager) (e : StateError) :
    vr.calculateVoteWeight order sm = Except.error e ↔
      ∃ msg, e = StateError.other msg ∧
        (sm.candidatesError = some (StateError.other msg) ∨
          ((∀ m, sm.candidatesError ≠ some (StateError.other m)) ∧
            sm.bucketsError = some (StateError.other msg))) := by
  rw [calculateVoteWeight_eq]
  cases h1 : sm.candidatesError with
  | none =>
    cases h2 : sm.bucketsError with
    | none => simp
    | some e2 =>
      cases e2 with
      | ErrStateNotExist => simp
      | other msg2 =>
        show Except.error (StateError.other msg2) = Except.error e ↔ _
        constructor
        · intro he
          exact ⟨msg2, (Except.error.inj he).symm, Or.inr ⟨(fun m hm => by cases hm), rfl⟩⟩
        · rintro ⟨msg, rfl, h | h⟩
          · cases h
          · rw [Option.some.inj h.2]
  | some e1 =>
    cases e1 with
    | ErrStateNotExist =>
      cases h2 : sm.bucketsError with
      | none => simp
      | some e2 =>
        cases e2 with
        | ErrStateNotExist => simp
        | other msg2 =>
          show Except.error (StateError.other msg2) = Except.error e ↔ _
          constructor
          · intro he
            exact ⟨msg2, (Except.error.inj he).symm, Or.inr ⟨(fun m hm => by cases hm), rfl⟩⟩
          · rintro ⟨msg, rfl, h | h⟩
            · cases h
            · rw [Option.some.inj h.2]
    | other msg1 =>
      have hgoal : (Except.error (StateError.other msg1) : Except StateError CandidateList) =
          Except.error e ↔
          ∃ msg, e = StateError.other msg ∧
            (some (StateError.other msg1) = some (StateError.other msg) ∨
              ((∀ m, some (StateError.other msg1) ≠ some (StateError.other m)) ∧
                sm.bucketsError = some (StateError.other msg))) := by
        constructor
        · intro he
          exact ⟨msg1, (Except.error.inj he).symm, Or.inl rfl⟩
        · rintro ⟨msg, rfl, h | h⟩
          · rw [Option.some.inj h]
          · exact absurd rfl (h.1 msg1)
      cases h2 : sm.bucketsError with
      | none =>
        rw [h2] at hgoal
        exact hgoal
      | some e2 =>
        rw [h2] at hgoal
        cases e2 with
        | ErrStateNotExist => exact hgoal
        | other msg2 => exact hgoal

end Staking

namespace Staking

open VoteReviser

/-- C30. For a call of `Revise` at a height where nothing is cached: it returns an error if and
only if reading the candidates or reading the buckets fails with an error other than
`ErrStateNotExist`, or the reads succeed and `Upsert` fails for a candidate of the sorted list.
When a read fails, `Revise` returns that error and leaves the reviser (nothing is cached) and the
state manager (nothing is upserted) as they were. An error `ErrStateNotExist` of a read counts as
an empty list. When `Upsert` fails for a candidate of the sorted list and for none before it,
`Revise` returns that error, and the candidates upserted are those before it, so none of those
that follow. At a height where a list is cached nothing is read, and `Revise` returns an error if
and only if `Upsert` fails for a candidate of the cached list, sorted. -/
theorem Revise_error (vr : VoteReviser) (order : CandidateList → CandidateList)
    (csm : CandidateStateManager) (h : Nat) (hfresh : vr.isCacheExist h = false) :
    ((vr.Revise order csm h).2.2 ≠ none ↔
      ((∃ msg, csm.candidatesError = some (StateError.other msg)) ∨
        (∃ msg, csm.bucketsError = some (StateError.other msg)) ∨
        ∃ cands, vr.calculateVoteWeight order csm = Except.ok cands ∧
          ∃ c ∈ sortCandidates cands, csm.upsertError c ≠ none)) ∧
    (∀ msg, csm.candidatesError = some (StateError.other msg) →
      vr.Revise order csm h = (vr, csm, some (StateError.other msg))) ∧
    (∀ msg, (∀ m, csm.candidatesError ≠ some (StateError.other m)) →
      csm.bucketsError = some (StateError.other msg) →
      vr.Revise order csm h = (vr, csm, some (StateError.other msg))) ∧
    (csm.candidatesError = some StateError.ErrStateNotExist →
      vr.calculateVoteWeight order csm = vr.calculateVoteWeight order csm.emptyCandidates) ∧
    (csm.bucketsError = some StateError.ErrStateNotExist →
      vr.calculateVoteWeight order csm = vr.calculateVoteWeight order csm.emptyBuckets) ∧
    (∀ cands, vr.calculateVoteWeight order csm = Except.ok cands →
      ∀ (pre post : CandidateList) (c : Candidate) (e : StateError),
        sortCandidates cands = pre ++ c :: post → (∀ x ∈ pre, csm.upsertError x = none) →
        csm.upsertError c = some e →
        (vr.Revise order csm h).2.2 = some e ∧
          (vr.Revise order csm h).2.1.upserted = csm.upserted ++ pre) ∧
    (∀ (vr1 : VoteReviser) (cached : CandidateList), vr1.cache.find? h = some cached →
      ((vr1.Revise order csm h).2.2 ≠ none ↔
        ∃ c ∈ sortCandidates cached, csm.upsertError c ≠ none)) := by
  have hload : ∀ msg, (csm.candidatesError = some (StateError.other msg) ∨
      ((∀ m, csm.candidatesError ≠ some (StateError.other m)) ∧
        csm.bucketsError = some (StateError.other msg))) →
      vr.Revise order csm h = (vr, csm, some (StateError.other msg)) := by
    intro msg hm
    exact Revise_of_error vr order csm h _ hfresh
      ((calculateVoteWeight_error_iff vr order csm _).mpr ⟨msg, rfl, hm⟩)
  refine ⟨?_, fun msg hm => hload msg (Or.inl hm), fun msg h1 h2 => hload msg (Or.inr ⟨h1, h2⟩),
    ?_, ?_, ?_, ?_⟩
  · cases hc : vr.calculateVoteWeight order csm with
    | error e =>
      rw [Revise_of_error vr order csm h e hfresh hc]
      obtain ⟨msg, _, hm⟩ := (calculateVoteWeight_error_iff vr order csm e).mp hc
      constructor
      · intro _
        rcases hm with hm | hm
        · exact Or.inl ⟨msg, hm⟩
        · exact Or.inr (Or.inl ⟨msg, hm.2⟩)
      · intro _ hn
        cases hn
    | ok cands =>
      rw [Revise_of_fresh vr order csm h cands hfresh hc]
      simp only
      rw [upsertLoop_error_iff]
      have hnoload : ∀ msg, ¬ (csm.candidatesError = some (StateError.other msg) ∨
          ((∀ m, csm.candidatesError ≠ some (StateError.other m)) ∧
            csm.bucketsError = some (StateError.other msg))) := by
        intro msg hm
        have := (calculateVoteWeight_error_iff vr order csm (StateError.other msg)).mpr
          ⟨msg, rfl, hm⟩
        rw [hc] at this
        cases this
      constructor
      · intro hex
        exact Or.inr (Or.inr ⟨cands, rfl, hex⟩)
      · rintro (⟨msg, hm⟩ | ⟨msg, hm⟩ | ⟨cands1, hc1, hex⟩)
        · exact absurd (Or.inl hm) (hnoload msg)
        · by_cases hcm : ∃ m, csm.candidatesError = some (StateError.other m)
          · obtain ⟨m, hm1⟩ := hcm
            exact absurd (Or.inl hm1) (hnoload m)
          · exact absurd (Or.inr ⟨fun m hm1 => hcm ⟨m, hm1⟩, hm⟩) (hnoload msg)
        · rw [Except.ok.inj hc1]
          exact hex
  · intro hce
    rw [calculateVoteWeight_eq, calculateVoteWeight_eq]
    have e1 : (getAllCandidates csm).1 = [] := by simp [getAllCandidates, hce]
    have e2 : (getAllCandidates csm.emptyCandidates).1 = [] := rfl
    have e3 : (getAllBuckets csm.emptyCandidates) = getAllBuckets csm := rfl
    have e4 : csm.emptyCandidates.candidatesError = none := rfl
    have e5 : csm.emptyCandidates.bucketsError = csm.bucketsError := rfl
    rw [e1, e2, e3, e4, e5, hce]
    cases h2 : csm.bucketsError with
    | none => rfl
    | some e => cases e <;> rfl
  · intro hbe
    rw [calculateVoteWeight_eq, calculateVoteWeight_eq]
    have e1 : (getAllBuckets csm).1 = [] := by simp [getAllBuckets, hbe]
    have e2 : (getAllBuckets csm.emptyBuckets).1 = [] := rfl
    have e3 : (getAllCandidates csm.emptyBuckets) = getAllCandidates csm := rfl
    have e4 : csm.emptyBuckets.bucketsError = none := rfl
    have e5 : csm.emptyBuckets.candidatesError = csm.candidatesError := rfl
    rw [e1, e2, e3, e4, e5, hbe]
    cases h1 : csm.candidatesError with
    | none => rfl
    | some e => cases e <;> rfl
  · intro cands hc pre post c e hsplit hpre hce
    rw [Revise_of_fresh vr order csm h cands hfresh hc]
    simp only
    obtain ⟨_, u2, u3⟩ := upsertLoop_eq csm (sortCandidates cands)
    rw [u2, u3, hsplit]
    constructor
    · rw [find?_split _ pre post c (fun x hx => by simp [hpre x hx]) (by simp [hce])]
      exact hce
    · rw [takeWhile_split _ pre post c (fun x hx => by simp [hpre x hx]) (by simp [hce])]
  · intro vr1 cached hf
    rw [Revise_of_cached vr1 order csm h cached hf]
    simp only
    exact upsertLoop_error_iff csm _

end Staking

namespace Staking

open VoteReviser

/-- Witness of C30: candidates `C`, `D` and `E` with 250, 70 and 10 votes, and a state manager
whose `Upsert` fails for `D`: `Revise` returns that error, and `C` alone is upserted. On a state
manager whose reads fail, `Revise` returns the error of the read and upserts nothing. -/
theorem Revise_error_witness :
    (NewVoteReviser sampleWeight []).isCacheExist 10 = false ∧
    ((NewVoteReviser sampleWeight []).Revise id
      (failingUpsertState [⟨"C", "op", 7, 1, 9⟩, ⟨"D", "op", 3, 9, 4⟩, ⟨"E", "op", 0, 8, 0⟩]
        [⟨1, "C", 100, false, 0⟩, ⟨2, "C", 50, false, 0⟩, ⟨3, "D", 70, false, 0⟩,
          ⟨4, "E", 10, false, 0⟩] "D") 10).2.2 = some (StateError.other "upsert failed") ∧
    ((NewVoteReviser sampleWeight []).Revise id
      (failingUpsertState [⟨"C", "op", 7, 1, 9⟩, ⟨"D", "op", 3, 9, 4⟩, ⟨"E", "op", 0, 8, 0⟩]
        [⟨1, "C", 100, false, 0⟩, ⟨2, "C", 50, false, 0⟩, ⟨3, "D", 70, false, 0⟩,
          ⟨4, "E", 10, false, 0⟩] "D") 10).2.1.upserted = [] ++ [⟨"C", "op", 250, 1, 100⟩] ∧
    ((NewVoteReviser sampleWeight []).Revise id (unreadableState []) 10).2.2 =
      some (StateError.other "read failed") ∧
    ((NewVoteReviser sampleWeight []).Revise id (unreadableState []) 10).2.1.upserted = [] := by
  obtain ⟨_, h2, _, _, _, h6, _⟩ := Revise_error (NewVoteReviser sampleWeight []) id
    (failingUpsertState [⟨"C", "op", 7, 1, 9⟩, ⟨"D", "op", 3, 9, 4⟩, ⟨"E", "op", 0, 8, 0⟩]
      [⟨1, "C", 100, false, 0⟩, ⟨2, "C", 50, false, 0⟩, ⟨3, "D", 70, false, 0⟩,
        ⟨4, "E", 10, false, 0⟩] "D") 10 rfl
  obtain ⟨g1, g2⟩ := h6 [⟨"C", "op", 250, 1, 100⟩, ⟨"D", "op", 70, 9, 0⟩, ⟨"E", "op", 10, 8, 0⟩]
    (by decide) [⟨"C", "op", 250, 1, 100⟩] [⟨"E", "op", 10, 8, 0⟩] ⟨"D", "op", 70, 9, 0⟩
    (StateError.other "upsert failed") (by decide) (by decide) (by decide)
  obtain ⟨_, k2, _⟩ := Revise_error (NewVoteReviser sampleWeight []) id (unreadableState []) 10
    rfl
  have hk := k2 "read failed" rfl
  refine ⟨rfl, g1, g2, ?_, ?_⟩
  · rw [hk]
  · rw [hk]
    rfl

end Staking

/-! ## The update of the delegates, and the proposer of a round -/

namespace RollDPoS

/-- C31. For every block: `UpdateWith` returns no error; when the height of the block is the last
height of its epoch the delegate list of the manager becomes the delegate list declared in the
header of the block, whatever its length is, and when it is not the manager is left as it was; the
other fields of the manager are never written. -/
theorem UpdateWith_delegates (manager : MiniEpochManager) (blk : Block) :
    (UpdateWith manager blk).2 = none ∧
    (blk.height = manager.rp.GetEpochLastBlockHeight (manager.rp.GetEpochNum blk.height) →
      (UpdateWith manager blk).1.delegates = blk.delegatesAddr) ∧
    (blk.height ≠ manager.rp.GetEpochLastBlockHeight (manager.rp.GetEpochNum blk.height) →
      (UpdateWith manager blk).1 = manager) ∧
    ((UpdateWith manager blk).1.isTimeBasedRotation = manager.isTimeBasedRotation ∧
      (UpdateWith manager blk).1.BlockInterval = manager.BlockInterval ∧
      (UpdateWith manager blk).1.rp = manager.rp ∧
      (UpdateWith manager blk).1.chain = manager.chain) := by
  unfold UpdateWith isLastBlockInEpoch
  by_cases h : blk.height = manager.rp.GetEpochLastBlockHeight (manager.rp.GetEpochNum blk.height)
  · have hd : decide (blk.height =
        manager.rp.GetEpochLastBlockHeight (manager.rp.GetEpochNum blk.height)) = true :=
      decide_eq_true h
    rw [hd]
    exact ⟨rfl, fun _ => rfl, fun hne => absurd h hne, rfl, rfl, rfl, rfl⟩
  · have hd : decide (blk.height =
        manager.rp.GetEpochLastBlockHeight (manager.rp.GetEpochNum blk.height)) = false :=
      decide_eq_false h
    rw [hd]
    exact ⟨rfl, fun he => absurd he h, fun _ => rfl, rfl, rfl, rfl, rfl⟩

/-- Witness of C31: epochs of three blocks and the delegates `A, B`; the block of height `5`, the
last of epoch `1`, brings its three delegates, the block of height `4` brings none. -/
theorem UpdateWith_delegates_witness :
    (UpdateWith (epochManager ["A", "B"] 3) (delegatesBlock 5 ["X", "Y", "Z"])).1.delegates =
        ["X", "Y", "Z"] ∧
      (UpdateWith (epochManager ["A", "B"] 3) (delegatesBlock 4 ["X", "Y", "Z"])).1 =
        epochManager ["A", "B"] 3 :=
  ⟨(UpdateWith_delegates (epochManager ["A", "B"] 3) (delegatesBlock 5 ["X", "Y", "Z"])).2.1
      (by decide),
    (UpdateWith_delegates (epochManager ["A", "B"] 3) (delegatesBlock 4 ["X", "Y", "Z"])).2.2.1
      (by decide)⟩

theorem delegateAt_mem (m : MiniEpochManager) (idx : Nat) (addr : String)
    (h : delegateAt m idx = Except.ok addr) :
    m.delegates ≠ [] ∧ idx % m.delegates.length < m.delegates.length ∧
      m.delegates[idx % m.delegates.length]? = some addr ∧ addr ∈ m.delegates := by
  unfold delegateAt at h
  by_cases h0 : m.delegates.length = 0
  · rw [if_pos h0] at h
    cases h
  · rw [if_neg h0] at h
    have hlt : idx % m.delegates.length < m.delegates.length :=
      Nat.mod_lt _ (Nat.pos_of_ne_zero h0)
    have hne : m.delegates ≠ [] := fun hnil => h0 (by rw [hnil]; rfl)
    have hget : m.delegates[idx % m.delegates.length]? = some addr := by
      have h1 := Except.ok.inj h
      rw [List.getD_eq_getElem?_getD, List.getElem?_eq_getElem hlt] at h1
      rw [List.getElem?_eq_getElem hlt]
      exact congrArg some h1
    exact ⟨hne, hlt, hget, List.mem_iff_getElem?.mpr ⟨_, hget⟩⟩

theorem delegateAt_divideByZero_iff (m : MiniEpochManager) (idx : Nat) :
    delegateAt m idx = Except.error RoundError.divideByZero ↔ m.delegates = [] := by
  unfold delegateAt
  constructor
  · intro h
    by_cases h0 : m.delegates.length = 0
    · exact List.length_eq_zero.mp h0
    · rw [if_neg h0] at h
      cases h
  · intro h
    rw [h]
    rfl

/-- The index `Proposer` reads the delegate list at, before the reduction modulo the length. -/
theorem Proposer_ok_index (m : MiniEpochManager) (height : Nat) (now : Int) (addr : String)
    (hok : Proposer m height now = Except.ok addr) :
    ∃ idx : Nat, delegateAt m idx = Except.ok addr ∧
      (m.isTimeBasedRotation = false → idx = height) ∧
      (m.isTimeBasedRotation = true →
        ∃ r : Nat, getRoundNum m height (m.BlockInterval height) now 0 = Except.ok r ∧
          idx = (height + r) % uint64Mod) := by
  unfold Proposer at hok
  cases hrot : m.isTimeBasedRotation with
  | false =>
    rw [hrot] at hok
    simp only [Bool.false_eq_true, if_false] at hok
    exact ⟨height, hok, fun _ => rfl, fun h => by cases h⟩
  | true =>
    rw [hrot] at hok
    simp only [if_true] at hok
    cases hr : getRoundNum m height (m.BlockInterval height) now 0 with
    | error e =>
      rw [hr] at hok
      cases hok
    | ok r =>
      rw [hr] at hok
      exact ⟨(height + r) % uint64Mod, hok, (fun h => by cases h), fun _ => ⟨r, rfl, rfl⟩⟩

/-- C37. For every non-empty delegate list, height and round start time for which `Proposer`
returns an address: the index read, `idx mod len(delegates)` with `idx` the height (without
rotation) or the 64-bit sum of the height and the round number (with rotation), is in range, the
address returned is the delegate at that index, it is a member of the delegate list and
`IsDelegate` of it is true. The index computation fails with a division by zero exactly when the
delegate list is empty, and with an empty list `Proposer` returns no address. -/
theorem Proposer_member (m : MiniEpochManager) (height : Nat) (now : Int) :
    (m.delegates ≠ [] → ∀ addr, Proposer m height now = Except.ok addr →
      (∃ idx : Nat, idx % m.delegates.length < m.delegates.length ∧
        m.delegates[idx % m.delegates.length]? = some addr ∧
        (m.isTimeBasedRotation = false → idx = height) ∧
        (m.isTimeBasedRotation = true →
          ∃ r : Nat, getRoundNum m height (m.BlockInterval height) now 0 = Except.ok r ∧
            idx = (height + r) % uint64Mod)) ∧
      addr ∈ m.delegates ∧ IsDelegate m addr = true) ∧
    (∀ idx, delegateAt m idx = Except.error RoundError.divideByZero ↔ m.delegates = []) ∧
    (m.delegates = [] → ∀ addr, Proposer m height now ≠ Except.ok addr) := by
  refine ⟨?_, delegateAt_divideByZero_iff m, ?_⟩
  · intro _ addr hok
    obtain ⟨idx, hat, h1, h2⟩ := Proposer_ok_index m height now addr hok
    obtain ⟨_, hlt, hget, hmem⟩ := delegateAt_mem m idx addr hat
    exact ⟨⟨idx, hlt, hget, h1, h2⟩, hmem, (IsDelegate_iff m addr).mpr hmem⟩
  · intro hnil addr hok
    obtain ⟨idx, hat, _, _⟩ := Proposer_ok_index m height now addr hok
    exact (delegateAt_mem m idx addr hat).1 hnil

/-- Witness of C37: the delegates `A, B, C, D` with rotation, interval `10s`, last block time
`90s`: at height `10` and `now = 125s` the proposer is the member `A`. -/
theorem Proposer_member_witness :
    "A" ∈ (sampleManager ["A", "B", "C", "D"] true (10 * second)).delegates ∧
      IsDelegate (sampleManager ["A", "B", "C", "D"] true (10 * second)) "A" = true :=
  (((Proposer_member (sampleManager ["A", "B", "C", "D"] true (10 * second)) 10
    (125 * second)).1 (by decide)) "A" (by decide)).2

end RollDPoS

/-! ## The arithmetic of the round number -/

namespace RollDPoS

theorem Sub_mono (now1 now2 l : Int) (h : now1 ≤ now2) : Time.Sub now1 l ≤ Time.Sub now2 l := by
  unfold Time.Sub Time.maxDuration Time.minDuration
  split_ifs <;> omega

theorem one_le_ediv (I d : Int) (hI : 0 < I) (hd : I < d) : 1 ≤ d / I :=
  Int.le_ediv_of_mul_le hI (by omega)

theorem roundNumSpec_nonneg (I T d : Int) (hI : 0 < I) : 0 ≤ roundNumSpec I T d := by
  unfold roundNumSpec
  split_ifs with h1 h2
  · exact le_refl 0
  · have := one_le_ediv I d hI (by omega)
    omega
  · have := one_le_ediv I d hI (by omega)
    omega

/-- The round number of the specification does not decrease with the duration. -/
theorem roundNumSpec_mono (I T d1 d2 : Int) (hI : 0 < I) (h : d1 ≤ d2) :
    roundNumSpec I T d1 ≤ roundNumSpec I T d2 := by
  by_cases h1 : d1 ≤ I
  · have h0 : roundNumSpec I T d1 = 0 := by
      unfold roundNumSpec
      rw [if_pos h1]
    rw [h0]
    exact roundNumSpec_nonneg I T d2 hI
  · have h2 : ¬ d2 ≤ I := by omega
    have hq : d1 / I ≤ d2 / I := Int.ediv_le_ediv hI h
    have e1 : d1 % I = d1 - I * (d1 / I) := Int.emod_def d1 I
    have e2 : d2 % I = d2 - I * (d2 / I) := Int.emod_def d2 I
    unfold roundNumSpec
    rw [if_neg h1, if_neg h2]
    by_cases hc1 : T = 0 ∨ d1 % I < T
    · rw [if_pos hc1]
      split_ifs <;> omega
    · rw [if_neg hc1]
      by_cases hc2 : T = 0 ∨ d2 % I < T
      · rw [if_pos hc2]
        by_cases hqq : d1 / I = d2 / I
        · exfalso
          rw [hqq] at e1
          apply hc1
          rcases hc2 with h0 | hlt
          · exact Or.inl h0
          · right
            omega
        · omega
      · rw [if_neg hc2]
        exact hq

/-- C39. For every block interval `I > 0` and duration `d > I` with `d div I < 2 ^ 32`: the
conversion of `d div I` to 32 bits keeps its value, the 32-bit round number is at least `1` before
the decrement, so that the decrement gives one less and does not wrap, and the round number
`getRoundNum` returns for that duration is `d div I`, or `(d div I) − 1` when the tolerated
overtime is `0` or above `d mod I`. -/
theorem roundNum_decrement_no_wrap (I d : Int) (hI : 0 < I) (hd : I < d)
    (hq : d / I < 2 ^ 32) :
    (toUint32 (d.tdiv I) : Int) = d / I ∧ 1 ≤ toUint32 (d.tdiv I) ∧
    (toUint32 (d.tdiv I) + uint32Mod - 1) % uint32Mod = toUint32 (d.tdiv I) - 1 ∧
    (∀ (rc : MiniEpochManager) (height : Nat) (L now T : Int),
      lastBlockTime rc height I = Except.ok L → L < now → Time.Sub now L = d →
      ∃ r : Nat, getRoundNum rc height I now T = Except.ok r ∧
        ((r : Int) = d / I ∨ (r : Int) = d / I - 1) ∧
        ((T = 0 ∨ d % I < T) → (r : Int) = d / I - 1) ∧
        (¬ (T = 0 ∨ d % I < T) → (r : Int) = d / I)) := by
  have hd0 : 0 ≤ d := by omega
  have hq1 : 1 ≤ d / I := one_le_ediv I d hI hd
  have htd : d.tdiv I = d / I := Int.tdiv_eq_ediv hd0 (le_of_lt hI)
  have hconv : toUint32 (d.tdiv I) = (d / I).toNat := by
    rw [htd]
    exact toUint32_of_lt _ (by omega) hq
  have hpow : uint32Mod = 4294967296 := by norm_num [uint32Mod]
  have hlt : (d / I).toNat < 4294967296 := by omega
  have h1 : 1 ≤ (d / I).toNat := by omega
  refine ⟨?_, ?_, ?_, ?_⟩
  · rw [hconv]
    omega
  · rw [hconv]
    exact h1
  · rw [hconv, hpow]
    omega
  · intro rc height L now T hL hnow hsub
    have hb : Time.Sub now L / I < 2 ^ 32 := by rw [hsub]; exact hq
    have hr : getRoundNum rc height I now T =
        Except.ok (roundNumSpec I T (Time.Sub now L)).toNat := by
      unfold getRoundNum
      rw [hL]
      exact roundNumFrom_eq_spec L I now T hI hnow hb
    rw [hr, hsub]
    refine ⟨_, rfl, ?_⟩
    have hnn := roundNumSpec_nonneg I T d hI
    rw [Int.toNat_of_nonneg hnn]
    unfold roundNumSpec
    have hle : ¬ d ≤ I := by omega
    rw [if_neg hle]
    by_cases hc : T = 0 ∨ d % I < T
    · rw [if_pos hc]
      exact ⟨Or.inr rfl, fun _ => rfl, fun h => absurd hc h⟩
    · rw [if_neg hc]
      exact ⟨Or.inl rfl, fun h => absurd h hc, fun _ => rfl⟩

/-- Witness of C39: interval `10s`, duration `35s` (last block time `90s`, `now = 125s`): the
quotient is `3`, and the round number with no tolerated overtime is `2`. -/
theorem roundNum_decrement_no_wrap_witness :
    (toUint32 ((35 * second).tdiv (10 * second)) : Int) = 35 * second / (10 * second) ∧
      1 ≤ toUint32 ((35 * second).tdiv (10 * second)) :=
  ⟨(roundNum_decrement_no_wrap (10 * second) (35 * second) (by decide) (by decide)
      (by decide)).1,
    (roundNum_decrement_no_wrap (10 * second) (35 * second) (by decide) (by decide)
      (by decide)).2.1⟩

/-- C38. For fixed height, block interval `I > 0`, tolerated overtime and last-block time `L`
(as `getRoundNum` obtains it): for all times `L < now1 ≤ now2` with the quotient of the duration
`now2.Sub(L)` by `I` below `2 ^ 32`, `getRoundNum` returns a round number at both times, and the
round number at `now1` is at most the round number at `now2`. -/
theorem getRoundNum_monotone (rc : MiniEpochManager) (height : Nat) (I T L now1 now2 : Int)
    (hL : lastBlockTime rc height I = Except.ok L) (hI : 0 < I) (h1 : L < now1)
    (h12 : now1 ≤ now2) (hbound : Time.Sub now2 L / I < 2 ^ 32) :
    ∃ r1 r2 : Nat, getRoundNum rc height I now1 T = Except.ok r1 ∧
      getRoundNum rc height I now2 T = Except.ok r2 ∧ r1 ≤ r2 := by
  have hs : Time.Sub now1 L ≤ Time.Sub now2 L := Sub_mono now1 now2 L h12
  have hb1 : Time.Sub now1 L / I < 2 ^ 32 := lt_of_le_of_lt (Int.ediv_le_ediv hI hs) hbound
  have e1 : getRoundNum rc height I now1 T =
      Except.ok (roundNumSpec I T (Time.Sub now1 L)).toNat := by
    unfold getRoundNum
    rw [hL]
    exact roundNumFrom_eq_spec L I now1 T hI h1 hb1
  have e2 : getRoundNum rc height I now2 T =
      Except.ok (roundNumSpec I T (Time.Sub now2 L)).toNat := by
    unfold getRoundNum
    rw [hL]
    exact roundNumFrom_eq_spec L I now2 T hI (lt_of_lt_of_le h1 h12) hbound
  exact ⟨_, _, e1, e2, Int.toNat_le_toNat (roundNumSpec_mono I T _ _ hI hs)⟩

/-- Witness of C38: interval `10s`, last block time `90s`, no tolerated overtime: the round
numbers at `now = 125s` and at `now = 131s` are in order. -/
theorem getRoundNum_monotone_witness :
    ∃ r1 r2 : Nat,
      getRoundNum (sampleManager ["A", "B", "C", "D"] true (10 * second)) 10 (10 * second)
        (125 * second) 0 = Except.ok r1 ∧
      getRoundNum (sampleManager ["A", "B", "C", "D"] true (10 * second)) 10 (10 * second)
        (131 * second) 0 = Except.ok r2 ∧ r1 ≤ r2 :=
  getRoundNum_monotone (sampleManager ["A", "B", "C", "D"] true (10 * second)) 10 (10 * second) 0
    (90 * second) (125 * second) (131 * second) (by decide) (by decide) (by decide) (by decide)
    (by decide)

end RollDPoS

/-! ## The last-block time, and what the proposer depends on -/

namespace RollDPoS

theorem Sub_of_range (t u : Int) (h0 : u ≤ t) (h1 : t - u ≤ Time.maxDuration) :
    Time.Sub t u = t - u := by
  unfold Time.Sub Time.minDuration
  unfold Time.maxDuration at h1 ⊢
  split_ifs <;> omega

theorem lastBlockTime_of_le_one (rc : MiniEpochManager) (height : Nat) (I : Int)
    (h : height ≤ 1) :
    lastBlockTime rc height I = Except.ok (Time.Unix rc.chain.GenesisTimestamp) := by
  unfold lastBlockTime
  have : ¬ height > 1 := by omega
  simp only [this, if_false]

/-- C36, amended. For every height `> 1` past the Bering height, block interval `I > 0`, genesis
time `G` and previous block header timestamp `T ≥ G` with `T − G` in the range of a duration
(at most `2 ^ 63 − 1` nanoseconds): the last-block time `L` used by `getRoundNum` is
`G + ((T − G) div I) · I`, so `L − G` is a whole multiple of `I` and `T − I < L ≤ T`; for
height `≤ 1`, `L` is the genesis time, whatever the headers of the chain are. -/
theorem lastBlockTime_formula (rc : MiniEpochManager) (height : Nat) (I T : Int) :
    (1 < height → rc.chain.IsBering height = true → 0 < I →
      rc.chain.BlockHeaderByHeight (height - 1) = Except.ok T →
      Time.Unix rc.chain.GenesisTimestamp ≤ T →
      T - Time.Unix rc.chain.GenesisTimestamp ≤ Time.maxDuration →
      ∃ L : Int, lastBlockTime rc height I = Except.ok L ∧
        L = Time.Unix rc.chain.GenesisTimestamp +
          (T - Time.Unix rc.chain.GenesisTimestamp) / I * I ∧
        I ∣ (L - Time.Unix rc.chain.GenesisTimestamp) ∧ T - I < L ∧ L ≤ T ∧
        ∀ now To, getRoundNum rc height I now To = roundNumFrom L I now To) ∧
    (height ≤ 1 →
      lastBlockTime rc height I = Except.ok (Time.Unix rc.chain.GenesisTimestamp) ∧
      (∀ now To, getRoundNum rc height I now To =
        roundNumFrom (Time.Unix rc.chain.GenesisTimestamp) I now To) ∧
      ∀ headers : Nat → Except String Int,
        lastBlockTime (withHeaders rc headers) height I =
          Except.ok (Time.Unix rc.chain.GenesisTimestamp)) := by
  constructor
  · intro h1 hb hI hT hge hsat
    have hI0 : ¬ I = 0 := by omega
    have hsub : Time.Sub T (Time.Unix rc.chain.GenesisTimestamp) =
        T - Time.Unix rc.chain.GenesisTimestamp := Sub_of_range _ _ hge hsat
    have hd0 : (0 : Int) ≤ T - Time.Unix rc.chain.GenesisTimestamp := by omega
    have htd : (T - Time.Unix rc.chain.GenesisTimestamp).tdiv I =
        (T - Time.Unix rc.chain.GenesisTimestamp) / I := Int.tdiv_eq_ediv hd0 (le_of_lt hI)
    have hL : lastBlockTime rc height I =
        Except.ok (Time.Unix rc.chain.GenesisTimestamp +
          (T - Time.Unix rc.chain.GenesisTimestamp) / I * I) := by
      unfold lastBlockTime
      have hgt : height > 1 := h1
      simp only [hgt, if_true, hb, hT, hI0, if_false, hsub, htd, Time.Add]
    refine ⟨_, hL, rfl, ?_, ?_, ?_, ?_⟩
    · exact ⟨(T - Time.Unix rc.chain.GenesisTimestamp) / I, by ring⟩
    · have e := Int.emod_def (T - Time.Unix rc.chain.GenesisTimestamp) I
      have hm := Int.emod_lt_of_pos (T - Time.Unix rc.chain.GenesisTimestamp) hI
      have hc : (T - Time.Unix rc.chain.GenesisTimestamp) / I * I =
          I * ((T - Time.Unix rc.chain.GenesisTimestamp) / I) := Int.mul_comm _ _
      omega
    · have e := Int.emod_def (T - Time.Unix rc.chain.GenesisTimestamp) I
      have hm := Int.emod_nonneg (T - Time.Unix rc.chain.GenesisTimestamp) hI0
      have hc : (T - Time.Unix rc.chain.GenesisTimestamp) / I * I =
          I * ((T - Time.Unix rc.chain.GenesisTimestamp) / I) := Int.mul_comm _ _
      omega
    · intro now To
      unfold getRoundNum
      rw [hL]
  · intro hle
    refine ⟨lastBlockTime_of_le_one rc height I hle, ?_, ?_⟩
    · intro now To
      unfold getRoundNum
      rw [lastBlockTime_of_le_one rc height I hle]
    · intro headers
      exact lastBlockTime_of_le_one (withHeaders rc headers) height I hle

/-- Witness of C36 (amended): genesis time `0`, interval `10s`, previous header at `95s`, height
`10`: the last-block time is `90s`; at height `1` it is the genesis time. -/
theorem lastBlockTime_formula_witness :
    (∃ L : Int, lastBlockTime (headerManager ["A"] (10 * second) (95 * second)) 10 (10 * second) =
        Except.ok L ∧ L = 90 * second) ∧
      lastBlockTime (headerManager ["A"] (10 * second) (95 * second)) 1 (10 * second) =
        Except.ok 0 := by
  obtain ⟨L, h1, h2, _⟩ :=
    (lastBlockTime_formula (headerManager ["A"] (10 * second) (95 * second)) 10 (10 * second)
      (95 * second)).1 (by decide) (by decide) (by decide) rfl (by decide) (by decide)
  refine ⟨⟨L, h1, ?_⟩, ?_⟩
  · rw [h2]
    decide
  · exact ((lastBlockTime_formula (headerManager ["A"] (10 * second) (95 * second)) 1
      (10 * second) 0).2 (by decide)).1

/-- C36 fails as stated. Genesis time `G = 0`, interval `I = 1s`, height `10` and a previous
header with the timestamp `T = 2 ^ 63 ns + 1s`: the difference `T − G` is beyond the largest
duration, `T.Sub(G)` saturates at `2 ^ 63 − 1` nanoseconds, and the last-block time is
`9223372036s`, not `G + ((T − G) div I) · I = 9223372037s`; it is not above `T − I`. -/
theorem lastBlockTime_formula_counterexample :
    1 < 10 ∧ (headerManager ["A"] second (2 ^ 63 + second)).chain.IsBering 10 = true ∧
      (0 : Int) < second ∧
      (headerManager ["A"] second (2 ^ 63 + second)).chain.BlockHeaderByHeight (10 - 1) =
        Except.ok (2 ^ 63 + second) ∧
      Time.Unix (headerManager ["A"] second (2 ^ 63 + second)).chain.GenesisTimestamp = 0 ∧
      (0 : Int) ≤ 2 ^ 63 + second ∧
      lastBlockTime (headerManager ["A"] second (2 ^ 63 + second)) 10 second =
        Except.ok (9223372036 * second) ∧
      (0 : Int) + (2 ^ 63 + second - 0) / second * second = 9223372037 * second ∧
      ¬ (2 ^ 63 + second - second < 9223372036 * second) := by
  decide

/-- The last-block time reads the genesis time, the Bering test of the height and the header of
the height before. -/
theorem lastBlockTime_congr (m1 m2 : MiniEpochManager) (height : Nat) (I : Int)
    (hG : m1.chain.GenesisTimestamp = m2.chain.GenesisTimestamp)
    (hB : m1.chain.IsBering height = m2.chain.IsBering height)
    (hH : m1.chain.BlockHeaderByHeight (height - 1) =
      m2.chain.BlockHeaderByHeight (height - 1)) :
    lastBlockTime m1 height I = lastBlockTime m2 height I := by
  unfold lastBlockTime
  rw [hG, hB, hH]

theorem delegateAt_congr (m1 m2 : MiniEpochManager) (idx : Nat)
    (hd : m1.delegates = m2.delegates) : delegateAt m1 idx = delegateAt m2 idx := by
  unfold delegateAt
  rw [hd]

/-- C32, amended. For any two runs of `Proposer` with the same delegates, rotation mode, height,
round start time, genesis time, block interval of the height, Bering test of the height and
header of the previous height (its timestamp, or the error of reading it), the returned address
(or error) is the same; so is the round number of `getRoundNum` for every interval and tolerated
overtime. -/
theorem Proposer_deterministic (m1 m2 : MiniEpochManager) (height : Nat) (now : Int)
    (hd : m1.delegates = m2.delegates)
    (hrot : m1.isTimeBasedRotation = m2.isTimeBasedRotation)
    (hI : m1.BlockInterval height = m2.BlockInterval height)
    (hG : m1.chain.GenesisTimestamp = m2.chain.GenesisTimestamp)
    (hB : m1.chain.IsBering height = m2.chain.IsBering height)
    (hH : m1.chain.BlockHeaderByHeight (height - 1) =
      m2.chain.BlockHeaderByHeight (height - 1)) :
    Proposer m1 height now = Proposer m2 height now ∧
      ∀ I T, getRoundNum m1 height I now T = getRoundNum m2 height I now T := by
  have hr : ∀ I T, getRoundNum m1 height I now T = getRoundNum m2 height I now T := by
    intro I T
    unfold getRoundNum
    rw [lastBlockTime_congr m1 m2 height I hG hB hH]
  refine ⟨?_, hr⟩
  unfold Proposer
  rw [hrot, hI, hr, delegateAt_congr m1 m2 height hd]
  cases m2.isTimeBasedRotation with
  | false => rfl
  | true =>
    simp only [if_true]
    cases getRoundNum m2 height (m2.BlockInterval height) now 0 with
    | error e => rfl
    | ok r => exact delegateAt_congr m1 m2 _ hd

/-- Witness of C32 (amended): two managers with the delegates `A, B, C, D`, rotation, interval
`10s` and the previous header at `90s`, which differ in their epochs only. -/
theorem Proposer_deterministic_witness :
    Proposer (headerManager ["A", "B", "C", "D"] (10 * second) (90 * second)) 10
        (125 * second) =
      Proposer (withEpochs (headerManager ["A", "B", "C", "D"] (10 * second) (90 * second)) 3)
        10 (125 * second) :=
  (Proposer_deterministic (headerManager ["A", "B", "C", "D"] (10 * second) (90 * second))
    (withEpochs (headerManager ["A", "B", "C", "D"] (10 * second) (90 * second)) 3) 10
    (125 * second) rfl rfl rfl rfl rfl rfl).1

/-- C32 fails as stated. Two managers with the same delegates `A, B, C, D`, the same genesis time
`0` and the same block interval `10s`, at the same height `10` and round start time `125s`
(`Proposer` always passes the tolerated overtime `0`): where the header of height `9` has the
timestamp `90s` the round number is `2` and the proposer is `A`, where it has the timestamp
`100s` the round number is `1` and the proposer is `D`. -/
theorem Proposer_deterministic_counterexample :
    (headerManager ["A", "B", "C", "D"] (10 * second) (90 * second)).delegates =
        (headerManager ["A", "B", "C", "D"] (10 * second) (100 * second)).delegates ∧
      (headerManager ["A", "B", "C", "D"] (10 * second) (90 * second)).chain.GenesisTimestamp =
        (headerManager ["A", "B", "C", "D"] (10 * second)
          (100 * second)).chain.GenesisTimestamp ∧
      (headerManager ["A", "B", "C", "D"] (10 * second) (90 * second)).BlockInterval 10 =
        (headerManager ["A", "B", "C", "D"] (10 * second) (100 * second)).BlockInterval 10 ∧
      Proposer (headerManager ["A", "B", "C", "D"] (10 * second) (90 * second)) 10
        (125 * second) = Except.ok "A" ∧
      Proposer (headerManager ["A", "B", "C", "D"] (10 * second) (100 * second)) 10
        (125 * second) = Except.ok "D" := by
  decide

end RollDPoS

/-! ## The invariants of the index under every call, `AllActs` included -/

namespace ActPool

/-- An index sorted by nonce is a min-heap by nonce. -/
theorem sorted_isMinHeap (h : noncePriorityQueue)
    (hs : (nonces h).Sorted (fun a b => a ≤ b)) : IsMinHeap h := by
  intro j hj hpos _
  have hlen : (nonces h).length = h.length := by simp [nonces]
  have hp : (j - 1) / 2 < j := by omega
  have hrel := List.pairwise_iff_getElem.mp hs ((j - 1) / 2) j (by omega) (by omega) hp
  rw [nonceAt_eq_getD_nonces, nonceAt_eq_getD_nonces,
    List.getD_eq_getElem _ _ (by omega : (j - 1) / 2 < (nonces h).length),
    List.getD_eq_getElem _ _ (by omega : j < (nonces h).length)]
  exact hrel

theorem AllActs_queue (q : actQueue) :
    (AllActs q).1 = q ∨ (AllActs q).1 = { q with index := sortSort q.index } := by
  unfold AllActs
  by_cases h : Len q = 0
  · rw [if_pos h]
    exact Or.inl rfl
  · rw [if_neg h]
    exact Or.inr rfl

theorem AllActs_heap (q : actQueue) (hheap : IsMinHeap q.index) :
    IsMinHeap (AllActs q).1.index := by
  rcases AllActs_queue q with h | h
  · rw [h]
    exact hheap
  · rw [h]
    exact sorted_isMinHeap _ (sortSort_sorted q.index)

theorem AllActs_sameNonceSet (q : actQueue) (hsame : SameNonceSet q) :
    SameNonceSet (AllActs q).1 := by
  rcases AllActs_queue q with h | h
  · rw [h]
    exact hsame
  · rw [h]
    have hp : (nonces (sortSort q.index)).Perm (nonces q.index) :=
      (sortSort_perm q.index).map _
    rw [sameNonceSet_iff] at hsame ⊢
    exact ⟨hp.nodup_iff.mpr hsame.1, fun k => (hp.mem_iff).trans (hsame.2 k)⟩

theorem AllActs_frame (q : actQueue) :
    (AllActs q).1.items = q.items ∧ (AllActs q).1.pendingNonce = q.pendingNonce ∧
      (AllActs q).1.confirmedNonce = q.confirmedNonce ∧ (AllActs q).1.ttl = q.ttl := by
  rcases AllActs_queue q with h | h <;> rw [h] <;> exact ⟨rfl, rfl, rfl, rfl⟩

/-- Every call keeps the two invariants of the index: it holds the keys of `items`, each once, and
it is a min-heap by nonce. -/
theorem Op.apply_inv (q : actQueue) (op : Op) (hsame : SameNonceSet q)
    (hheap : IsMinHeap q.index) :
    SameNonceSet (Op.apply q op) ∧ IsMinHeap (Op.apply q op).index := by
  cases op with
  | allActs => exact ⟨AllActs_sameNonceSet q hsame, AllActs_heap q hheap⟩
  | call c =>
    refine ⟨runCalls_sameNonceSet q [c] hsame, ?_⟩
    cases c with
    | put now act => exact Put_heap q now act hheap
    | filterNonce threshold => exact (FilterNonce_keys q threshold hheap hsame).2.1
    | setConfirmedNonce nonce => exact hheap
    | updateQueue now => exact UpdateQueue_heap q now hheap

theorem runOps_inv (q : actQueue) (ops : List Op) (hsame : SameNonceSet q)
    (hheap : IsMinHeap q.index) :
    SameNonceSet (runOps q ops) ∧ IsMinHeap (runOps q ops).index := by
  induction ops generalizing q with
  | nil => exact ⟨hsame, hheap⟩
  | cons op rest ih =>
    unfold runOps
    simp only [List.foldl_cons]
    obtain ⟨h1, h2⟩ := Op.apply_inv q op hsame hheap
    exact ih (Op.apply q op) h1 h2

/-- With the keys of `items` in the index, each once, the map and the index have the same
length. -/
theorem index_length_eq_len (q : actQueue) (hsame : SameNonceSet q) :
    q.index.length = Len q := by
  rw [sameNonceSet_iff] at hsame
  have hp : (nonces q.index).Perm q.items.keys := by
    have hkn : q.items.keys.Nodup := List.nodup_dedup _
    rw [List.perm_ext_iff_of_nodup hsame.1 hkn]
    intro k
    rw [hsame.2, ItemMap.contains_iff_mem_keys]
  have hl := hp.length_eq
  simpa [Len, ItemMap.len, nonces] using hl

/-- C33. The index of every queue reached from `NewActQueue` by a sequence of calls of `Put`,
`FilterNonce`, `SetConfirmedNonce`, `UpdateQueue` and `AllActs` is a min-heap by nonce: the nonce
of every entry is at least that of its parent, and `index[0]` holds the smallest nonce. Each of
the calls keeps the property: `Put` (insert and replace), `FilterNonce`, `UpdateQueue` and
`AllActs`, on every queue whose index is a min-heap that holds the keys of `items`, each once. -/
theorem reachable_isMinHeap (address : String) (ttl : Int) (ops : List Op) :
    IsMinHeap (runOps (NewActQueue address ttl) ops).index ∧
    (∀ j, j < (runOps (NewActQueue address ttl) ops).index.length → 0 < j →
      nonceAt (runOps (NewActQueue address ttl) ops).index ((j - 1) / 2) ≤
        nonceAt (runOps (NewActQueue address ttl) ops).index j) ∧
    (∀ j, j < (runOps (NewActQueue address ttl) ops).index.length →
      nonceAt (runOps (NewActQueue address ttl) ops).index 0 ≤
        nonceAt (runOps (NewActQueue address ttl) ops).index j) ∧
    (∀ q : actQueue, SameNonceSet q → IsMinHeap q.index →
      (∀ now act, IsMinHeap (Put q now act).1.index) ∧
      (∀ threshold, IsMinHeap (FilterNonce q threshold).1.index) ∧
      (∀ now, IsMinHeap (UpdateQueue q now).1.index) ∧
      IsMinHeap (AllActs q).1.index) := by
  have hinv := runOps_inv (NewActQueue address ttl) ops (NewActQueue_sameNonceSet address ttl)
    (NewActQueue_heap address ttl)
  refine ⟨hinv.2, ?_, ?_, ?_⟩
  · intro j hj hpos
    exact hinv.2 j hj hpos (Nat.zero_le _)
  · intro j hj
    exact Heap.root_min _ hinv.2 j hj
  · intro q hsame hheap
    exact ⟨fun now act => Put_heap q now act hheap,
      fun threshold => (FilterNonce_keys q threshold hheap hsame).2.1,
      fun now => UpdateQueue_heap q now hheap, AllActs_heap q hheap⟩

/-- C34. In every queue state reached from `NewActQueue` by a sequence of calls of `Put`,
`FilterNonce`, `SetConfirmedNonce`, `UpdateQueue` and `AllActs`, no nonce is in two entries of
the index, every nonce that is a key of `items` is the nonce of an entry of the index, and the
nonce of every entry of the index is a key of `items`; so `len(items) = len(index)`. -/
theorem reachable_sameNonceSet (address : String) (ttl : Int) (ops : List Op) :
    SameNonceSet (runOps (NewActQueue address ttl) ops) ∧
    (nonces (runOps (NewActQueue address ttl) ops).index).Nodup ∧
    (∀ k, (runOps (NewActQueue address ttl) ops).items.contains k = true →
      (nonces (runOps (NewActQueue address ttl) ops).index).count k = 1) ∧
    (∀ e ∈ (runOps (NewActQueue address ttl) ops).index,
      (runOps (NewActQueue address ttl) ops).items.contains e.nonce = true) ∧
    Len (runOps (NewActQueue address ttl) ops) =
      (runOps (NewActQueue address ttl) ops).index.length := by
  have hinv := runOps_inv (NewActQueue address ttl) ops (NewActQueue_sameNonceSet address ttl)
    (NewActQueue_heap address ttl)
  have hs := (sameNonceSet_iff _).mp hinv.1
  refine ⟨hinv.1, hs.1, ?_, ?_, (index_length_eq_len _ hinv.1).symm⟩
  · intro k hk
    exact List.count_eq_one_of_mem hs.1 ((hs.2 k).mpr hk)
  · intro e he
    exact (hs.2 e.nonce).mp (List.mem_map_of_mem _ he)

end ActPool

namespace ActPool

/-- Witness of C33: the nonces 4, 2 and 1 put in that order and then sorted by `AllActs`; and
`AllActs` on the queue with the nonces 1, 2 and 4. -/
theorem reachable_isMinHeap_witness :
    IsMinHeap (runOps (NewActQueue "a" 0)
        [Op.call (Call.put 0 ⟨4, 1, 4⟩), Op.call (Call.put 0 ⟨2, 1, 2⟩),
          Op.call (Call.put 0 ⟨1, 1, 1⟩), Op.allActs]).index ∧
      IsMinHeap (AllActs queue124).1.index :=
  ⟨(reachable_isMinHeap "a" 0
      [Op.call (Call.put 0 ⟨4, 1, 4⟩), Op.call (Call.put 0 ⟨2, 1, 2⟩),
        Op.call (Call.put 0 ⟨1, 1, 1⟩), Op.allActs]).1,
    ((reachable_isMinHeap "a" 0 []).2.2.2 queue124 (by decide) (by decide)).2.2.2⟩

/-- Witness of C34: the nonces 4, 2 and 1 put in that order, the nonces below 2 filtered out, and
the index sorted by `AllActs`. -/
theorem reachable_sameNonceSet_witness :
    Len (runOps (NewActQueue "a" 0)
        [Op.call (Call.put 0 ⟨4, 1, 4⟩), Op.call (Call.put 0 ⟨2, 1, 2⟩),
          Op.call (Call.put 0 ⟨1, 1, 1⟩), Op.call (Call.filterNonce 2), Op.allActs]) =
      (runOps (NewActQueue "a" 0)
        [Op.call (Call.put 0 ⟨4, 1, 4⟩), Op.call (Call.put 0 ⟨2, 1, 2⟩),
          Op.call (Call.put 0 ⟨1, 1, 1⟩), Op.call (Call.filterNonce 2),
          Op.allActs]).index.length :=
  (reachable_sameNonceSet "a" 0
    [Op.call (Call.put 0 ⟨4, 1, 4⟩), Op.call (Call.put 0 ⟨2, 1, 2⟩),
      Op.call (Call.put 0 ⟨1, 1, 1⟩), Op.call (Call.filterNonce 2), Op.allActs]).2.2.2.2

end ActPool

/-! ## The order of the upserts of `flush` -/

namespace Staking

open VoteReviser

/-- The call of `Revise` that flushes the list `cands`: the list is cached at the height, or
nothing is cached there and the list is the one recomputed. -/
theorem Revise_of_list (vr : VoteReviser) (order : CandidateList → CandidateList)
    (csm : CandidateStateManager) (h : Nat) (cands : CandidateList)
    (hc : vr.cache.find? h = some cands ∨
      (vr.isCacheExist h = false ∧ vr.calculateVoteWeight order csm = Except.ok cands)) :
    vr.Revise order csm h =
      (VoteReviser.mk vr.reviseHeights (vr.cache.set h (sortCandidates cands)) vr.c,
        (upsertLoop csm (sortCandidates cands)).1, (upsertLoop csm (sortCandidates cands)).2) := by
  rcases hc with hf | ⟨hfresh, hcalc⟩
  · exact Revise_of_cached vr order csm h cands hf
  · exact Revise_of_fresh vr order csm h cands hfresh hcalc

/-- C35, amended. For every candidate list that `Revise` flushes at a height, the list cached
there or, with nothing cached, the list recomputed: the list passed to the loop of `Upsert` calls
is a permutation of it (each candidate as many times as in the list, so once) and is sorted by the
candidate ordering, votes descending with ties broken by owner address descending (the address that
compares greater first); the candidates are upserted in that order, up to the first whose `Upsert`
fails; and when no `Upsert` fails the sequence of the upserts is the whole sorted list, and
`Revise` returns no error. -/
theorem Revise_upsert_order (vr : VoteReviser) (order : CandidateList → CandidateList)
    (csm : CandidateStateManager) (h : Nat) (cands : CandidateList)
    (hc : vr.cache.find? h = some cands ∨
      (vr.isCacheExist h = false ∧ vr.calculateVoteWeight order csm = Except.ok cands)) :
    (sortCandidates cands).Perm cands ∧
    (∀ cand, (sortCandidates cands).count cand = cands.count cand) ∧
    (sortCandidates cands).Pairwise
      (fun a b => b.Votes < a.Votes ∨ (a.Votes = b.Votes ∧ b.Owner ≤ a.Owner)) ∧
    (vr.Revise order csm h).2 = upsertLoop csm (sortCandidates cands) ∧
    (vr.Revise order csm h).2.1.upserted =
      csm.upserted ++ (sortCandidates cands).takeWhile (fun c => (csm.upsertError c).isNone) ∧
    (sortCandidates cands).takeWhile (fun c => (csm.upsertError c).isNone) <+:
      sortCandidates cands ∧
    ((∀ cand ∈ cands, csm.upsertError cand = none) →
      (vr.Revise order csm h).2.1.upserted = csm.upserted ++ sortCandidates cands ∧
      (vr.Revise order csm h).2.2 = none) := by
  have hR := Revise_of_list vr order csm h cands hc
  have hperm := sortCandidates_perm cands
  obtain ⟨_, hup, herr⟩ := upsertLoop_eq csm (sortCandidates cands)
  refine ⟨hperm, fun cand => hperm.count_eq cand, sortCandidates_sorted cands, ?_, ?_,
    List.takeWhile_prefix _, ?_⟩
  · rw [hR]
  · rw [hR]
    exact hup
  · intro hok
    have hall : ∀ cand ∈ sortCandidates cands, (csm.upsertError cand).isNone = true := by
      intro cand hmem
      rw [hok cand (hperm.mem_iff.mp hmem)]
      rfl
    rw [hR]
    constructor
    · show (upsertLoop csm (sortCandidates cands)).1.upserted = _
      rw [hup, List.takeWhile_eq_self_iff.mpr hall]
    · show (upsertLoop csm (sortCandidates cands)).2 = none
      rw [herr]
      have hnone : (sortCandidates cands).find? (fun c => (csm.upsertError c).isSome) = none := by
        rw [List.find?_eq_none]
        intro cand hmem
        rw [hok cand (hperm.mem_iff.mp hmem)]
        simp
      rw [hnone]
      rfl

theorem tiedState_calc :
    (NewVoteReviser sampleWeight []).calculateVoteWeight id tiedState =
      Except.ok [⟨"C", "op", 100, 9, 0⟩, ⟨"D", "op", 100, 9, 0⟩, ⟨"E", "op", 300, 9, 0⟩] := by
  decide

theorem tiedState_sorted :
    sortCandidates [⟨"C", "op", 100, 9, 0⟩, ⟨"D", "op", 100, 9, 0⟩, ⟨"E", "op", 300, 9, 0⟩] =
      [⟨"E", "op", 300, 9, 0⟩, ⟨"D", "op", 100, 9, 0⟩, ⟨"C", "op", 100, 9, 0⟩] := by
  have h1 : ¬ ("D" : String) ≤ "C" := by
    rw [String.le_iff_toList_le]
    decide
  simp [sortCandidates, List.insertionSort, List.orderedInsert, candidateLE, h1]

theorem tiedState_upserted :
    ((NewVoteReviser sampleWeight []).Revise id tiedState 10).2.1.upserted =
      [⟨"E", "op", 300, 9, 0⟩, ⟨"D", "op", 100, 9, 0⟩, ⟨"C", "op", 100, 9, 0⟩] := by
  rw [Revise_of_fresh (NewVoteReviser sampleWeight []) id tiedState 10 _ (by decide)
    tiedState_calc]
  show (upsertLoop tiedState _).1.upserted = _
  rw [(upsertLoop_all_ok tiedState _ (fun _ => rfl)).1, tiedState_sorted]
  rfl

/-- Witness of C35 (amended): the candidates `C`, `D` and `E`, read in that order, with 100, 100
and 300 votes: `E` is upserted first, then `D`, then `C`. -/
theorem Revise_upsert_order_witness :
    ((NewVoteReviser sampleWeight []).Revise id tiedState 10).2.1.upserted =
      [⟨"E", "op", 300, 9, 0⟩, ⟨"D", "op", 100, 9, 0⟩, ⟨"C", "op", 100, 9, 0⟩] := by
  have h := (Revise_upsert_order (NewVoteReviser sampleWeight []) id tiedState 10
    [⟨"C", "op", 100, 9, 0⟩, ⟨"D", "op", 100, 9, 0⟩, ⟨"E", "op", 300, 9, 0⟩]
    (Or.inr ⟨by decide, tiedState_calc⟩)).2.2.2.2.2.2 (fun _ _ => rfl)
  rw [h.1, tiedState_sorted]
  rfl

/-- C35 fails as stated. The candidates `C`, `D` and `E` with 100, 100 and 300 votes are upserted
in the order `E`, `D`, `C`: on the equal votes of `C` and `D` the greater owner address `D` comes
first, so the sequence is not sorted with ties by owner address ascending. -/
theorem Revise_upsert_order_counterexample :
    ((NewVoteReviser sampleWeight []).Revise id tiedState 10).2.1.upserted =
      [⟨"E", "op", 300, 9, 0⟩, ⟨"D", "op", 100, 9, 0⟩, ⟨"C", "op", 100, 9, 0⟩] ∧
    ¬ (((NewVoteReviser sampleWeight []).Revise id tiedState 10).2.1.upserted.Pairwise
        (fun a b => b.Votes < a.Votes ∨ (a.Votes = b.Votes ∧ a.Owner ≤ b.Owner))) := by
  refine ⟨tiedState_upserted, ?_⟩
  rw [tiedState_upserted]
  have h1 : ¬ ("D" : String) ≤ "C" := by
    rw [String.le_iff_toList_le]
    decide
  intro hp
  rcases (List.pairwise_cons.mp (List.pairwise_cons.mp hp).2).1 _ (List.mem_singleton_self _)
    with h | ⟨_, h⟩
  · exact absurd h (by decide)
  · exact h1 h

end Staking

/-! ## What the quorum check of the footer reads -/

namespace RollDPoS

/-- The endorsers, each once, are no more than the delegates who are among them, when every
endorser is a delegate. -/
theorem endorsers_le_delegates (delegates endorsers : List String)
    (hsub : ∀ x ∈ endorsers, x ∈ delegates) :
    endorsers.dedup.length ≤
      (delegates.dedup.filter (fun d => decide (d ∈ endorsers))).length := by
  apply (List.subperm_of_subset (List.nodup_dedup endorsers) ?_).length_le
  intro x hx
  have hx1 : x ∈ endorsers := List.mem_dedup.mp hx
  rw [List.mem_filter]
  exact ⟨List.mem_dedup.mpr (hsub x hx1), decide_eq_true hx1⟩

/-- C40, amended. `ValidateBlockVote` accepts a block only if every endorsement attached to it
verifies as a `COMMIT` vote on the hash of the block, none is older than an earlier one of its
endorser, and `3 × n > 2 × len(delegates)`, where `n` is the number of the endorsers of the
attached endorsements (one endorsement is counted for each endorser). The endorsers are not
compared with the delegate list: the block is accepted by every validator with as many delegates,
whoever they are. When every endorser is a delegate, more than two thirds of the current delegates
endorsed the block. -/
theorem ValidateBlockVote_accepts_only_if (V : ConsensusVote → Endorsement → Bool)
    (fv : FooterValidator) (blk : Block) (hacc : ValidateBlockVote V fv blk = none) :
    (∀ en ∈ blk.endorsements,
      V (NewConsensusVote blk.hash ConsensusVoteTopic.COMMIT) en = true) ∧
    blk.endorsements.Pairwise
      (fun a b => a.endorser = b.endorser → a.timestamp ≤ b.timestamp) ∧
    3 * (blk.endorsements.map (fun e => e.endorser)).dedup.length >
      2 * fv.manager.delegates.length ∧
    ((∀ en ∈ blk.endorsements, IsDelegate fv.manager en.endorser = true) →
      3 * (fv.manager.delegates.dedup.filter
          (fun d => decide (d ∈ blk.endorsements.map (fun e => e.endorser)))).length >
        2 * fv.manager.delegates.length) ∧
    (∀ fv1 : FooterValidator, fv1.manager.delegates.length = fv.manager.delegates.length →
      ValidateBlockVote V fv1 blk = none) := by
  have hall : ∀ en ∈ blk.endorsements,
      V (NewConsensusVote blk.hash ConsensusVoteTopic.COMMIT) en = true := by
    intro en hen
    by_contra hv
    obtain ⟨⟨e, h1, _⟩, _⟩ := ValidateBlockVote_invalid V fv blk
      ⟨en, hen, by simpa using hv⟩
    rw [hacc] at h1
    cases h1
  have hv := ValidateBlockVote_valid V fv blk hall
  rw [hacc] at hv
  by_cases hfresh : blk.endorsements.Pairwise
      (fun a b => a.endorser = b.endorser → a.timestamp ≤ b.timestamp)
  · rw [if_pos hfresh] at hv
    by_cases hq : 3 * (blk.endorsements.map (fun e => e.endorser)).dedup.length ≤
        2 * fv.manager.delegates.length
    · rw [if_pos hq] at hv
      cases hv
    · refine ⟨hall, hfresh, by omega, ?_, ?_⟩
      · intro hdel
        have hle := endorsers_le_delegates fv.manager.delegates
          (blk.endorsements.map (fun e => e.endorser))
          (by
            intro x hx
            obtain ⟨en, hen, hx1⟩ := List.mem_map.mp hx
            rw [← hx1]
            exact (IsDelegate_iff fv.manager en.endorser).mp (hdel en hen))
        omega
      · intro fv1 hlen
        rw [ValidateBlockVote_valid V fv1 blk hall, if_pos hfresh, hlen, if_neg hq]
  · rw [if_neg hfresh] at hv
    cases hv

/-- Witness of C40 (amended): seven delegates and the five valid endorsements of `A` to `E`, who
are delegates: five of the seven delegates endorsed the block. -/
theorem ValidateBlockVote_accepts_only_if_witness :
    3 * (sevenDelegates.manager.delegates.dedup.filter
        (fun d => decide (d ∈ (sampleBlock [goodEndorsement "A", goodEndorsement "B",
          goodEndorsement "C", goodEndorsement "D",
          goodEndorsement "E"]).endorsements.map (fun e => e.endorser)))).length >
      2 * sevenDelegates.manager.delegates.length :=
  (ValidateBlockVote_accepts_only_if sampleVerify sevenDelegates
    (sampleBlock [goodEndorsement "A", goodEndorsement "B", goodEndorsement "C",
      goodEndorsement "D", goodEndorsement "E"]) (by decide)).2.2.2.1 (by decide)

/-- C40 fails as stated. With the seven delegates `A` to `G`, a block with the five valid
endorsements of `P`, `Q`, `R`, `S` and `T`, none of whom is a delegate, is accepted: no delegate
endorsed the block. -/
theorem ValidateBlockVote_accepts_only_if_counterexample :
    ValidateBlockVote sampleVerify sevenDelegates
        (sampleBlock [goodEndorsement "P", goodEndorsement "Q", goodEndorsement "R",
          goodEndorsement "S", goodEndorsement "T"]) = none ∧
      ∀ en ∈ (sampleBlock [goodEndorsement "P", goodEndorsement "Q", goodEndorsement "R",
          goodEndorsement "S", goodEndorsement "T"]).endorsements,
        IsDelegate sevenDelegates.manager en.endorser = false := by
  decide

end RollDPoS
